import Mathlib

/-!
TVoxelMap: a dense element array indexed by a chained hash table

Shallow embedding of `VoxelMinimal/Containers/VoxelMap.h` (debug build, where
`checkVoxelSlow` is live and `NextElementIndex` is initialised to `-16`).

* `Elements` is a list of `FElement`, `HashTable` a list of `Int` (bucket heads, `-1` = empty).
* A `ValueType*` / `ValueType&` into the element array is the index of its element.
* An `int32*` that walks a collision chain is a `Ptr`: a bucket of the hash table or the
  `NextElementIndex` field of an element.
* `while (true)` loops take a fuel argument; running out of fuel is `Res.timeout`,
  a failed `checkVoxelSlow` or an array access out of range is `Res.fatal`.
* `int32` sizes and indices are unbounded (`Nat` / `Int`); the `uint32` hash is reduced
  modulo `2^32`.
* `FVoxelUtilities::HashValue` and `FVoxelUtilities::GetHashTableSize` are not part of these
  sources; together with the allocator policy constant `Allocator::MinHashSize` (`0` for
  `TVoxelDefaultMapAllocator`) they are the fields of `Env`.
-/

namespace VoxelMap

/-- Outcome of running container code: a result, a fatal check failure, or fuel exhaustion. -/
inductive Res (α : Type) where
  | ok (a : α) : Res α
  | fatal : Res α
  | timeout : Res α
deriving DecidableEq

/-- Sequencing of outcomes. -/
def Res.bind {α β : Type} : Res α → (α → Res β) → Res β
  | .ok a, f => f a
  | .fatal, _ => .fatal
  | .timeout, _ => .timeout

/-- The macro `checkVoxelSlow(c)` of a debug build. -/
def check (c : Bool) : Res Unit :=
  if c then .ok () else .fatal

/-- Element of the dense array, `TVoxelMapElement`. -/
structure FElement (K V : Type) where
  Key : K
  Value : V
  NextElementIndex : Int
deriving DecidableEq

/-- The container state, `TVoxelMap`: the two private arrays. -/
structure TVoxelMap (K V : Type) where
  HashTable : List Int
  Elements : List (FElement K V)
deriving DecidableEq

/-- The parameters of the map: the key hash (`FVoxelUtilities::HashValue`) and the sizing
policy (`FVoxelUtilities::GetHashTableSize`), both outside these sources, and the constant
`Allocator::MinHashSize` of the allocator policy. -/
structure Env (K : Type) where
  hashFn : K → Nat
  GetHashTableSize : Nat → Nat
  MinHashSize : Nat

/-- The engine function `FMath::IsPowerOfTwo`, `(x & (x - 1)) == 0`; it accepts `0`. -/
def IsPowerOfTwo (x : Nat) : Bool :=
  (x &&& (x - 1)) == 0

section Ops

variable {K V : Type} [DecidableEq K]

/-- The default-constructed map. -/
def empty : TVoxelMap K V :=
  { HashTable := [], Elements := [] }

/-- Method `TVoxelMap::Num`. -/
def Num (m : TVoxelMap K V) : Nat :=
  m.Elements.length

/-- Method `TVoxelMap::HashValue`, a `uint32`. -/
def HashValue (env : Env K) (Key : K) : Nat :=
  env.hashFn Key % 4294967296

/-- Method `TVoxelMap::GetHashSize`. -/
def GetHashSize (env : Env K) (NumElements : Nat) : Nat :=
  let NewHashSize := env.GetHashTableSize NumElements
  if env.MinHashSize ≠ 0 then max NewHashSize env.MinHashSize else NewHashSize

/-- Method `TVoxelMap::CheckInvariants`. -/
def CheckInvariants (env : Env K) (m : TVoxelMap K V) : Res Unit :=
  if m.Elements.length > 0 then
    check (decide (m.HashTable.length ≥ GetHashSize env m.Elements.length))
  else .ok ()

/-- Method `TVoxelMap::GetElementIndex`: the bucket of `Hash`; the returned reference
`HashTable[Hash & (HashSize - 1)]` is the bucket number. -/
def GetElementIndex (m : TVoxelMap K V) (Hash : Nat) : Res Nat :=
  let HashSize := m.HashTable.length
  (check (HashSize != 0)).bind fun _ =>
  (check (IsPowerOfTwo HashSize)).bind fun _ =>
  .ok (Hash &&& (HashSize - 1))

/-- Range-checked `Elements[Index]` for an `int32` index. -/
def elemAt (Elements : List (FElement K V)) (Index : Int) : Res (FElement K V) :=
  if Index < 0 then .fatal
  else match Elements[Index.toNat]? with
    | some e => .ok e
    | none => .fatal

/-- Range-checked `HashTable[b]`. -/
def tableAt (HashTable : List Int) (b : Nat) : Res Int :=
  match HashTable[b]? with
  | some x => .ok x
  | none => .fatal

/-- The `while (true)` loop of `FindHashed`. -/
def FindHashed.loop (Elements : List (FElement K V)) (Key : K) : Nat → Int → Res (Option Nat)
  | 0, _ => .timeout
  | fuel + 1, ElementIndex =>
    if ElementIndex = -1 then .ok none
    else (elemAt Elements ElementIndex).bind fun Element =>
      if Element.Key ≠ Key then FindHashed.loop Elements Key fuel Element.NextElementIndex
      else .ok (some ElementIndex.toNat)

/-- Method `TVoxelMap::FindHashed`: `none` is `nullptr`, `some i` is `&Elements[i].Value`. -/
def FindHashed (env : Env K) (fuel : Nat) (m : TVoxelMap K V) (Hash : Nat) (Key : K) :
    Res (Option Nat) :=
  (check (HashValue env Key == Hash)).bind fun _ =>
  (CheckInvariants env m).bind fun _ =>
  if m.HashTable.length = 0 then .ok none
  else (GetElementIndex m Hash).bind fun b =>
    (tableAt m.HashTable b).bind fun ElementIndex =>
    FindHashed.loop m.Elements Key fuel ElementIndex

/-- Method `TVoxelMap::Find`. -/
def Find (env : Env K) (fuel : Nat) (m : TVoxelMap K V) (Key : K) : Res (Option Nat) :=
  FindHashed env fuel m (HashValue env Key) Key

/-- Method `TVoxelMap::Contains`. -/
def Contains (env : Env K) (fuel : Nat) (m : TVoxelMap K V) (Key : K) : Res Bool :=
  (Find env fuel m Key).bind fun p => .ok p.isSome

/-- The value a pointer returned by `Find` points to. -/
def deref (m : TVoxelMap K V) : Option Nat → Option V
  | none => none
  | some i => m.Elements[i]?.map fun e => e.Value

/-- Lookup: `Find` followed by reading through the returned pointer. -/
def FindValue (env : Env K) (fuel : Nat) (m : TVoxelMap K V) (Key : K) : Res (Option V) :=
  (Find env fuel m Key).bind fun p => .ok (deref m p)

/-- The `while (true)` loop of `FindChecked`. -/
def FindChecked.loop (Elements : List (FElement K V)) (Key : K) : Nat → Int → Res Nat
  | 0, _ => .timeout
  | fuel + 1, ElementIndex =>
    (check (ElementIndex != -1)).bind fun _ =>
    (elemAt Elements ElementIndex).bind fun Element =>
      if Element.Key ≠ Key then FindChecked.loop Elements Key fuel Element.NextElementIndex
      else .ok ElementIndex.toNat

/-- Method `TVoxelMap::FindChecked`: the result `i` is the reference `Elements[i].Value`. -/
def FindChecked (env : Env K) (fuel : Nat) (m : TVoxelMap K V) (Key : K) : Res Nat :=
  (Contains env fuel m Key).bind fun c =>
  (check c).bind fun _ =>
  (CheckInvariants env m).bind fun _ =>
  (GetElementIndex m (HashValue env Key)).bind fun b =>
  (tableAt m.HashTable b).bind fun ElementIndex =>
  FindChecked.loop m.Elements Key fuel ElementIndex

/-- One iteration of the `for` loop of `Rehash`, at `Index`. -/
def Rehash.step (env : Env K) (m : TVoxelMap K V) (Index : Nat) : Res (TVoxelMap K V) :=
  (elemAt m.Elements Index).bind fun Element =>
  (GetElementIndex m (HashValue env Element.Key)).bind fun b =>
  (tableAt m.HashTable b).bind fun ElementIndex =>
  .ok { HashTable := m.HashTable.set b Index,
        Elements := m.Elements.set Index { Element with NextElementIndex := ElementIndex } }

/-- The `for` loop of `Rehash`: `count` iterations starting at `Index`. -/
def Rehash.loop (env : Env K) : Nat → Nat → TVoxelMap K V → Res (TVoxelMap K V)
  | 0, _, m => .ok m
  | count + 1, Index, m =>
    (Rehash.step env m Index).bind fun m1 => Rehash.loop env count (Index + 1) m1

/-- Method `TVoxelMap::Rehash`. -/
def Rehash (env : Env K) (m : TVoxelMap K V) : Res (TVoxelMap K V) :=
  let NewHashSize := max m.HashTable.length (GetHashSize env m.Elements.length)
  (check (IsPowerOfTwo NewHashSize)).bind fun _ =>
  Rehash.loop env m.Elements.length 0
    { HashTable := List.replicate NewHashSize (-1), Elements := m.Elements }

/-- The three checks at the head of `AddHashed_CheckNew`, before anything is written. -/
def AddHashed_CheckNew.pre (env : Env K) (fuel : Nat) (m : TVoxelMap K V) (Hash : Nat) (Key : K) :
    Res Unit :=
  (Contains env fuel m Key).bind fun c =>
  (check (!c)).bind fun _ =>
  (check (HashValue env Key == Hash)).bind fun _ =>
  CheckInvariants env m

/-- The writing part of `AddHashed_CheckNew`: `Emplace`, then `Rehash` or a push on the
bucket's chain. -/
def AddHashed_CheckNew.body (env : Env K) (m : TVoxelMap K V) (Hash : Nat) (Key : K)
    (Value : V) : Res (TVoxelMap K V × Nat) :=
  let NewElementIndex := m.Elements.length
  let Element : FElement K V := { Key := Key, Value := Value, NextElementIndex := -16 }
  let m1 : TVoxelMap K V := { m with Elements := m.Elements ++ [Element] }
  if m1.HashTable.length < GetHashSize env m1.Elements.length then
    (Rehash env m1).bind fun m2 => .ok (m2, NewElementIndex)
  else
    (GetElementIndex m1 Hash).bind fun b =>
    (tableAt m1.HashTable b).bind fun ElementIndex =>
    .ok ({ HashTable := m1.HashTable.set b NewElementIndex,
           Elements := m1.Elements.set NewElementIndex
             { Element with NextElementIndex := ElementIndex } },
         NewElementIndex)

/-- Method `TVoxelMap::AddHashed_CheckNew`: the new map and the reference to the new value. -/
def AddHashed_CheckNew (env : Env K) (fuel : Nat) (m : TVoxelMap K V) (Hash : Nat) (Key : K)
    (Value : V) : Res (TVoxelMap K V × Nat) :=
  (AddHashed_CheckNew.pre env fuel m Hash Key).bind fun _ =>
  AddHashed_CheckNew.body env m Hash Key Value

/-- Method `TVoxelMap::Add_CheckNew(Key, Value)`. -/
def Add_CheckNew (env : Env K) (fuel : Nat) (m : TVoxelMap K V) (Key : K) (Value : V) :
    Res (TVoxelMap K V × Nat) :=
  AddHashed_CheckNew env fuel m (HashValue env Key) Key Value

/-- Method `TVoxelMap::FindOrAdd`; `dflt` is `FVoxelUtilities::MakeSafe<ValueType>()`. -/
def FindOrAdd (env : Env K) (dflt : V) (fuel : Nat) (m : TVoxelMap K V) (Key : K) :
    Res (TVoxelMap K V × Nat) :=
  let Hash := HashValue env Key
  (FindHashed env fuel m Hash Key).bind fun p =>
  match p with
  | some i => .ok (m, i)
  | none => AddHashed_CheckNew env fuel m Hash Key dflt

/-- Result of `Add_EnsureNew`: the map, the returned reference, and whether `ensure(false)`
was reported. -/
structure EnsureResult (K V : Type) where
  map : TVoxelMap K V
  ref : Nat
  ensureFailed : Bool
deriving DecidableEq

/-- Method `TVoxelMap::AddHashed_EnsureNew`. -/
def AddHashed_EnsureNew (env : Env K) (fuel : Nat) (m : TVoxelMap K V) (Hash : Nat) (Key : K)
    (Value : V) : Res (EnsureResult K V) :=
  (check (HashValue env Key == Hash)).bind fun _ =>
  (FindHashed env fuel m Hash Key).bind fun p =>
  match p with
  | some i => .ok { map := m, ref := i, ensureFailed := true }
  | none =>
    (AddHashed_CheckNew env fuel m Hash Key Value).bind fun r =>
    .ok { map := r.1, ref := r.2, ensureFailed := false }

/-- Method `TVoxelMap::Add_EnsureNew(Key, Value)`. -/
def Add_EnsureNew (env : Env K) (fuel : Nat) (m : TVoxelMap K V) (Key : K) (Value : V) :
    Res (EnsureResult K V) :=
  AddHashed_EnsureNew env fuel m (HashValue env Key) Key Value

/-- An `int32*` into the hash table or into the `NextElementIndex` field of an element. -/
inductive Ptr where
  | bucket (b : Nat) : Ptr
  | next (i : Nat) : Ptr
deriving DecidableEq

/-- Read through an `int32*`. -/
def readPtr (m : TVoxelMap K V) : Ptr → Res Int
  | .bucket b => tableAt m.HashTable b
  | .next i => (elemAt m.Elements i).bind fun e => .ok e.NextElementIndex

/-- Write through an `int32*`. -/
def writePtr (m : TVoxelMap K V) : Ptr → Int → TVoxelMap K V
  | .bucket b, x => { m with HashTable := m.HashTable.set b x }
  | .next i, x =>
    { m with Elements := m.Elements.modify (fun e => { e with NextElementIndex := x }) i }

/-- First loop of `RemoveHashedChecked`: find the element of `Key` in its chain and unlink it. -/
def RemoveHashedChecked.unlink (Key : K) : Nat → TVoxelMap K V → Ptr → Res (Int × TVoxelMap K V)
  | 0, _, _ => .timeout
  | fuel + 1, m, ElementIndexPtr =>
    (readPtr m ElementIndexPtr).bind fun Index =>
    (elemAt m.Elements Index).bind fun Element =>
      if Element.Key ≠ Key then RemoveHashedChecked.unlink Key fuel m (.next Index.toNat)
      else .ok (Index, writePtr m ElementIndexPtr Element.NextElementIndex)

/-- Second loop of `RemoveHashedChecked`: find the link that holds the last index. -/
def RemoveHashedChecked.findLast : Nat → TVoxelMap K V → Ptr → Res Ptr
  | 0, _, _ => .timeout
  | fuel + 1, m, ElementIndexPtr =>
    (readPtr m ElementIndexPtr).bind fun Index =>
      if Index ≠ (m.Elements.length : Int) - 1 then
        (elemAt m.Elements Index).bind fun _ =>
        RemoveHashedChecked.findLast fuel m (.next Index.toNat)
      else .ok ElementIndexPtr

/-- Method `TVoxelMap::RemoveHashedChecked`. -/
def RemoveHashedChecked (env : Env K) (fuel : Nat) (m : TVoxelMap K V) (Hash : Nat) (Key : K) :
    Res (TVoxelMap K V) :=
  (Contains env fuel m Key).bind fun c =>
  (check c).bind fun _ =>
  (check (HashValue env Key == Hash)).bind fun _ =>
  (CheckInvariants env m).bind fun _ =>
  (GetElementIndex m Hash).bind fun b =>
  (RemoveHashedChecked.unlink Key fuel m (.bucket b)).bind fun r =>
  let ElementIndex := r.1
  let m1 := r.2
  (elemAt m1.Elements ElementIndex).bind fun e =>
  (check (decide (e.Key = Key))).bind fun _ =>
  if ElementIndex = (m1.Elements.length : Int) - 1 then
    .ok { m1 with Elements := m1.Elements.dropLast }
  else
    (elemAt m1.Elements ((m1.Elements.length : Int) - 1)).bind fun Last =>
    let LastHash := HashValue env Last.Key
    (GetElementIndex m1 LastHash).bind fun b2 =>
    (RemoveHashedChecked.findLast fuel m1 (.bucket b2)).bind fun ElementIndexPtr =>
    let m2 := writePtr m1 ElementIndexPtr ElementIndex
    (elemAt m2.Elements ElementIndex).bind fun _ =>
    (elemAt m2.Elements ((m2.Elements.length : Int) - 1)).bind fun Popped =>
    .ok { m2 with Elements := m2.Elements.dropLast.set ElementIndex.toNat Popped }

/-- Method `TVoxelMap::Remove`: the returned flag and the map afterwards. -/
def Remove (env : Env K) (fuel : Nat) (m : TVoxelMap K V) (Key : K) :
    Res (Bool × TVoxelMap K V) :=
  let Hash := HashValue env Key
  (FindHashed env fuel m Hash Key).bind fun p =>
  match p with
  | none => .ok (false, m)
  | some _ => (RemoveHashedChecked env fuel m Hash Key).bind fun m1 => .ok (true, m1)

/-! ### Well-formedness -/

/-- The bucket of a key in a table of `HashSize` buckets. -/
def bucketOf (env : Env K) (HashSize : Nat) (Key : K) : Nat :=
  HashValue env Key &&& (HashSize - 1)

/-- Following `NextElementIndex` from `head` visits exactly the indices of `l`, in order,
and then reaches `-1`. -/
def isChain (Elements : List (FElement K V)) : Int → List Nat → Bool
  | head, [] => head == -1
  | head, i :: l =>
    head == (i : Int) &&
      match Elements[i]? with
      | some e => isChain Elements e.NextElementIndex l
      | none => false

/-- Whether the element at index `i` has key `Key`. -/
def keyIs (Elements : List (FElement K V)) (Key : K) (i : Nat) : Bool :=
  match Elements[i]? with
  | some e => decide (e.Key = Key)
  | none => false

/-- Each key appears at most once in the element array. -/
def KeysUnique (Elements : List (FElement K V)) : Prop :=
  ∀ (i j : Nat) (e1 e2 : FElement K V),
    Elements[i]? = some e1 → Elements[j]? = some e2 → e1.Key = e2.Key → i = j

/-- The hash index links exactly the element indices satisfying `S`: bucket `b` heads the
chain `ch b`, which has no repetition and holds exactly the linked indices whose key
hashes to `b`. -/
structure Linked (env : Env K) (m : TVoxelMap K V) (S : Nat → Prop) (ch : Nat → List Nat) :
    Prop where
  chain : ∀ b, b < m.HashTable.length →
    ∃ h, m.HashTable[b]? = some h ∧ isChain m.Elements h (ch b) = true
  nodup : ∀ b, b < m.HashTable.length → (ch b).Nodup
  sound : ∀ b, b < m.HashTable.length → ∀ i, i ∈ ch b →
    S i ∧ ∃ e, m.Elements[i]? = some e ∧ bucketOf env m.HashTable.length e.Key = b
  complete : ∀ i e, S i → m.Elements[i]? = some e →
    i ∈ ch (bucketOf env m.HashTable.length e.Key)

/-- Well-formedness with explicit chains: table size accepted by the checks of
`GetElementIndex`, the sizing invariant of `CheckInvariants`, unique keys, and every
element index linked in the chain of its bucket. -/
structure WFWith (env : Env K) (m : TVoxelMap K V) (ch : Nat → List Nat) : Prop where
  pow2 : IsPowerOfTwo m.HashTable.length = true
  tablePos : 0 < m.Elements.length → 0 < m.HashTable.length
  sizing : 0 < m.Elements.length → GetHashSize env m.Elements.length ≤ m.HashTable.length
  keys : KeysUnique m.Elements
  linked : Linked env m (fun i => i < m.Elements.length) ch

/-- The chain assignment `ch` with the chain of bucket `b` replaced by `l`. -/
def setChain (ch : Nat → List Nat) (b : Nat) (l : List Nat) : Nat → List Nat :=
  fun x => if x = b then l else ch x

/-- The link that a walk arrives at after passing the elements `X` starting at link `ptr`:
the `NextElementIndex` field of the last element of `X`, or `ptr` itself when `X` is empty. -/
def lastPtr (ptr : Ptr) (X : List Nat) : Ptr :=
  match X.getLast? with
  | none => ptr
  | some p => .next p

/-- A well-formed map. -/
def WF (env : Env K) (m : TVoxelMap K V) : Prop :=
  ∃ ch, WFWith env m ch

/-- What is assumed of the sizing policy `GetHashSize`: it yields a non-zero size that
passes `FMath::IsPowerOfTwo`. -/
structure EnvOK (env : Env K) : Prop where
  pos : ∀ n, 0 < GetHashSize env n
  pow2 : ∀ n, IsPowerOfTwo (GetHashSize env n) = true

/-- The sizing policy `GetHashSize` is non-decreasing in the element count. -/
def SizeMono (env : Env K) : Prop :=
  ∀ a b, a ≤ b → GetHashSize env a ≤ GetHashSize env b

/-- The keys and values of the element array, in array order. -/
def entries (m : TVoxelMap K V) : List (K × V) :=
  m.Elements.map fun e => (e.Key, e.Value)

/-- Swap-pop at index `j`: drop the last item, after copying it into slot `j` unless `j` is
the last slot. -/
def swapRemove {α : Type} (l : List α) (j : Nat) : List α :=
  if j + 1 = l.length then l.dropLast
  else match l.getLast? with
    | some x => l.dropLast.set j x
    | none => l

/-- No two entries of a list of key/value pairs have the same key. -/
def EntriesUnique (l : List (K × V)) : Prop :=
  ∀ (i j : Nat) (p q : K × V), l[i]? = some p → l[j]? = some q → p.1 = q.1 → i = j

/-- Linear search of a list of elements for a key, counting indices from `i`. -/
def linearFindFrom (Key : K) : List (FElement K V) → Nat → Option Nat
  | [], _ => none
  | e :: rest, i => if e.Key = Key then some i else linearFindFrom Key rest (i + 1)

/-- Linear search of the dense element array: the first index holding `Key`. -/
def linearFind (m : TVoxelMap K V) (Key : K) : Option Nat :=
  linearFindFrom Key m.Elements 0

/-- Insert the pairs in order with `Add_CheckNew`. -/
def addAll (env : Env K) (fuel : Nat) :
    List (K × V) → TVoxelMap K V → Res (TVoxelMap K V)
  | [], m => .ok m
  | (k, v) :: rest, m => (Add_CheckNew env fuel m k v).bind fun r => addAll env fuel rest r.1

/-- An operation of an insert/remove sequence. -/
inductive Op (K V : Type) where
  | findOrAdd (k : K) : Op K V
  | addCheckNew (k : K) (v : V) : Op K V
  | remove (k : K) : Op K V

/-- Run one operation and keep the map. -/
def applyOp (env : Env K) (dflt : V) (fuel : Nat) (m : TVoxelMap K V) :
    Op K V → Res (TVoxelMap K V)
  | .findOrAdd k => (FindOrAdd env dflt fuel m k).bind fun r => .ok r.1
  | .addCheckNew k v => (Add_CheckNew env fuel m k v).bind fun r => .ok r.1
  | .remove k => (Remove env fuel m k).bind fun r => .ok r.2

/-- Run a sequence of operations in order. -/
def runOps (env : Env K) (dflt : V) (fuel : Nat) :
    List (Op K V) → TVoxelMap K V → Res (TVoxelMap K V)
  | [], m => .ok m
  | op :: rest, m => (applyOp env dflt fuel m op).bind fun m1 => runOps env dflt fuel rest m1

/-- The keys inserted and not removed since, after one more operation. -/
def liveStep (live : List K) : Op K V → List K
  | .findOrAdd k => if k ∈ live then live else live ++ [k]
  | .addCheckNew k _ => live ++ [k]
  | .remove k => live.filter fun x => decide (x ≠ k)

/-- The keys inserted and not removed since, after a sequence of operations. -/
def liveKeys (live : List K) : List (Op K V) → List K
  | [] => live
  | op :: rest => liveKeys (liveStep live op) rest

/-- The precondition of an operation: `Add_CheckNew` is called on a key that is not live. -/
def opOk (live : List K) : Op K V → Bool
  | .addCheckNew k _ => decide (k ∉ live)
  | _ => true

/-- Every `Add_CheckNew` of the sequence is called on a key that is absent at that point. -/
def opsOk (live : List K) : List (Op K V) → Bool
  | [] => true
  | op :: rest => opOk live op && opsOk (liveStep live op) rest

/-! ### Capacity, sizing and bulk operations -/

/-- Engine helper `FVoxelUtilities::SetNumFast(HashTable, n)`: the array gets `n` slots, the
added ones uninitialised (here `0`; `Rehash` overwrites every slot before any is read). -/
def SetNumFast (HashTable : List Int) (n : Nat) : List Int :=
  HashTable.take n ++ List.replicate (n - HashTable.length) 0

/-- Method `TVoxelMap::Reset`. -/
def Reset (_m : TVoxelMap K V) : TVoxelMap K V :=
  { HashTable := [], Elements := [] }

/-- Method `TVoxelMap::Empty`. -/
def Empty (_m : TVoxelMap K V) : TVoxelMap K V :=
  { HashTable := [], Elements := [] }

/-- Method `TVoxelMap::Reset_KeepHashSize`. -/
def Reset_KeepHashSize (env : Env K) (m : TVoxelMap K V) : Res (TVoxelMap K V) :=
  Rehash env { m with Elements := [] }

/-- Method `TVoxelMap::Shrink`; the capacity changes of `HashTable.Shrink()` and
`Elements.Shrink()` are not visible in the contents. -/
def Shrink (env : Env K) (m : TVoxelMap K V) : Res (TVoxelMap K V) :=
  if Num m = 0 then .ok (Empty m)
  else if m.HashTable.length ≠ GetHashSize env (Num m) then
    (check (decide (m.HashTable.length > GetHashSize env (Num m)))).bind fun _ =>
    Rehash env { m with HashTable := [] }
  else .ok m

/-- Method `TVoxelMap::Reserve`; `Elements.Reserve(Number)` only changes the capacity. -/
def Reserve (env : Env K) (m : TVoxelMap K V) (Number : Int) : Res (TVoxelMap K V) :=
  if Number ≤ (m.Elements.length : Int) then .ok m
  else
    let NewHashSize := GetHashSize env Number.toNat
    if m.HashTable.length < NewHashSize then
      Rehash env { m with HashTable := SetNumFast m.HashTable NewHashSize }
    else .ok m

/-- Method `TVoxelMap::ReserveGrow`. -/
def ReserveGrow (env : Env K) (m : TVoxelMap K V) (Number : Int) : Res (TVoxelMap K V) :=
  Reserve env m ((Num m : Int) + Number)

/-! ### Sorting, serialization and comparison -/

/-- A comparator that is a strict weak order: irreflexive, transitive, and with transitive
incomparability (stated as: whatever lies below `c` and above `a` separates them). -/
def StrictWeakOrder {α : Type} (lt : α → α → Bool) : Prop :=
  (∀ a, lt a a = false) ∧ (∀ a b c, lt a b = true → lt b c = true → lt a c = true) ∧
    (∀ a b c, lt a c = true → lt a b = true ∨ lt b c = true)

/-- The array sort `TVoxelArray::Sort(Predicate)` called by the sort methods of the map. -/
def SortFn (K V : Type) : Type :=
  (FElement K V → FElement K V → Bool) → List (FElement K V) → List (FElement K V)

/-- Modelled from the spec: `TVoxelArray::Sort` (`VoxelArray.h`, not part of these sources)
"reorder the dense element array via the given comparator". For a comparator that is a strict
weak order the result is a permutation of the array in which no element compares before its
predecessor. -/
def SortContract (sortArray : SortFn K V) : Prop :=
  ∀ lt, StrictWeakOrder lt → ∀ l,
    (sortArray lt l).Perm l ∧ List.Chain' (fun a b => lt b a = false) (sortArray lt l)

/-- Method `TVoxelMap::Sort(Predicate)` (`Sort` is a reserved word here); the predicate sees
the key and the value of an element (`NextElementIndex` is private). -/
def SortWith (env : Env K) (sortArray : SortFn K V) (m : TVoxelMap K V)
    (Predicate : K × V → K × V → Bool) : Res (TVoxelMap K V) :=
  let Sorted := sortArray (fun A B => Predicate (A.Key, A.Value) (B.Key, B.Value)) m.Elements
  Rehash env { m with Elements := Sorted }

/-- Method `TVoxelMap::KeySort(Predicate)`. -/
def KeySort (env : Env K) (sortArray : SortFn K V) (m : TVoxelMap K V)
    (Predicate : K → K → Bool) : Res (TVoxelMap K V) :=
  let Sorted := sortArray (fun A B => Predicate A.Key B.Key) m.Elements
  Rehash env { m with Elements := Sorted }

/-- Method `TVoxelMap::ValueSort(Predicate)`. -/
def ValueSort (env : Env K) (sortArray : SortFn K V) (m : TVoxelMap K V)
    (Predicate : V → V → Bool) : Res (TVoxelMap K V) :=
  let Sorted := sortArray (fun A B => Predicate A.Value B.Value) m.Elements
  Rehash env { m with Elements := Sorted }

/-- Method `TVoxelMap::KeyArray`. -/
def KeyArray (m : TVoxelMap K V) : List K :=
  m.Elements.map fun Element => Element.Key

/-- Method `TVoxelMap::ValueArray`. -/
def ValueArray (m : TVoxelMap K V) : List V :=
  m.Elements.map fun Element => Element.Value

/-- The serialization `operator<<(FArchive&, TVoxelMap&)` on a saving archive: the archive
receives the key and the value of every element in array order (no chain links), then
`CheckInvariants` runs. -/
def Save (env : Env K) (m : TVoxelMap K V) : Res (List (K × V)) :=
  let Ar := m.Elements.map fun Element => (Element.Key, Element.Value)
  (CheckInvariants env m).bind fun _ => .ok Ar

/-- The serialization `operator<<(FArchive&, TVoxelMap&)` on a loading archive: the element
array is replaced by freshly constructed elements holding the archived keys and values, the
hash table of the map loaded into is kept until `Rehash` rebuilds it, then `CheckInvariants`
runs. -/
def Load (env : Env K) (m : TVoxelMap K V) (Ar : List (K × V)) : Res (TVoxelMap K V) :=
  let m1 : TVoxelMap K V :=
    { m with Elements := Ar.map fun p => { Key := p.1, Value := p.2, NextElementIndex := -16 } }
  (Rehash env m1).bind fun m2 =>
  (CheckInvariants env m2).bind fun _ => .ok m2

/-- The `for` loop of `OrderIndependentEqual` over the elements of `Other`. -/
def OrderIndependentEqual.loop [DecidableEq V] (env : Env K) (fuel : Nat) (m : TVoxelMap K V) :
    List (FElement K V) → Res Bool
  | [] => .ok true
  | It :: rest =>
    (Find env fuel m It.Key).bind fun Value =>
    match Value with
    | none => .ok false
    | some i =>
      (elemAt m.Elements i).bind fun e =>
      if e.Value ≠ It.Value then .ok false
      else OrderIndependentEqual.loop env fuel m rest

/-- Method `TVoxelMap::OrderIndependentEqual`. -/
def OrderIndependentEqual [DecidableEq V] (env : Env K) (fuel : Nat) (m Other : TVoxelMap K V) :
    Res Bool :=
  if Num m ≠ Num Other then .ok false
  else OrderIndependentEqual.loop env fuel m Other.Elements

/-- An operation of a sequence of map calls. -/
inductive MapOp (K V : Type) where
  | findOrAdd (k : K) : MapOp K V
  | addEnsureNew (k : K) (v : V) : MapOp K V
  | addCheckNew (k : K) (v : V) : MapOp K V
  | remove (k : K) : MapOp K V
  | reserve (n : Int) : MapOp K V
  | shrink : MapOp K V
  | rehash : MapOp K V
  | resetKeepHashSize : MapOp K V
  | sort (lt : K × V → K × V → Bool) : MapOp K V
  | keySort (lt : K → K → Bool) : MapOp K V
  | valueSort (lt : V → V → Bool) : MapOp K V
  | load (Ar : List (K × V)) : MapOp K V

/-- Run one map call and keep the map. -/
def applyMapOp (env : Env K) (dflt : V) (sortArray : SortFn K V) (fuel : Nat)
    (m : TVoxelMap K V) : MapOp K V → Res (TVoxelMap K V)
  | .findOrAdd k => (FindOrAdd env dflt fuel m k).bind fun r => .ok r.1
  | .addEnsureNew k v => (Add_EnsureNew env fuel m k v).bind fun r => .ok r.map
  | .addCheckNew k v => (Add_CheckNew env fuel m k v).bind fun r => .ok r.1
  | .remove k => (Remove env fuel m k).bind fun r => .ok r.2
  | .reserve n => Reserve env m n
  | .shrink => Shrink env m
  | .rehash => Rehash env m
  | .resetKeepHashSize => Reset_KeepHashSize env m
  | .sort lt => SortWith env sortArray m lt
  | .keySort lt => KeySort env sortArray m lt
  | .valueSort lt => ValueSort env sortArray m lt
  | .load Ar => Load env m Ar

/-- Run a sequence of map calls in order. -/
def runMapOps (env : Env K) (dflt : V) (sortArray : SortFn K V) (fuel : Nat) :
    List (MapOp K V) → TVoxelMap K V → Res (TVoxelMap K V)
  | [], m => .ok m
  | op :: rest, m =>
    (applyMapOp env dflt sortArray fuel m op).bind fun m1 =>
      runMapOps env dflt sortArray fuel rest m1

/-- The keys held after one more map call, given the keys held before. -/
def heldStep (held : List K) : MapOp K V → List K
  | .findOrAdd k => if k ∈ held then held else held ++ [k]
  | .addEnsureNew k _ => if k ∈ held then held else held ++ [k]
  | .addCheckNew k _ => held ++ [k]
  | .remove k => held.filter fun x => decide (x ≠ k)
  | .resetKeepHashSize => []
  | .load Ar => Ar.map Prod.fst
  | _ => held

/-- The precondition of a map call: `Add_CheckNew` is called on a key that is not held, an
archive that is loaded holds each key once (it was written from a map), and the fuel exceeds
the number of keys held. -/
def mapOpOk (fuel : Nat) (held : List K) : MapOp K V → Bool
  | .addCheckNew k _ => decide (k ∉ held) && decide (held.length < fuel)
  | .load Ar => decide (Ar.map Prod.fst).Nodup && decide (held.length < fuel)
  | _ => decide (held.length < fuel)

/-- Every call of the sequence meets its precondition. -/
def mapOpsOk (fuel : Nat) (held : List K) : List (MapOp K V) → Bool
  | [] => true
  | op :: rest => mapOpOk fuel held op && mapOpsOk fuel (heldStep held op) rest

/-- The comparator passed to a sort call is a strict weak order. -/
def comparatorOk : MapOp K V → Prop
  | .sort lt => StrictWeakOrder lt
  | .keySort lt => StrictWeakOrder lt
  | .valueSort lt => StrictWeakOrder lt
  | _ => True

/-! ### Iteration -/

/-- State of `TVoxelMap::TIterator`. `MapPtr` is the map the operations below receive;
`ElementPtr` is the index of the element pointed to, `none` for the null pointer. -/
structure TIterator where
  ElementPtr : Option Nat
  Index : Int
deriving DecidableEq

/-- Method `TVoxelMap::CreateIterator`. -/
def CreateIterator (m : TVoxelMap K V) : TIterator :=
  if m.Elements.length > 0 then { ElementPtr := some 0, Index := 0 }
  else { ElementPtr := none, Index := 0 }

/-- Method `TIterator::operator++`. -/
def TIterator.next (m : TVoxelMap K V) (It : TIterator) : Res TIterator :=
  let Index := It.Index + 1
  if Index < (m.Elements.length : Int) then
    (elemAt m.Elements Index).bind fun _ => .ok { ElementPtr := some Index.toNat, Index := Index }
  else .ok { ElementPtr := none, Index := Index }

/-- Method `TIterator::operator bool`. -/
def TIterator.valid (It : TIterator) : Bool :=
  It.ElementPtr.isSome

/-- Method `TIterator::Key`. -/
def TIterator.Key (m : TVoxelMap K V) (It : TIterator) : Res K :=
  match It.ElementPtr with
  | none => .fatal
  | some p => (elemAt m.Elements p).bind fun e => .ok e.Key

/-- Method `TIterator::Value`. -/
def TIterator.Value (m : TVoxelMap K V) (It : TIterator) : Res V :=
  match It.ElementPtr with
  | none => .fatal
  | some p => (elemAt m.Elements p).bind fun e => .ok e.Value

/-- Method `TVoxelMap::RemoveChecked`. -/
def RemoveChecked (env : Env K) (fuel : Nat) (m : TVoxelMap K V) (Key : K) :
    Res (TVoxelMap K V) :=
  RemoveHashedChecked env fuel m (HashValue env Key) Key

/-- Method `TIterator::RemoveCurrent`: the map and the iterator afterwards. -/
def TIterator.RemoveCurrent (env : Env K) (fuel : Nat) (m : TVoxelMap K V) (It : TIterator) :
    Res (TVoxelMap K V × TIterator) :=
  (It.Key m).bind fun Key =>
  (RemoveChecked env fuel m Key).bind fun m1 =>
  .ok (m1, { ElementPtr := none, Index := It.Index - 1 })

/-- The loop `for (; It; ++It) visit(It)`, recording for each visit the index pointed to and
the key and value read there. -/
def iterate.loop (m : TVoxelMap K V) :
    Nat → TIterator → List (Nat × K × V) → Res (List (Nat × K × V))
  | 0, _, _ => .timeout
  | steps + 1, It, acc =>
    if It.valid then
      (It.Key m).bind fun k =>
      (It.Value m).bind fun v =>
      (It.next m).bind fun It2 =>
      iterate.loop m steps It2 (acc ++ [(It.ElementPtr.getD 0, k, v)])
    else .ok acc

/-- The loop `for (auto It = Map.CreateIterator(); It; ++It) visit(It)`. -/
def iterate (steps : Nat) (m : TVoxelMap K V) : Res (List (Nat × K × V)) :=
  iterate.loop m steps (CreateIterator m) []

/-- The loop `for (; It; ++It) { if (remove) It.RemoveCurrent(); }`, where the `n`-th visit
(counting from `0`), at key `k`, removes when `Decide n k`; it records the keys visited. -/
def forwardIteration.loop (env : Env K) (Decide : Nat → K → Bool) (fuel : Nat) :
    Nat → TVoxelMap K V → TIterator → List K → Res (TVoxelMap K V × List K)
  | 0, _, _, _ => .timeout
  | steps + 1, m, It, visited =>
    if It.valid then
      (It.Key m).bind fun k =>
      (if Decide visited.length k then It.RemoveCurrent env fuel m else .ok (m, It)).bind fun r =>
      (r.2.next r.1).bind fun It2 =>
      forwardIteration.loop env Decide fuel steps r.1 It2 (visited ++ [k])
    else .ok (m, visited)

/-- A forward iteration from `CreateIterator()` that may call `RemoveCurrent` at each visit. -/
def forwardIteration (env : Env K) (Decide : Nat → K → Bool) (fuel steps : Nat)
    (m : TVoxelMap K V) : Res (TVoxelMap K V × List K) :=
  forwardIteration.loop env Decide fuel steps m (CreateIterator m) []

/-- The loop `for (It = CreateIterator(); It; ++It) { if P(It.Key()) It.RemoveCurrent(); }`. -/
def removeIf (env : Env K) (P : K → Bool) (fuel steps : Nat) (m : TVoxelMap K V) :
    Res (TVoxelMap K V × List K) :=
  forwardIteration env (fun _ k => P k) fuel steps m

/-- The iterator that `operator++` leaves at index `i`. -/
def iterAt (m : TVoxelMap K V) (i : Nat) : TIterator :=
  if i < m.Elements.length then { ElementPtr := some i, Index := i }
  else { ElementPtr := none, Index := i }

/-- The entries a forward iteration keeps, when the visits starting at number `n` see the
entries of `l` in order. -/
def kept (Decide : Nat → K → Bool) : Nat → List (K × V) → List (K × V)
  | _, [] => []
  | n, p :: l => if Decide n p.1 then kept Decide (n + 1) l else p :: kept Decide (n + 1) l

/-! ### Insertion without rehash, and sortedness tests -/

/-- The writing part of `AddHashed_CheckNew_CheckNoRehash`. The capacity check inside
`TVoxelArray::Emplace_CheckNoGrow` (not part of these sources) is about the allocation of the
element array, which a list does not have; the call is an `Emplace` here. -/
def AddHashed_CheckNew_CheckNoRehash.body (env : Env K) (m : TVoxelMap K V) (Hash : Nat)
    (Key : K) (Value : V) : Res (TVoxelMap K V × Nat) :=
  let NewElementIndex := m.Elements.length
  let Element : FElement K V := { Key := Key, Value := Value, NextElementIndex := -16 }
  let m1 : TVoxelMap K V := { m with Elements := m.Elements ++ [Element] }
  (check (decide (GetHashSize env m1.Elements.length ≤ m1.HashTable.length))).bind fun _ =>
  (GetElementIndex m1 Hash).bind fun b =>
  (tableAt m1.HashTable b).bind fun ElementIndex =>
  .ok ({ HashTable := m1.HashTable.set b NewElementIndex,
         Elements := m1.Elements.set NewElementIndex
           { Element with NextElementIndex := ElementIndex } },
       NewElementIndex)

/-- Method `TVoxelMap::AddHashed_CheckNew_CheckNoRehash`; its first three checks are those of
`AddHashed_CheckNew`. -/
def AddHashed_CheckNew_CheckNoRehash (env : Env K) (fuel : Nat) (m : TVoxelMap K V) (Hash : Nat)
    (Key : K) (Value : V) : Res (TVoxelMap K V × Nat) :=
  (AddHashed_CheckNew.pre env fuel m Hash Key).bind fun _ =>
  AddHashed_CheckNew_CheckNoRehash.body env m Hash Key Value

/-- Method `TVoxelMap::Add_CheckNew_CheckNoRehash(Key, Value)`. -/
def Add_CheckNew_CheckNoRehash (env : Env K) (fuel : Nat) (m : TVoxelMap K V) (Key : K)
    (Value : V) : Res (TVoxelMap K V × Nat) :=
  AddHashed_CheckNew_CheckNoRehash env fuel m (HashValue env Key) Key Value

/-- Insert the pairs in order with `Add_CheckNew_CheckNoRehash`. -/
def addAllNoRehash (env : Env K) (fuel : Nat) :
    List (K × V) → TVoxelMap K V → Res (TVoxelMap K V)
  | [], m => .ok m
  | (k, v) :: rest, m =>
    (Add_CheckNew_CheckNoRehash env fuel m k v).bind fun r => addAllNoRehash env fuel rest r.1

/-- The `for` loop of `AreKeySorted(Predicate)`: `count` iterations starting at `Index`. -/
def AreKeySorted.loop (Elements : List (FElement K V)) (Predicate : K → K → Bool) :
    Nat → Nat → Res Bool
  | 0, _ => .ok true
  | count + 1, Index =>
    (elemAt Elements ((Index : Int) - 1)).bind fun A =>
    (elemAt Elements Index).bind fun B =>
    if !Predicate A.Key B.Key then .ok false
    else AreKeySorted.loop Elements Predicate count (Index + 1)

/-- Method `TVoxelMap::AreKeySorted(Predicate)`: `Index` runs from `1` to `Num() - 1`. -/
def AreKeySorted (m : TVoxelMap K V) (Predicate : K → K → Bool) : Res Bool :=
  AreKeySorted.loop m.Elements Predicate (m.Elements.length - 1) 1

/-- Method `TVoxelMap::KeySort()`; `TLess` is the engine comparator `TLess<KeyType>`, the
`operator<` of the key type. -/
def KeySortDefault (env : Env K) (sortArray : SortFn K V) (TLess : K → K → Bool)
    (m : TVoxelMap K V) : Res (TVoxelMap K V) :=
  KeySort env sortArray m TLess

/-- Method `TVoxelMap::AreKeySorted()`. -/
def AreKeySortedDefault (TLess : K → K → Bool) (m : TVoxelMap K V) : Res Bool :=
  AreKeySorted m TLess

/-- A strict total order: irreflexive, transitive, and any two distinct items compare. -/
def StrictTotalOrder {α : Type} (lt : α → α → Bool) : Prop :=
  (∀ a, lt a a = false) ∧ (∀ a b c, lt a b = true → lt b c = true → lt a c = true) ∧
    ∀ a b, lt a b = true ∨ a = b ∨ lt b a = true


/-! ### Sortedness of values, and `Append` -/

/-- The `for` loop of `AreValueSorted(Predicate)`: `count` iterations starting at `Index`. -/
def AreValueSorted.loop (Elements : List (FElement K V)) (Predicate : V → V → Bool) :
    Nat → Nat → Res Bool
  | 0, _ => .ok true
  | count + 1, Index =>
    (elemAt Elements ((Index : Int) - 1)).bind fun A =>
    (elemAt Elements Index).bind fun B =>
    if !Predicate A.Value B.Value then .ok false
    else AreValueSorted.loop Elements Predicate count (Index + 1)

/-- Method `TVoxelMap::AreValueSorted(Predicate)`: `Index` runs from `1` to `Num() - 1`. -/
def AreValueSorted (m : TVoxelMap K V) (Predicate : V → V → Bool) : Res Bool :=
  AreValueSorted.loop m.Elements Predicate (m.Elements.length - 1) 1

/-- Method `TVoxelMap::ValueSort()`; `TLess` is the engine comparator `TLess<ValueType>`, the
`operator<` of the value type. -/
def ValueSortDefault (env : Env K) (sortArray : SortFn K V) (TLess : V → V → Bool)
    (m : TVoxelMap K V) : Res (TVoxelMap K V) :=
  ValueSort env sortArray m TLess

/-- Method `TVoxelMap::AreValueSorted()`. -/
def AreValueSortedDefault (TLess : V → V → Bool) (m : TVoxelMap K V) : Res Bool :=
  AreValueSorted m TLess

/-- Whether every item of a list compares before its successor. -/
def adjacentAll {α : Type} (P : α → α → Bool) : List α → Bool
  | a :: b :: rest => P a b && adjacentAll P (b :: rest)
  | _ => true

/-- The `for` loop of the general path of `Append`, over the elements of `Other`: the value
of a key that is found is overwritten through the pointer `FindHashed` returned, any other
key is added with `AddHashed_CheckNew_CheckNoRehash`. -/
def Append.loop (env : Env K) (fuel : Nat) :
    List (FElement K V) → TVoxelMap K V → Res (TVoxelMap K V)
  | [], m => .ok m
  | It :: rest, m =>
    let Key := It.Key
    let Hash := HashValue env Key
    (FindHashed env fuel m Hash Key).bind fun Value =>
    match Value with
    | some i =>
      (elemAt m.Elements i).bind fun Element =>
      Append.loop env fuel rest
        { m with Elements := m.Elements.set i { Element with Value := It.Value } }
    | none =>
      (AddHashed_CheckNew_CheckNoRehash env fuel m Hash Key It.Value).bind fun r =>
      Append.loop env fuel rest r.1

/-- Method `TVoxelMap::Append(Other)` for a map `Other` of the same key type. Into a map
with no element the hash table of `Other` is copied and each element is constructed anew
from the key and the value of the element of `Other` (the constructor of the element takes
these two and leaves `NextElementIndex` at its debug default `-16`; `Elements.Reserve` and
the capacity check of `Emplace_CheckNoGrow` are about the allocation only). Otherwise
`ReserveGrow(Other.Num())` runs, then the loop over `Other`. -/
def Append (env : Env K) (fuel : Nat) (m Other : TVoxelMap K V) : Res (TVoxelMap K V) :=
  if Num m = 0 then
    .ok { HashTable := Other.HashTable,
          Elements := Other.Elements.map fun Element =>
            { Key := Element.Key, Value := Element.Value, NextElementIndex := -16 } }
  else
    (ReserveGrow env m (Num Other : Int)).bind fun m1 =>
    Append.loop env fuel Other.Elements m1

/-- The converting constructor `TVoxelMap(const TVoxelMap<...>& Other)`: `Append(Other)` on
the default-constructed map. -/
def construct (env : Env K) (fuel : Nat) (Other : TVoxelMap K V) : Res (TVoxelMap K V) :=
  Append env fuel empty Other

/-- What `Append` is to make of an entry of the destination: its value is replaced by the
value `Other` holds for its key, if `Other` holds the key. -/
def overwritten (other : List (K × V)) (p : K × V) : K × V :=
  match other.find? fun q => decide (q.1 = p.1) with
  | some q => (p.1, q.2)
  | none => p

/-- What `Append` is to make of the entries: those of the destination in place, overwritten
where `Other` holds the key, followed by the entries of `Other` whose key is new, in the
order of `Other`. -/
def appended (base other : List (K × V)) : List (K × V) :=
  base.map (overwritten other) ++
    other.filter fun q => decide (q.1 ∉ base.map Prod.fst)

/-- One step of the loop of `Append` on the entries: overwrite the value of the key if the
key is there, append the entry otherwise. -/
def upsert (l : List (K × V)) (q : K × V) : List (K × V) :=
  if q.1 ∈ l.map Prod.fst then l.map fun p => if p.1 = q.1 then (p.1, q.2) else p
  else l ++ [q]

/-- The write `*Value = v` through the reference that `FindOrAdd` returned, the value of
element `i`. -/
def assign (m : TVoxelMap K V) (i : Nat) (v : V) : Res (TVoxelMap K V) :=
  (elemAt m.Elements i).bind fun Element =>
  .ok { m with Elements := m.Elements.set i { Element with Value := v } }

end Ops

/-! ### A concrete instance -/

/-- A sample environment: identity hash on `Nat`, one bucket below four elements and sixteen
from four on, default allocator (`MinHashSize = 0`). -/
def sampleEnv : Env Nat :=
  { hashFn := fun k => k, GetHashTableSize := fun n => if n < 4 then 1 else 16, MinHashSize := 0 }

/-- The pairs inserted into the sample map: keys `1` and `17` share bucket `1` of sixteen. -/
def samplePairs : List (Nat × Nat) :=
  [(0, 100), (1, 101), (2, 102), (17, 117)]

/-- The map obtained by inserting `samplePairs` into the empty map. -/
def sampleMap : TVoxelMap Nat Nat :=
  { HashTable := [0, 3, 2, -1, -1, -1, -1, -1, -1, -1, -1, -1, -1, -1, -1, -1],
    Elements := [⟨0, 100, -1⟩, ⟨1, 101, -1⟩, ⟨2, 102, -1⟩, ⟨17, 117, 1⟩] }

/-- The map obtained by inserting keys `0, 1, 2`: one bucket, one chain `2, 1, 0`. -/
def sampleSmall : TVoxelMap Nat Nat :=
  { HashTable := [2], Elements := [⟨0, 100, -1⟩, ⟨1, 101, 0⟩, ⟨2, 102, 1⟩] }

/-- A sample array sort: insertion sort that keeps `a` before `b` unless `b` compares before
`a`. -/
def sampleSort : SortFn Nat Nat :=
  fun lt l => List.insertionSort (fun a b => lt b a = false) l

/-- The comparator `<` on `Nat`. -/
def natLess (a b : Nat) : Bool :=
  decide (a < b)

/-- A sample sequence of map calls of every kind. -/
def sampleMapOps : List (MapOp Nat Nat) :=
  [.addCheckNew 5 50, .findOrAdd 3, .addEnsureNew 5 7, .addEnsureNew 8 80, .reserve 8,
   .addCheckNew 1 10, .keySort natLess, .remove 3, .shrink, .rehash, .valueSort natLess,
   .findOrAdd 9, .sort (fun a b => natLess b.1 a.1), .resetKeepHashSize, .findOrAdd 2,
   .load [(4, 40), (6, 60), (22, 7)], .remove 6]

/-- A sample sequence of insertions and removals. -/
def sampleOps : List (Op Nat Nat) :=
  [.addCheckNew 0 100, .findOrAdd 1, .addCheckNew 2 102, .findOrAdd 17, .remove 1,
   .findOrAdd 2, .remove 5, .remove 0, .addCheckNew 1 7]


/-- A map with two elements that hold the same value. -/
def sampleTwins : TVoxelMap Nat Nat :=
  { HashTable := [1], Elements := [⟨0, 5, -1⟩, ⟨1, 5, 0⟩] }

/-- What `Append` into the default-constructed map makes of the three-element sample map: its
table, and its elements with `NextElementIndex` left at the debug default. -/
def sampleCopy : TVoxelMap Nat Nat :=
  { HashTable := [2], Elements := [⟨0, 100, -16⟩, ⟨1, 101, -16⟩, ⟨2, 102, -16⟩] }

end VoxelMap

/-!
FVoxelFuture: the aggregate constructor over promise states

Sequential embedding of `VoxelMinimal/VoxelFuture.cpp`. Shared objects live in a `Heap`: a
`TSharedRef<IVoxelPromiseState>` or a `TSharedRef<FVoxelCounter32>` is the index of its object,
and a null `PromiseState` is `none`. Closures are data (`Lambda`). `FVoxelPromiseState` and
`FVoxelFuture::IsComplete` are declared in headers that are not part of these sources; the
definitions that stand for them say so.
-/

namespace VoxelFuture

open VoxelMap (Res check)

/-- Thread selector of a continuation; `AnyThread` is the one these sources name. -/
inductive EVoxelFutureThread where
  | AnyThread : EVoxelFutureThread
  | Other (id : Nat) : EVoxelFutureThread
deriving DecidableEq

/-- A closure, as data: the closure that the aggregate constructor attaches to a pending input,
which captures the shared counter and the aggregate promise state, or any other closure,
told apart by a tag. -/
inductive Lambda where
  | decrementThenSet (Counter PromiseState : Nat) : Lambda
  | user (tag : Nat) : Lambda
deriving DecidableEq

/-- Modelled from the spec: `FVoxelPromiseState::FContinuation` (`VoxelPromiseState.h` is not
part of these sources), a closure plus an execution-context selector. -/
structure FContinuation where
  Thread : EVoxelFutureThread
  Continuation : Lambda
deriving DecidableEq

/-- Modelled from the spec: `FVoxelPromiseState` (`VoxelPromiseState.h` is not part of these
sources), a one-shot completion flag and the ordered sequence of pending continuations. -/
structure FVoxelPromiseState where
  bIsComplete : Bool
  Continuations : List FContinuation
deriving DecidableEq

/-- What the engine did, in order: a counter decrement with the value it returned, a promise
state completed by `Set`, a closure run, a continuation handed to the task dispatcher. -/
inductive Event where
  | decremented (Counter : Nat) (New : Int) : Event
  | set (PromiseState : Nat) : Event
  | ran (tag : Nat) : Event
  | dispatched (c : FContinuation) : Event
deriving DecidableEq

/-- The shared objects: promise states, `FVoxelCounter32` counters, and the log of events. -/
structure Heap where
  Promises : List FVoxelPromiseState
  Counters : List Int
  Log : List Event
deriving DecidableEq

/-- The handle `FVoxelFuture`: a shared reference to a promise state, or null. -/
structure FVoxelFuture where
  PromiseState : Option Nat
deriving DecidableEq

/-- Modelled from the spec: `FVoxelFuture::IsComplete` (`VoxelFuture.h` is not part of these
sources). A future with empty internal state is already complete; one that holds a promise
state is complete when that state is. -/
def IsComplete (h : Heap) (Future : FVoxelFuture) : Bool :=
  match Future.PromiseState with
  | none => true
  | some p =>
    match h.Promises[p]? with
    | some s => s.bIsComplete
    | none => false

/-- Modelled from the spec: `IVoxelPromiseState::New(nullptr, false)` forwards to the
constructor of `FVoxelPromiseState` (not part of these sources), which creates an incomplete
state with no continuation. -/
def New (h : Heap) : Heap × Nat :=
  ({ h with Promises := h.Promises ++ [{ bIsComplete := false, Continuations := [] }] },
    h.Promises.length)

/-- Allocation `MakeShared<FVoxelCounter32>(Value)`. -/
def MakeCounter (h : Heap) (Value : Int) : Heap × Nat :=
  ({ h with Counters := h.Counters ++ [Value] }, h.Counters.length)

/-- Modelled from the spec: `FVoxelCounter32::Decrement_ReturnNew` (not part of these sources),
the atomic decrement that returns the new value. -/
def Decrement_ReturnNew (h : Heap) (Counter : Nat) : Res (Int × Heap) :=
  match h.Counters[Counter]? with
  | none => .fatal
  | some Old =>
    .ok (Old - 1,
      { h with Counters := h.Counters.set Counter (Old - 1),
               Log := h.Log ++ [.decremented Counter (Old - 1)] })

/-- A pending call of the engine: `Set()` on a promise state, or the dispatch of a
continuation. -/
inductive Work where
  | set (PromiseState : Nat) : Work
  | dispatch (c : FContinuation) : Work
deriving DecidableEq

/-- Modelled from the spec: the bodies of `FVoxelPromiseState::Set` and of the dispatch of a
continuation (`VoxelPromiseState.h` is not part of these sources), run as a stack of pending
calls. `Set` on a complete state is fatal; on an incomplete one it marks the state complete,
clears its pending list and dispatches the continuations that were queued, in order.
Dispatching an `AnyThread` continuation runs its closure at once; any other selector hands the
continuation to the task dispatcher, which is outside the engine. -/
def exec : Nat → Heap → List Work → Res Heap
  | _, h, [] => .ok h
  | 0, _, _ :: _ => .timeout
  | fuel + 1, h, .set p :: rest =>
    match h.Promises[p]? with
    | none => .fatal
    | some s =>
      if s.bIsComplete then .fatal
      else
        exec fuel
          { h with Promises := h.Promises.set p { bIsComplete := true, Continuations := [] },
                   Log := h.Log ++ [.set p] }
          (s.Continuations.map Work.dispatch ++ rest)
  | fuel + 1, h, .dispatch c :: rest =>
    match c.Thread with
    | .Other _ => exec fuel { h with Log := h.Log ++ [.dispatched c] } rest
    | .AnyThread =>
      match c.Continuation with
      | .user tag => exec fuel { h with Log := h.Log ++ [.ran tag] } rest
      | .decrementThenSet Counter PromiseState =>
        match Decrement_ReturnNew h Counter with
        | .ok r =>
          if r.1 == 0 then exec fuel r.2 (.set PromiseState :: rest) else exec fuel r.2 rest
        | .fatal => .fatal
        | .timeout => .timeout

/-- Method `IVoxelPromiseState::Set`, which forwards to `FVoxelPromiseState::Set`. -/
def IVoxelPromiseState.Set (fuel : Nat) (h : Heap) (p : Nat) : Res Heap :=
  exec fuel h [.set p]

/-- Modelled from the spec: `IVoxelPromiseState::AddContinuation(Thread, Continuation)` forwards
to `FVoxelPromiseState::AddContinuation` (not part of these sources): on a complete state the
continuation is dispatched at once and not queued, otherwise it is appended to the pending
list. -/
def IVoxelPromiseState.AddContinuation (fuel : Nat) (h : Heap) (p : Nat) (c : FContinuation) :
    Res Heap :=
  match h.Promises[p]? with
  | none => .fatal
  | some s =>
    if s.bIsComplete then exec fuel h [.dispatch c]
    else
      .ok { h with Promises :=
        h.Promises.set p { s with Continuations := s.Continuations ++ [c] } }

/-- The `for` loop of the constructor `FVoxelFuture::FVoxelFuture(Futures)`. -/
def FromMany.loop (fuel : Nat) (Counter PromiseState : Nat) :
    Heap → List FVoxelFuture → Res Heap
  | h, [] => .ok h
  | h, Future :: rest =>
    if IsComplete h Future then
      (Decrement_ReturnNew h Counter).bind fun r =>
      (if r.1 == 0 then IVoxelPromiseState.Set fuel r.2 PromiseState else .ok r.2).bind fun h2 =>
      FromMany.loop fuel Counter PromiseState h2 rest
    else
      match Future.PromiseState with
      | none => .fatal
      | some q =>
        (IVoxelPromiseState.AddContinuation fuel h q
          { Thread := .AnyThread,
            Continuation := .decrementThenSet Counter PromiseState }).bind fun h2 =>
        FromMany.loop fuel Counter PromiseState h2 rest

/-- The constructor `FVoxelFuture::FVoxelFuture(TConstVoxelArrayView<FVoxelFuture> Futures)`,
the `FromMany` of the spec: the heap afterwards and the future constructed. -/
def FromMany (fuel : Nat) (h : Heap) (Futures : List FVoxelFuture) : Res (Heap × FVoxelFuture) :=
  if Futures.length = 0 then .ok (h, { PromiseState := none })
  else
    let a := New h
    let c := MakeCounter a.1 (Futures.length : Int)
    (FromMany.loop fuel c.2 a.2 c.1 Futures).bind fun h2 =>
    .ok (h2, { PromiseState := some a.2 })

/-! ### A sequential client, and what holds of every heap it can reach -/

/-- One step of `exec`: the heap after the head of the stack has run, and the calls it
leaves to be made before the rest of the stack. -/
def step (h : Heap) : Work → Res (Heap × List Work)
  | .set p =>
    match h.Promises[p]? with
    | none => .fatal
    | some s =>
      if s.bIsComplete then .fatal
      else
        .ok ({ h with Promises := h.Promises.set p { bIsComplete := true, Continuations := [] },
                      Log := h.Log ++ [.set p] },
             s.Continuations.map Work.dispatch)
  | .dispatch c =>
    match c.Thread with
    | .Other _ => .ok ({ h with Log := h.Log ++ [.dispatched c] }, [])
    | .AnyThread =>
      match c.Continuation with
      | .user tag => .ok ({ h with Log := h.Log ++ [.ran tag] }, [])
      | .decrementThenSet Counter PromiseState =>
        match Decrement_ReturnNew h Counter with
        | .ok r => .ok (r.2, if r.1 == 0 then [.set PromiseState] else [])
        | .fatal => .fatal
        | .timeout => .timeout

/-- The heap before anything is allocated. -/
def emptyHeap : Heap :=
  { Promises := [], Counters := [], Log := [] }

/-- Whether `q` is a promise state of the heap that is not complete. -/
def incomplete (h : Heap) (q : Nat) : Bool :=
  match h.Promises[q]? with
  | some s => !s.bIsComplete
  | none => false

/-- The continuations queued on promise state `q`. -/
def queueOf (h : Heap) (q : Nat) : List FContinuation :=
  match h.Promises[q]? with
  | some s => s.Continuations
  | none => []

/-- The event by which a continuation that holds a user closure fires: the closure runs, or the
continuation is handed to the task dispatcher. -/
def fire (c : FContinuation) : Event :=
  match c.Thread, c.Continuation with
  | .AnyThread, .user tag => .ran tag
  | _, _ => .dispatched c

/-- A call the client can make. -/
inductive Action where
  | newPromise : Action
  | complete (p : Nat) : Action
  | attach (p : Nat) (Thread : EVoxelFutureThread) (tag : Nat) : Action
  | fromMany (Futures : List FVoxelFuture) : Action
deriving DecidableEq

/-- Run one call of the client: `IVoxelPromiseState::New(nullptr, false)`, `Set()` on a promise
state, `AddContinuation` of a user closure, or the aggregate constructor. -/
def applyAction (fuel : Nat) (h : Heap) : Action → Res Heap
  | .newPromise => .ok (New h).1
  | .complete p => IVoxelPromiseState.Set fuel h p
  | .attach p Thread tag =>
    IVoxelPromiseState.AddContinuation fuel h p { Thread := Thread, Continuation := .user tag }
  | .fromMany Futures => (FromMany fuel h Futures).bind fun r => .ok r.1

/-- Run the calls of the client in order. -/
def runActions (fuel : Nat) : List Action → Heap → Res Heap
  | [], h => .ok h
  | a :: rest, h => (applyAction fuel h a).bind fun h1 => runActions fuel rest h1

/-- What the client knows of the heap: how many promise states exist, which of them it has
completed, and which belong to aggregates. -/
structure Track where
  promises : Nat
  completed : List Nat
  aggregates : List Nat
deriving DecidableEq

/-- The knowledge of the client after one more call. -/
def trackStep (t : Track) : Action → Track
  | .newPromise => { t with promises := t.promises + 1 }
  | .complete p => { t with completed := p :: t.completed }
  | .attach _ _ _ => t
  | .fromMany Futures =>
    if Futures.length = 0 then t
    else { t with promises := t.promises + 1, aggregates := t.promises :: t.aggregates }

/-- The knowledge of the client after a sequence of calls. -/
def trackAll (t : Track) : List Action → Track
  | [] => t
  | a :: rest => trackAll (trackStep t a) rest

/-- Whether a future refers to a promise state that exists (a null future refers to none). -/
def refOk (n : Nat) (f : FVoxelFuture) : Bool :=
  match f.PromiseState with
  | none => true
  | some q => decide (q < n)

/-- The precondition of a call: references are to promise states that exist, and `Set()` is
called once per promise state and only on promise states the client created itself (the
promise state of an aggregate is completed by the aggregate). -/
def actionOk (t : Track) : Action → Bool
  | .newPromise => true
  | .complete p => decide (p < t.promises) && decide (p ∉ t.completed) &&
      decide (p ∉ t.aggregates)
  | .attach p _ _ => decide (p < t.promises)
  | .fromMany Futures => Futures.all (refOk t.promises)

/-- Every call of the sequence meets its precondition. -/
def actionsOk (t : Track) : List Action → Bool
  | [] => true
  | a :: rest => actionOk t a && actionsOk (trackStep t a) rest

/-- The fuel a call can add to what later calls of `Set()` need. -/
def cost : Action → Nat
  | .newPromise => 1
  | .complete _ => 1
  | .attach _ _ _ => 2
  | .fromMany Futures => 1 + 2 * Futures.length

/-- The fuel that any of the calls of a sequence needs at most. -/
def budget (acts : List Action) : Nat :=
  (acts.map cost).sum + 2

/-- The steps that completing a promise state costs: one for `Set()`, two for each queued
continuation (its dispatch and the `Set()` it may call). -/
def cell (s : FVoxelPromiseState) : Nat :=
  if s.bIsComplete then 0 else 1 + 2 * s.Continuations.length

/-- The steps that completing every incomplete promise state costs. -/
def load (h : Heap) : Nat :=
  (h.Promises.map cell).sum

/-- The steps a pending call costs. -/
def weight : Work → Nat
  | .set _ => 1
  | .dispatch _ => 2

/-- A bound on the steps `exec` makes from a heap and a stack. -/
def stepBound (h : Heap) (w : List Work) : Nat :=
  (w.map weight).sum + load h

/-- An aggregate under construction or constructed: its counter, its promise state, the number
of inputs and the promise states of the inputs that are not null. -/
structure Agg where
  C : Nat
  P : Nat
  N : Nat
  inputs : List Nat
deriving DecidableEq

/-- The continuation that the aggregate constructor attaches to a pending input, for the
counter `C` and the promise state `P`. -/
def closureOf (C P : Nat) : FContinuation :=
  { Thread := .AnyThread, Continuation := .decrementThenSet C P }

/-- The continuation that the aggregate attaches to a pending input. -/
def Agg.closure (a : Agg) : FContinuation :=
  closureOf a.C a.P

/-- The number of inputs of the aggregate, counted with repetition, that are not complete. -/
def pendingOf (h : Heap) (a : Agg) : Nat :=
  a.inputs.countP (incomplete h)

/-- The decrements the aggregate still expects: one per pending input and one per closure of
the aggregate that is on the stack. -/
def remaining (h : Heap) (w : List Work) (a : Agg) : Nat :=
  pendingOf h a + w.count (.dispatch a.closure)

/-- The value returned by a decrement of counter `C`, for an event that is one. -/
def decOf (C : Nat) : Event → Option Int
  | .decremented c v => if c = C then some v else none
  | _ => none

/-- The values returned by the decrements of counter `C`, in order. -/
def decsOf (C : Nat) (log : List Event) : List Int :=
  log.filterMap (decOf C)

/-- The values `N - 1, N - 2, ..., r`. -/
def countdown (N r : Nat) : List Int :=
  (List.range (N - r)).map fun i => ((N - 1 - i : Nat) : Int)

/-- A continuation is a user closure or the closure of one of the aggregates. -/
def ContOK (aggs : List Agg) (c : FContinuation) : Prop :=
  (∃ tag, c.Continuation = .user tag) ∨ ∃ a, a ∈ aggs ∧ c = a.closure

/-- What holds of an aggregate in every state of a run: each pending input has the closure of
the aggregate queued once per occurrence; the counter holds the number of decrements still
expected; the promise state of the aggregate is incomplete while that number is positive, and
once it is zero either a `Set()` on it is the one pending call of that kind or it is complete;
the decrements logged so far returned `N - 1` down to the value of the counter; and `Set()` was
logged for it once if it is complete and never otherwise. -/
structure AggInv (h : Heap) (w : List Work) (a : Agg) : Prop where
  inputsValid : ∀ q, q ∈ a.inputs → q < h.Promises.length
  queue : ∀ q, incomplete h q = true → (queueOf h q).count a.closure = a.inputs.count q
  counter : h.Counters[a.C]? = some ((remaining h w a : Nat) : Int)
  targetValid : a.P < h.Promises.length
  phasePos : 0 < remaining h w a → incomplete h a.P = true ∧ w.count (.set a.P) = 0
  phaseZero : remaining h w a = 0 →
    (incomplete h a.P = true ∧ w.count (.set a.P) = 1) ∨
      (incomplete h a.P = false ∧ w.count (.set a.P) = 0)
  le : remaining h w a ≤ a.N
  decs : decsOf a.C h.Log = countdown a.N (remaining h w a)
  sets : h.Log.count (.set a.P) = if incomplete h a.P then 0 else 1

/-- What holds of the heap and the stack in every state of a run. -/
structure Consistent (h : Heap) (w : List Work) (aggs : List Agg) : Prop where
  clean : ∀ q, incomplete h q = false → queueOf h q = []
  conts : ∀ q c, c ∈ queueOf h q → ContOK aggs c
  stack : ∀ c, Work.dispatch c ∈ w → ContOK aggs c
  setsOk : ∀ q, Work.set q ∈ w → incomplete h q = true
  setsOnce : ∀ q, w.count (.set q) ≤ 1
  distinctC : ∀ a b, a ∈ aggs → b ∈ aggs → a.C = b.C → a = b
  distinctP : ∀ a b, a ∈ aggs → b ∈ aggs → a.P = b.P → a = b
  logOk : ∀ e, e ∈ h.Log →
    (∀ c v, e = .decremented c v → c < h.Counters.length) ∧
      (∀ p, e = .set p → p < h.Promises.length)
  agg : ∀ a, a ∈ aggs → AggInv h w a

/-- The heap once `Set()` has marked promise state `p` complete and taken its queue. -/
def markComplete (h : Heap) (p : Nat) : Heap :=
  { h with Promises := h.Promises.set p { bIsComplete := true, Continuations := [] },
           Log := h.Log ++ [.set p] }

/-- The heap with one more event logged. -/
def withEvent (h : Heap) (e : Event) : Heap :=
  { h with Log := h.Log ++ [e] }

/-- The heap once counter `C` has been decremented to `v`. -/
def decrementTo (h : Heap) (C : Nat) (v : Int) : Heap :=
  { h with Counters := h.Counters.set C v, Log := h.Log ++ [.decremented C v] }

/-- The heap with continuation `c` appended to the queue of promise state `p`. -/
def enqueue (h : Heap) (p : Nat) (c : FContinuation) : Heap :=
  match h.Promises[p]? with
  | some s =>
    { h with Promises := h.Promises.set p { s with Continuations := s.Continuations ++ [c] } }
  | none => h

/-- The promise states of the inputs of the aggregate constructor that are not null. -/
def refsOf (Futures : List FVoxelFuture) : List Nat :=
  Futures.filterMap fun f => f.PromiseState

/-- How the knowledge of the client relates to the heap. -/
structure Tracked (t : Track) (h : Heap) (aggs : List Agg) : Prop where
  promises : h.Promises.length = t.promises
  completed : ∀ q, q < t.promises → q ∉ t.aggregates → (incomplete h q = false ↔ q ∈ t.completed)
  bound : ∀ q, q ∈ t.completed → q < t.promises
  aggregates : ∀ q, q ∈ t.aggregates ↔ ∃ a, a ∈ aggs ∧ a.P = q

/-- Whether a continuation holds a closure of the client. -/
def isUser (c : FContinuation) : Bool :=
  match c.Continuation with
  | .user _ => true
  | .decrementThenSet _ _ => false

/-- Attach continuations to one promise state, in order. -/
def attachAll (fuel : Nat) (p : Nat) : Heap → List FContinuation → Res Heap
  | h, [] => .ok h
  | h, c :: cs =>
    (IVoxelPromiseState.AddContinuation fuel h p c).bind fun h1 => attachAll fuel p h1 cs

/-! ### Threads under a scheduler -/

/-- The calls that the threads have pending, all together. -/
def pendingCalls : List (List Work) → List Work
  | [] => []
  | t :: ts => t ++ pendingCalls ts

/-- One atomic step of thread `t`: the call at the head of its pending calls runs as one step
of the engine, and the calls that step leaves are the next calls of the same thread. The
atomic steps are those of `step`: `Set()` marks the state complete and takes its pending
list in one step, `Decrement_ReturnNew` is one step, and the `Set()` that follows a decrement
which returned zero is a later step of the same thread, so that other threads run in
between. A thread with nothing pending, and a number that names no thread, leave everything
as it is. -/
def stepThread (h : Heap) (ts : List (List Work)) (t : Nat) : Res (Heap × List (List Work)) :=
  match ts[t]? with
  | some (x :: rest) => (step h x).bind fun r => .ok (r.1, ts.set t (r.2 ++ rest))
  | _ => .ok (h, ts)

/-- Run the threads under a schedule, the thread numbers in the order in which the threads
make their steps. -/
def runSchedule : List Nat → Heap → List (List Work) → Res (Heap × List (List Work))
  | [], h, ts => .ok (h, ts)
  | t :: sched, h, ts => (stepThread h ts t).bind fun r => runSchedule sched r.1 r.2

/-- The calls made before the threads start: `K` promise states are created, the aggregate of
their futures is constructed, and one continuation is attached to the aggregate. -/
def scenario (K : Nat) (Thread : EVoxelFutureThread) (tag : Nat) : List Action :=
  List.replicate K Action.newPromise ++
    [Action.fromMany ((List.range K).map fun i => { PromiseState := some i }),
     Action.attach K Thread tag]

/-- The threads of the scenario: thread `i` calls `Set()` on promise state `i`. -/
def completers (K : Nat) : List (List Work) :=
  (List.range K).map fun i => [Work.set i]

/-- How often a continuation is queued on a promise state. -/
def queued (h : Heap) (c : FContinuation) : Nat :=
  (h.Promises.map fun s => s.Continuations.count c).sum

/-- How often a continuation is queued, about to be dispatched, or has fired. -/
def accounted (h : Heap) (w : List Work) (c : FContinuation) : Nat :=
  queued h c + w.count (Work.dispatch c) + h.Log.count (fire c)

/-- What holds while the threads of the scenario run: the engine invariant over the calls
the threads have pending, the account of the continuation attached to the aggregate, and
that an input which is not yet complete still has its `Set()` pending. -/
structure Running (K : Nat) (c : FContinuation) (aggs : List Agg) (h : Heap)
    (ts : List (List Work)) : Prop where
  consistent : Consistent h (pendingCalls ts) aggs
  account : accounted h (pendingCalls ts) c = 1
  inputs : ∀ i, i < K → incomplete h i = true → Work.set i ∈ pendingCalls ts
  promises : h.Promises.length = K + 1

end VoxelFuture

/-!
IVoxelWorldSubsystem::GetInternal: the registry of world subsystems

Sequential embedding of `VoxelMinimal/VoxelWorldSubsystem.cpp` over the map above; the lock of
the manager is held for the whole call. A `TSharedPtr<IVoxelWorldSubsystem>` is an `Option`
(null is `none`), a reference that `FindOrAdd` returns is the index of its element, and a
write through such a reference is `assign`.
-/

namespace VoxelWorldSubsystem

open VoxelMap

/-- The class `IVoxelWorldSubsystem`: the field `PrivateWorld`, which `GetInternal` writes, and
the rest of the object the constructor built. -/
structure IVoxelWorldSubsystem (W O : Type) where
  PrivateWorld : W
  Object : O
deriving DecidableEq

/-- The class `FVoxelWorldSubsystemManager`: the map from world to name to subsystem; a null
`TSharedPtr` is `none`. -/
structure FVoxelWorldSubsystemManager (W N O : Type) where
  WorldToNameToSubsystem_RequiresLock :
    TVoxelMap W (TVoxelMap N (Option (IVoxelWorldSubsystem W O)))

/-- What a call of `GetInternal` leaves: the manager, the subsystem returned, and whether
`(*Constructor)()` was called. -/
structure GetInternalResult (W N O : Type) where
  Manager : FVoxelWorldSubsystemManager W N O
  Subsystem : IVoxelWorldSubsystem W O
  constructed : Bool

section Registry

variable {W N O : Type} [DecidableEq W] [DecidableEq N]

/-- Function `IVoxelWorldSubsystem::GetInternal(World, Name, Constructor)`, under the lock of
the manager. `FindOrAdd(World)` returns a reference to the map of the world, in which
`FindOrAdd(Name)` works in place and returns a reference to the shared pointer; a null
pointer is replaced by the subsystem the constructor returns, whose `PrivateWorld` is set.
The default of the outer `FindOrAdd` is the default-constructed map, that of the inner one
the null pointer. `ensureVoxelSlow(!World.IsExplicitlyNull())` reports and goes on. -/
def IVoxelWorldSubsystem.GetInternal (envW : Env W) (envN : Env N) (fuel : Nat)
    (GVoxelWorldSubsystemManager : FVoxelWorldSubsystemManager W N O) (World : W) (Name : N)
    (Constructor : Unit → IVoxelWorldSubsystem W O) : Res (GetInternalResult W N O) :=
  (FindOrAdd envW empty fuel
    GVoxelWorldSubsystemManager.WorldToNameToSubsystem_RequiresLock World).bind fun r1 =>
  (elemAt r1.1.Elements r1.2).bind fun WorldIt =>
  (FindOrAdd envN none fuel WorldIt.Value Name).bind fun r2 =>
  (elemAt r2.1.Elements r2.2).bind fun NameIt =>
  match NameIt.Value with
  | some Subsystem =>
    (assign r1.1 r1.2 r2.1).bind fun Map =>
    .ok { Manager := { WorldToNameToSubsystem_RequiresLock := Map },
          Subsystem := Subsystem, constructed := false }
  | none =>
    let Subsystem : IVoxelWorldSubsystem W O := { Constructor () with PrivateWorld := World }
    (assign r2.1 r2.2 (some Subsystem)).bind fun NameToSubsystem =>
    (assign r1.1 r1.2 NameToSubsystem).bind fun Map =>
    .ok { Manager := { WorldToNameToSubsystem_RequiresLock := Map },
          Subsystem := Subsystem, constructed := true }

/-- The entry of the registry for a world and a name: `none` when the world or the name has
no entry, `some none` for a null pointer, `some (some s)` for a subsystem. -/
def entryOf (envW : Env W) (envN : Env N) (fuel : Nat)
    (Manager : FVoxelWorldSubsystemManager W N O) (World : W) (Name : N) :
    Res (Option (Option (IVoxelWorldSubsystem W O))) :=
  (FindValue envW fuel Manager.WorldToNameToSubsystem_RequiresLock World).bind fun o =>
  match o with
  | none => .ok none
  | some NameToSubsystem => FindValue envN fuel NameToSubsystem Name

/-- A well-formed registry: the outer map and every map it holds are well-formed, and none
has more than `bound` elements. -/
structure RegOK (envW : Env W) (envN : Env N) (bound : Nat)
    (Manager : FVoxelWorldSubsystemManager W N O) : Prop where
  outer : WF envW Manager.WorldToNameToSubsystem_RequiresLock
  inner : ∀ w m, (w, m) ∈ entries Manager.WorldToNameToSubsystem_RequiresLock → WF envN m
  outerSize : Num Manager.WorldToNameToSubsystem_RequiresLock ≤ bound
  innerSize : ∀ w m, (w, m) ∈ entries Manager.WorldToNameToSubsystem_RequiresLock →
    Num m ≤ bound

end Registry

/-- The map of world `1` in the sample registry: subsystem `7` under name `0` and a null
pointer under name `1`. -/
def sampleNames : TVoxelMap Nat (Option (IVoxelWorldSubsystem Nat Nat)) :=
  { HashTable := [1], Elements := [⟨0, some ⟨1, 7⟩, -1⟩, ⟨1, none, 0⟩] }

/-- A sample registry, with the one world `1`. -/
def sampleManager : FVoxelWorldSubsystemManager Nat Nat Nat :=
  { WorldToNameToSubsystem_RequiresLock :=
      { HashTable := [0], Elements := [⟨1, sampleNames, -1⟩] } }

end VoxelWorldSubsystem

namespace VoxelMap

/-! ## Theorems -/

set_option linter.unusedSectionVars false

section Lemmas

variable {K V : Type} [DecidableEq K]

@[simp] theorem Res.ok_bind {α β : Type} (a : α) (f : α → Res β) : (Res.ok a).bind f = f a := rfl

@[simp] theorem Res.fatal_bind {α β : Type} (f : α → Res β) :
    (Res.fatal : Res α).bind f = Res.fatal := rfl

@[simp] theorem Res.timeout_bind {α β : Type} (f : α → Res β) :
    (Res.timeout : Res α).bind f = Res.timeout := rfl

@[simp] theorem check_true : check true = Res.ok () := rfl

@[simp] theorem check_false : check false = Res.fatal := rfl

theorem elemAt_nat (els : List (FElement K V)) (i : Nat) (e : FElement K V)
    (h : els[i]? = some e) : elemAt els (i : Int) = Res.ok e := by
  simp [elemAt, h]

theorem isChain_nil (els : List (FElement K V)) (h : Int) :
    isChain els h [] = true ↔ h = -1 := by
  simp [isChain]

theorem isChain_cons (els : List (FElement K V)) (h : Int) (i : Nat) (l : List Nat) :
    isChain els h (i :: l) = true ↔
      h = (i : Int) ∧ ∃ e, els[i]? = some e ∧ isChain els e.NextElementIndex l = true := by
  simp only [isChain, Bool.and_eq_true, beq_iff_eq]
  cases hi : els[i]? with
  | none => simp
  | some e => simp

/-- A chain only depends on the links of the elements it visits. -/
theorem isChain_frame (els els2 : List (FElement K V)) :
    ∀ (l : List Nat) (h : Int),
      (∀ i, i ∈ l → ∀ e, els[i]? = some e →
        ∃ e2, els2[i]? = some e2 ∧ e2.NextElementIndex = e.NextElementIndex) →
      isChain els h l = true → isChain els2 h l = true := by
  intro l
  induction l with
  | nil => intro h _ hc; simpa [isChain] using hc
  | cons i l ih =>
    intro h hfr hc
    rw [isChain_cons] at hc ⊢
    obtain ⟨hh, e, he, hrest⟩ := hc
    obtain ⟨e2, he2, hn⟩ := hfr i (List.mem_cons_self _ _) e he
    refine ⟨hh, e2, he2, ?_⟩
    rw [hn]
    exact ih _ (fun j hj => hfr j (List.mem_cons_of_mem _ hj)) hrest

/-- The loop of `FindHashed` walks a chain and stops at its first element holding the key. -/
theorem FindHashed_loop_chain (els : List (FElement K V)) (k : K) :
    ∀ (l : List Nat) (h : Int) (fuel : Nat), isChain els h l = true → l.length < fuel →
      FindHashed.loop els k fuel h = Res.ok (l.find? (keyIs els k)) := by
  intro l
  induction l with
  | nil =>
    intro h fuel hc hf
    rw [isChain_nil] at hc
    cases fuel with
    | zero => simp at hf
    | succ f => simp [FindHashed.loop, hc]
  | cons i l ih =>
    intro h fuel hc hf
    rw [isChain_cons] at hc
    obtain ⟨hh, e, he, hrest⟩ := hc
    cases fuel with
    | zero => simp at hf
    | succ f =>
      have hne : (i : Int) ≠ -1 := by omega
      subst hh
      simp only [FindHashed.loop, if_neg hne, elemAt_nat els i e he, Res.ok_bind]
      by_cases hk : e.Key = k
      · simp [hk, List.find?, keyIs, he]
      · have hf2 : l.length < f := by simpa using hf
        simp [hk, List.find?, keyIs, he, ih _ f hrest hf2]

theorem chain_length_le (l : List Nat) (n : Nat) (hn : l.Nodup) (hlt : ∀ i, i ∈ l → i < n) :
    l.length ≤ n := by
  have hsub : l ⊆ List.range n := fun i hi => List.mem_range.mpr (hlt i hi)
  have := (List.subperm_of_subset hn hsub).length_le
  simpa using this

theorem bucketOf_lt (env : Env K) (s : Nat) (k : K) (hs : 0 < s) : bucketOf env s k < s := by
  have : HashValue env k &&& (s - 1) ≤ s - 1 := Nat.and_le_right
  unfold bucketOf
  omega

theorem GetElementIndex_ok (m : TVoxelMap K V) (H : Nat)
    (hp : IsPowerOfTwo m.HashTable.length = true) (hs : 0 < m.HashTable.length) :
    GetElementIndex m H = Res.ok (H &&& (m.HashTable.length - 1)) := by
  have hne : (m.HashTable.length != 0) = true := by
    simp only [bne_iff_ne, ne_eq]; omega
  simp [GetElementIndex, hne, hp]

theorem CheckInvariants_ok (env : Env K) (m : TVoxelMap K V)
    (hsz : 0 < m.Elements.length → GetHashSize env m.Elements.length ≤ m.HashTable.length) :
    CheckInvariants env m = Res.ok () := by
  unfold CheckInvariants
  split
  · rename_i h
    simp [check, hsz h]
  · rfl

theorem Linked.length_le {env : Env K} {m : TVoxelMap K V} {ch : Nat → List Nat}
    (hl : Linked env m (fun i => i < m.Elements.length) ch) (b : Nat)
    (hb : b < m.HashTable.length) : (ch b).length ≤ m.Elements.length :=
  chain_length_le _ _ (hl.nodup b hb) (fun i hi => (hl.sound b hb i hi).1)

/-- On a well-formed map `Find` is the search of the chain of the key's bucket. -/
theorem Find_chain (env : Env K) (m : TVoxelMap K V) (ch : Nat → List Nat) (fuel : Nat) (k : K)
    (hwf : WFWith env m ch) (hfuel : m.Elements.length < fuel)
    (hs : 0 < m.HashTable.length) :
    Find env fuel m k =
      Res.ok ((ch (bucketOf env m.HashTable.length k)).find? (keyIs m.Elements k)) := by
  have hb := bucketOf_lt env m.HashTable.length k hs
  obtain ⟨h, hh, hc⟩ := hwf.linked.chain _ hb
  have hlen := hwf.linked.length_le _ hb
  have hne : m.HashTable.length ≠ 0 := by omega
  unfold Find FindHashed
  simp only [beq_self_eq_true, check_true, Res.ok_bind, CheckInvariants_ok env m hwf.sizing,
    if_neg hne, GetElementIndex_ok m _ hwf.pow2 hs]
  have ht : tableAt m.HashTable (HashValue env k &&& (m.HashTable.length - 1)) = Res.ok h := by
    unfold bucketOf at hh
    simp [tableAt, hh]
  rw [ht, Res.ok_bind]
  exact FindHashed_loop_chain m.Elements k _ h fuel hc (by omega)

/-- Calling `Find` on a key held at index `j` returns the pointer to that element. -/
theorem Find_present (env : Env K) (m : TVoxelMap K V) (fuel : Nat) (k : K) (j : Nat)
    (e : FElement K V) (hwf : WF env m) (hfuel : m.Elements.length < fuel)
    (he : m.Elements[j]? = some e) (hk : e.Key = k) :
    Find env fuel m k = Res.ok (some j) := by
  obtain ⟨ch, hw⟩ := hwf
  have hj : j < m.Elements.length := by
    rcases List.getElem?_eq_some_iff.mp he with ⟨h, _⟩; exact h
  have hs : 0 < m.HashTable.length := hw.tablePos (by omega)
  rw [Find_chain env m ch fuel k hw hfuel hs]
  have hmem : j ∈ ch (bucketOf env m.HashTable.length k) := by
    have := hw.linked.complete j e hj he
    rwa [hk] at this
  cases hf : (ch (bucketOf env m.HashTable.length k)).find? (keyIs m.Elements k) with
  | none =>
    rw [List.find?_eq_none] at hf
    have := hf j hmem
    simp [keyIs, he, hk] at this
  | some x =>
    have hx := List.find?_some hf
    unfold keyIs at hx
    cases hex : m.Elements[x]? with
    | none => simp [hex] at hx
    | some ex =>
      simp only [hex, decide_eq_true_eq] at hx
      have := hw.keys x j ex e hex he (by rw [hx, hk])
      rw [this]

/-- Calling `Find` on a key held by no element returns `nullptr`. -/
theorem Find_absent (env : Env K) (m : TVoxelMap K V) (fuel : Nat) (k : K)
    (hwf : WF env m) (hfuel : m.Elements.length < fuel)
    (hk : ∀ (j : Nat) (e : FElement K V), m.Elements[j]? = some e → e.Key ≠ k) :
    Find env fuel m k = Res.ok none := by
  obtain ⟨ch, hw⟩ := hwf
  by_cases hs : 0 < m.HashTable.length
  · rw [Find_chain env m ch fuel k hw hfuel hs]
    congr 1
    rw [List.find?_eq_none]
    intro x _
    unfold keyIs
    cases hex : m.Elements[x]? with
    | none => simp
    | some ex => simpa using hk x ex hex
  · have h0 : m.HashTable.length = 0 := by omega
    unfold Find FindHashed
    simp [CheckInvariants_ok env m hw.sizing, h0]

theorem linearFindFrom_present (k : K) :
    ∀ (els : List (FElement K V)) (off j : Nat) (e : FElement K V),
      els[j]? = some e → e.Key = k →
      (∀ (i : Nat) (e2 : FElement K V), i < j → els[i]? = some e2 → e2.Key ≠ k) →
      linearFindFrom k els off = some (off + j) := by
  intro els
  induction els with
  | nil => intro off j e he; simp at he
  | cons a rest ih =>
    intro off j e he hk hfirst
    cases j with
    | zero =>
      simp only [List.getElem?_cons_zero, Option.some.injEq] at he
      subst he
      simp [linearFindFrom, hk]
    | succ j =>
      have ha : a.Key ≠ k := hfirst 0 a (by omega) (by simp)
      simp only [List.getElem?_cons_succ] at he
      simp only [linearFindFrom, if_neg ha]
      rw [ih (off + 1) j e he hk (fun i e2 hi h2 => hfirst (i + 1) e2 (by omega) (by simpa using h2))]
      congr 1
      omega

theorem linearFindFrom_absent (k : K) :
    ∀ (els : List (FElement K V)) (off : Nat),
      (∀ (i : Nat) (e2 : FElement K V), els[i]? = some e2 → e2.Key ≠ k) →
      linearFindFrom k els off = none := by
  intro els
  induction els with
  | nil => intro off _; rfl
  | cons a rest ih =>
    intro off h
    have ha : a.Key ≠ k := h 0 a (by simp)
    simp only [linearFindFrom, if_neg ha]
    exact ih (off + 1) (fun i e2 h2 => h (i + 1) e2 (by simpa using h2))

theorem linearFind_present (m : TVoxelMap K V) (k : K) (j : Nat) (e : FElement K V)
    (hu : KeysUnique m.Elements) (he : m.Elements[j]? = some e) (hk : e.Key = k) :
    linearFind m k = some j := by
  have := linearFindFrom_present k m.Elements 0 j e he hk (by
    intro i e2 hi h2 hk2
    have := hu i j e2 e h2 he (by rw [hk2, hk])
    omega)
  simpa [linearFind] using this

theorem linearFind_absent (m : TVoxelMap K V) (k : K)
    (hk : ∀ (j : Nat) (e : FElement K V), m.Elements[j]? = some e → e.Key ≠ k) : linearFind m k = none :=
  linearFindFrom_absent k m.Elements 0 hk

/-- Either some element holds the key or none does. -/
theorem present_or_absent (els : List (FElement K V)) (k : K) :
    (∃ (j : Nat) (e : FElement K V), els[j]? = some e ∧ e.Key = k) ∨
      (∀ (j : Nat) (e : FElement K V), els[j]? = some e → e.Key ≠ k) := by
  by_cases h : ∃ (j : Nat) (e : FElement K V), els[j]? = some e ∧ e.Key = k
  · exact Or.inl h
  · refine Or.inr fun j e he hk => h ⟨j, e, he, hk⟩

/-- The hashed lookup agrees with the linear search of the element array. -/
theorem Find_eq_linearFind (env : Env K) (m : TVoxelMap K V) (fuel : Nat) (k : K)
    (hwf : WF env m) (hfuel : m.Elements.length < fuel) :
    Find env fuel m k = Res.ok (linearFind m k) := by
  rcases present_or_absent m.Elements k with ⟨j, e, he, hk⟩ | habs
  · rw [Find_present env m fuel k j e hwf hfuel he hk]
    obtain ⟨ch, hw⟩ := hwf
    rw [linearFind_present m k j e hw.keys he hk]
  · rw [Find_absent env m fuel k hwf hfuel habs, linearFind_absent m k habs]

theorem setChain_same (ch : Nat → List Nat) (b : Nat) (l : List Nat) :
    setChain ch b l b = l := by
  simp [setChain]

theorem setChain_ne (ch : Nat → List Nat) (b : Nat) (l : List Nat) (x : Nat) (h : x ≠ b) :
    setChain ch b l x = ch x := by
  simp [setChain, h]

theorem Linked.congr {env : Env K} {m : TVoxelMap K V} {S S2 : Nat → Prop} {ch : Nat → List Nat}
    (hl : Linked env m S ch) (hS : ∀ i, S i ↔ S2 i) : Linked env m S2 ch :=
  { chain := hl.chain
    nodup := hl.nodup
    sound := fun b hb i hi => ⟨(hS i).mp (hl.sound b hb i hi).1, (hl.sound b hb i hi).2⟩
    complete := fun i e hi he => hl.complete i e ((hS i).mpr hi) he }

/-- The index structure is untouched by changes to elements that are not linked. -/
theorem Linked.frame {env : Env K} {m m2 : TVoxelMap K V} {S : Nat → Prop}
    {ch : Nat → List Nat} (hl : Linked env m S ch) (ht : m2.HashTable = m.HashTable)
    (he : ∀ i, S i → m2.Elements[i]? = m.Elements[i]?) : Linked env m2 S ch := by
  refine ⟨?_, ?_, ?_, ?_⟩
  · intro b hb
    rw [ht] at hb ⊢
    obtain ⟨h, hh, hc⟩ := hl.chain b hb
    refine ⟨h, hh, isChain_frame m.Elements m2.Elements _ h ?_ hc⟩
    intro i hi e hie
    refine ⟨e, ?_, rfl⟩
    rw [he i (hl.sound b hb i hi).1, hie]
  · intro b hb
    rw [ht] at hb
    exact hl.nodup b hb
  · intro b hb i hi
    rw [ht] at hb ⊢
    obtain ⟨hS, e, hie, hbk⟩ := hl.sound b hb i hi
    exact ⟨hS, e, by rw [he i hS, hie], hbk⟩
  · intro i e hS hie
    rw [ht]
    rw [he i hS] at hie
    exact hl.complete i e hS hie

/-- One iteration of the loop of `Rehash` links index `j` at the head of its bucket. -/
theorem Linked_step (env : Env K) (m : TVoxelMap K V) (ch : Nat → List Nat) (j : Nat)
    (e : FElement K V) (hl : Linked env m (fun i => i < j) ch)
    (hp : IsPowerOfTwo m.HashTable.length = true) (hs : 0 < m.HashTable.length)
    (he : m.Elements[j]? = some e) :
    ∃ h, m.HashTable[bucketOf env m.HashTable.length e.Key]? = some h ∧
      Rehash.step env m j = Res.ok
        { HashTable := m.HashTable.set (bucketOf env m.HashTable.length e.Key) j,
          Elements := m.Elements.set j { e with NextElementIndex := h } } ∧
      Linked env
        { HashTable := m.HashTable.set (bucketOf env m.HashTable.length e.Key) j,
          Elements := m.Elements.set j { e with NextElementIndex := h } }
        (fun i => i < j + 1)
        (setChain ch (bucketOf env m.HashTable.length e.Key)
          (j :: ch (bucketOf env m.HashTable.length e.Key))) := by
  have hb := bucketOf_lt env m.HashTable.length e.Key hs
  obtain ⟨h, hh, hc⟩ := hl.chain _ hb
  have hjlen : j < m.Elements.length := by
    rcases List.getElem?_eq_some_iff.mp he with ⟨h1, _⟩; exact h1
  have hnotin : ∀ b, b < m.HashTable.length → j ∉ ch b := by
    intro b hb2 hmem
    have := (hl.sound b hb2 j hmem).1
    simp at this
  have hget : ∀ i, i ≠ j →
      (m.Elements.set j { e with NextElementIndex := h })[i]? = m.Elements[i]? := by
    intro i hij
    rw [List.getElem?_set_ne (Ne.symm hij)]
  have hgetj : (m.Elements.set j { e with NextElementIndex := h })[j]? =
      some { e with NextElementIndex := h } := by
    rw [List.getElem?_set]; simp [hjlen]
  have hframe : ∀ b, b < m.HashTable.length → ∀ h2,
      isChain m.Elements h2 (ch b) = true →
      isChain (m.Elements.set j { e with NextElementIndex := h }) h2 (ch b) = true := by
    intro b hb2 h2 hc2
    refine isChain_frame _ _ _ h2 ?_ hc2
    intro i hi e1 he1
    have hij : i ≠ j := fun hij => hnotin b hb2 (hij ▸ hi)
    exact ⟨e1, by rw [hget i hij, he1], rfl⟩
  refine ⟨h, hh, ?_, ?_, ?_, ?_, ?_⟩
  · unfold Rehash.step
    rw [elemAt_nat _ _ _ he, Res.ok_bind, GetElementIndex_ok m _ hp hs, Res.ok_bind]
    unfold bucketOf at hh ⊢
    simp [tableAt, hh]
  · intro b hb2
    simp only [List.length_set] at hb2
    by_cases hbb : b = bucketOf env m.HashTable.length e.Key
    · subst hbb
      refine ⟨(j : Int), ?_, ?_⟩
      · simp only [List.getElem?_set]; simp [hb2]
      · simp only [setChain_same]
        rw [isChain_cons]
        exact ⟨rfl, _, hgetj, hframe _ hb2 h hc⟩
    · obtain ⟨h2, hh2, hc2⟩ := hl.chain b hb2
      refine ⟨h2, ?_, ?_⟩
      · simp only []
        rw [List.getElem?_set_ne (Ne.symm hbb)]; exact hh2
      · rw [setChain_ne _ _ _ _ hbb]
        exact hframe b hb2 h2 hc2
  · intro b hb2
    simp only [List.length_set] at hb2
    by_cases hbb : b = bucketOf env m.HashTable.length e.Key
    · subst hbb
      simp only [setChain_same]
      exact List.nodup_cons.mpr ⟨hnotin _ hb2, hl.nodup _ hb2⟩
    · rw [setChain_ne _ _ _ _ hbb]
      exact hl.nodup b hb2
  · intro b hb2 i hi
    simp only [List.length_set] at hb2 ⊢
    by_cases hbb : b = bucketOf env m.HashTable.length e.Key
    · subst hbb
      simp only [setChain_same, List.mem_cons] at hi
      rcases hi with hi | hi
      · subst hi
        exact ⟨by omega, _, hgetj, rfl⟩
      · obtain ⟨hS, e1, he1, hb1⟩ := hl.sound _ hb2 i hi
        have hij : i ≠ j := fun hij => hnotin _ hb2 (hij ▸ hi)
        exact ⟨Nat.lt_succ_of_lt hS, e1, by rw [hget i hij, he1], hb1⟩
    · rw [setChain_ne _ _ _ _ hbb] at hi
      obtain ⟨hS, e1, he1, hb1⟩ := hl.sound _ hb2 i hi
      have hij : i ≠ j := fun hij => hnotin _ hb2 (hij ▸ hi)
      exact ⟨Nat.lt_succ_of_lt hS, e1, by rw [hget i hij, he1], hb1⟩
  · intro i e1 hi he1
    simp only [List.length_set] at he1 ⊢
    by_cases hij : i = j
    · subst hij
      rw [hgetj] at he1
      simp only [Option.some.injEq] at he1
      subst he1
      simp [setChain_same]
    · rw [hget i hij] at he1
      have him : i ∈ ch (bucketOf env m.HashTable.length e1.Key) :=
        hl.complete i e1 (by show i < j; omega) he1
      by_cases hbb : bucketOf env m.HashTable.length e1.Key =
          bucketOf env m.HashTable.length e.Key
      · rw [hbb, setChain_same]
        rw [hbb] at him
        exact List.mem_cons_of_mem _ him
      · rw [setChain_ne _ _ _ _ hbb]
        exact him

theorem entries_set_next (els : List (FElement K V)) (j : Nat) (e : FElement K V) (h : Int)
    (he : els[j]? = some e) :
    (els.set j { e with NextElementIndex := h }).map (fun e => (e.Key, e.Value)) =
      els.map (fun e => (e.Key, e.Value)) := by
  apply List.ext_getElem?
  intro i
  simp only [List.getElem?_map, List.getElem?_set]
  by_cases hij : j = i
  · subst hij
    have hj : j < els.length := by
      rcases List.getElem?_eq_some_iff.mp he with ⟨h1, _⟩; exact h1
    simp [hj, he]
  · simp [hij]

/-- Maps with the same entries hold the same keys and values at every index. -/
theorem entries_getElem? (m m2 : TVoxelMap K V) (h : entries m2 = entries m) (i : Nat)
    (e2 : FElement K V) (he : m2.Elements[i]? = some e2) :
    ∃ e, m.Elements[i]? = some e ∧ e.Key = e2.Key ∧ e.Value = e2.Value := by
  have h1 : (entries m2)[i]? = some (e2.Key, e2.Value) := by
    simp [entries, he]
  rw [h] at h1
  simp only [entries, List.getElem?_map, Option.map_eq_some', Prod.mk.injEq] at h1
  obtain ⟨e, he1, hk, hv⟩ := h1
  exact ⟨e, he1, hk, hv⟩

theorem entries_length (m m2 : TVoxelMap K V) (h : entries m2 = entries m) :
    m2.Elements.length = m.Elements.length := by
  have := congrArg List.length h
  simpa [entries] using this

theorem KeysUnique_of_entries (m m2 : TVoxelMap K V) (h : entries m2 = entries m)
    (hu : KeysUnique m.Elements) : KeysUnique m2.Elements := by
  intro i j e1 e2 h1 h2 hk
  obtain ⟨a1, ha1, hk1, _⟩ := entries_getElem? m m2 h i e1 h1
  obtain ⟨a2, ha2, hk2, _⟩ := entries_getElem? m m2 h j e2 h2
  exact hu i j a1 a2 ha1 ha2 (by rw [hk1, hk2, hk])

/-- One iteration of the loop of `Rehash` succeeds, keeps the entries and the table size, and
extends the linked prefix by one index. -/
theorem Rehash_step_spec (env : Env K) (m : TVoxelMap K V) (ch : Nat → List Nat) (j : Nat)
    (hl : Linked env m (fun i => i < j) ch)
    (hp : IsPowerOfTwo m.HashTable.length = true) (hs : 0 < m.HashTable.length)
    (hj : j < m.Elements.length) :
    ∃ m2 ch2, Rehash.step env m j = Res.ok m2 ∧
      m2.HashTable.length = m.HashTable.length ∧ entries m2 = entries m ∧
      Linked env m2 (fun i => i < j + 1) ch2 := by
  obtain ⟨h, _, hstep, hl2⟩ := Linked_step env m ch j (m.Elements[j]) hl hp hs
    (List.getElem?_eq_getElem hj)
  refine ⟨_, _, hstep, ?_, ?_, hl2⟩
  · simp only [List.length_set]
  · exact entries_set_next m.Elements j _ h (List.getElem?_eq_getElem hj)

/-- The loop of `Rehash` links the remaining indices and keeps keys, values and table size. -/
theorem Rehash_loop_spec (env : Env K) :
    ∀ (count j : Nat) (m : TVoxelMap K V) (ch : Nat → List Nat),
      j + count = m.Elements.length → Linked env m (fun i => i < j) ch →
      IsPowerOfTwo m.HashTable.length = true → 0 < m.HashTable.length →
      ∃ m2 ch2, Rehash.loop env count j m = Res.ok m2 ∧
        m2.HashTable.length = m.HashTable.length ∧ entries m2 = entries m ∧
        Linked env m2 (fun i => i < m2.Elements.length) ch2 := by
  intro count
  induction count with
  | zero =>
    intro j m ch hj hl _ _
    refine ⟨m, ch, rfl, rfl, rfl, hl.congr ?_⟩
    intro i
    simp only [Nat.add_zero] at hj
    rw [hj]
  | succ c ih =>
    intro j m ch hj hl hp hs
    have hjlen : j < m.Elements.length := by omega
    obtain ⟨m1, ch1, hstep, hlen1, hent1, hl2⟩ := Rehash_step_spec env m ch j hl hp hs hjlen
    obtain ⟨m2, ch2, hloop, hlen, hent, hl3⟩ := ih (j + 1) m1 ch1
      (by rw [entries_length m m1 hent1]; omega) hl2
      (by rw [hlen1]; exact hp) (by rw [hlen1]; exact hs)
    refine ⟨m2, ch2, ?_, by rw [hlen, hlen1], by rw [hent, hent1], hl3⟩
    simp only [Rehash.loop, hstep, Res.ok_bind]
    exact hloop

theorem IsPowerOfTwo_max (a b : Nat) (ha : IsPowerOfTwo a = true) (hb : IsPowerOfTwo b = true) :
    IsPowerOfTwo (max a b) = true := by
  rcases max_choice a b with h | h <;> rw [h] <;> assumption

/-- Calling `Rehash` succeeds on any element array with unique keys and yields a well-formed map
with the same entries. -/
theorem Rehash_spec (env : Env K) (m : TVoxelMap K V) (hE : EnvOK env)
    (hp : IsPowerOfTwo m.HashTable.length = true) (hu : KeysUnique m.Elements) :
    ∃ m2, Rehash env m = Res.ok m2 ∧
      m2.HashTable.length = max m.HashTable.length (GetHashSize env m.Elements.length) ∧
      entries m2 = entries m ∧ WF env m2 := by
  have hp2 := IsPowerOfTwo_max _ _ hp (hE.pow2 m.Elements.length)
  have hpos : 0 < max m.HashTable.length (GetHashSize env m.Elements.length) :=
    lt_of_lt_of_le (hE.pos m.Elements.length) (le_max_right _ _)
  have hinit : Linked env
      ({ HashTable := List.replicate
            (max m.HashTable.length (GetHashSize env m.Elements.length)) (-1),
         Elements := m.Elements } : TVoxelMap K V) (fun i => i < 0) (fun _ => []) := by
    refine ⟨?_, ?_, ?_, ?_⟩
    · intro b hb
      simp only [List.length_replicate] at hb
      exact ⟨-1, by simp [hb], by simp [isChain]⟩
    · intro b _; exact List.nodup_nil
    · intro b _ i hi; simp at hi
    · intro i e hi; simp at hi
  obtain ⟨m2, ch2, hloop, hlen, hent, hl⟩ := Rehash_loop_spec env m.Elements.length 0 _ _
    (by simp) hinit (by simpa using hp2) (by simpa using hpos)
  simp only [List.length_replicate] at hlen
  have hent2 : entries m2 = entries m := hent
  have hn := entries_length m m2 hent2
  refine ⟨m2, ?_, hlen, hent2, ch2, ?_⟩
  · simp only [Rehash, hp2, check_true, Res.ok_bind]
    exact hloop
  · refine ⟨by rw [hlen]; exact hp2, fun _ => by rw [hlen]; exact hpos, ?_,
      KeysUnique_of_entries m m2 hent2 hu, hl⟩
    intro _
    rw [hlen, hn]
    exact le_max_right _ _

theorem mem_entries_iff (m : TVoxelMap K V) (k : K) (v : V) :
    (k, v) ∈ entries m ↔
      ∃ (j : Nat) (e : FElement K V), m.Elements[j]? = some e ∧ e.Key = k ∧ e.Value = v := by
  simp only [entries, List.mem_map, Prod.mk.injEq]
  constructor
  · rintro ⟨e, he, hk, hv⟩
    obtain ⟨j, hj⟩ := List.mem_iff_getElem?.mp he
    exact ⟨j, e, hj, hk, hv⟩
  · rintro ⟨j, e, hj, hk, hv⟩
    exact ⟨e, List.mem_iff_getElem?.mpr ⟨j, hj⟩, hk, hv⟩

/-- Reading through `Find` yields the value stored with the key. -/
theorem FindValue_of_mem (env : Env K) (m : TVoxelMap K V) (fuel : Nat) (k : K) (v : V)
    (hwf : WF env m) (hfuel : m.Elements.length < fuel) (hm : (k, v) ∈ entries m) :
    FindValue env fuel m k = Res.ok (some v) := by
  obtain ⟨j, e, hj, hk, hv⟩ := (mem_entries_iff m k v).mp hm
  simp [FindValue, Find_present env m fuel k j e hwf hfuel hj hk, deref, hj, hv]

theorem FindValue_of_not_mem (env : Env K) (m : TVoxelMap K V) (fuel : Nat) (k : K)
    (hwf : WF env m) (hfuel : m.Elements.length < fuel) (hm : ∀ v, (k, v) ∉ entries m) :
    FindValue env fuel m k = Res.ok none := by
  have habs : ∀ (j : Nat) (e : FElement K V), m.Elements[j]? = some e → e.Key ≠ k := by
    intro j e hj hk
    exact hm e.Value ((mem_entries_iff m k e.Value).mpr ⟨j, e, hj, hk, rfl⟩)
  simp [FindValue, Find_absent env m fuel k hwf hfuel habs, deref]

/-- Two well-formed maps that hold the same entries for a key answer `Find` alike. -/
theorem FindValue_congr (env : Env K) (m m2 : TVoxelMap K V) (fuel fuel2 : Nat) (k : K)
    (hwf : WF env m) (hwf2 : WF env m2) (hfuel : m.Elements.length < fuel)
    (hfuel2 : m2.Elements.length < fuel2)
    (h : ∀ v, (k, v) ∈ entries m ↔ (k, v) ∈ entries m2) :
    FindValue env fuel m k = FindValue env fuel2 m2 k := by
  by_cases hex : ∃ v, (k, v) ∈ entries m
  · obtain ⟨v, hv⟩ := hex
    rw [FindValue_of_mem env m fuel k v hwf hfuel hv,
      FindValue_of_mem env m2 fuel2 k v hwf2 hfuel2 ((h v).mp hv)]
  · have h1 : ∀ v, (k, v) ∉ entries m := fun v hv => hex ⟨v, hv⟩
    have h2 : ∀ v, (k, v) ∉ entries m2 := fun v hv => hex ⟨v, (h v).mpr hv⟩
    rw [FindValue_of_not_mem env m fuel k hwf hfuel h1,
      FindValue_of_not_mem env m2 fuel2 k hwf2 hfuel2 h2]

theorem KeysUnique_append (els : List (FElement K V)) (x : FElement K V)
    (hu : KeysUnique els)
    (habs : ∀ (j : Nat) (e : FElement K V), els[j]? = some e → e.Key ≠ x.Key) :
    KeysUnique (els ++ [x]) := by
  have hget : ∀ (i : Nat) (e : FElement K V), (els ++ [x])[i]? = some e →
      (i < els.length ∧ els[i]? = some e) ∨ (i = els.length ∧ e = x) := by
    intro i e he
    by_cases hi : i < els.length
    · left
      rw [List.getElem?_append_left hi] at he
      exact ⟨hi, he⟩
    · right
      have hi2 : i < (els ++ [x]).length := by
        rcases List.getElem?_eq_some_iff.mp he with ⟨h1, _⟩; exact h1
      simp only [List.length_append, List.length_singleton] at hi2
      have hi3 : i = els.length := by omega
      subst hi3
      rw [List.getElem?_concat_length] at he
      exact ⟨rfl, (Option.some.inj he).symm⟩
  intro i j e1 e2 h1 h2 hk
  rcases hget i e1 h1 with ⟨_, h1⟩ | ⟨hi, he1⟩ <;> rcases hget j e2 h2 with ⟨_, h2⟩ | ⟨hj, he2⟩
  · exact hu i j e1 e2 h1 h2 hk
  · rw [he2] at hk
    exact absurd hk (habs i e1 h1)
  · rw [he1] at hk
    exact absurd hk.symm (habs j e2 h2)
  · omega

/-- When no growth is needed, the writing part of `AddHashed_CheckNew` is one iteration of the
loop of `Rehash` at the new index. -/
theorem AddHashed_CheckNew_body_eq_step (env : Env K) (m : TVoxelMap K V) (k : K) (v : V)
    (hge : ¬ m.HashTable.length < GetHashSize env (m.Elements.length + 1)) :
    AddHashed_CheckNew.body env m (HashValue env k) k v =
      (Rehash.step env
        { m with Elements := m.Elements ++ [{ Key := k, Value := v, NextElementIndex := -16 }] }
        m.Elements.length).bind fun m2 => Res.ok (m2, m.Elements.length) := by
  unfold AddHashed_CheckNew.body Rehash.step
  simp only [List.length_append, List.length_singleton, if_neg hge]
  rw [elemAt_nat _ _ _ (List.getElem?_concat_length _ _)]
  simp only [Res.ok_bind]
  cases GetElementIndex
      ({ m with Elements := m.Elements ++ [{ Key := k, Value := v, NextElementIndex := -16 }] } :
        TVoxelMap K V) (HashValue env k) with
  | ok b =>
    simp only [Res.ok_bind]
    cases tableAt m.HashTable b <;> rfl
  | fatal => rfl
  | timeout => rfl

/-- The writing part of `AddHashed_CheckNew`, on a well-formed map without the key, appends
the entry and keeps the map well-formed. -/
theorem AddHashed_CheckNew_body_spec (env : Env K) (m : TVoxelMap K V) (k : K) (v : V)
    (hE : EnvOK env) (hwf : WF env m)
    (habs : ∀ (j : Nat) (e : FElement K V), m.Elements[j]? = some e → e.Key ≠ k) :
    ∃ m2, AddHashed_CheckNew.body env m (HashValue env k) k v =
        Res.ok (m2, m.Elements.length) ∧
      entries m2 = entries m ++ [(k, v)] ∧ WF env m2 := by
  obtain ⟨ch, hw⟩ := hwf
  have hu : KeysUnique (m.Elements ++ [({ Key := k, Value := v, NextElementIndex := -16 } :
      FElement K V)]) := KeysUnique_append _ _ hw.keys habs
  have hent1 : entries ({ m with Elements := m.Elements ++
      [{ Key := k, Value := v, NextElementIndex := -16 }] } : TVoxelMap K V) =
      entries m ++ [(k, v)] := by
    simp [entries]
  by_cases hlt : m.HashTable.length < GetHashSize env (m.Elements.length + 1)
  · obtain ⟨m2, hre, _, hent, hwf2⟩ := Rehash_spec env
      ({ m with Elements := m.Elements ++ [{ Key := k, Value := v, NextElementIndex := -16 }] })
      hE hw.pow2 hu
    refine ⟨m2, ?_, by rw [hent, hent1], hwf2⟩
    unfold AddHashed_CheckNew.body
    simp only [List.length_append, List.length_singleton, if_pos hlt]
    rw [hre]
    rfl
  · have hge : GetHashSize env (m.Elements.length + 1) ≤ m.HashTable.length := by omega
    have hs : 0 < m.HashTable.length := lt_of_lt_of_le (hE.pos _) hge
    have hl1 : Linked env
        ({ m with Elements := m.Elements ++
            [{ Key := k, Value := v, NextElementIndex := -16 }] } : TVoxelMap K V)
        (fun i => i < m.Elements.length) ch :=
      hw.linked.frame rfl (fun i hi => List.getElem?_append_left hi)
    obtain ⟨m2, ch2, hstep, hlen, hent, hl2⟩ := Rehash_step_spec env _ ch m.Elements.length hl1
      hw.pow2 hs (by simp)
    have hn : m2.Elements.length = m.Elements.length + 1 := by
      rw [entries_length _ m2 hent]; simp
    refine ⟨m2, ?_, by rw [hent, hent1], ch2, ?_⟩
    · rw [AddHashed_CheckNew_body_eq_step env m k v hlt, hstep]
      rfl
    · refine ⟨by rw [hlen]; exact hw.pow2, fun _ => by rw [hlen]; exact hs, ?_,
        KeysUnique_of_entries _ _ hent hu, hl2.congr ?_⟩
      · intro _
        rw [hlen, hn]
        exact hge
      · intro i
        rw [hn]

theorem Contains_present (env : Env K) (m : TVoxelMap K V) (fuel : Nat) (k : K) (j : Nat)
    (e : FElement K V) (hwf : WF env m) (hfuel : m.Elements.length < fuel)
    (he : m.Elements[j]? = some e) (hk : e.Key = k) :
    Contains env fuel m k = Res.ok true := by
  simp [Contains, Find_present env m fuel k j e hwf hfuel he hk]

theorem Contains_absent (env : Env K) (m : TVoxelMap K V) (fuel : Nat) (k : K)
    (hwf : WF env m) (hfuel : m.Elements.length < fuel)
    (hk : ∀ (j : Nat) (e : FElement K V), m.Elements[j]? = some e → e.Key ≠ k) :
    Contains env fuel m k = Res.ok false := by
  simp [Contains, Find_absent env m fuel k hwf hfuel hk]

theorem WF.checkInvariants {env : Env K} {m : TVoxelMap K V} (hwf : WF env m) :
    CheckInvariants env m = Res.ok () := by
  obtain ⟨ch, hw⟩ := hwf
  exact CheckInvariants_ok env m hw.sizing

/-- The checks of `AddHashed_CheckNew` pass when the key is new. -/
theorem AddHashed_CheckNew_pre_absent (env : Env K) (m : TVoxelMap K V) (fuel : Nat) (k : K)
    (hwf : WF env m) (hfuel : m.Elements.length < fuel)
    (hk : ∀ (j : Nat) (e : FElement K V), m.Elements[j]? = some e → e.Key ≠ k) :
    AddHashed_CheckNew.pre env fuel m (HashValue env k) k = Res.ok () := by
  simp [AddHashed_CheckNew.pre, Contains_absent env m fuel k hwf hfuel hk, hwf.checkInvariants]

/-- The first check of `AddHashed_CheckNew` fails when the key is already held. -/
theorem AddHashed_CheckNew_pre_present (env : Env K) (m : TVoxelMap K V) (fuel : Nat) (k : K)
    (j : Nat) (e : FElement K V) (hwf : WF env m) (hfuel : m.Elements.length < fuel)
    (he : m.Elements[j]? = some e) (hk : e.Key = k) :
    AddHashed_CheckNew.pre env fuel m (HashValue env k) k = Res.fatal := by
  simp [AddHashed_CheckNew.pre, Contains_present env m fuel k j e hwf hfuel he hk]

/-- Calling `Add_CheckNew` on a new key appends the entry, returns the reference to it and keeps the
map well-formed. -/
theorem Add_CheckNew_spec (env : Env K) (m : TVoxelMap K V) (fuel : Nat) (k : K) (v : V)
    (hE : EnvOK env) (hwf : WF env m) (hfuel : m.Elements.length < fuel)
    (hk : ∀ (j : Nat) (e : FElement K V), m.Elements[j]? = some e → e.Key ≠ k) :
    ∃ m2, Add_CheckNew env fuel m k v = Res.ok (m2, m.Elements.length) ∧
      entries m2 = entries m ++ [(k, v)] ∧ WF env m2 := by
  obtain ⟨m2, hb, hent, hwf2⟩ := AddHashed_CheckNew_body_spec env m k v hE hwf hk
  refine ⟨m2, ?_, hent, hwf2⟩
  simp [Add_CheckNew, AddHashed_CheckNew, AddHashed_CheckNew_pre_absent env m fuel k hwf hfuel hk,
    hb]

theorem Add_CheckNew_present (env : Env K) (m : TVoxelMap K V) (fuel : Nat) (k : K) (v : V)
    (j : Nat) (e : FElement K V) (hwf : WF env m) (hfuel : m.Elements.length < fuel)
    (he : m.Elements[j]? = some e) (hk : e.Key = k) :
    Add_CheckNew env fuel m k v = Res.fatal := by
  simp [Add_CheckNew, AddHashed_CheckNew,
    AddHashed_CheckNew_pre_present env m fuel k j e hwf hfuel he hk]

/-- The empty map is well-formed. -/
theorem WF_empty (env : Env K) : WF env (empty : TVoxelMap K V) := by
  refine ⟨fun _ => [], ?_, ?_, ?_, ?_, ?_, ?_, ?_, ?_⟩
  · simp [empty, IsPowerOfTwo]
  · intro h; simp [empty] at h
  · intro h; simp [empty] at h
  · intro i j e1 e2 h1; simp [empty] at h1
  · intro b hb; simp [empty] at hb
  · intro b hb; simp [empty] at hb
  · intro b hb; simp [empty] at hb
  · intro i e hi; simp [empty] at hi

theorem FindOrAdd_absent (env : Env K) (dflt : V) (m : TVoxelMap K V) (fuel : Nat) (k : K)
    (hE : EnvOK env) (hwf : WF env m) (hfuel : m.Elements.length < fuel)
    (hk : ∀ (j : Nat) (e : FElement K V), m.Elements[j]? = some e → e.Key ≠ k) :
    ∃ m2, FindOrAdd env dflt fuel m k = Res.ok (m2, m.Elements.length) ∧
      entries m2 = entries m ++ [(k, dflt)] ∧ WF env m2 := by
  obtain ⟨m2, hadd, hent, hwf2⟩ := Add_CheckNew_spec env m fuel k dflt hE hwf hfuel hk
  refine ⟨m2, ?_, hent, hwf2⟩
  have hf := Find_absent env m fuel k hwf hfuel hk
  unfold Find at hf
  unfold Add_CheckNew at hadd
  simp only [FindOrAdd, hf, Res.ok_bind, hadd]

theorem FindOrAdd_present (env : Env K) (dflt : V) (m : TVoxelMap K V) (fuel : Nat) (k : K)
    (j : Nat) (e : FElement K V) (hwf : WF env m) (hfuel : m.Elements.length < fuel)
    (he : m.Elements[j]? = some e) (hk : e.Key = k) :
    FindOrAdd env dflt fuel m k = Res.ok (m, j) := by
  have hf := Find_present env m fuel k j e hwf hfuel he hk
  unfold Find at hf
  simp only [FindOrAdd, hf, Res.ok_bind]

theorem lastPtr_nil (ptr : Ptr) : lastPtr ptr [] = ptr := rfl

theorem lastPtr_cons (ptr : Ptr) (i : Nat) (X : List Nat) :
    lastPtr ptr (i :: X) = lastPtr (.next i) X := by
  cases X with
  | nil => rfl
  | cons a X =>
    simp only [lastPtr, List.getLast?_cons_cons]
    cases hl : (a :: X).getLast? with
    | none => simp at hl
    | some p => rfl

/-- The part of a chain after one of its elements is the chain of that element's link. -/
theorem isChain_suffix (els : List (FElement K V)) (y : Nat) (Y : List Nat) :
    ∀ (X : List Nat) (h : Int), isChain els h (X ++ y :: Y) = true →
      ∃ e, els[y]? = some e ∧ isChain els e.NextElementIndex Y = true := by
  intro X
  induction X with
  | nil =>
    intro h hc
    rw [List.nil_append, isChain_cons] at hc
    exact hc.2
  | cons i X ih =>
    intro h hc
    rw [List.cons_append, isChain_cons] at hc
    obtain ⟨_, e, _, hrest⟩ := hc
    exact ih _ hrest

/-- Redirecting the link of the last element of a chain prefix `X` to `t` turns the chain
`X ++ Y` into `X ++ Y2`, when `t` heads `Y2`. -/
theorem isChain_redirect (els els2 : List (FElement K V)) (p : Nat) (t : Int)
    (Y Y2 : List Nat) :
    ∀ (X : List Nat) (h : Int), X.getLast? = some p → X.Nodup →
      isChain els h (X ++ Y) = true →
      (∀ i, i ∈ X → i ≠ p → ∀ e, els[i]? = some e →
        ∃ e2, els2[i]? = some e2 ∧ e2.NextElementIndex = e.NextElementIndex) →
      (∃ ep, els2[p]? = some ep ∧ ep.NextElementIndex = t) →
      isChain els2 t Y2 = true →
      isChain els2 h (X ++ Y2) = true := by
  intro X
  induction X with
  | nil => intro h hl; simp at hl
  | cons i X ih =>
    intro h hl hnd hc hfr hp hY2
    rw [List.cons_append, isChain_cons] at hc ⊢
    obtain ⟨hh, e, he, hrest⟩ := hc
    cases X with
    | nil =>
      simp only [List.getLast?_singleton, Option.some.injEq] at hl
      subst hl
      obtain ⟨ep, hep, hnext⟩ := hp
      exact ⟨hh, ep, hep, by rw [hnext]; exact hY2⟩
    | cons a X =>
      rw [List.getLast?_cons_cons] at hl
      have hpmem : p ∈ a :: X := List.mem_of_getLast?_eq_some hl
      have hip : i ≠ p := by
        intro hip
        subst hip
        exact (List.nodup_cons.mp hnd).1 hpmem
      obtain ⟨e2, he2, hn2⟩ := hfr i (List.mem_cons_self _ _) hip e he
      refine ⟨hh, e2, he2, ?_⟩
      rw [hn2]
      exact ih _ hl (List.nodup_cons.mp hnd).2 hrest
        (fun j hj hjp => hfr j (List.mem_cons_of_mem _ hj) hjp) hp hY2

/-- What a write through the link reached after the chain prefix `X` of bucket `B` changes:
the table keeps its size and its other buckets, the elements keep their keys, and only the
last element of `X` (or the bucket head when `X` is empty) gets a new link. -/
theorem writePtr_lastPtr_facts (m : TVoxelMap K V) (B : Nat) (X : List Nat) (t : Int) :
    (writePtr m (lastPtr (.bucket B) X) t).HashTable.length = m.HashTable.length ∧
    (writePtr m (lastPtr (.bucket B) X) t).Elements.length = m.Elements.length ∧
    entries (writePtr m (lastPtr (.bucket B) X) t) = entries m ∧
    (∀ b, b ≠ B → (writePtr m (lastPtr (.bucket B) X) t).HashTable[b]? = m.HashTable[b]?) ∧
    (∀ i, i ∉ X → (writePtr m (lastPtr (.bucket B) X) t).Elements[i]? = m.Elements[i]?) ∧
    (∀ (i : Nat) (e : FElement K V), m.Elements[i]? = some e → X.getLast? ≠ some i →
      (writePtr m (lastPtr (.bucket B) X) t).Elements[i]? = some e) ∧
    (∀ (i : Nat) (e : FElement K V), m.Elements[i]? = some e → ∃ e2 : FElement K V,
      (writePtr m (lastPtr (.bucket B) X) t).Elements[i]? = some e2 ∧ e2.Key = e.Key ∧
        e2.Value = e.Value) := by
  cases hl : X.getLast? with
  | none =>
    simp only [lastPtr, hl, writePtr, List.length_set, entries, true_and]
    refine ⟨?_, ?_, ?_, ?_⟩
    · intro b hb
      rw [List.getElem?_set_ne (Ne.symm hb)]
    · intro i _; trivial
    · intro i e he _; exact he
    · intro i e he; exact ⟨e, he, rfl, rfl⟩
  | some p =>
    have hpX : p ∈ X := List.mem_of_getLast?_eq_some hl
    simp only [lastPtr, hl, writePtr, List.length_modify, true_and]
    refine ⟨?_, ?_, ?_, ?_, ?_⟩
    · simp only [entries]
      apply List.ext_getElem?
      intro i
      simp only [List.getElem?_map, List.getElem?_modify]
      cases m.Elements[i]? with
      | none => rfl
      | some e => by_cases hpi : p = i <;> simp [hpi]
    · intro b _; trivial
    · intro i hi
      have hpi : p ≠ i := fun h => hi (h ▸ hpX)
      rw [List.getElem?_modify_ne _ _ hpi]
    · intro i e he hne
      have hpi : p ≠ i := fun h => hne (by rw [h])
      rw [List.getElem?_modify_ne _ _ hpi]
      exact he
    · intro i e he
      simp only [List.getElem?_modify, he]
      by_cases hpi : p = i <;> simp [hpi]

/-- The link written by `writePtr` at the end of a non-empty chain prefix. -/
theorem writePtr_lastPtr_last (m : TVoxelMap K V) (B : Nat) (X : List Nat) (p : Nat) (t : Int)
    (ep : FElement K V) (hl : X.getLast? = some p) (hp : m.Elements[p]? = some ep) :
    (writePtr m (lastPtr (.bucket B) X) t).HashTable = m.HashTable ∧
    ∃ e2, (writePtr m (lastPtr (.bucket B) X) t).Elements[p]? = some e2 ∧
      e2.NextElementIndex = t := by
  simp only [lastPtr, hl, writePtr, true_and]
  exact ⟨{ ep with NextElementIndex := t }, by simp [List.getElem?_modify, hp], rfl⟩

/-- The head written by `writePtr` for an empty chain prefix. -/
theorem writePtr_lastPtr_head (m : TVoxelMap K V) (B : Nat) (t : Int)
    (hB : B < m.HashTable.length) :
    (writePtr m (lastPtr (.bucket B) []) t).HashTable[B]? = some t ∧
    (writePtr m (lastPtr (.bucket B) []) t).Elements = m.Elements := by
  simp only [lastPtr_nil, writePtr, and_true]
  rw [List.getElem?_set]
  simp [hB]

/-- Two indices of one chain assignment with the same element lie in the same bucket. -/
theorem Linked.bucket_unique {env : Env K} {m : TVoxelMap K V} {S : Nat → Prop}
    {ch : Nat → List Nat} (hl : Linked env m S ch) (b1 b2 i : Nat)
    (hb1 : b1 < m.HashTable.length) (hb2 : b2 < m.HashTable.length)
    (h1 : i ∈ ch b1) (h2 : i ∈ ch b2) : b1 = b2 := by
  obtain ⟨_, e1, he1, hk1⟩ := hl.sound b1 hb1 i h1
  obtain ⟨_, e2, he2, hk2⟩ := hl.sound b2 hb2 i h2
  rw [he1] at he2
  cases he2
  rw [← hk1, ← hk2]

/-- Redirecting the link that held `y` in the chain `X ++ y :: Y0` of bucket `B` to `t`, the
head of `Y2`, re-links the index: bucket `B` now has the chain `X ++ Y2`. -/
theorem Linked_redirect (env : Env K) (m : TVoxelMap K V) (S S2 : Nat → Prop)
    (ch : Nat → List Nat) (B : Nat) (X : List Nat) (y : Nat) (Y0 Y2 : List Nat) (t : Int)
    (hl : Linked env m S ch) (hB : B < m.HashTable.length) (hch : ch B = X ++ y :: Y0)
    (h1 : isChain m.Elements t Y2 = true)
    (h2 : (X ++ Y2).Nodup)
    (h3 : ∀ i, i ∈ Y2 → S2 i ∧
      ∃ e, m.Elements[i]? = some e ∧ bucketOf env m.HashTable.length e.Key = B)
    (h4 : ∀ i, S i → i ≠ y → S2 i)
    (h5 : ∀ i, S2 i → (S i ∧ i ≠ y) ∨ i ∈ Y2)
    (h6 : ∀ i, i ∈ Y0 → i ∈ Y2) :
    Linked env (writePtr m (lastPtr (.bucket B) X) t) S2 (setChain ch B (X ++ Y2)) := by
  obtain ⟨hT, _, _, hTb, hEo, hEl, hEk⟩ := writePtr_lastPtr_facts m B X t
  have hndB : (X ++ y :: Y0).Nodup := hch ▸ hl.nodup B hB
  have hyX : y ∉ X := by
    intro hy
    have := List.disjoint_of_nodup_append hndB hy
    exact this (List.mem_cons_self _ _)
  have hXB : ∀ i, i ∈ X → i ∈ ch B := by
    intro i hi; rw [hch]; exact List.mem_append_left _ hi
  have hyB : y ∈ ch B := by rw [hch]; simp
  have hdisj : ∀ i, i ∈ Y2 → i ∉ X := fun i hi hx => List.disjoint_of_nodup_append h2 hx hi
  -- the chain of bucket `B`
  have hC : ∃ h2, (writePtr m (lastPtr (.bucket B) X) t).HashTable[B]? = some h2 ∧
      isChain (writePtr m (lastPtr (.bucket B) X) t).Elements h2 (X ++ Y2) = true := by
    have hY2 : isChain (writePtr m (lastPtr (.bucket B) X) t).Elements t Y2 = true := by
      refine isChain_frame _ _ _ t ?_ h1
      intro i hi e he
      exact ⟨e, by rw [hEo i (hdisj i hi), he], rfl⟩
    cases hlast : X.getLast? with
    | none =>
      have hXnil : X = [] := List.getLast?_eq_none_iff.mp hlast
      subst hXnil
      obtain ⟨hhead, _⟩ := writePtr_lastPtr_head m B t hB
      exact ⟨t, hhead, by simpa using hY2⟩
    | some p =>
      have hpX : p ∈ X := List.mem_of_getLast?_eq_some hlast
      obtain ⟨_, ep, hep, _⟩ := hl.sound B hB p (hXB p hpX)
      obtain ⟨htab, hpnew⟩ := writePtr_lastPtr_last m B X p t ep hlast hep
      obtain ⟨h, hh, hc⟩ := hl.chain B hB
      rw [hch] at hc
      refine ⟨h, by rw [htab]; exact hh, ?_⟩
      refine isChain_redirect m.Elements _ p t (y :: Y0) Y2 X h hlast
        (List.Nodup.of_append_left h2) hc ?_ hpnew hY2
      intro i _ hip e he
      exact ⟨e, hEl i e he (by rw [hlast]; intro h; exact hip (Option.some.inj h).symm), rfl⟩
  refine ⟨?_, ?_, ?_, ?_⟩
  · intro b hb
    rw [hT] at hb
    by_cases hbB : b = B
    · subst hbB
      rw [setChain_same]
      exact hC
    · rw [setChain_ne _ _ _ _ hbB, hTb b hbB]
      obtain ⟨h, hh, hc⟩ := hl.chain b hb
      refine ⟨h, hh, isChain_frame _ _ _ h ?_ hc⟩
      intro i hi e he
      have hiX : i ∉ X := fun hx => hbB (hl.bucket_unique b B i hb hB hi (hXB i hx))
      exact ⟨e, by rw [hEo i hiX, he], rfl⟩
  · intro b hb
    rw [hT] at hb
    by_cases hbB : b = B
    · subst hbB
      rw [setChain_same]
      exact h2
    · rw [setChain_ne _ _ _ _ hbB]
      exact hl.nodup b hb
  · intro b hb i hi
    rw [hT] at hb ⊢
    by_cases hbB : b = B
    · subst hbB
      rw [setChain_same] at hi
      rcases List.mem_append.mp hi with hx | hy2
      · obtain ⟨hS, e, he, hbk⟩ := hl.sound b hb i (hXB i hx)
        obtain ⟨e2, he2, hk2, _⟩ := hEk i e he
        exact ⟨h4 i hS (fun h => hyX (h ▸ hx)), e2, he2, by rw [hk2]; exact hbk⟩
      · obtain ⟨hS2, e, he, hbk⟩ := h3 i hy2
        obtain ⟨e2, he2, hk2, _⟩ := hEk i e he
        exact ⟨hS2, e2, he2, by rw [hk2]; exact hbk⟩
    · rw [setChain_ne _ _ _ _ hbB] at hi
      obtain ⟨hS, e, he, hbk⟩ := hl.sound b hb i hi
      obtain ⟨e2, he2, hk2, _⟩ := hEk i e he
      have hiy : i ≠ y := fun h => hbB (hl.bucket_unique b B i hb hB hi (h ▸ hyB))
      exact ⟨h4 i hS hiy, e2, he2, by rw [hk2]; exact hbk⟩
  · intro i e2 hS2 he2
    rw [hT]
    have hlen : i < m.Elements.length := by
      have := (List.getElem?_eq_some_iff.mp he2).1
      rw [(writePtr_lastPtr_facts m B X t).2.1] at this
      exact this
    obtain ⟨e2b, he2b, hk, _⟩ := hEk i (m.Elements[i]) (List.getElem?_eq_getElem hlen)
    rw [he2] at he2b
    cases he2b
    rw [hk]
    rcases h5 i hS2 with ⟨hS, hiy⟩ | hy2
    · have hmem := hl.complete i (m.Elements[i]) hS (List.getElem?_eq_getElem hlen)
      by_cases hbB : bucketOf env m.HashTable.length (m.Elements[i]).Key = B
      · rw [hbB, setChain_same]
        rw [hbB, hch] at hmem
        rcases List.mem_append.mp hmem with hx | hy
        · exact List.mem_append_left _ hx
        · rcases List.mem_cons.mp hy with hy | hy
          · exact absurd hy hiy
          · exact List.mem_append_right _ (h6 i hy)
      · rw [setChain_ne _ _ _ _ hbB]
        exact hmem
    · obtain ⟨_, e, he, hbk⟩ := h3 i hy2
      rw [List.getElem?_eq_getElem hlen] at he
      cases he
      rw [hbk, setChain_same]
      exact List.mem_append_right _ hy2

theorem readPtr_next (m : TVoxelMap K V) (i : Nat) (e : FElement K V)
    (he : m.Elements[i]? = some e) :
    readPtr m (.next i) = Res.ok e.NextElementIndex := by
  simp [readPtr, elemAt_nat _ _ _ he]

theorem readPtr_bucket (m : TVoxelMap K V) (b : Nat) (h : Int) (hb : m.HashTable[b]? = some h) :
    readPtr m (.bucket b) = Res.ok h := by
  simp [readPtr, tableAt, hb]

/-- The first loop of `RemoveHashedChecked` walks the chain up to the element of the key and
writes that element's link into the link that pointed to it. -/
theorem unlink_spec (k : K) (m : TVoxelMap K V) (j0 : Nat) (e0 : FElement K V) (l2 : List Nat)
    (he0 : m.Elements[j0]? = some e0) (hk0 : e0.Key = k) :
    ∀ (l1 : List Nat) (ptr : Ptr) (h : Int) (fuel : Nat),
      readPtr m ptr = Res.ok h → isChain m.Elements h (l1 ++ j0 :: l2) = true →
      (∀ i, i ∈ l1 → keyIs m.Elements k i = false) → l1.length < fuel →
      RemoveHashedChecked.unlink k fuel m ptr =
        Res.ok ((j0 : Int), writePtr m (lastPtr ptr l1) e0.NextElementIndex) := by
  intro l1
  induction l1 with
  | nil =>
    intro ptr h fuel hr hc _ hf
    rw [List.nil_append, isChain_cons] at hc
    cases fuel with
    | zero => simp at hf
    | succ f =>
      rw [hc.1] at hr
      simp [RemoveHashedChecked.unlink, hr, elemAt_nat _ _ _ he0, hk0, lastPtr_nil]
  | cons i l1 ih =>
    intro ptr h fuel hr hc hkeys hf
    rw [List.cons_append, isChain_cons] at hc
    obtain ⟨hh, e, he, hrest⟩ := hc
    cases fuel with
    | zero => simp at hf
    | succ f =>
      rw [hh] at hr
      have hki : e.Key ≠ k := by
        have := hkeys i (List.mem_cons_self _ _)
        simpa [keyIs, he] using this
      have hf2 : l1.length < f := by simpa using hf
      simp only [RemoveHashedChecked.unlink, hr, Res.ok_bind, elemAt_nat _ _ _ he, ne_eq, hki,
        not_false_eq_true, if_true, Int.toNat_ofNat]
      rw [ih (.next i) _ f (readPtr_next m i e he) hrest
        (fun j hj => hkeys j (List.mem_cons_of_mem _ hj)) hf2, lastPtr_cons]

/-- The second loop of `RemoveHashedChecked` stops at the link that holds the last index. -/
theorem findLast_spec (m : TVoxelMap K V) (L : Nat) (r2 : List Nat)
    (hL : L + 1 = m.Elements.length) :
    ∀ (r1 : List Nat) (ptr : Ptr) (h : Int) (fuel : Nat),
      readPtr m ptr = Res.ok h → isChain m.Elements h (r1 ++ L :: r2) = true →
      L ∉ r1 → r1.length < fuel →
      RemoveHashedChecked.findLast fuel m ptr = Res.ok (lastPtr ptr r1) := by
  intro r1
  induction r1 with
  | nil =>
    intro ptr h fuel hr hc _ hf
    rw [List.nil_append, isChain_cons] at hc
    cases fuel with
    | zero => simp at hf
    | succ f =>
      rw [hc.1] at hr
      have hLi : (L : Int) = (m.Elements.length : Int) - 1 := by omega
      simp [RemoveHashedChecked.findLast, hr, hLi, lastPtr_nil]
  | cons i r1 ih =>
    intro ptr h fuel hr hc hnot hf
    rw [List.cons_append, isChain_cons] at hc
    obtain ⟨hh, e, he, hrest⟩ := hc
    cases fuel with
    | zero => simp at hf
    | succ f =>
      rw [hh] at hr
      have hiL : i ≠ L := fun h => hnot (h ▸ List.mem_cons_self _ _)
      have hne : (i : Int) ≠ (m.Elements.length : Int) - 1 := by omega
      have hf2 : r1.length < f := by simpa using hf
      simp only [RemoveHashedChecked.findLast, hr, Res.ok_bind, ne_eq, hne, not_false_eq_true,
        if_true, elemAt_nat _ _ _ he, Int.toNat_ofNat]
      rw [ih (.next i) _ f (readPtr_next m i e he) hrest
        (fun h => hnot (List.mem_cons_of_mem _ h)) hf2, lastPtr_cons]

theorem getElem?_swapRemove {α : Type} (l : List α) (j i : Nat) (hj : j < l.length) :
    (swapRemove l j)[i]? =
      if i + 1 < l.length then (if i = j then l[l.length - 1]? else l[i]?) else none := by
  unfold swapRemove
  by_cases hlast : j + 1 = l.length
  · rw [if_pos hlast, List.getElem?_dropLast]
    by_cases hi : i + 1 < l.length
    · have hij : i ≠ j := by omega
      have hi2 : i < l.length - 1 := by omega
      rw [if_pos hi, if_neg hij, if_pos hi2]
    · have hi2 : ¬ i < l.length - 1 := by omega
      rw [if_neg hi, if_neg hi2]
  · rw [if_neg hlast]
    obtain ⟨x, hx⟩ : ∃ x, l[l.length - 1]? = some x :=
      ⟨_, List.getElem?_eq_getElem (by omega)⟩
    have hL : l.getLast? = some x := by
      rw [List.getLast?_eq_getElem?, hx]
    rw [hL]
    simp only [List.getElem?_set, List.length_dropLast, List.getElem?_dropLast]
    by_cases hi : i + 1 < l.length
    · have hi2 : i < l.length - 1 := by omega
      rw [if_pos hi]
      by_cases hij : i = j
      · subst hij
        rw [if_pos rfl, if_pos hi2, if_pos rfl, hx]
      · rw [if_neg (Ne.symm hij), if_pos hi2, if_neg hij]
    · have hi2 : ¬ i < l.length - 1 := by omega
      have hij : j ≠ i := by omega
      rw [if_neg hi, if_neg hij, if_neg hi2]

theorem length_swapRemove {α : Type} (l : List α) (j : Nat) (hj : j < l.length) :
    (swapRemove l j).length = l.length - 1 := by
  unfold swapRemove
  by_cases hlast : j + 1 = l.length
  · rw [if_pos hlast, List.length_dropLast]
  · rw [if_neg hlast]
    obtain ⟨x, hx⟩ : ∃ x, l[l.length - 1]? = some x :=
      ⟨_, List.getElem?_eq_getElem (by omega)⟩
    have hL : l.getLast? = some x := by
      rw [List.getLast?_eq_getElem?, hx]
    rw [hL]
    simp

/-- The items left by a swap-pop are the items at the other indices. -/
theorem mem_swapRemove {α : Type} (l : List α) (j : Nat) (x : α) (hj : j < l.length) :
    x ∈ swapRemove l j ↔ ∃ i, i ≠ j ∧ l[i]? = some x := by
  rw [List.mem_iff_getElem?]
  constructor
  · rintro ⟨i, hi⟩
    rw [getElem?_swapRemove l j i hj] at hi
    by_cases h1 : i + 1 < l.length
    · rw [if_pos h1] at hi
      by_cases hij : i = j
      · rw [if_pos hij] at hi
        exact ⟨l.length - 1, by omega, hi⟩
      · rw [if_neg hij] at hi
        exact ⟨i, hij, hi⟩
    · rw [if_neg h1] at hi
      cases hi
  · rintro ⟨i, hij, hi⟩
    have hil : i < l.length := (List.getElem?_eq_some_iff.mp hi).1
    by_cases h1 : i + 1 < l.length
    · refine ⟨i, ?_⟩
      rw [getElem?_swapRemove l j i hj, if_pos h1, if_neg hij]
      exact hi
    · have hiL : i = l.length - 1 := by omega
      refine ⟨j, ?_⟩
      have hj1 : j + 1 < l.length := by omega
      rw [getElem?_swapRemove l j j hj, if_pos hj1, if_pos rfl, ← hiL]
      exact hi

theorem KeysUnique_iff_entries (m : TVoxelMap K V) :
    KeysUnique m.Elements ↔ EntriesUnique (entries m) := by
  constructor
  · intro hu i j p q hp hq hk
    simp only [entries, List.getElem?_map, Option.map_eq_some'] at hp hq
    obtain ⟨e1, he1, rfl⟩ := hp
    obtain ⟨e2, he2, rfl⟩ := hq
    exact hu i j e1 e2 he1 he2 hk
  · intro hu i j e1 e2 he1 he2 hk
    refine hu i j (e1.Key, e1.Value) (e2.Key, e2.Value) ?_ ?_ hk
    · simp [entries, he1]
    · simp [entries, he2]

theorem EntriesUnique_swapRemove (l : List (K × V)) (j : Nat) (hj : j < l.length)
    (hu : EntriesUnique l) : EntriesUnique (swapRemove l j) := by
  have key : ∀ (i : Nat) (p : K × V), (swapRemove l j)[i]? = some p →
      i + 1 < l.length ∧ ((i = j ∧ l[l.length - 1]? = some p) ∨ (i ≠ j ∧ l[i]? = some p)) := by
    intro i p hp
    rw [getElem?_swapRemove l j i hj] at hp
    by_cases h1 : i + 1 < l.length
    · rw [if_pos h1] at hp
      refine ⟨h1, ?_⟩
      by_cases hij : i = j
      · rw [if_pos hij] at hp; exact Or.inl ⟨hij, hp⟩
      · rw [if_neg hij] at hp; exact Or.inr ⟨hij, hp⟩
    · rw [if_neg h1] at hp; cases hp
  intro i1 i2 p q hp hq hk
  obtain ⟨h1, hc1⟩ := key i1 p hp
  obtain ⟨h2, hc2⟩ := key i2 q hq
  rcases hc1 with ⟨e1, g1⟩ | ⟨_, g1⟩ <;> rcases hc2 with ⟨e2, g2⟩ | ⟨_, g2⟩
  · omega
  · have := hu _ _ p q g1 g2 hk; omega
  · have := hu _ _ p q g1 g2 hk; omega
  · exact hu _ _ p q g1 g2 hk

/-- First phase of `RemoveHashedChecked` on a well-formed map: the element of the key is
found and unlinked; every other index stays linked. -/
theorem unlink_phase (env : Env K) (m : TVoxelMap K V) (ch : Nat → List Nat) (fuel : Nat)
    (k : K) (j0 : Nat) (e0 : FElement K V) (hw : WFWith env m ch)
    (hfuel : m.Elements.length < fuel) (he0 : m.Elements[j0]? = some e0) (hk : e0.Key = k) :
    ∃ m1 ch1,
      RemoveHashedChecked.unlink k fuel m (.bucket (bucketOf env m.HashTable.length k)) =
        Res.ok ((j0 : Int), m1) ∧
      m1.HashTable.length = m.HashTable.length ∧ m1.Elements.length = m.Elements.length ∧
      entries m1 = entries m ∧
      Linked env m1 (fun i => i < m.Elements.length ∧ i ≠ j0) ch1 := by
  have hj0 : j0 < m.Elements.length := (List.getElem?_eq_some_iff.mp he0).1
  have hs : 0 < m.HashTable.length := hw.tablePos (by omega)
  have hb := bucketOf_lt env m.HashTable.length k hs
  have hmem : j0 ∈ ch (bucketOf env m.HashTable.length k) := by
    have := hw.linked.complete j0 e0 hj0 he0
    rwa [hk] at this
  obtain ⟨l1, l2, hsplit⟩ := List.append_of_mem hmem
  have hnd : (l1 ++ j0 :: l2).Nodup := hsplit ▸ hw.linked.nodup _ hb
  have hnd2 : (j0 :: (l1 ++ l2)).Nodup := List.nodup_middle.mp hnd
  have hj0not : j0 ∉ l1 ++ l2 := (List.nodup_cons.mp hnd2).1
  obtain ⟨h, hh, hc⟩ := hw.linked.chain _ hb
  rw [hsplit] at hc
  have hlen : (l1 ++ j0 :: l2).length ≤ m.Elements.length := by
    have := hw.linked.length_le _ hb
    rwa [hsplit] at this
  have hkeys : ∀ i, i ∈ l1 → keyIs m.Elements k i = false := by
    intro i hi
    have hich : i ∈ ch (bucketOf env m.HashTable.length k) := by
      rw [hsplit]; exact List.mem_append_left _ hi
    obtain ⟨_, e, he, _⟩ := hw.linked.sound _ hb i hich
    have hne : e.Key ≠ k := by
      intro hek
      have := hw.keys i j0 e e0 he he0 (by rw [hek, hk])
      exact hj0not (List.mem_append_left _ (this ▸ hi))
    simp [keyIs, he, hne]
  obtain ⟨e0b, he0b, hchain2⟩ := isChain_suffix m.Elements j0 l2 l1 h hc
  rw [he0] at he0b
  cases he0b
  have hfacts := writePtr_lastPtr_facts m (bucketOf env m.HashTable.length k) l1
    e0.NextElementIndex
  refine ⟨_, setChain ch (bucketOf env m.HashTable.length k) (l1 ++ l2),
    unlink_spec k m j0 e0 l2 he0 hk l1 _ h fuel (readPtr_bucket m _ h hh) hc hkeys ?_,
    hfacts.1, hfacts.2.1, hfacts.2.2.1, ?_⟩
  · simp only [List.length_append, List.length_cons] at hlen
    omega
  · refine Linked_redirect env m (fun i => i < m.Elements.length)
      (fun i => i < m.Elements.length ∧ i ≠ j0) ch _ l1 j0 l2 l2 e0.NextElementIndex hw.linked hb
      hsplit hchain2 (List.nodup_cons.mp hnd2).2 ?_ (fun i hi hne => ⟨hi, hne⟩)
      (fun i hi => Or.inl hi) (fun i hi => hi)
    intro i hi
    have hich : i ∈ ch (bucketOf env m.HashTable.length k) := by
      rw [hsplit]; exact List.mem_append_right _ (List.mem_cons_of_mem _ hi)
    obtain ⟨hS, e, he, hbk⟩ := hw.linked.sound _ hb i hich
    exact ⟨⟨hS, fun h => hj0not (List.mem_append_right _ (h ▸ hi))⟩, e, he, hbk⟩

/-- Copying the last element into slot `j0` before or after the link write and the pop gives
the same arrays. -/
theorem swap_commute (m1 : TVoxelMap K V) (B : Nat) (X : List Nat) (j0 : Nat) (t : Int)
    (eL : FElement K V) (hj : j0 ∉ X) :
    ({ HashTable := (writePtr m1 (lastPtr (.bucket B) X) t).HashTable,
       Elements := (writePtr m1 (lastPtr (.bucket B) X) t).Elements.dropLast.set j0 eL } :
      TVoxelMap K V) =
    { HashTable := (writePtr { HashTable := m1.HashTable, Elements := m1.Elements.set j0 eL }
        (lastPtr (.bucket B) X) t).HashTable,
      Elements := (writePtr { HashTable := m1.HashTable, Elements := m1.Elements.set j0 eL }
        (lastPtr (.bucket B) X) t).Elements.dropLast } := by
  cases hl : X.getLast? with
  | none =>
    simp only [lastPtr, hl, writePtr, TVoxelMap.mk.injEq, true_and]
    apply List.ext_getElem?
    intro i
    simp only [List.getElem?_set, List.getElem?_dropLast, List.length_dropLast, List.length_set]
    split_ifs <;> first | rfl | omega
  | some p =>
    have hp : p ≠ j0 := fun h => hj (h ▸ List.mem_of_getLast?_eq_some hl)
    simp only [lastPtr, hl, writePtr, TVoxelMap.mk.injEq, true_and]
    apply List.ext_getElem?
    intro i
    simp only [List.getElem?_set, List.getElem?_dropLast, List.length_dropLast,
      List.length_set, List.getElem?_modify, List.length_modify]
    by_cases hji : j0 = i
    · subst hji
      simp only [if_true, if_neg hp]
      split_ifs <;> first | rfl | omega
    · simp only [if_neg hji]

/-- Second phase of `RemoveHashedChecked` when the removed slot is not the last one: the link
holding the last index is found and redirected to the freed slot, which receives the last
element; every remaining index is linked. -/
theorem swap_phase (env : Env K) (m1 : TVoxelMap K V) (ch1 : Nat → List Nat) (fuel : Nat)
    (j0 L : Nat) (eL : FElement K V) (hn : m1.Elements.length = L + 1) (hj : j0 < L)
    (heL : m1.Elements[L]? = some eL)
    (hl : Linked env m1 (fun i => i < L + 1 ∧ i ≠ j0) ch1)
    (hs : 0 < m1.HashTable.length) (hfuel : L + 1 < fuel) :
    ∃ ptr ch2,
      RemoveHashedChecked.findLast fuel m1
        (.bucket (bucketOf env m1.HashTable.length eL.Key)) = Res.ok ptr ∧
      (writePtr m1 ptr j0).Elements[L]? = some eL ∧
      (writePtr m1 ptr j0).Elements.length = L + 1 ∧
      (writePtr m1 ptr j0).HashTable.length = m1.HashTable.length ∧
      entries (writePtr m1 ptr j0) = entries m1 ∧
      Linked env
        { HashTable := (writePtr m1 ptr j0).HashTable,
          Elements := (writePtr m1 ptr j0).Elements.dropLast.set j0 eL }
        (fun i => i < L) ch2 := by
  have hbL := bucketOf_lt env m1.HashTable.length eL.Key hs
  have hmem : L ∈ ch1 (bucketOf env m1.HashTable.length eL.Key) :=
    hl.complete L eL ⟨by omega, by omega⟩ heL
  obtain ⟨r1, r2, hsplit⟩ := List.append_of_mem hmem
  have hnd : (r1 ++ L :: r2).Nodup := hsplit ▸ hl.nodup _ hbL
  have hnd2 : (L :: (r1 ++ r2)).Nodup := List.nodup_middle.mp hnd
  have hLnot : L ∉ r1 ++ r2 := (List.nodup_cons.mp hnd2).1
  have hLr1 : L ∉ r1 := fun h => hLnot (List.mem_append_left _ h)
  obtain ⟨h, hh, hc⟩ := hl.chain _ hbL
  rw [hsplit] at hc
  have hlen : (r1 ++ L :: r2).length ≤ L + 1 := by
    refine chain_length_le _ _ hnd ?_
    intro i hi
    exact (hl.sound _ hbL i (hsplit ▸ hi)).1.1
  have hj0not : j0 ∉ ch1 (bucketOf env m1.HashTable.length eL.Key) := by
    intro hmem0
    exact (hl.sound _ hbL j0 hmem0).1.2 rfl
  rw [hsplit] at hj0not
  have hj0r1 : j0 ∉ r1 := fun h => hj0not (List.mem_append_left _ h)
  have hj0r2 : j0 ∉ r2 :=
    fun h => hj0not (List.mem_append_right _ (List.mem_cons_of_mem _ h))
  obtain ⟨hT, hElen, hent, _, _, hEl, _⟩ :=
    writePtr_lastPtr_facts m1 (bucketOf env m1.HashTable.length eL.Key) r1 (j0 : Int)
  have hfind := findLast_spec m1 L r2 hn.symm r1 _ h fuel (readPtr_bucket m1 _ h hh) hc hLr1
    (by simp only [List.length_append, List.length_cons] at hlen; omega)
  have hl1a : Linked env ({ m1 with Elements := m1.Elements.set j0 eL } : TVoxelMap K V)
      (fun i => i < L + 1 ∧ i ≠ j0) ch1 :=
    hl.frame rfl (fun i hi => List.getElem?_set_ne (Ne.symm hi.2))
  have hj0get : (m1.Elements.set j0 eL)[j0]? = some eL := by
    rw [List.getElem?_set]; simp; omega
  have hLget : (m1.Elements.set j0 eL)[L]? = some eL := by
    rw [List.getElem?_set_ne (by omega)]; exact heL
  have h1 : isChain (m1.Elements.set j0 eL) (j0 : Int) (j0 :: r2) = true := by
    rw [isChain_cons]
    refine ⟨rfl, eL, hj0get, ?_⟩
    obtain ⟨h2, _, hc2⟩ := hl1a.chain _ hbL
    rw [hsplit] at hc2
    obtain ⟨e, he, hce⟩ := isChain_suffix _ L r2 r1 h2 hc2
    have he2 : (m1.Elements.set j0 eL)[L]? = some e := he
    rw [hLget] at he2
    cases he2
    exact hce
  have hred := Linked_redirect env ({ m1 with Elements := m1.Elements.set j0 eL })
    (fun i => i < L + 1 ∧ i ≠ j0) (fun i => i < L) ch1 _ r1 L r2 (j0 :: r2) (j0 : Int) hl1a hbL
    hsplit h1
    (List.nodup_middle.mpr (List.nodup_cons.mpr
      ⟨fun h => (List.mem_append.mp h).elim hj0r1 hj0r2, (List.nodup_cons.mp hnd2).2⟩))
    (by
      intro i hi
      rcases List.mem_cons.mp hi with hi | hi
      · subst hi
        exact ⟨hj, eL, hj0get, rfl⟩
      · have hich : i ∈ ch1 (bucketOf env m1.HashTable.length eL.Key) := by
          rw [hsplit]; exact List.mem_append_right _ (List.mem_cons_of_mem _ hi)
        obtain ⟨hS, e, he, hbk⟩ := hl1a.sound _ hbL i hich
        have hiL : i ≠ L := fun h => hLnot (List.mem_append_right _ (h ▸ hi))
        exact ⟨by have := hS.1; omega, e, he, hbk⟩)
    (fun i hS hiL => by have := hS.1; omega)
    (by
      intro i hi
      by_cases hij : i = j0
      · exact Or.inr (hij ▸ List.mem_cons_self _ _)
      · exact Or.inl ⟨⟨by omega, hij⟩, by omega⟩)
    (fun i hi => List.mem_cons_of_mem _ hi)
  have hElen2 := (writePtr_lastPtr_facts ({ m1 with Elements := m1.Elements.set j0 eL })
    (bucketOf env m1.HashTable.length eL.Key) r1 (j0 : Int)).2.1
  refine ⟨_, setChain ch1 (bucketOf env m1.HashTable.length eL.Key) (r1 ++ j0 :: r2), hfind,
    hEl L eL heL ?_, by rw [hElen, hn], hT, hent, ?_⟩
  · intro hlast
    exact hLr1 (List.mem_of_getLast?_eq_some hlast)
  · rw [swap_commute m1 _ r1 j0 (j0 : Int) eL hj0r1]
    refine hred.frame rfl ?_
    intro i hi
    simp only [List.getElem?_dropLast]
    rw [if_pos]
    rw [hElen2]
    simp only [List.length_set]
    omega

theorem elemAt_last (els : List (FElement K V)) (L : Nat) (e : FElement K V)
    (hn : els.length = L + 1) (he : els[L]? = some e) :
    elemAt els ((els.length : Int) - 1) = Res.ok e := by
  have : (els.length : Int) - 1 = (L : Int) := by omega
  rw [this]
  exact elemAt_nat els L e he

/-- Calling `RemoveHashedChecked` on a key held at index `j0` of a well-formed map succeeds; the
entries afterwards are the swap-pop of the entries at `j0`, the table keeps its size and the
map stays well-formed. -/
theorem RemoveHashedChecked_spec (env : Env K) (m : TVoxelMap K V) (fuel : Nat) (k : K)
    (j0 : Nat) (e0 : FElement K V) (hM : SizeMono env) (hwf : WF env m)
    (hfuel : m.Elements.length < fuel) (he0 : m.Elements[j0]? = some e0) (hk : e0.Key = k) :
    ∃ m2, RemoveHashedChecked env fuel m (HashValue env k) k = Res.ok m2 ∧
      entries m2 = swapRemove (entries m) j0 ∧
      m2.HashTable.length = m.HashTable.length ∧ WF env m2 := by
  have hcont := Contains_present env m fuel k j0 e0 hwf hfuel he0 hk
  have hci := hwf.checkInvariants
  obtain ⟨ch, hw⟩ := hwf
  have hj0 : j0 < m.Elements.length := (List.getElem?_eq_some_iff.mp he0).1
  have hs : 0 < m.HashTable.length := hw.tablePos (by omega)
  have hgei : GetElementIndex m (HashValue env k) =
      Res.ok (bucketOf env m.HashTable.length k) := GetElementIndex_ok m _ hw.pow2 hs
  obtain ⟨m1, ch1, hunl, hT1, hn1, hent1, hl1⟩ := unlink_phase env m ch fuel k j0 e0 hw hfuel he0 hk
  obtain ⟨e0b, he0b, hk0b, _⟩ := entries_getElem? m1 m hent1.symm j0 e0 he0
  have hj0len : j0 < (entries m).length := by simpa [entries] using hj0
  have hEU : EntriesUnique (swapRemove (entries m) j0) :=
    EntriesUnique_swapRemove _ j0 hj0len ((KeysUnique_iff_entries m).mp hw.keys)
  have hsize : ∀ n2, n2 + 1 = m.Elements.length → 0 < n2 →
      GetHashSize env n2 ≤ m.HashTable.length := by
    intro n2 hn2 _
    exact le_trans (hM n2 m.Elements.length (by omega)) (hw.sizing (by omega))
  unfold RemoveHashedChecked
  simp only [hcont, check_true, Res.ok_bind, beq_self_eq_true, hci, hgei, hunl,
    elemAt_nat _ _ _ he0b, hk0b, hk, decide_True]
  by_cases hlast : j0 + 1 = m.Elements.length
  · have hcond : (j0 : Int) = (m1.Elements.length : Int) - 1 := by omega
    rw [if_pos hcond]
    have hent2 : entries ({ m1 with Elements := m1.Elements.dropLast } : TVoxelMap K V) =
        swapRemove (entries m) j0 := by
      have hl2 : j0 + 1 = (entries m).length := by simpa [entries] using hlast
      unfold swapRemove
      rw [if_pos hl2, ← hent1]
      simp [entries]
    refine ⟨_, rfl, hent2, hT1, ch1, ?_⟩
    have hlen2 : m1.Elements.dropLast.length = j0 := by
      rw [List.length_dropLast]; omega
    refine ⟨by rw [hT1]; exact hw.pow2, fun _ => by rw [hT1]; exact hs, ?_, ?_, ?_⟩
    · intro hpos
      simp only [hlen2, hT1] at hpos ⊢
      exact hsize j0 hlast hpos
    · rw [KeysUnique_iff_entries, hent2]
      exact hEU
    · have hcg : Linked env m1 (fun i => i < m1.Elements.dropLast.length) ch1 := by
        refine hl1.congr ?_
        intro i
        rw [hlen2]
        constructor
        · intro h; omega
        · intro h; exact ⟨by omega, by omega⟩
      refine hcg.frame rfl ?_
      · intro i hi
        rw [hlen2] at hi
        simp only [List.getElem?_dropLast]
        rw [if_pos (by omega)]
  · have hcond : ¬ (j0 : Int) = (m1.Elements.length : Int) - 1 := by omega
    rw [if_neg hcond]
    obtain ⟨L, hL⟩ : ∃ L, m1.Elements.length = L + 1 := ⟨m.Elements.length - 1, by omega⟩
    have hjL : j0 < L := by omega
    obtain ⟨eL, heL⟩ : ∃ e, m1.Elements[L]? = some e :=
      ⟨_, List.getElem?_eq_getElem (by omega)⟩
    have hs1 : 0 < m1.HashTable.length := by rw [hT1]; exact hs
    have hp1 : IsPowerOfTwo m1.HashTable.length = true := by rw [hT1]; exact hw.pow2
    obtain ⟨ptr, ch2, hfind, hpop, hlen2, hT2, hent2, hl2⟩ := swap_phase env m1 ch1 fuel j0 L
      eL hL hjL heL (hl1.congr (fun i => by rw [← hn1, hL])) hs1 (by omega)
    have hgei2 : GetElementIndex m1 (HashValue env eL.Key) =
        Res.ok (bucketOf env m1.HashTable.length eL.Key) :=
      GetElementIndex_ok m1 _ hp1 hs1
    obtain ⟨ej, hj0b⟩ : ∃ e, (writePtr m1 ptr j0).Elements[j0]? = some e :=
      ⟨_, List.getElem?_eq_getElem (by omega)⟩
    simp only [elemAt_last _ L _ hL heL, Res.ok_bind, hgei2, hfind, elemAt_nat _ _ _ hj0b,
      elemAt_last _ L _ hlen2 hpop, Int.toNat_ofNat]
    have hent3 : entries
        ({ HashTable := (writePtr m1 ptr j0).HashTable,
           Elements := (writePtr m1 ptr j0).Elements.dropLast.set j0 eL } : TVoxelMap K V) =
        swapRemove (entries m) j0 := by
      have hl3 : ¬ j0 + 1 = (entries m).length := by simpa [entries] using hlast
      have hgl : (entries m).getLast? = some (eL.Key, eL.Value) := by
        rw [← hent1, List.getLast?_eq_getElem?]
        have hlenL : (entries m1).length - 1 = L := by simp [entries, hL]
        rw [hlenL]
        simp only [entries, List.getElem?_map, heL, Option.map_some']
      unfold swapRemove
      rw [if_neg hl3, hgl, ← hent1, ← hent2]
      simp [entries]
    refine ⟨_, rfl, hent3, by rw [hT2, hT1], ch2, ?_⟩
    have hlen3 : ((writePtr m1 ptr j0).Elements.dropLast.set j0 eL).length = L := by
      rw [List.length_set, List.length_dropLast, hlen2]; omega
    refine ⟨by rw [hT2, hT1]; exact hw.pow2, fun _ => by rw [hT2, hT1]; exact hs, ?_, ?_, ?_⟩
    · intro hpos
      simp only [hlen3, hT2, hT1] at hpos ⊢
      exact hsize L (by omega) hpos
    · rw [KeysUnique_iff_entries, hent3]
      exact hEU
    · refine hl2.congr ?_
      intro i
      rw [hlen3]

/-- Calling `Remove` on a key held at index `j0` of a well-formed map returns `true`; the entries
afterwards are the swap-pop of the entries at `j0`. -/
theorem Remove_present (env : Env K) (m : TVoxelMap K V) (fuel : Nat) (k : K)
    (j0 : Nat) (e0 : FElement K V) (hM : SizeMono env) (hwf : WF env m)
    (hfuel : m.Elements.length < fuel) (he0 : m.Elements[j0]? = some e0) (hk : e0.Key = k) :
    ∃ m2, Remove env fuel m k = Res.ok (true, m2) ∧
      entries m2 = swapRemove (entries m) j0 ∧
      m2.HashTable.length = m.HashTable.length ∧ WF env m2 := by
  obtain ⟨m2, hrem, hent, hT, hwf2⟩ :=
    RemoveHashedChecked_spec env m fuel k j0 e0 hM hwf hfuel he0 hk
  have hf := Find_present env m fuel k j0 e0 hwf hfuel he0 hk
  unfold Find at hf
  exact ⟨m2, by simp only [Remove, hf, Res.ok_bind, hrem], hent, hT, hwf2⟩

/-- Calling `Remove` on a key that no element holds returns `false` and changes nothing. -/
theorem Remove_absent (env : Env K) (m : TVoxelMap K V) (fuel : Nat) (k : K)
    (hwf : WF env m) (hfuel : m.Elements.length < fuel)
    (hk : ∀ (j : Nat) (e : FElement K V), m.Elements[j]? = some e → e.Key ≠ k) :
    Remove env fuel m k = Res.ok (false, m) := by
  have hf := Find_absent env m fuel k hwf hfuel hk
  unfold Find at hf
  simp only [Remove, hf, Res.ok_bind]

/-- After a swap-pop at the index of key `k`, the entries are the old ones without `k`. -/
theorem mem_entries_swapRemove (m : TVoxelMap K V) (j0 : Nat) (e0 : FElement K V)
    (hu : KeysUnique m.Elements) (he0 : m.Elements[j0]? = some e0) (k2 : K) (v2 : V) :
    (k2, v2) ∈ swapRemove (entries m) j0 ↔ (k2, v2) ∈ entries m ∧ k2 ≠ e0.Key := by
  have hj0 : j0 < (entries m).length := by
    have := (List.getElem?_eq_some_iff.mp he0).1
    simpa [entries] using this
  have hx0 : (entries m)[j0]? = some (e0.Key, e0.Value) := by simp [entries, he0]
  have hEU := (KeysUnique_iff_entries m).mp hu
  rw [mem_swapRemove _ _ _ hj0]
  constructor
  · rintro ⟨i, hij, hi⟩
    refine ⟨List.mem_iff_getElem?.mpr ⟨i, hi⟩, ?_⟩
    intro hk
    exact hij (hEU i j0 _ _ hi hx0 hk)
  · rintro ⟨hmem, hne⟩
    obtain ⟨i, hi⟩ := List.mem_iff_getElem?.mp hmem
    refine ⟨i, ?_, hi⟩
    intro hij
    subst hij
    rw [hx0] at hi
    cases hi
    exact hne rfl

theorem absent_of_not_mem (m : TVoxelMap K V) (k : K) (h : ∀ v, (k, v) ∉ entries m) :
    ∀ (j : Nat) (e : FElement K V), m.Elements[j]? = some e → e.Key ≠ k := by
  intro j e hj hk
  exact h e.Value ((mem_entries_iff m k e.Value).mpr ⟨j, e, hj, hk, rfl⟩)

/-- Inserting pairs with new, distinct keys appends them in order and keeps the map
well-formed. -/
theorem addAll_spec (env : Env K) (fuel : Nat) (hE : EnvOK env) :
    ∀ (kvs : List (K × V)) (m : TVoxelMap K V), WF env m →
      m.Elements.length + kvs.length < fuel → (kvs.map Prod.fst).Nodup →
      (∀ k v, (k, v) ∈ kvs → ∀ v0, (k, v0) ∉ entries m) →
      ∃ m2, addAll env fuel kvs m = Res.ok m2 ∧ entries m2 = entries m ++ kvs ∧ WF env m2 := by
  intro kvs
  induction kvs with
  | nil =>
    intro m hwf _ _ _
    exact ⟨m, rfl, by simp, hwf⟩
  | cons p rest ih =>
    intro m hwf hfuel hnd hnew
    obtain ⟨k, v⟩ := p
    simp only [List.map_cons, List.nodup_cons, List.length_cons] at hnd hfuel
    have habs := absent_of_not_mem m k (hnew k v (List.mem_cons_self _ _))
    obtain ⟨m1, hadd, hent1, hwf1⟩ :=
      Add_CheckNew_spec env m fuel k v hE hwf (by omega) habs
    have hlen1 : m1.Elements.length = m.Elements.length + 1 := by
      have := congrArg List.length hent1
      simpa [entries] using this
    obtain ⟨m2, hall, hent2, hwf2⟩ := ih m1 hwf1 (by omega) hnd.2 (by
      intro k2 v2 hmem v0 hin
      rw [hent1, List.mem_append] at hin
      rcases hin with hin | hin
      · exact hnew k2 v2 (List.mem_cons_of_mem _ hmem) v0 hin
      · simp only [List.mem_singleton, Prod.mk.injEq] at hin
        apply hnd.1
        rw [← hin.1]
        exact List.mem_map.mpr ⟨(k2, v2), hmem, rfl⟩)
    refine ⟨m2, ?_, ?_, hwf2⟩
    · simp only [addAll, hadd, Res.ok_bind]
      exact hall
    · rw [hent2, hent1]
      simp

theorem sampleEnv_ok : EnvOK sampleEnv := by
  constructor
  · intro n
    simp only [GetHashSize, sampleEnv]
    split_ifs <;> omega
  · intro n
    simp only [GetHashSize, sampleEnv]
    split_ifs <;> first | omega | decide

theorem sampleEnv_mono : SizeMono sampleEnv := by
  intro a b hab
  simp only [GetHashSize, sampleEnv]
  split_ifs <;> omega

theorem sampleMap_eq : addAll sampleEnv 10 samplePairs (empty : TVoxelMap Nat Nat) =
    Res.ok sampleMap := by
  decide

/-- The colliding-keys scenario evaluated: keys `0, 1, 2, 17` are inserted (`1` and `17` share
bucket `1`), then `1` is removed; the last element, key `17`, moves into slot `1`, its bucket
is re-pointed, `Find` of `17` succeeds, `Find` of `1` is null and three elements remain. -/
theorem remove_colliding_scenario :
    Remove sampleEnv 10 sampleMap 1 = Res.ok (true,
      { HashTable := [0, 1, 2, -1, -1, -1, -1, -1, -1, -1, -1, -1, -1, -1, -1, -1],
        Elements := [⟨0, 100, -1⟩, ⟨17, 117, -1⟩, ⟨2, 102, -1⟩] }) ∧
    FindValue sampleEnv 10
      { HashTable := [0, 1, 2, -1, -1, -1, -1, -1, -1, -1, -1, -1, -1, -1, -1, -1],
        Elements := [⟨0, 100, -1⟩, ⟨17, 117, -1⟩, ⟨2, 102, -1⟩] } 17 = Res.ok (some 117) ∧
    FindValue sampleEnv 10
      { HashTable := [0, 1, 2, -1, -1, -1, -1, -1, -1, -1, -1, -1, -1, -1, -1, -1],
        Elements := [⟨0, 100, -1⟩, ⟨17, 117, -1⟩, ⟨2, 102, -1⟩] } 1 = Res.ok none := by
  decide

theorem sampleMap_wf : WF sampleEnv sampleMap := by
  obtain ⟨m2, hall, _, hwf⟩ := addAll_spec sampleEnv 10 sampleEnv_ok samplePairs
    (empty : TVoxelMap Nat Nat) (WF_empty sampleEnv) (by decide) (by decide)
    (by intro k v _ v0 h; simp [entries, empty] at h)
  rw [sampleMap_eq] at hall
  cases hall
  exact hwf

theorem keys_nodup (m : TVoxelMap K V) (hu : KeysUnique m.Elements) :
    ((entries m).map Prod.fst).Nodup := by
  rw [List.nodup_iff_getElem?_ne_getElem?]
  intro i j hij hj heq
  simp only [List.length_map, entries] at hj
  have hi : i < m.Elements.length := by omega
  simp only [entries, List.map_map, List.getElem?_map, List.getElem?_eq_getElem hi,
    List.getElem?_eq_getElem hj, Option.map_some', Function.comp_apply, Option.some.injEq] at heq
  have := hu i j _ _ (List.getElem?_eq_getElem hi) (List.getElem?_eq_getElem hj) heq
  omega

/-- The element count is the number of keys of any duplicate-free list with the same
members as the map's keys. -/
theorem Num_eq_length_of_mem_iff (env : Env K) (m : TVoxelMap K V) (live : List K)
    (hwf : WF env m) (hnd : live.Nodup) (hmem : ∀ k, k ∈ live ↔ ∃ v, (k, v) ∈ entries m) :
    m.Elements.length = live.length := by
  obtain ⟨ch, hw⟩ := hwf
  have hk := keys_nodup m hw.keys
  have hperm : live.Perm ((entries m).map Prod.fst) := by
    rw [List.perm_ext_iff_of_nodup hnd hk]
    intro k
    rw [hmem k]
    simp only [List.mem_map, Prod.exists, exists_and_right, exists_eq_right]
  have := hperm.length_eq
  simpa [entries] using this.symm

/-- One operation keeps the map well-formed and in step with the live keys. -/
theorem applyOp_spec (env : Env K) (dflt : V) (fuel : Nat) (hE : EnvOK env) (hM : SizeMono env)
    (m : TVoxelMap K V) (live : List K) (op : Op K V) (hwf : WF env m) (hnd : live.Nodup)
    (hmem : ∀ k, k ∈ live ↔ ∃ v, (k, v) ∈ entries m) (hfuel : m.Elements.length < fuel)
    (hok : opOk live op = true) :
    ∃ m1, applyOp env dflt fuel m op = Res.ok m1 ∧ WF env m1 ∧ (liveStep live op).Nodup ∧
      (∀ k, k ∈ liveStep live op ↔ ∃ v, (k, v) ∈ entries m1) ∧
      m1.Elements.length ≤ m.Elements.length + 1 := by
  have hadd : ∀ (k : K) (v : V) (m1 : TVoxelMap K V), k ∉ live →
      entries m1 = entries m ++ [(k, v)] →
      (live ++ [k]).Nodup ∧ (∀ k2, k2 ∈ live ++ [k] ↔ ∃ v2, (k2, v2) ∈ entries m1) ∧
        m1.Elements.length ≤ m.Elements.length + 1 := by
    intro k v m1 hk hent
    refine ⟨?_, ?_, ?_⟩
    · rw [List.nodup_append]
      refine ⟨hnd, List.nodup_singleton k, ?_⟩
      intro x hx hx2
      rw [List.mem_singleton] at hx2
      exact hk (hx2 ▸ hx)
    · intro k2
      rw [hent, List.mem_append, hmem k2]
      simp only [List.mem_singleton, List.mem_append, Prod.mk.injEq]
      constructor
      · rintro (⟨v2, h2⟩ | h2)
        · exact ⟨v2, Or.inl h2⟩
        · exact ⟨v, Or.inr ⟨h2, rfl⟩⟩
      · rintro ⟨v2, h2 | h2⟩
        · exact Or.inl ⟨v2, h2⟩
        · exact Or.inr h2.1
    · have := congrArg List.length hent
      simp only [entries, List.length_map, List.length_append, List.length_singleton] at this
      omega
  have hnot : ∀ k, k ∉ live → ∀ v, (k, v) ∉ entries m := by
    intro k hk v hv
    exact hk ((hmem k).mpr ⟨v, hv⟩)
  cases op with
  | findOrAdd k =>
    by_cases hk : k ∈ live
    · obtain ⟨v, hv⟩ := (hmem k).mp hk
      obtain ⟨j, e, hj, hke, _⟩ := (mem_entries_iff m k v).mp hv
      refine ⟨m, ?_, hwf, ?_, ?_, by omega⟩
      · simp only [applyOp, FindOrAdd_present env dflt m fuel k j e hwf hfuel hj hke, Res.ok_bind]
      · simp only [liveStep, if_pos hk]; exact hnd
      · simp only [liveStep, if_pos hk]; exact hmem
    · obtain ⟨m1, hfa, hent, hwf1⟩ := FindOrAdd_absent env dflt m fuel k hE hwf hfuel
        (absent_of_not_mem m k (hnot k hk))
      obtain ⟨h1, h2, h3⟩ := hadd k dflt m1 hk hent
      refine ⟨m1, ?_, hwf1, ?_, ?_, h3⟩
      · simp only [applyOp, hfa, Res.ok_bind]
      · simp only [liveStep, if_neg hk]; exact h1
      · simp only [liveStep, if_neg hk]; exact h2
  | addCheckNew k v =>
    have hk : k ∉ live := by simpa [opOk] using hok
    obtain ⟨m1, hfa, hent, hwf1⟩ := Add_CheckNew_spec env m fuel k v hE hwf hfuel
      (absent_of_not_mem m k (hnot k hk))
    obtain ⟨h1, h2, h3⟩ := hadd k v m1 hk hent
    exact ⟨m1, by simp only [applyOp, hfa, Res.ok_bind], hwf1, h1, h2, h3⟩
  | remove k =>
    have hu : KeysUnique m.Elements := by
      obtain ⟨ch, hw⟩ := hwf
      exact hw.keys
    by_cases hk : k ∈ live
    · obtain ⟨v, hv⟩ := (hmem k).mp hk
      obtain ⟨j, e, hj, hke, _⟩ := (mem_entries_iff m k v).mp hv
      obtain ⟨m1, hrem, hent, _, hwf1⟩ := Remove_present env m fuel k j e hM hwf hfuel hj hke
      refine ⟨m1, by simp only [applyOp, hrem, Res.ok_bind], hwf1, hnd.filter _, ?_, ?_⟩
      · intro k2
        simp only [liveStep, List.mem_filter, decide_eq_true_eq, hmem k2, hent,
          mem_entries_swapRemove m j e hu hj k2, hke]
        constructor
        · rintro ⟨⟨v2, h2⟩, hne⟩
          exact ⟨v2, h2, hne⟩
        · rintro ⟨v2, h2, hne⟩
          exact ⟨⟨v2, h2⟩, hne⟩
      · have hjl : j < (entries m).length := by
          have := (List.getElem?_eq_some_iff.mp hj).1
          simpa [entries] using this
        have := congrArg List.length hent
        rw [length_swapRemove _ _ hjl] at this
        simp only [entries, List.length_map] at this
        omega
    · refine ⟨m, ?_, hwf, hnd.filter _, ?_, by omega⟩
      · simp only [applyOp, Remove_absent env m fuel k hwf hfuel
          (absent_of_not_mem m k (hnot k hk)), Res.ok_bind]
      · intro k2
        simp only [liveStep, List.mem_filter, decide_eq_true_eq, ← hmem k2]
        constructor
        · exact fun h => h.1
        · exact fun h => ⟨h, fun hkk => hk (hkk ▸ h)⟩

/-- A sequence of operations keeps the map well-formed and in step with the live keys. -/
theorem runOps_spec (env : Env K) (dflt : V) (fuel : Nat) (hE : EnvOK env) (hM : SizeMono env) :
    ∀ (ops : List (Op K V)) (m : TVoxelMap K V) (live : List K), WF env m → live.Nodup →
      (∀ k, k ∈ live ↔ ∃ v, (k, v) ∈ entries m) → m.Elements.length + ops.length < fuel →
      opsOk live ops = true →
      ∃ m2, runOps env dflt fuel ops m = Res.ok m2 ∧ WF env m2 ∧ (liveKeys live ops).Nodup ∧
        (∀ k, k ∈ liveKeys live ops ↔ ∃ v, (k, v) ∈ entries m2) ∧
        m2.Elements.length ≤ m.Elements.length + ops.length := by
  intro ops
  induction ops with
  | nil =>
    intro m live hwf hnd hmem _ _
    exact ⟨m, rfl, hwf, hnd, hmem, by simp⟩
  | cons op rest ih =>
    intro m live hwf hnd hmem hfuel hok
    simp only [opsOk, Bool.and_eq_true] at hok
    simp only [List.length_cons] at hfuel
    obtain ⟨m1, hap, hwf1, hnd1, hmem1, hlen1⟩ :=
      applyOp_spec env dflt fuel hE hM m live op hwf hnd hmem (by omega) hok.1
    obtain ⟨m2, hrun, hwf2, hnd2, hmem2, hlen2⟩ :=
      ih m1 (liveStep live op) hwf1 hnd1 hmem1 (by omega) hok.2
    refine ⟨m2, ?_, hwf2, hnd2, hmem2, ?_⟩
    · simp only [runOps, hap, Res.ok_bind]
      exact hrun
    · simp only [List.length_cons]
      omega

/-- Where the loop of `FindHashed` finds an element, the loop of `FindChecked` returns it. -/
theorem FindChecked_loop_of_found (els : List (FElement K V)) (k : K) :
    ∀ (fuel : Nat) (h : Int) (j : Nat), FindHashed.loop els k fuel h = Res.ok (some j) →
      FindChecked.loop els k fuel h = Res.ok j := by
  intro fuel
  induction fuel with
  | zero => intro h j hf; simp [FindHashed.loop] at hf
  | succ f ih =>
    intro h j hf
    unfold FindHashed.loop at hf
    unfold FindChecked.loop
    by_cases hh : h = -1
    · simp [hh] at hf
    · rw [if_neg hh] at hf
      have hne : (h != -1) = true := by simpa using hh
      rw [hne, check_true, Res.ok_bind]
      cases he : elemAt els h with
      | ok e =>
        rw [he, Res.ok_bind] at hf
        rw [Res.ok_bind]
        by_cases hk : e.Key = k
        · simp only [ne_eq, hk, not_true_eq_false, if_false, Res.ok.injEq,
            Option.some.injEq] at hf ⊢
          exact hf
        · simp only [ne_eq, hk, not_false_eq_true, if_true] at hf ⊢
          exact ih _ j hf
      | fatal => rw [he] at hf; simp at hf
      | timeout => rw [he] at hf; simp at hf

/-- Calling `FindChecked` on a key held at index `j` returns the reference to that element. -/
theorem FindChecked_present (env : Env K) (m : TVoxelMap K V) (fuel : Nat) (k : K) (j : Nat)
    (e : FElement K V) (hwf : WF env m) (hfuel : m.Elements.length < fuel)
    (he : m.Elements[j]? = some e) (hk : e.Key = k) :
    FindChecked env fuel m k = Res.ok j := by
  have hfind := Find_present env m fuel k j e hwf hfuel he hk
  have hcont := Contains_present env m fuel k j e hwf hfuel he hk
  have hci := hwf.checkInvariants
  obtain ⟨ch, hw⟩ := hwf
  have hj : j < m.Elements.length := (List.getElem?_eq_some_iff.mp he).1
  have hs : 0 < m.HashTable.length := hw.tablePos (by omega)
  have hne : m.HashTable.length ≠ 0 := by omega
  have hgei := GetElementIndex_ok m (HashValue env k) hw.pow2 hs
  unfold Find FindHashed at hfind
  simp only [beq_self_eq_true, check_true, Res.ok_bind, hci, if_neg hne, hgei] at hfind
  unfold FindChecked
  simp only [hcont, check_true, Res.ok_bind, hci, hgei]
  cases ht : tableAt m.HashTable (HashValue env k &&& (m.HashTable.length - 1)) with
  | ok h =>
    rw [ht, Res.ok_bind] at hfind
    rw [Res.ok_bind]
    exact FindChecked_loop_of_found m.Elements k fuel h j hfind
  | fatal => rw [ht] at hfind; simp at hfind
  | timeout => rw [ht] at hfind; simp at hfind

/-- Calling `FindChecked` on a key that no element holds fails its first check. -/
theorem FindChecked_absent (env : Env K) (m : TVoxelMap K V) (fuel : Nat) (k : K)
    (hwf : WF env m) (hfuel : m.Elements.length < fuel)
    (hk : ∀ (j : Nat) (e : FElement K V), m.Elements[j]? = some e → e.Key ≠ k) :
    FindChecked env fuel m k = Res.fatal := by
  simp [FindChecked, Contains_absent env m fuel k hwf hfuel hk]

/-- Either the map holds an entry for the key or it holds none. -/
theorem mem_or_not_mem (m : TVoxelMap K V) (k : K) :
    (∃ v, (k, v) ∈ entries m) ∨ (∀ v, (k, v) ∉ entries m) := by
  by_cases h : ∃ v, (k, v) ∈ entries m
  · exact Or.inl h
  · exact Or.inr fun v hv => h ⟨v, hv⟩

theorem length_SetNumFast (t : List Int) (n : Nat) : (SetNumFast t n).length = n := by
  simp only [SetNumFast, List.length_append, List.length_take, List.length_replicate]
  omega

theorem WF.keys {env : Env K} {m : TVoxelMap K V} (hwf : WF env m) : KeysUnique m.Elements := by
  obtain ⟨ch, hw⟩ := hwf
  exact hw.keys

theorem WF.pow2 {env : Env K} {m : TVoxelMap K V} (hwf : WF env m) :
    IsPowerOfTwo m.HashTable.length = true := by
  obtain ⟨ch, hw⟩ := hwf
  exact hw.pow2

theorem WF.sizing {env : Env K} {m : TVoxelMap K V} (hwf : WF env m)
    (h : 0 < m.Elements.length) : GetHashSize env m.Elements.length ≤ m.HashTable.length := by
  obtain ⟨ch, hw⟩ := hwf
  exact hw.sizing h

/-- Two well-formed maps with the same entries answer `Find` with the same pointer. -/
theorem Find_congr_entries (env : Env K) (m m2 : TVoxelMap K V) (fuel fuel2 : Nat) (k : K)
    (hwf : WF env m) (hwf2 : WF env m2) (hfuel : m.Elements.length < fuel)
    (hfuel2 : m2.Elements.length < fuel2) (hent : entries m2 = entries m) :
    Find env fuel2 m2 k = Find env fuel m k := by
  rcases present_or_absent m.Elements k with ⟨j, e, he, hk⟩ | habs
  · obtain ⟨e2, he2, hk2, _⟩ := entries_getElem? m2 m hent.symm j e he
    rw [Find_present env m fuel k j e hwf hfuel he hk,
      Find_present env m2 fuel2 k j e2 hwf2 hfuel2 he2 (by rw [hk2, hk])]
  · rw [Find_absent env m fuel k hwf hfuel habs]
    refine Find_absent env m2 fuel2 k hwf2 hfuel2 ?_
    intro j e2 he2 hk2
    obtain ⟨e, he, hk, _⟩ := entries_getElem? m m2 hent j e2 he2
    exact habs j e he (by rw [hk, hk2])

/-- `Reserve` keeps the entries and the well-formedness, changes nothing when the requested
number does not exceed the element count, and otherwise leaves a table of at least the size
required for the requested number. -/
theorem Reserve_spec (env : Env K) (m : TVoxelMap K V) (Number : Int) (hE : EnvOK env)
    (hwf : WF env m) :
    ∃ m2, Reserve env m Number = Res.ok m2 ∧ entries m2 = entries m ∧ WF env m2 ∧
      (Number ≤ (m.Elements.length : Int) → m2 = m) ∧
      ((m.Elements.length : Int) < Number →
        GetHashSize env Number.toNat ≤ m2.HashTable.length) ∧
      m.HashTable.length ≤ m2.HashTable.length := by
  unfold Reserve
  by_cases h1 : Number ≤ (m.Elements.length : Int)
  · rw [if_pos h1]
    exact ⟨m, rfl, rfl, hwf, fun _ => rfl, fun h => by omega, le_refl _⟩
  · rw [if_neg h1]
    simp only []
    by_cases h2 : m.HashTable.length < GetHashSize env Number.toNat
    · rw [if_pos h2]
      obtain ⟨m2, hre, hlen, hent, hwf2⟩ := Rehash_spec env
        ({ m with HashTable := SetNumFast m.HashTable (GetHashSize env Number.toNat) })
        hE (by simp only [length_SetNumFast]; exact hE.pow2 _) hwf.keys
      simp only [length_SetNumFast] at hlen
      refine ⟨m2, hre, hent, hwf2, fun h => absurd h h1, fun _ => ?_, ?_⟩
      · rw [hlen]; exact le_max_left _ _
      · rw [hlen]
        exact le_trans (le_of_lt h2) (le_max_left _ _)
    · rw [if_neg h2]
      exact ⟨m, rfl, rfl, hwf, fun _ => rfl, fun _ => by omega, le_refl _⟩

theorem KeysUnique_iff_nodup (els : List (FElement K V)) :
    KeysUnique els ↔ (els.map fun e => e.Key).Nodup := by
  rw [List.nodup_iff_getElem?_ne_getElem?]
  constructor
  · intro hu i j hij hj heq
    simp only [List.length_map] at hj
    have hi : i < els.length := by omega
    simp only [List.getElem?_map, List.getElem?_eq_getElem hi, List.getElem?_eq_getElem hj,
      Option.map_some', Option.some.injEq] at heq
    have := hu i j _ _ (List.getElem?_eq_getElem hi) (List.getElem?_eq_getElem hj) heq
    omega
  · intro hn i j e1 e2 h1 h2 hk
    have hi : i < els.length := (List.getElem?_eq_some_iff.mp h1).1
    have hj : j < els.length := (List.getElem?_eq_some_iff.mp h2).1
    have heq : (els.map fun e => e.Key)[i]? = (els.map fun e => e.Key)[j]? := by
      simp only [List.getElem?_map, h1, h2, Option.map_some', hk]
    by_contra hne
    rcases Nat.lt_or_gt_of_ne hne with hlt | hgt
    · exact hn i j hlt (by simpa using hj) heq
    · exact hn j i hgt (by simpa using hi) heq.symm

theorem KeysUnique_perm (els els2 : List (FElement K V)) (hp : els2.Perm els)
    (hu : KeysUnique els) : KeysUnique els2 := by
  rw [KeysUnique_iff_nodup] at hu ⊢
  exact (hp.map _).nodup_iff.mpr hu

theorem StrictWeakOrder.comap {α β : Type} (lt : β → β → Bool) (f : α → β)
    (h : StrictWeakOrder lt) : StrictWeakOrder (fun a b => lt (f a) (f b)) :=
  ⟨fun a => h.1 (f a), fun a b c => h.2.1 (f a) (f b) (f c),
    fun a b c => h.2.2 (f a) (f b) (f c)⟩

/-- Rebuilding the index of any array with unique keys under a table size accepted by the
checks gives a well-formed map with the same keys and values in the same order. -/
theorem Rehash_elements_spec (env : Env K) (t : List Int) (els : List (FElement K V))
    (hE : EnvOK env) (hp : IsPowerOfTwo t.length = true) (hu : KeysUnique els) :
    ∃ m2, Rehash env { HashTable := t, Elements := els } = Res.ok m2 ∧
      m2.HashTable.length = max t.length (GetHashSize env els.length) ∧
      entries m2 = els.map (fun e => (e.Key, e.Value)) ∧ WF env m2 :=
  Rehash_spec env { HashTable := t, Elements := els } hE hp hu

/-- The sort methods keep the map well-formed, permute the entries and leave them ordered by
the comparator. -/
theorem SortWith_spec (env : Env K) (sortArray : SortFn K V) (m : TVoxelMap K V)
    (lt : K × V → K × V → Bool) (hE : EnvOK env) (hS : SortContract sortArray)
    (hwf : WF env m) (hlt : StrictWeakOrder lt) :
    ∃ m2, SortWith env sortArray m lt = Res.ok m2 ∧ WF env m2 ∧
      (entries m2).Perm (entries m) ∧
      List.Chain' (fun a b => lt b a = false) (entries m2) := by
  obtain ⟨hperm, hsorted⟩ := hS (fun A B => lt (A.Key, A.Value) (B.Key, B.Value))
    (StrictWeakOrder.comap lt (fun A => (A.Key, A.Value)) hlt) m.Elements
  obtain ⟨m2, hre, _, hent, hwf2⟩ := Rehash_elements_spec env m.HashTable
    (sortArray (fun A B => lt (A.Key, A.Value) (B.Key, B.Value)) m.Elements) hE hwf.pow2
    (KeysUnique_perm _ _ hperm hwf.keys)
  refine ⟨m2, hre, hwf2, ?_, ?_⟩
  · rw [hent]
    exact hperm.map _
  · rw [hent, List.chain'_map]
    exact hsorted

theorem KeySort_eq (env : Env K) (sortArray : SortFn K V) (m : TVoxelMap K V)
    (lt : K → K → Bool) :
    KeySort env sortArray m lt = SortWith env sortArray m (fun a b => lt a.1 b.1) := rfl

theorem ValueSort_eq (env : Env K) (sortArray : SortFn K V) (m : TVoxelMap K V)
    (lt : V → V → Bool) :
    ValueSort env sortArray m lt = SortWith env sortArray m (fun a b => lt a.2 b.2) := rfl

/-- `Shrink` keeps the entries and the well-formedness; a non-empty map ends with a table of
exactly `GetHashSize(Num)` buckets, an empty one with no table. -/
theorem Shrink_spec (env : Env K) (m : TVoxelMap K V) (hE : EnvOK env) (hwf : WF env m) :
    ∃ m2, Shrink env m = Res.ok m2 ∧ entries m2 = entries m ∧ WF env m2 ∧
      (0 < m.Elements.length → m2.HashTable.length = GetHashSize env m.Elements.length) ∧
      (m.Elements.length = 0 → m2 = empty) := by
  unfold Shrink
  by_cases h0 : Num m = 0
  · rw [if_pos h0]
    have hnil : m.Elements = [] := List.length_eq_zero.mp h0
    refine ⟨Empty m, rfl, by simp [entries, Empty, hnil], WF_empty env, ?_, fun _ => rfl⟩
    intro h
    unfold Num at h0
    omega
  · rw [if_neg h0]
    have hpos : 0 < m.Elements.length := Nat.pos_of_ne_zero h0
    have hsz := hwf.sizing hpos
    by_cases h1 : m.HashTable.length ≠ GetHashSize env (Num m)
    · rw [if_pos h1]
      have hgt : m.HashTable.length > GetHashSize env (Num m) := by
        unfold Num at h1 ⊢
        omega
      obtain ⟨m2, hre, hlen, hent, hwf2⟩ := Rehash_elements_spec env [] m.Elements hE
        (by decide) hwf.keys
      refine ⟨m2, ?_, hent, hwf2, ?_, fun h => by omega⟩
      · simp only [hgt, decide_True, check_true, Res.ok_bind]
        exact hre
      · intro _
        rw [hlen]
        simp
    · rw [if_neg h1]
      refine ⟨m, rfl, rfl, hwf, fun _ => ?_, fun h => by omega⟩
      unfold Num at h1
      omega

/-- `Reset_KeepHashSize` empties the element array and leaves a well-formed map. -/
theorem Reset_KeepHashSize_spec (env : Env K) (m : TVoxelMap K V) (hE : EnvOK env)
    (hp : IsPowerOfTwo m.HashTable.length = true) :
    ∃ m2, Reset_KeepHashSize env m = Res.ok m2 ∧ entries m2 = [] ∧ WF env m2 ∧
      m2.HashTable.length = max m.HashTable.length (GetHashSize env 0) := by
  obtain ⟨m2, hre, hlen, hent, hwf2⟩ := Rehash_elements_spec env m.HashTable
    ([] : List (FElement K V)) hE hp (by intro i j e1 e2 h1; simp at h1)
  exact ⟨m2, hre, by simpa using hent, hwf2, by simpa using hlen⟩

/-- Loading an archive that holds each key once gives a well-formed map whose entries are
the archive. -/
theorem Load_spec (env : Env K) (m : TVoxelMap K V) (Ar : List (K × V)) (hE : EnvOK env)
    (hp : IsPowerOfTwo m.HashTable.length = true) (hnd : (Ar.map Prod.fst).Nodup) :
    ∃ m2, Load env m Ar = Res.ok m2 ∧ entries m2 = Ar ∧ WF env m2 ∧
      m2.HashTable.length = max m.HashTable.length (GetHashSize env Ar.length) := by
  have hu : KeysUnique (Ar.map fun p =>
      ({ Key := p.1, Value := p.2, NextElementIndex := -16 } : FElement K V)) := by
    rw [KeysUnique_iff_nodup]
    simpa [List.map_map, Function.comp] using hnd
  obtain ⟨m2, hre, hlen, hent, hwf2⟩ := Rehash_elements_spec env m.HashTable _ hE hp hu
  refine ⟨m2, ?_, ?_, hwf2, by simpa using hlen⟩
  · unfold Load
    simp only [hre, Res.ok_bind, hwf2.checkInvariants]
  · rw [hent, List.map_map]
    conv_rhs => rw [← List.map_id Ar]
    apply List.map_congr_left
    intro p _
    rfl

theorem Add_EnsureNew_present (env : Env K) (m : TVoxelMap K V) (fuel : Nat) (k : K) (v : V)
    (j : Nat) (e : FElement K V) (hwf : WF env m) (hfuel : m.Elements.length < fuel)
    (he : m.Elements[j]? = some e) (hk : e.Key = k) :
    Add_EnsureNew env fuel m k v = Res.ok { map := m, ref := j, ensureFailed := true } := by
  have hf := Find_present env m fuel k j e hwf hfuel he hk
  unfold Find at hf
  simp only [Add_EnsureNew, AddHashed_EnsureNew, beq_self_eq_true, check_true, Res.ok_bind, hf]

theorem Add_EnsureNew_absent (env : Env K) (m : TVoxelMap K V) (fuel : Nat) (k : K) (v : V)
    (hwf : WF env m) (hfuel : m.Elements.length < fuel)
    (hk : ∀ (j : Nat) (e : FElement K V), m.Elements[j]? = some e → e.Key ≠ k) :
    Add_EnsureNew env fuel m k v =
      (Add_CheckNew env fuel m k v).bind
        fun r => Res.ok { map := r.1, ref := r.2, ensureFailed := false } := by
  have hf := Find_absent env m fuel k hwf hfuel hk
  unfold Find at hf
  simp only [Add_EnsureNew, AddHashed_EnsureNew, beq_self_eq_true, check_true, Res.ok_bind,
    hf, Add_CheckNew]

theorem held_of_perm (m m1 : TVoxelMap K V) (held : List K)
    (hp : (entries m1).Perm (entries m))
    (hmem : ∀ k, k ∈ held ↔ ∃ v, (k, v) ∈ entries m) :
    ∀ k, k ∈ held ↔ ∃ v, (k, v) ∈ entries m1 := by
  intro k
  rw [hmem k]
  constructor
  · rintro ⟨v, hv⟩; exact ⟨v, hp.mem_iff.mpr hv⟩
  · rintro ⟨v, hv⟩; exact ⟨v, hp.mem_iff.mp hv⟩

/-- One map call keeps the map well-formed and in step with the keys held. -/
theorem applyMapOp_spec (env : Env K) (dflt : V) (sortArray : SortFn K V) (fuel : Nat)
    (hE : EnvOK env) (hM : SizeMono env) (hS : SortContract sortArray)
    (m : TVoxelMap K V) (held : List K) (op : MapOp K V) (hwf : WF env m) (hnd : held.Nodup)
    (hmem : ∀ k, k ∈ held ↔ ∃ v, (k, v) ∈ entries m)
    (hok : mapOpOk fuel held op = true) (hcmp : comparatorOk op) :
    ∃ m1, applyMapOp env dflt sortArray fuel m op = Res.ok m1 ∧ WF env m1 ∧
      (heldStep held op).Nodup ∧
      (∀ k, k ∈ heldStep held op ↔ ∃ v, (k, v) ∈ entries m1) := by
  have hnum := Num_eq_length_of_mem_iff env m held hwf hnd hmem
  have hfuel : m.Elements.length < fuel := by
    rw [hnum]
    cases op <;> simp [mapOpOk] at hok <;> omega
  have hsame : ∀ m1 : TVoxelMap K V, (entries m1).Perm (entries m) →
      ∀ k, k ∈ held ↔ ∃ v, (k, v) ∈ entries m1 :=
    fun m1 hp => held_of_perm m m1 held hp hmem
  cases op with
  | findOrAdd k =>
    obtain ⟨m1, h1, h2, h3, h4, _⟩ := applyOp_spec env dflt fuel hE hM m held (.findOrAdd k)
      hwf hnd hmem hfuel rfl
    exact ⟨m1, h1, h2, h3, h4⟩
  | addCheckNew k v =>
    have hk : opOk held (Op.addCheckNew k v : Op K V) = true := by
      simp only [mapOpOk, Bool.and_eq_true] at hok
      simpa [opOk] using hok.1
    obtain ⟨m1, h1, h2, h3, h4, _⟩ := applyOp_spec env dflt fuel hE hM m held
      (.addCheckNew k v) hwf hnd hmem hfuel hk
    exact ⟨m1, h1, h2, h3, h4⟩
  | remove k =>
    obtain ⟨m1, h1, h2, h3, h4, _⟩ := applyOp_spec env dflt fuel hE hM m held (.remove k)
      hwf hnd hmem hfuel rfl
    exact ⟨m1, h1, h2, h3, h4⟩
  | addEnsureNew k v =>
    by_cases hk : k ∈ held
    · obtain ⟨v0, hv0⟩ := (hmem k).mp hk
      obtain ⟨j, e, hj, hke, _⟩ := (mem_entries_iff m k v0).mp hv0
      refine ⟨m, ?_, hwf, ?_, ?_⟩
      · simp only [applyMapOp, Add_EnsureNew_present env m fuel k v j e hwf hfuel hj hke,
          Res.ok_bind]
      · simp only [heldStep, if_pos hk]; exact hnd
      · simp only [heldStep, if_pos hk]; exact hmem
    · have habs : ∀ v0, (k, v0) ∉ entries m := fun v0 hv0 => hk ((hmem k).mpr ⟨v0, hv0⟩)
      obtain ⟨m1, h1, h2, h3, h4, _⟩ := applyOp_spec env dflt fuel hE hM m held
        (.addCheckNew k v) hwf hnd hmem hfuel (by simpa [opOk] using hk)
      refine ⟨m1, ?_, h2, ?_, ?_⟩
      · simp only [applyOp] at h1
        simp only [applyMapOp,
          Add_EnsureNew_absent env m fuel k v hwf hfuel (absent_of_not_mem m k habs)]
        cases hadd : Add_CheckNew env fuel m k v with
        | ok r => rw [hadd] at h1; simpa using h1
        | fatal => rw [hadd] at h1; simp at h1
        | timeout => rw [hadd] at h1; simp at h1
      · simp only [heldStep, if_neg hk]; exact h3
      · simp only [heldStep, if_neg hk]; exact h4
  | reserve n =>
    obtain ⟨m1, h1, hent, h2, _⟩ := Reserve_spec env m n hE hwf
    exact ⟨m1, h1, h2, hnd, hsame m1 (by rw [hent])⟩
  | shrink =>
    obtain ⟨m1, h1, hent, h2, _⟩ := Shrink_spec env m hE hwf
    exact ⟨m1, h1, h2, hnd, hsame m1 (by rw [hent])⟩
  | rehash =>
    obtain ⟨m1, h1, _, hent, h2⟩ := Rehash_spec env m hE hwf.pow2 hwf.keys
    exact ⟨m1, h1, h2, hnd, hsame m1 (by rw [hent])⟩
  | resetKeepHashSize =>
    obtain ⟨m1, h1, hent, h2, _⟩ := Reset_KeepHashSize_spec env m hE hwf.pow2
    refine ⟨m1, h1, h2, List.nodup_nil, ?_⟩
    intro k
    simp [heldStep, hent]
  | sort lt =>
    obtain ⟨m1, h1, h2, hp, _⟩ := SortWith_spec env sortArray m lt hE hS hwf hcmp
    exact ⟨m1, h1, h2, hnd, hsame m1 hp⟩
  | keySort lt =>
    obtain ⟨m1, h1, h2, hp, _⟩ := SortWith_spec env sortArray m (fun a b => lt a.1 b.1) hE hS
      hwf (StrictWeakOrder.comap lt Prod.fst hcmp)
    exact ⟨m1, h1, h2, hnd, hsame m1 hp⟩
  | valueSort lt =>
    obtain ⟨m1, h1, h2, hp, _⟩ := SortWith_spec env sortArray m (fun a b => lt a.2 b.2) hE hS
      hwf (StrictWeakOrder.comap lt Prod.snd hcmp)
    exact ⟨m1, h1, h2, hnd, hsame m1 hp⟩
  | load Ar =>
    have hAr : (Ar.map Prod.fst).Nodup := by
      simp only [mapOpOk, Bool.and_eq_true, decide_eq_true_eq] at hok
      exact hok.1
    obtain ⟨m1, h1, hent, h2, _⟩ := Load_spec env m Ar hE hwf.pow2 hAr
    refine ⟨m1, h1, h2, hAr, ?_⟩
    intro k
    simp only [heldStep, hent, List.mem_map, Prod.exists, exists_and_right, exists_eq_right]

/-- A sequence of map calls from a well-formed map succeeds and keeps the map well-formed and
in step with the keys held. -/
theorem runMapOps_spec (env : Env K) (dflt : V) (sortArray : SortFn K V) (fuel : Nat)
    (hE : EnvOK env) (hM : SizeMono env) (hS : SortContract sortArray) :
    ∀ (ops : List (MapOp K V)) (m : TVoxelMap K V) (held : List K), WF env m → held.Nodup →
      (∀ k, k ∈ held ↔ ∃ v, (k, v) ∈ entries m) → mapOpsOk fuel held ops = true →
      (∀ op, op ∈ ops → comparatorOk op) →
      ∃ m2, runMapOps env dflt sortArray fuel ops m = Res.ok m2 ∧ WF env m2 := by
  intro ops
  induction ops with
  | nil =>
    intro m held hwf _ _ _ _
    exact ⟨m, rfl, hwf⟩
  | cons op rest ih =>
    intro m held hwf hnd hmem hok hcmp
    simp only [mapOpsOk, Bool.and_eq_true] at hok
    obtain ⟨m1, hap, hwf1, hnd1, hmem1⟩ := applyMapOp_spec env dflt sortArray fuel hE hM hS m
      held op hwf hnd hmem hok.1 (hcmp op (List.mem_cons_self _ _))
    obtain ⟨m2, hrun, hwf2⟩ := ih m1 (heldStep held op) hwf1 hnd1 hmem1 hok.2
      (fun o ho => hcmp o (List.mem_cons_of_mem _ ho))
    refine ⟨m2, ?_, hwf2⟩
    simp only [runMapOps, hap, Res.ok_bind]
    exact hrun

theorem natLess_strictWeak : StrictWeakOrder natLess := by
  refine ⟨?_, ?_, ?_⟩
  · intro a; simp [natLess]
  · intro a b c; simp only [natLess, decide_eq_true_eq]; omega
  · intro a b c; simp only [natLess, decide_eq_true_eq]; omega

/-- Insertion sort meets the contract assumed of the array sort. -/
theorem sampleSort_contract : SortContract sampleSort := by
  intro lt hlt l
  haveI : IsTotal (FElement Nat Nat) (fun a b => lt b a = false) := by
    constructor
    intro a b
    by_cases h : lt b a = true
    · right
      cases hab : lt a b with
      | false => rfl
      | true =>
        have := hlt.2.1 a b a hab h
        rw [hlt.1 a] at this
        cases this
    · left
      simpa using h
  haveI : IsTrans (FElement Nat Nat) (fun a b => lt b a = false) := by
    constructor
    intro a b c hab hbc
    cases hca : lt c a with
    | false => rfl
    | true =>
      rcases hlt.2.2 c b a hca with h | h
      · rw [hbc] at h; cases h
      · rw [hab] at h; cases h
  exact ⟨List.perm_insertionSort _ l, (List.sorted_insertionSort _ l).chain'⟩

theorem sampleMapOps_comparators : ∀ op, op ∈ sampleMapOps → comparatorOk op := by
  intro op hop
  simp only [sampleMapOps, List.mem_cons, List.mem_singleton, List.not_mem_nil, or_false] at hop
  rcases hop with h | h | h | h | h | h | h | h | h | h | h | h | h | h | h | h | h <;>
    subst h <;> simp only [comparatorOk]
  · exact natLess_strictWeak
  · exact natLess_strictWeak
  · exact StrictWeakOrder.comap (fun a b => natLess b a) Prod.fst
      ⟨fun a => natLess_strictWeak.1 a,
        fun a b c h1 h2 => natLess_strictWeak.2.1 c b a h2 h1,
        fun a b c h => (natLess_strictWeak.2.2 c b a h).symm⟩

theorem sampleSmall_wf : WF sampleEnv sampleSmall := by
  obtain ⟨m2, hall, _, hwf⟩ := addAll_spec sampleEnv 10 sampleEnv_ok
    [(0, 100), (1, 101), (2, 102)] (empty : TVoxelMap Nat Nat) (WF_empty sampleEnv)
    (by decide) (by decide) (by intro k v _ v0 h; simp [entries, empty] at h)
  have heq : addAll sampleEnv 10 [(0, 100), (1, 101), (2, 102)]
      (empty : TVoxelMap Nat Nat) = Res.ok sampleSmall := by decide
  rw [heq] at hall
  cases hall
  exact hwf

/-- What the sort methods guarantee, for a comparator on key/value pairs. -/
theorem SortWith_find (env : Env K) (sortArray : SortFn K V) (m : TVoxelMap K V) (fuel : Nat)
    (lt : K × V → K × V → Bool) (hE : EnvOK env) (hS : SortContract sortArray)
    (hwf : WF env m) (hfuel : m.Elements.length < fuel) (hlt : StrictWeakOrder lt) :
    ∃ m2, SortWith env sortArray m lt = Res.ok m2 ∧ Num m2 = Num m ∧
      (∀ k, FindValue env fuel m2 k = FindValue env fuel m k) ∧
      (entries m2).Perm (entries m) ∧
      List.Chain' (fun a b => lt b a = false) (entries m2) := by
  obtain ⟨m2, hs, hwf2, hp, hc⟩ := SortWith_spec env sortArray m lt hE hS hwf hlt
  have hnum : m2.Elements.length = m.Elements.length := by
    have := hp.length_eq
    simpa [entries] using this
  refine ⟨m2, hs, hnum, ?_, hp, hc⟩
  intro k
  refine FindValue_congr env m2 m fuel fuel k hwf2 hwf (by rw [hnum]; exact hfuel) hfuel ?_
  intro v
  exact hp.mem_iff

/-! ### Iteration -/

theorem drop_of_getElem? {α : Type} (l : List α) (i : Nat) (x : α) (h : l[i]? = some x) :
    l.drop i = x :: l.drop (i + 1) := by
  obtain ⟨hlt, hx⟩ := List.getElem?_eq_some_iff.mp h
  rw [List.drop_eq_getElem_cons hlt, hx]

theorem take_succ_of_getElem? {α : Type} (l : List α) (i : Nat) (x : α) (h : l[i]? = some x) :
    l.take (i + 1) = l.take i ++ [x] := by
  rw [List.take_succ, h]
  rfl

theorem next_iterAt (m : TVoxelMap K V) (i : Nat) (It : TIterator)
    (h : It.Index + 1 = (i : Int)) : It.next m = Res.ok (iterAt m i) := by
  unfold TIterator.next iterAt
  simp only [h]
  by_cases hi : i < m.Elements.length
  · obtain ⟨e, he⟩ : ∃ e, m.Elements[i]? = some e := ⟨_, List.getElem?_eq_getElem hi⟩
    have h1 : (i : Int) < (m.Elements.length : Int) := by omega
    rw [if_pos h1, if_pos hi, elemAt_nat _ _ e he]
    simp [Res.bind]
  · have h1 : ¬ (i : Int) < (m.Elements.length : Int) := by omega
    rw [if_neg h1, if_neg hi]

theorem CreateIterator_eq (m : TVoxelMap K V) : CreateIterator m = iterAt m 0 := by
  unfold CreateIterator iterAt
  by_cases h : 0 < m.Elements.length
  · simp [h]
  · simp [h]

/-- The visiting loop started at index `i` reads the remaining elements in index order. -/
theorem iterate_loop_spec (m : TVoxelMap K V) :
    ∀ (r i steps : Nat) (acc : List (Nat × K × V)), i ≤ m.Elements.length →
      m.Elements.length - i = r → r < steps →
      iterate.loop m steps (iterAt m i) acc =
        Res.ok (acc ++ List.enumFrom i ((entries m).drop i)) := by
  intro r
  induction r with
  | zero =>
    intro i steps acc hi hr hs
    obtain ⟨s, rfl⟩ : ∃ s, steps = s + 1 := ⟨steps - 1, by omega⟩
    have hlt : ¬ i < m.Elements.length := by omega
    have hd : (entries m).drop i = [] := by
      apply List.drop_of_length_le
      simp [entries]; omega
    simp [iterate.loop, iterAt, hlt, TIterator.valid, hd]
  | succ r ih =>
    intro i steps acc hi hr hs
    obtain ⟨s, rfl⟩ : ∃ s, steps = s + 1 := ⟨steps - 1, by omega⟩
    have hlt : i < m.Elements.length := by omega
    obtain ⟨e, he⟩ : ∃ e, m.Elements[i]? = some e := ⟨_, List.getElem?_eq_getElem hlt⟩
    have hent : (entries m)[i]? = some (e.Key, e.Value) := by simp [entries, he]
    have hnext : TIterator.next m { ElementPtr := some i, Index := (i : Int) } =
        Res.ok (iterAt m (i + 1)) := next_iterAt m (i + 1) _ (by simp)
    have hcur : iterAt m i = { ElementPtr := some i, Index := (i : Int) } := by
      simp [iterAt, hlt]
    rw [hcur, iterate.loop]
    simp only [TIterator.valid, Option.isSome_some, if_true, TIterator.Key, TIterator.Value,
      elemAt_nat _ _ e he, Res.ok_bind, hnext, Option.getD_some]
    rw [ih (i + 1) s _ (by omega) (by omega) (by omega), drop_of_getElem? _ _ _ hent]
    simp [List.enumFrom_cons]

theorem iterate_spec (m : TVoxelMap K V) (steps : Nat) (h : m.Elements.length < steps) :
    iterate steps m = Res.ok (entries m).enum := by
  unfold iterate
  rw [CreateIterator_eq, iterate_loop_spec m m.Elements.length 0 steps [] (by omega) rfl h]
  simp [List.enum]

theorem take_swapRemove {α : Type} (l : List α) (i : Nat) (hi : i < l.length) :
    (swapRemove l i).take i = l.take i := by
  apply List.ext_getElem?
  intro j
  rw [List.getElem?_take, List.getElem?_take, getElem?_swapRemove l i j hi]
  by_cases hj : j < i
  · have h1 : j + 1 < l.length := by omega
    have h2 : j ≠ i := by omega
    rw [if_pos hj, if_pos hj, if_pos h1, if_neg h2]
  · rw [if_neg hj, if_neg hj]

theorem drop_swapRemove_perm {α : Type} (l : List α) (i : Nat) (x : α) (h : l[i]? = some x) :
    (x :: (swapRemove l i).drop i).Perm (l.drop i) := by
  obtain ⟨hi, _⟩ := List.getElem?_eq_some_iff.mp h
  have hne : l ≠ [] := by
    intro h0; rw [h0] at hi; simp at hi
  have hl : l = l.dropLast ++ [l.getLast hne] := (List.dropLast_append_getLast hne).symm
  have hlen : l.dropLast.length = l.length - 1 := List.length_dropLast l
  unfold swapRemove
  by_cases hlast : i + 1 = l.length
  · rw [if_pos hlast]
    have h1 : l.dropLast.drop i = [] := List.drop_of_length_le (by omega)
    have h2 : l.drop (i + 1) = [] := List.drop_of_length_le (by omega)
    rw [h1, drop_of_getElem? l i x h, h2]
  · rw [if_neg hlast, List.getLast?_eq_getLast l hne]
    simp only
    have hid : i < l.dropLast.length := by omega
    have hdx : l.dropLast[i]? = some x := by
      rw [List.getElem?_dropLast, if_pos (by omega)]
      exact h
    have h1 : (l.dropLast.set i (l.getLast hne)).drop i =
        l.getLast hne :: l.dropLast.drop (i + 1) := by
      rw [drop_of_getElem? _ i (l.getLast hne) (by simp [List.getElem?_set]; omega),
        List.drop_set_of_lt _ _ (by omega)]
    have h2 : l.drop i = x :: (l.dropLast.drop (i + 1) ++ [l.getLast hne]) := by
      conv_lhs => rw [hl]
      rw [List.drop_append_of_le_length (by omega), drop_of_getElem? _ i x hdx]
      rfl
    rw [h1, h2]
    exact List.Perm.cons x (List.perm_append_singleton _ _).symm

theorem kept_const (P : K → Bool) :
    ∀ (l : List (K × V)) (n : Nat),
      kept (fun _ k => P k) n l = l.filter (fun p => !P p.1) := by
  intro l
  induction l with
  | nil => intro n; rfl
  | cons p l ih =>
    intro n
    cases hp : P p.1 with
    | true => simp [kept, hp, ih]
    | false => simp [kept, hp, ih]

/-- Calling `RemoveCurrent` on an iterator at index `i` swap-pops slot `i` and leaves a null
iterator with index `i - 1`. -/
theorem RemoveCurrent_spec (env : Env K) (m : TVoxelMap K V) (fuel i : Nat)
    (e : FElement K V) (hM : SizeMono env) (hwf : WF env m)
    (hfuel : m.Elements.length < fuel) (he : m.Elements[i]? = some e) :
    ∃ m1, TIterator.RemoveCurrent env fuel m (iterAt m i) =
        Res.ok (m1, { ElementPtr := none, Index := (i : Int) - 1 }) ∧
      entries m1 = swapRemove (entries m) i ∧
      m1.HashTable.length = m.HashTable.length ∧ WF env m1 := by
  obtain ⟨hlt, _⟩ := List.getElem?_eq_some_iff.mp he
  obtain ⟨m1, hrem, hent, hT, hwf1⟩ :=
    RemoveHashedChecked_spec env m fuel e.Key i e hM hwf hfuel he rfl
  refine ⟨m1, ?_, hent, hT, hwf1⟩
  simp [TIterator.RemoveCurrent, iterAt, hlt, TIterator.Key, elemAt_nat _ _ e he,
    RemoveChecked, hrem]

/-- The removing loop started at index `i` visits the remaining entries once each, in some
order, and keeps the entries before `i` and the visited entries it did not remove. -/
theorem forwardIteration_loop_spec (env : Env K) (Decide : Nat → K → Bool) (fuel : Nat)
    (hM : SizeMono env) :
    ∀ (r : Nat) (m : TVoxelMap K V) (i steps : Nat) (visited : List K), WF env m →
      m.Elements.length < fuel → i ≤ m.Elements.length → m.Elements.length - i = r →
      r < steps →
      ∃ (m2 : TVoxelMap K V) (σ : List (K × V)),
        forwardIteration.loop env Decide fuel steps m (iterAt m i) visited =
          Res.ok (m2, visited ++ σ.map Prod.fst) ∧
        σ.Perm ((entries m).drop i) ∧ WF env m2 ∧
        m2.HashTable.length = m.HashTable.length ∧
        entries m2 = (entries m).take i ++ kept Decide visited.length σ := by
  intro r
  induction r with
  | zero =>
    intro m i steps visited hwf _ hi hr hs
    obtain ⟨s, rfl⟩ : ∃ s, steps = s + 1 := ⟨steps - 1, by omega⟩
    have hlt : ¬ i < m.Elements.length := by omega
    have hlen : (entries m).length ≤ i := by simp [entries]; omega
    refine ⟨m, [], ?_, ?_, hwf, rfl, ?_⟩
    · simp [forwardIteration.loop, iterAt, hlt, TIterator.valid]
    · rw [List.drop_of_length_le hlen]
    · rw [List.take_of_length_le hlen]
      simp [kept]
  | succ r ih =>
    intro m i steps visited hwf hfuel hi hr hs
    obtain ⟨s, rfl⟩ : ∃ s, steps = s + 1 := ⟨steps - 1, by omega⟩
    have hlt : i < m.Elements.length := by omega
    obtain ⟨e, he⟩ : ∃ e, m.Elements[i]? = some e := ⟨_, List.getElem?_eq_getElem hlt⟩
    have hent : (entries m)[i]? = some (e.Key, e.Value) := by simp [entries, he]
    have hcur : iterAt m i = { ElementPtr := some i, Index := (i : Int) } := by
      simp [iterAt, hlt]
    have hkey : TIterator.Key m { ElementPtr := some i, Index := (i : Int) } =
        Res.ok e.Key := by
      simp [TIterator.Key, elemAt_nat _ _ e he]
    rw [forwardIteration.loop]
    rw [hcur]
    simp only [TIterator.valid, Option.isSome_some, if_true, hkey, Res.ok_bind]
    cases hD : Decide visited.length e.Key with
    | true =>
      obtain ⟨m1, hrc, hent1, hT1, hwf1⟩ := RemoveCurrent_spec env m fuel i e hM hwf hfuel he
      rw [hcur] at hrc
      have hlen1 : m1.Elements.length = m.Elements.length - 1 := by
        have := congrArg List.length hent1
        rw [length_swapRemove _ _ (by simpa [entries] using hlt)] at this
        simpa [entries] using this
      have hnext : TIterator.next m1 { ElementPtr := none, Index := (i : Int) - 1 } =
          Res.ok (iterAt m1 i) := next_iterAt m1 i _ (by simp)
      obtain ⟨m2, σ, hloop, hperm, hwf2, hT2, hent2⟩ :=
        ih m1 i s (visited ++ [e.Key]) hwf1 (by omega) (by omega) (by omega) (by omega)
      refine ⟨m2, (e.Key, e.Value) :: σ, ?_, ?_, hwf2, by rw [hT2, hT1], ?_⟩
      · simp only [if_true, hrc, Res.ok_bind, hnext, hloop]
        simp
      · rw [hent1] at hperm
        exact (List.Perm.cons _ hperm).trans (drop_swapRemove_perm _ _ _ hent)
      · rw [hent2, hent1, take_swapRemove _ _ (by simpa [entries] using hlt)]
        simp [kept, hD]
    | false =>
      have hnext : TIterator.next m { ElementPtr := some i, Index := (i : Int) } =
          Res.ok (iterAt m (i + 1)) := next_iterAt m (i + 1) _ (by simp)
      obtain ⟨m2, σ, hloop, hperm, hwf2, hT2, hent2⟩ :=
        ih m (i + 1) s (visited ++ [e.Key]) hwf hfuel (by omega) (by omega) (by omega)
      refine ⟨m2, (e.Key, e.Value) :: σ, ?_, ?_, hwf2, hT2, ?_⟩
      · simp only [Bool.false_eq_true, if_false, Res.ok_bind, hnext, hloop]
        simp
      · rw [drop_of_getElem? _ _ _ hent]
        exact List.Perm.cons _ hperm
      · rw [hent2, take_succ_of_getElem? _ _ _ hent]
        simp [kept, hD]

/-- A forward iteration with removals over a well-formed map terminates, visits each entry
once, and keeps a well-formed map. -/
theorem forwardIteration_spec (env : Env K) (Decide : Nat → K → Bool) (fuel steps : Nat)
    (m : TVoxelMap K V) (hM : SizeMono env) (hwf : WF env m)
    (hfuel : m.Elements.length < fuel) (hsteps : m.Elements.length < steps) :
    ∃ (m2 : TVoxelMap K V) (σ : List (K × V)),
      forwardIteration env Decide fuel steps m = Res.ok (m2, σ.map Prod.fst) ∧
      σ.Perm (entries m) ∧ WF env m2 ∧ m2.HashTable.length = m.HashTable.length ∧
      entries m2 = kept Decide 0 σ := by
  obtain ⟨m2, σ, hloop, hperm, hwf2, hT, hent⟩ :=
    forwardIteration_loop_spec env Decide fuel hM m.Elements.length m 0 steps [] hwf hfuel
      (by omega) rfl hsteps
  refine ⟨m2, σ, ?_, by simpa using hperm, hwf2, hT, by simpa using hent⟩
  unfold forwardIteration
  rw [CreateIterator_eq, hloop]
  simp

theorem visited_nodup (m : TVoxelMap K V) (σ : List (K × V)) (hu : KeysUnique m.Elements)
    (hperm : σ.Perm (entries m)) : (σ.map Prod.fst).Nodup :=
  ((hperm.map Prod.fst).nodup_iff).mpr (keys_nodup m hu)

theorem KeyArray_eq (m : TVoxelMap K V) : KeyArray m = (entries m).map Prod.fst := by
  simp [KeyArray, entries, List.map_map, Function.comp]

theorem ValueArray_eq (m : TVoxelMap K V) : ValueArray m = (entries m).map Prod.snd := by
  simp [ValueArray, entries, List.map_map, Function.comp]

theorem enum_parts {α : Type} (l : List α) :
    l.enum.map (fun t => t.1) = List.range l.length ∧ l.enum.map (fun t => t.2) = l := by
  constructor
  · exact List.enum_map_fst l
  · exact List.enum_map_snd l

/-! ### Serialization -/

theorem OrderIndependentEqual_loop_true [DecidableEq V] (env : Env K) (fuel : Nat)
    (m : TVoxelMap K V) (hwf : WF env m) (hfuel : m.Elements.length < fuel) :
    ∀ (l : List (FElement K V)), (∀ It, It ∈ l → (It.Key, It.Value) ∈ entries m) →
      OrderIndependentEqual.loop env fuel m l = Res.ok true := by
  intro l
  induction l with
  | nil => intro _; rfl
  | cons It rest ih =>
    intro h
    obtain ⟨j, e, hj, hk, hv⟩ :=
      (mem_entries_iff m It.Key It.Value).mp (h It (List.mem_cons_self _ _))
    rw [OrderIndependentEqual.loop, Find_present env m fuel It.Key j e hwf hfuel hj hk]
    simp only [Res.ok_bind, elemAt_nat _ _ e hj, hv, ne_eq, not_true_eq_false, if_false]
    exact ih fun It2 h2 => h It2 (List.mem_cons_of_mem _ h2)

/-- Two maps with the same number of elements, one holding every entry of the other, compare
equal. -/
theorem OrderIndependentEqual_true [DecidableEq V] (env : Env K) (fuel : Nat)
    (m Other : TVoxelMap K V) (hwf : WF env m) (hfuel : m.Elements.length < fuel)
    (hnum : Num m = Num Other) (hsub : ∀ p, p ∈ entries Other → p ∈ entries m) :
    OrderIndependentEqual env fuel m Other = Res.ok true := by
  unfold OrderIndependentEqual
  rw [if_neg (by simpa using hnum)]
  apply OrderIndependentEqual_loop_true env fuel m hwf hfuel
  intro It hIt
  apply hsub
  simp only [entries, List.mem_map]
  exact ⟨It, hIt, rfl⟩

theorem Save_spec (env : Env K) (m : TVoxelMap K V) (hwf : WF env m) :
    Save env m = Res.ok (entries m) := by
  simp [Save, hwf.checkInvariants, entries]

/-! ### Chains in detail -/

theorem isChain_head (els : List (FElement K V)) (h : Int) (l : List Nat)
    (hc : isChain els h l = true) : h = -1 ∨ (0 ≤ h ∧ h < (els.length : Int)) := by
  cases l with
  | nil => exact Or.inl ((isChain_nil els h).mp hc)
  | cons i l =>
    obtain ⟨hi, e, he, _⟩ := (isChain_cons els h i l).mp hc
    have hlt : i < els.length := (List.getElem?_eq_some_iff.mp he).1
    right
    omega

/-- The loop of `Rehash` pushes each index at the head of the chain of its bucket, so every
chain lists its indices in strictly decreasing order. -/
theorem Rehash_loop_chains (env : Env K) :
    ∀ (count j : Nat) (m : TVoxelMap K V) (ch : Nat → List Nat),
      j + count = m.Elements.length → Linked env m (fun i => i < j) ch →
      (∀ b, b < m.HashTable.length → (ch b).Pairwise (fun a c => a > c)) →
      IsPowerOfTwo m.HashTable.length = true → 0 < m.HashTable.length →
      ∃ m2 ch2, Rehash.loop env count j m = Res.ok m2 ∧
        m2.HashTable.length = m.HashTable.length ∧ entries m2 = entries m ∧
        Linked env m2 (fun i => i < m2.Elements.length) ch2 ∧
        ∀ b, b < m2.HashTable.length → (ch2 b).Pairwise (fun a c => a > c) := by
  intro count
  induction count with
  | zero =>
    intro j m ch hj hl hsorted _ _
    refine ⟨m, ch, rfl, rfl, rfl, hl.congr ?_, hsorted⟩
    intro i
    simp only [Nat.add_zero] at hj
    rw [hj]
  | succ c ih =>
    intro j m ch hj hl hsorted hp hs
    have hjlen : j < m.Elements.length := by omega
    obtain ⟨e, he⟩ : ∃ e, m.Elements[j]? = some e := ⟨_, List.getElem?_eq_getElem hjlen⟩
    obtain ⟨h, _, hstep, hl2⟩ := Linked_step env m ch j e hl hp hs he
    have hb0 : bucketOf env m.HashTable.length e.Key < m.HashTable.length :=
      bucketOf_lt env _ _ hs
    obtain ⟨m2, ch2, hloop, hlen, hent, hl3, hs3⟩ := ih (j + 1) _ _
      (by simp only [List.length_set]; omega) hl2
      (by
        intro b hb
        simp only [List.length_set] at hb
        by_cases hbb : b = bucketOf env m.HashTable.length e.Key
        · rw [hbb, setChain_same]
          refine List.Pairwise.cons ?_ (hsorted _ hb0)
          intro i hi
          exact (hl.sound _ hb0 i hi).1
        · rw [setChain_ne _ _ _ _ hbb]
          exact hsorted b hb)
      (by simpa only [List.length_set] using hp) (by simpa only [List.length_set] using hs)
    refine ⟨m2, ch2, ?_, by rw [hlen]; simp only [List.length_set], ?_, hl3, hs3⟩
    · simp only [Rehash.loop, hstep, Res.ok_bind]
      exact hloop
    · rw [hent]
      exact entries_set_next m.Elements j e h he

/-- Calling `Rehash` on any element array succeeds when the previous table size passes
`FMath::IsPowerOfTwo`; the keys, values and order stay, the table gets the larger of its
previous size and `GetHashSize(Num())`, and every index is linked in the chain of its bucket,
chains running in strictly decreasing index. -/
theorem Rehash_chains_spec (env : Env K) (m : TVoxelMap K V) (hE : EnvOK env)
    (hp : IsPowerOfTwo m.HashTable.length = true) :
    ∃ m2 ch, Rehash env m = Res.ok m2 ∧
      m2.HashTable.length = max m.HashTable.length (GetHashSize env m.Elements.length) ∧
      entries m2 = entries m ∧
      Linked env m2 (fun i => i < m2.Elements.length) ch ∧
      ∀ b, b < m2.HashTable.length → (ch b).Pairwise (fun a c => a > c) := by
  have hp2 := IsPowerOfTwo_max _ _ hp (hE.pow2 m.Elements.length)
  have hpos : 0 < max m.HashTable.length (GetHashSize env m.Elements.length) :=
    lt_of_lt_of_le (hE.pos m.Elements.length) (le_max_right _ _)
  have hinit : Linked env
      ({ HashTable := List.replicate
            (max m.HashTable.length (GetHashSize env m.Elements.length)) (-1),
         Elements := m.Elements } : TVoxelMap K V) (fun i => i < 0) (fun _ => []) := by
    refine ⟨?_, ?_, ?_, ?_⟩
    · intro b hb
      simp only [List.length_replicate] at hb
      exact ⟨-1, by simp [hb], by simp [isChain]⟩
    · intro b _; exact List.nodup_nil
    · intro b _ i hi; simp at hi
    · intro i e hi; simp at hi
  obtain ⟨m2, ch2, hloop, hlen, hent, hl, hsorted⟩ :=
    Rehash_loop_chains env m.Elements.length 0 _ _
      (by simp) hinit (fun _ _ => List.Pairwise.nil) (by simpa using hp2) (by simpa using hpos)
  simp only [List.length_replicate] at hlen
  refine ⟨m2, ch2, ?_, hlen, hent, hl, hsorted⟩
  simp only [Rehash, hp2, check_true, Res.ok_bind]
  exact hloop

theorem Rehash_table_irrelevant (env : Env K) (m : TVoxelMap K V) (t : List Int)
    (ht : t.length = m.HashTable.length) :
    Rehash env { HashTable := t, Elements := m.Elements } = Rehash env m := by
  simp only [Rehash, ht]

/-- What well-formedness says of the chains, bucket by bucket and index by index. -/
theorem WFWith.chains {env : Env K} {m : TVoxelMap K V} {ch : Nat → List Nat}
    (hw : WFWith env m ch) :
    (∀ b, b < m.HashTable.length →
      ∃ head, m.HashTable[b]? = some head ∧
        (head = -1 ∨ (0 ≤ head ∧ head < (Num m : Int))) ∧
        isChain m.Elements head (ch b) = true ∧ (ch b).Nodup ∧
        ∀ i, i ∈ ch b → i < Num m) ∧
    (∀ (i : Nat) (e : FElement K V), m.Elements[i]? = some e →
      bucketOf env m.HashTable.length e.Key < m.HashTable.length ∧
      ∀ b, b < m.HashTable.length → (i ∈ ch b ↔ b = bucketOf env m.HashTable.length e.Key)) := by
  constructor
  · intro b hb
    obtain ⟨head, hh, hc⟩ := hw.linked.chain b hb
    exact ⟨head, hh, isChain_head _ _ _ hc, hc, hw.linked.nodup b hb,
      fun i hi => (hw.linked.sound b hb i hi).1⟩
  · intro i e he
    have hi : i < m.Elements.length := (List.getElem?_eq_some_iff.mp he).1
    have hpos : 0 < m.HashTable.length := hw.tablePos (by omega)
    have hmem := hw.linked.complete i e hi he
    refine ⟨bucketOf_lt env _ _ hpos, ?_⟩
    intro b hb
    constructor
    · intro h
      exact hw.linked.bucket_unique b _ i hb (bucketOf_lt env _ _ hpos) h hmem
    · intro h
      rw [h]
      exact hmem

/-! ### Totality of the chain walks -/

theorem Res.bind_eq_ok {α β : Type} {x : Res α} {f : α → Res β} {b : β}
    (h : x.bind f = Res.ok b) : ∃ a, x = Res.ok a ∧ f a = Res.ok b := by
  cases x with
  | ok a => exact ⟨a, rfl, h⟩
  | fatal => cases h
  | timeout => cases h

/-- The link that the second walk of `RemoveHashedChecked` returns holds the last index. -/
theorem findLast_reads_last :
    ∀ (fuel : Nat) (m : TVoxelMap K V) (ptr p : Ptr),
      RemoveHashedChecked.findLast fuel m ptr = Res.ok p →
      readPtr m p = Res.ok ((m.Elements.length : Int) - 1) := by
  intro fuel
  induction fuel with
  | zero =>
    intro m ptr p h
    simp [RemoveHashedChecked.findLast] at h
  | succ f ih =>
    intro m ptr p h
    rw [RemoveHashedChecked.findLast] at h
    obtain ⟨Index, hr, h2⟩ := Res.bind_eq_ok h
    by_cases hI : Index ≠ (m.Elements.length : Int) - 1
    · rw [if_pos hI] at h2
      obtain ⟨_, _, h3⟩ := Res.bind_eq_ok h2
      exact ih _ _ _ h3
    · rw [if_neg hI] at h2
      cases h2
      rw [hr]
      congr 1
      exact not_not.mp hI

/-- On a well-formed map both walks of `RemoveHashedChecked` for a key that is present end
within the fuel `Num() + 1`, and so does the call. -/
theorem RemoveHashedChecked_walks (env : Env K) (m : TVoxelMap K V) (fuel : Nat) (k : K)
    (j0 : Nat) (e0 : FElement K V) (hwf : WF env m) (hfuel : m.Elements.length < fuel)
    (he0 : m.Elements[j0]? = some e0) (hk : e0.Key = k) :
    ∃ m1, RemoveHashedChecked.unlink k fuel m (.bucket (bucketOf env m.HashTable.length k)) =
        Res.ok ((j0 : Int), m1) ∧
      m1.Elements.length = m.Elements.length ∧
      m1.HashTable.length = m.HashTable.length ∧
      (∃ m2, RemoveHashedChecked env fuel m (HashValue env k) k = Res.ok m2) ∧
      (j0 + 1 < m.Elements.length →
        ∃ eL ptr, m1.Elements[m.Elements.length - 1]? = some eL ∧
          RemoveHashedChecked.findLast fuel m1
            (.bucket (bucketOf env m1.HashTable.length eL.Key)) = Res.ok ptr ∧
          readPtr m1 ptr = Res.ok ((m.Elements.length : Int) - 1)) := by
  have hcont := Contains_present env m fuel k j0 e0 hwf hfuel he0 hk
  have hci := hwf.checkInvariants
  obtain ⟨ch, hw⟩ := hwf
  have hj0 : j0 < m.Elements.length := (List.getElem?_eq_some_iff.mp he0).1
  have hs : 0 < m.HashTable.length := hw.tablePos (by omega)
  have hgei : GetElementIndex m (HashValue env k) =
      Res.ok (bucketOf env m.HashTable.length k) := GetElementIndex_ok m _ hw.pow2 hs
  obtain ⟨m1, ch1, hunl, hT1, hn1, hent1, hl1⟩ :=
    unlink_phase env m ch fuel k j0 e0 hw hfuel he0 hk
  obtain ⟨e0b, he0b, hk0b, _⟩ := entries_getElem? m1 m hent1.symm j0 e0 he0
  refine ⟨m1, hunl, hn1, hT1, ?_⟩
  unfold RemoveHashedChecked
  simp only [hcont, check_true, Res.ok_bind, beq_self_eq_true, hci, hgei, hunl,
    elemAt_nat _ _ _ he0b, hk0b, hk, decide_True]
  by_cases hlast : j0 + 1 = m.Elements.length
  · have hcond : (j0 : Int) = (m1.Elements.length : Int) - 1 := by omega
    rw [if_pos hcond]
    exact ⟨⟨_, rfl⟩, fun h => absurd h (by omega)⟩
  · have hcond : ¬ (j0 : Int) = (m1.Elements.length : Int) - 1 := by omega
    rw [if_neg hcond]
    obtain ⟨L, hL⟩ : ∃ L, m1.Elements.length = L + 1 := ⟨m.Elements.length - 1, by omega⟩
    have hjL : j0 < L := by omega
    obtain ⟨eL, heL⟩ : ∃ e, m1.Elements[L]? = some e :=
      ⟨_, List.getElem?_eq_getElem (by omega)⟩
    have hs1 : 0 < m1.HashTable.length := by rw [hT1]; exact hs
    have hp1 : IsPowerOfTwo m1.HashTable.length = true := by rw [hT1]; exact hw.pow2
    obtain ⟨ptr, ch2, hfind, hpop, hlen2, hT2, hent2, hl2⟩ := swap_phase env m1 ch1 fuel j0 L
      eL hL hjL heL (hl1.congr (fun i => by rw [← hn1, hL])) hs1 (by omega)
    have hgei2 : GetElementIndex m1 (HashValue env eL.Key) =
        Res.ok (bucketOf env m1.HashTable.length eL.Key) :=
      GetElementIndex_ok m1 _ hp1 hs1
    obtain ⟨ej, hj0b⟩ : ∃ e, (writePtr m1 ptr j0).Elements[j0]? = some e :=
      ⟨_, List.getElem?_eq_getElem (by omega)⟩
    simp only [elemAt_last _ L _ hL heL, Res.ok_bind, hgei2, hfind, elemAt_nat _ _ _ hj0b,
      elemAt_last _ L _ hlen2 hpop, Int.toNat_ofNat]
    refine ⟨⟨_, rfl⟩, fun _ => ⟨eL, ptr, ?_, hfind, ?_⟩⟩
    · have : m.Elements.length - 1 = L := by omega
      rw [this]
      exact heL
    · have := findLast_reads_last fuel m1 _ ptr hfind
      rw [this]
      congr 1
      omega

/-! ### The size of the hash table -/

theorem and_pred_eq_zero : ∀ (n : Nat), 0 < n → n &&& (n - 1) = 0 → ∃ k, n = 2 ^ k := by
  intro n
  induction n using Nat.strong_induction_on with
  | _ n ih =>
    intro hpos h
    have hdiv : n / 2 &&& (n - 1) / 2 = 0 := by
      rw [← Nat.and_div_two, h]
    rcases Nat.even_or_odd n with hev | hodd
    · obtain ⟨q, hq⟩ := hev
      have hq2 : n / 2 = q := by omega
      have hq3 : (n - 1) / 2 = q - 1 := by omega
      rw [hq2, hq3] at hdiv
      obtain ⟨k, hk⟩ := ih q (by omega) (by omega) hdiv
      exact ⟨k + 1, by rw [pow_succ]; omega⟩
    · obtain ⟨q, hq⟩ := hodd
      have hq2 : n / 2 = q := by omega
      have hq3 : (n - 1) / 2 = q := by omega
      rw [hq2, hq3, Nat.and_self] at hdiv
      exact ⟨0, by simp; omega⟩

/-- The bit test `FMath::IsPowerOfTwo` accepts exactly `0` and the powers of two. -/
theorem IsPowerOfTwo_iff (n : Nat) : IsPowerOfTwo n = true ↔ n = 0 ∨ ∃ k, n = 2 ^ k := by
  unfold IsPowerOfTwo
  rw [beq_iff_eq]
  constructor
  · intro h
    rcases Nat.eq_zero_or_pos n with h0 | hpos
    · exact Or.inl h0
    · exact Or.inr (and_pred_eq_zero n hpos h)
  · rintro (h0 | ⟨k, hk⟩)
    · rw [h0]; rfl
    · rw [hk, Nat.and_pow_two_sub_one_eq_mod, Nat.mod_self]

/-- A sizing policy whose parts yield powers of two gives `GetHashSize` the properties the map
relies on. -/
theorem EnvOK_of_pow2 (env : Env K) (hT : ∀ n, ∃ k, env.GetHashTableSize n = 2 ^ k)
    (hMin : env.MinHashSize = 0 ∨ ∃ k, env.MinHashSize = 2 ^ k) : EnvOK env := by
  have hsize : ∀ n, ∃ k, GetHashSize env n = 2 ^ k := by
    intro n
    obtain ⟨k, hk⟩ := hT n
    unfold GetHashSize
    dsimp only
    by_cases hz : env.MinHashSize ≠ 0
    · rw [if_pos hz]
      rcases hMin with h0 | ⟨k2, hk2⟩
      · exact absurd h0 hz
      · rcases max_choice (env.GetHashTableSize n) env.MinHashSize with h | h
        · exact ⟨k, by rw [h, hk]⟩
        · exact ⟨k2, by rw [h, hk2]⟩
    · rw [if_neg hz]
      exact ⟨k, hk⟩
  constructor
  · intro n
    obtain ⟨k, hk⟩ := hsize n
    rw [hk]
    exact Nat.two_pow_pos k
  · intro n
    exact (IsPowerOfTwo_iff _).mpr (Or.inr (hsize n))

theorem check_eq_ok {c : Bool} {u : Unit} (h : check c = Res.ok u) : c = true := by
  cases c with
  | true => rfl
  | false => cases h

theorem Rehash_step_length (env : Env K) (m m1 : TVoxelMap K V) (j : Nat)
    (h : Rehash.step env m j = Res.ok m1) : m1.HashTable.length = m.HashTable.length := by
  unfold Rehash.step at h
  obtain ⟨_, _, h⟩ := Res.bind_eq_ok h
  obtain ⟨_, _, h⟩ := Res.bind_eq_ok h
  obtain ⟨_, _, h⟩ := Res.bind_eq_ok h
  cases h
  simp

theorem Rehash_loop_length (env : Env K) :
    ∀ (count j : Nat) (m m2 : TVoxelMap K V), Rehash.loop env count j m = Res.ok m2 →
      m2.HashTable.length = m.HashTable.length := by
  intro count
  induction count with
  | zero =>
    intro j m m2 h
    cases h
    rfl
  | succ c ih =>
    intro j m m2 h
    rw [Rehash.loop] at h
    obtain ⟨m1, h1, h2⟩ := Res.bind_eq_ok h
    rw [ih _ _ _ h2, Rehash_step_length env m m1 j h1]

/-- Whatever it starts from, a `Rehash` that returns leaves a table whose size passes
`FMath::IsPowerOfTwo`. -/
theorem Rehash_table (env : Env K) (m m2 : TVoxelMap K V) (h : Rehash env m = Res.ok m2) :
    IsPowerOfTwo m2.HashTable.length = true := by
  unfold Rehash at h
  obtain ⟨_, hc, h2⟩ := Res.bind_eq_ok h
  rw [Rehash_loop_length env _ _ _ _ h2]
  simpa using check_eq_ok hc

theorem AddHashed_CheckNew_table (env : Env K) (fuel : Nat) (m : TVoxelMap K V) (H : Nat)
    (k : K) (v : V) (r : TVoxelMap K V × Nat)
    (hp : IsPowerOfTwo m.HashTable.length = true)
    (h : AddHashed_CheckNew env fuel m H k v = Res.ok r) :
    IsPowerOfTwo r.1.HashTable.length = true := by
  unfold AddHashed_CheckNew at h
  obtain ⟨_, _, h⟩ := Res.bind_eq_ok h
  unfold AddHashed_CheckNew.body at h
  dsimp only at h
  split at h
  · obtain ⟨m2, h1, h2⟩ := Res.bind_eq_ok h
    cases h2
    exact Rehash_table env _ m2 h1
  · obtain ⟨_, _, h⟩ := Res.bind_eq_ok h
    obtain ⟨_, _, h⟩ := Res.bind_eq_ok h
    cases h
    simpa using hp

theorem writePtr_table_length (m : TVoxelMap K V) (ptr : Ptr) (x : Int) :
    (writePtr m ptr x).HashTable.length = m.HashTable.length := by
  cases ptr with
  | bucket b => simp [writePtr]
  | next i => simp [writePtr]

theorem unlink_table_length (k : K) :
    ∀ (fuel : Nat) (m : TVoxelMap K V) (ptr : Ptr) (r : Int × TVoxelMap K V),
      RemoveHashedChecked.unlink k fuel m ptr = Res.ok r →
      r.2.HashTable.length = m.HashTable.length := by
  intro fuel
  induction fuel with
  | zero =>
    intro m ptr r h
    simp [RemoveHashedChecked.unlink] at h
  | succ f ih =>
    intro m ptr r h
    rw [RemoveHashedChecked.unlink] at h
    obtain ⟨Index, _, h⟩ := Res.bind_eq_ok h
    obtain ⟨Element, _, h⟩ := Res.bind_eq_ok h
    split at h
    · exact ih _ _ _ h
    · cases h
      exact writePtr_table_length m ptr _

theorem RemoveHashedChecked_table_length (env : Env K) (fuel : Nat) (m m2 : TVoxelMap K V)
    (H : Nat) (k : K) (h : RemoveHashedChecked env fuel m H k = Res.ok m2) :
    m2.HashTable.length = m.HashTable.length := by
  unfold RemoveHashedChecked at h
  obtain ⟨_, _, h⟩ := Res.bind_eq_ok h
  obtain ⟨_, _, h⟩ := Res.bind_eq_ok h
  obtain ⟨_, _, h⟩ := Res.bind_eq_ok h
  obtain ⟨_, _, h⟩ := Res.bind_eq_ok h
  obtain ⟨_, _, h⟩ := Res.bind_eq_ok h
  obtain ⟨r, hu, h⟩ := Res.bind_eq_ok h
  have hlen := unlink_table_length k fuel m _ r hu
  dsimp only at h
  obtain ⟨_, _, h⟩ := Res.bind_eq_ok h
  obtain ⟨_, _, h⟩ := Res.bind_eq_ok h
  split at h
  · cases h
    exact hlen
  · obtain ⟨_, _, h⟩ := Res.bind_eq_ok h
    obtain ⟨_, _, h⟩ := Res.bind_eq_ok h
    obtain ⟨ptr, _, h⟩ := Res.bind_eq_ok h
    obtain ⟨_, _, h⟩ := Res.bind_eq_ok h
    obtain ⟨_, _, h⟩ := Res.bind_eq_ok h
    cases h
    simp only
    rw [writePtr_table_length, hlen]

/-- One map call that returns keeps the table size acceptable to `FMath::IsPowerOfTwo`. -/
theorem applyMapOp_table (env : Env K) (dflt : V) (sortArray : SortFn K V) (fuel : Nat)
    (m m1 : TVoxelMap K V) (op : MapOp K V) (hp : IsPowerOfTwo m.HashTable.length = true)
    (h : applyMapOp env dflt sortArray fuel m op = Res.ok m1) :
    IsPowerOfTwo m1.HashTable.length = true := by
  cases op with
  | findOrAdd k =>
    simp only [applyMapOp, FindOrAdd] at h
    obtain ⟨r, h1, h2⟩ := Res.bind_eq_ok h
    cases h2
    obtain ⟨p, _, h3⟩ := Res.bind_eq_ok h1
    cases p with
    | some i => cases h3; exact hp
    | none => exact AddHashed_CheckNew_table env fuel m _ k dflt r hp h3
  | addEnsureNew k v =>
    simp only [applyMapOp, Add_EnsureNew, AddHashed_EnsureNew] at h
    obtain ⟨r, h1, h2⟩ := Res.bind_eq_ok h
    cases h2
    obtain ⟨_, _, h1⟩ := Res.bind_eq_ok h1
    obtain ⟨p, _, h3⟩ := Res.bind_eq_ok h1
    cases p with
    | some i => cases h3; exact hp
    | none =>
      obtain ⟨r2, h4, h5⟩ := Res.bind_eq_ok h3
      cases h5
      exact AddHashed_CheckNew_table env fuel m _ k v r2 hp h4
  | addCheckNew k v =>
    simp only [applyMapOp, Add_CheckNew] at h
    obtain ⟨r, h1, h2⟩ := Res.bind_eq_ok h
    cases h2
    exact AddHashed_CheckNew_table env fuel m _ k v r hp h1
  | remove k =>
    simp only [applyMapOp, Remove] at h
    obtain ⟨r, h1, h2⟩ := Res.bind_eq_ok h
    cases h2
    obtain ⟨p, _, h3⟩ := Res.bind_eq_ok h1
    cases p with
    | none => cases h3; exact hp
    | some i =>
      obtain ⟨m2, h4, h5⟩ := Res.bind_eq_ok h3
      cases h5
      simp only
      rw [RemoveHashedChecked_table_length env fuel m m2 _ k h4]
      exact hp
  | reserve n =>
    simp only [applyMapOp, Reserve] at h
    split at h
    · cases h; exact hp
    · split at h
      · exact Rehash_table env _ m1 h
      · cases h; exact hp
  | shrink =>
    simp only [applyMapOp, Shrink] at h
    split at h
    · cases h; simp [Empty, IsPowerOfTwo]
    · split at h
      · obtain ⟨_, _, h2⟩ := Res.bind_eq_ok h
        exact Rehash_table env _ m1 h2
      · cases h; exact hp
  | rehash => exact Rehash_table env m m1 h
  | resetKeepHashSize => exact Rehash_table env _ m1 h
  | sort lt => exact Rehash_table env _ m1 h
  | keySort lt => exact Rehash_table env _ m1 h
  | valueSort lt => exact Rehash_table env _ m1 h
  | load Ar =>
    simp only [applyMapOp, Load] at h
    obtain ⟨m2, h1, h2⟩ := Res.bind_eq_ok h
    obtain ⟨_, _, h3⟩ := Res.bind_eq_ok h2
    cases h3
    exact Rehash_table env _ m1 h1

theorem runMapOps_table (env : Env K) (dflt : V) (sortArray : SortFn K V) (fuel : Nat) :
    ∀ (ops : List (MapOp K V)) (m m2 : TVoxelMap K V),
      IsPowerOfTwo m.HashTable.length = true →
      runMapOps env dflt sortArray fuel ops m = Res.ok m2 →
      IsPowerOfTwo m2.HashTable.length = true := by
  intro ops
  induction ops with
  | nil =>
    intro m m2 hp h
    cases h
    exact hp
  | cons op rest ih =>
    intro m m2 hp h
    rw [runMapOps] at h
    obtain ⟨m1, h1, h2⟩ := Res.bind_eq_ok h
    exact ih m1 m2 (applyMapOp_table env dflt sortArray fuel m m1 op hp h1) h2

theorem sampleSmall_fresh :
    ∀ k v, (k, v) ∈ ([(7, 70), (18, 80)] : List (Nat × Nat)) →
      ∀ v0, (k, v0) ∉ entries sampleSmall := by
  intro k v hmem v0 hin
  simp [entries, sampleSmall] at hmem hin
  omega

theorem sampleEnv_pow2 : ∀ n, ∃ k, sampleEnv.GetHashTableSize n = 2 ^ k := by
  intro n
  by_cases h : n < 4
  · exact ⟨0, by simp [sampleEnv, h]⟩
  · exact ⟨4, by simp [sampleEnv, h]⟩

/-! ### Insertion after `Reserve` -/

/-- When the table is large enough for one more element, `AddHashed_CheckNew` takes the branch
that does not rehash and does what `AddHashed_CheckNew_CheckNoRehash` does. -/
theorem AddHashed_CheckNew_eq_noRehash (env : Env K) (fuel : Nat) (m : TVoxelMap K V) (H : Nat)
    (k : K) (v : V) (hge : GetHashSize env (m.Elements.length + 1) ≤ m.HashTable.length) :
    AddHashed_CheckNew_CheckNoRehash env fuel m H k v = AddHashed_CheckNew env fuel m H k v := by
  have hnot : ¬ m.HashTable.length < GetHashSize env (m.Elements.length + 1) := by omega
  unfold AddHashed_CheckNew_CheckNoRehash AddHashed_CheckNew
    AddHashed_CheckNew_CheckNoRehash.body AddHashed_CheckNew.body
  simp [hge, hnot]

/-- The branch of `AddHashed_CheckNew` that does not rehash keeps the number of buckets. -/
theorem Add_CheckNew_table_length (env : Env K) (fuel : Nat) (m : TVoxelMap K V) (k : K) (v : V)
    (r : TVoxelMap K V × Nat)
    (hge : GetHashSize env (m.Elements.length + 1) ≤ m.HashTable.length)
    (h : Add_CheckNew env fuel m k v = Res.ok r) :
    r.1.HashTable.length = m.HashTable.length := by
  unfold Add_CheckNew AddHashed_CheckNew at h
  obtain ⟨_, _, h⟩ := Res.bind_eq_ok h
  rw [AddHashed_CheckNew_body_eq_step env m k v (by omega)] at h
  obtain ⟨m2, h1, h2⟩ := Res.bind_eq_ok h
  cases h2
  have := Rehash_step_length env _ m2 _ h1
  simpa using this

/-- Inserting new keys into a table that is already large enough for all of them never
rehashes: both insertion methods succeed with the same result and the number of buckets
stays. -/
theorem addAll_noRehash_spec (env : Env K) (fuel : Nat) (hE : EnvOK env) (hM : SizeMono env) :
    ∀ (kvs : List (K × V)) (m : TVoxelMap K V), WF env m →
      m.Elements.length + kvs.length < fuel → (kvs.map Prod.fst).Nodup →
      (∀ k v, (k, v) ∈ kvs → ∀ v0, (k, v0) ∉ entries m) →
      GetHashSize env (m.Elements.length + kvs.length) ≤ m.HashTable.length →
      ∃ m2, addAllNoRehash env fuel kvs m = Res.ok m2 ∧ addAll env fuel kvs m = Res.ok m2 ∧
        entries m2 = entries m ++ kvs ∧ m2.HashTable.length = m.HashTable.length ∧
        WF env m2 := by
  intro kvs
  induction kvs with
  | nil =>
    intro m hwf _ _ _ _
    exact ⟨m, rfl, rfl, by simp, rfl, hwf⟩
  | cons p rest ih =>
    intro m hwf hfuel hnd hnew hsize
    obtain ⟨k, v⟩ := p
    simp only [List.length_cons] at hfuel hsize
    simp only [List.map_cons, List.nodup_cons] at hnd
    have hge : GetHashSize env (m.Elements.length + 1) ≤ m.HashTable.length :=
      le_trans (hM _ _ (by omega)) hsize
    have habs : ∀ (j : Nat) (e : FElement K V), m.Elements[j]? = some e → e.Key ≠ k := by
      intro j e he hk
      exact hnew k v (List.mem_cons_self _ _) e.Value
        ((mem_entries_iff m k e.Value).mpr ⟨j, e, he, hk, rfl⟩)
    obtain ⟨m1, hadd, hent1, hwf1⟩ := Add_CheckNew_spec env m fuel k v hE hwf (by omega) habs
    have hT1 := Add_CheckNew_table_length env fuel m k v _ hge hadd
    have hlen1 : m1.Elements.length = m.Elements.length + 1 := by
      have := congrArg List.length hent1
      simpa [entries] using this
    obtain ⟨m2, hno, hall, hent2, hT2, hwf2⟩ := ih m1 hwf1 (by omega) hnd.2
      (by
        intro k2 v2 hmem v0 hin
        rw [hent1, List.mem_append] at hin
        rcases hin with hin | hin
        · exact hnew k2 v2 (List.mem_cons_of_mem _ hmem) v0 hin
        · simp only [List.mem_singleton, Prod.mk.injEq] at hin
          apply hnd.1
          rw [← hin.1]
          exact List.mem_map.mpr ⟨(k2, v2), hmem, rfl⟩)
      (by
        have : m1.Elements.length + rest.length = m.Elements.length + (rest.length + 1) := by
          omega
        rw [this, hT1]
        exact hsize)
    refine ⟨m2, ?_, ?_, ?_, by rw [hT2, hT1], hwf2⟩
    · have hsame : Add_CheckNew_CheckNoRehash env fuel m k v = Res.ok (m1, m.Elements.length) := by
        unfold Add_CheckNew_CheckNoRehash
        rw [AddHashed_CheckNew_eq_noRehash env fuel m _ k v hge]
        exact hadd
      simp only [addAllNoRehash, hsame, Res.ok_bind]
      exact hno
    · simp only [addAll, hadd, Res.ok_bind]
      exact hall
    · rw [hent2, hent1, List.append_assoc]
      rfl

/-! ### Sortedness tests -/

theorem StrictTotalOrder.weak {α : Type} {lt : α → α → Bool} (h : StrictTotalOrder lt) :
    StrictWeakOrder lt := by
  refine ⟨h.1, h.2.1, ?_⟩
  intro a b c hac
  rcases h.2.2 a b with hab | hab | hba
  · exact Or.inl hab
  · right
    rw [← hab]
    exact hac
  · exact Or.inr (h.2.1 b a c hba hac)

theorem chain'_adjacent {α : Type} (R : α → α → Prop) :
    ∀ (l : List α), l.Chain' R → ∀ (i : Nat) (a b : α),
      l[i]? = some a → l[i + 1]? = some b → R a b := by
  intro l
  induction l with
  | nil =>
    intro _ i a b ha _
    simp at ha
  | cons x rest ih =>
    intro hc i a b ha hb
    cases rest with
    | nil => simp at hb
    | cons y rest2 =>
      rw [List.chain'_cons] at hc
      cases i with
      | zero =>
        simp only [List.getElem?_cons_zero, Option.some.injEq, zero_add,
          List.getElem?_cons_succ] at ha hb
        rw [← ha, ← hb]
        exact hc.1
      | succ i2 =>
        rw [List.getElem?_cons_succ] at ha hb
        exact ih hc.2 i2 a b ha hb

/-- The loop of `AreKeySorted` returns `true` when the predicate holds of every adjacent pair
of keys. -/
theorem AreKeySorted_loop_true (els : List (FElement K V)) (P : K → K → Bool)
    (hadj : ∀ (i : Nat) (A B : FElement K V), els[i]? = some A → els[i + 1]? = some B →
      P A.Key B.Key = true) :
    ∀ (count Index : Nat), 1 ≤ Index → Index + count = els.length →
      AreKeySorted.loop els P count Index = Res.ok true := by
  intro count
  induction count with
  | zero =>
    intro Index _ _
    rfl
  | succ c ih =>
    intro Index h1 hlen
    obtain ⟨i, rfl⟩ : ∃ i, Index = i + 1 := ⟨Index - 1, by omega⟩
    obtain ⟨A, hA⟩ : ∃ A, els[i]? = some A := ⟨_, List.getElem?_eq_getElem (by omega)⟩
    obtain ⟨B, hB⟩ : ∃ B, els[i + 1]? = some B := ⟨_, List.getElem?_eq_getElem (by omega)⟩
    have hcast : (((i + 1 : Nat) : Int) - 1) = (i : Int) := by omega
    rw [AreKeySorted.loop, hcast, elemAt_nat els i A hA, Res.ok_bind,
      elemAt_nat els (i + 1) B hB, Res.ok_bind, hadj i A B hA hB]
    simp only [Bool.not_true, Bool.false_eq_true, if_false]
    exact ih (i + 1 + 1) (by omega) (by omega)

/-- After `KeySort` with a strict total order, `AreKeySorted` with that order returns `true`:
adjacent keys are distinct and the later one does not compare before the earlier one. -/
theorem KeySort_then_AreKeySorted (env : Env K) (sortArray : SortFn K V) (lt : K → K → Bool)
    (m : TVoxelMap K V) (hE : EnvOK env) (hS : SortContract sortArray) (hwf : WF env m)
    (hlt : StrictTotalOrder lt) :
    ∃ m2, KeySort env sortArray m lt = Res.ok m2 ∧ WF env m2 ∧
      (entries m2).Perm (entries m) ∧ AreKeySorted m2 lt = Res.ok true := by
  obtain ⟨m2, hs, hwf2, hperm, hc⟩ := SortWith_spec env sortArray m
    (fun a b => lt a.1 b.1) hE hS hwf (StrictWeakOrder.comap lt Prod.fst hlt.weak)
  refine ⟨m2, hs, hwf2, hperm, ?_⟩
  have hadj : ∀ (i : Nat) (A B : FElement K V), m2.Elements[i]? = some A →
      m2.Elements[i + 1]? = some B → lt A.Key B.Key = true := by
    intro i A B hA hB
    have h1 : (entries m2)[i]? = some (A.Key, A.Value) := by simp [entries, hA]
    have h2 : (entries m2)[i + 1]? = some (B.Key, B.Value) := by simp [entries, hB]
    have hnot : lt B.Key A.Key = false := chain'_adjacent _ _ hc i _ _ h1 h2
    rcases hlt.2.2 A.Key B.Key with h | h | h
    · exact h
    · have := hwf2.keys i (i + 1) A B hA hB h
      omega
    · rw [hnot] at h
      cases h
  unfold AreKeySorted
  rcases Nat.eq_zero_or_pos m2.Elements.length with h0 | hpos
  · rw [h0]
    rfl
  · exact AreKeySorted_loop_true m2.Elements lt hadj _ 1 (le_refl 1) (by omega)

theorem natLess_total : StrictTotalOrder natLess := by
  refine ⟨?_, ?_, ?_⟩
  · intro a; simp [natLess]
  · intro a b c; simp only [natLess, decide_eq_true_eq]; omega
  · intro a b; simp only [natLess, decide_eq_true_eq]; omega


/-! ### Sortedness of values -/

theorem adjacentAll_iff {α : Type} (P : α → α → Bool) :
    ∀ (l : List α), adjacentAll P l = true ↔ List.Chain' (fun a b => P a b = true) l := by
  intro l
  induction l with
  | nil => simp [adjacentAll]
  | cons a l ih =>
    cases l with
    | nil => simp [adjacentAll]
    | cons b rest =>
      rw [List.chain'_cons, ← ih]
      simp [adjacentAll]

/-- The loop of `AreValueSorted` returns whether every value it looks at compares before its
successor. -/
theorem AreValueSorted_loop_eq (els : List (FElement K V)) (P : V → V → Bool) :
    ∀ (count Index : Nat), 1 ≤ Index → Index + count = els.length →
      AreValueSorted.loop els P count Index =
        Res.ok (adjacentAll P ((els.drop (Index - 1)).map fun e => e.Value)) := by
  intro count
  induction count with
  | zero =>
    intro Index h1 hlen
    have hd : ((els.drop (Index - 1)).map fun e => e.Value).length = 1 := by
      rw [List.length_map, List.length_drop]
      omega
    obtain ⟨x, hx⟩ := List.length_eq_one.mp hd
    rw [hx]
    rfl
  | succ count ih =>
    intro Index h1 hlen
    obtain ⟨A, hA⟩ : ∃ A, els[Index - 1]? = some A :=
      ⟨_, List.getElem?_eq_getElem (by omega)⟩
    obtain ⟨B, hB⟩ : ∃ B, els[Index]? = some B :=
      ⟨_, List.getElem?_eq_getElem (by omega)⟩
    have hB2 : els[Index - 1 + 1]? = some B := by
      rw [Nat.sub_add_cancel h1]
      exact hB
    have hcast : ((Index : Int) - 1) = ((Index - 1 : Nat) : Int) := by omega
    have hdrop : els.drop (Index - 1) = A :: B :: els.drop (Index + 1) := by
      rw [drop_of_getElem? els (Index - 1) A hA, drop_of_getElem? els (Index - 1 + 1) B hB2,
        Nat.sub_add_cancel h1]
    have hdrop2 : els.drop (Index + 1 - 1) = B :: els.drop (Index + 1) := by
      rw [Nat.add_sub_cancel]
      exact drop_of_getElem? els Index B hB
    have hih := ih (Index + 1) (by omega) (by omega)
    rw [hdrop2] at hih
    rw [AreValueSorted.loop, hcast, elemAt_nat els _ A hA, elemAt_nat els _ B hB, hdrop]
    simp only [Res.ok_bind, List.map_cons, adjacentAll]
    cases hP : P A.Value B.Value with
    | false => simp
    | true =>
      simp only [Bool.not_true, Bool.false_eq_true, if_false, Bool.true_and]
      rw [hih]
      rfl

theorem AreValueSorted_eq (m : TVoxelMap K V) (P : V → V → Bool) :
    AreValueSorted m P = Res.ok (adjacentAll P (ValueArray m)) := by
  unfold AreValueSorted ValueArray
  by_cases h0 : m.Elements.length = 0
  · have : m.Elements = [] := List.length_eq_zero.mp h0
    rw [this]
    rfl
  · rw [AreValueSorted_loop_eq m.Elements P (m.Elements.length - 1) 1 (le_refl _) (by omega)]
    rfl

theorem chain'_strict_of_nodup {α : Type} (lt : α → α → Bool) (hlt : StrictTotalOrder lt) :
    ∀ (l : List α), List.Chain' (fun a b => lt b a = false) l → l.Nodup →
      List.Chain' (fun a b => lt a b = true) l := by
  intro l
  induction l with
  | nil => intro _ _; exact List.chain'_nil
  | cons a l ih =>
    intro hc hn
    cases l with
    | nil => exact List.chain'_singleton a
    | cons b rest =>
      rw [List.chain'_cons] at hc ⊢
      refine ⟨?_, ih hc.2 (List.nodup_cons.mp hn).2⟩
      rcases hlt.2.2 a b with h | h | h
      · exact h
      · subst h
        exact absurd (List.mem_cons_self _ _) (List.nodup_cons.mp hn).1
      · rw [hc.1] at h
        cases h

theorem nodup_of_chain'_strict {α : Type} (lt : α → α → Bool) (hlt : StrictTotalOrder lt)
    (l : List α) (hc : List.Chain' (fun a b => lt a b = true) l) : l.Nodup := by
  have htr : IsTrans α (fun a b => lt a b = true) := ⟨fun a b c => hlt.2.1 a b c⟩
  have hp : l.Pairwise (fun a b => lt a b = true) := List.chain'_iff_pairwise.mp hc
  refine hp.imp ?_
  intro a b hab heq
  subst heq
  rw [hlt.1 a] at hab
  cases hab

/-- After `ValueSort` with a strict total order, `AreValueSorted` with the same order returns
whether the values of the map are pairwise distinct. -/
theorem ValueSort_then_AreValueSorted (env : Env K) (sortArray : SortFn K V)
    (lt : V → V → Bool) (m : TVoxelMap K V) (hE : EnvOK env) (hS : SortContract sortArray)
    (hwf : WF env m) (hlt : StrictTotalOrder lt) :
    ∃ m2 b, ValueSort env sortArray m lt = Res.ok m2 ∧ WF env m2 ∧
      (entries m2).Perm (entries m) ∧ AreValueSorted m2 lt = Res.ok b ∧
      (b = true ↔ (ValueArray m).Nodup) := by
  obtain ⟨m2, hs, hwf2, hperm, hchain⟩ := SortWith_spec env sortArray m
    (fun a b => lt a.2 b.2) hE hS hwf (StrictWeakOrder.comap lt Prod.snd hlt.weak)
  have hv : ∀ x : TVoxelMap K V, ValueArray x = (entries x).map Prod.snd := by
    intro x
    simp [ValueArray, entries]
  have hpv : (ValueArray m2).Perm (ValueArray m) := by
    rw [hv, hv]
    exact hperm.map _
  have hcv : List.Chain' (fun a b => lt b a = false) (ValueArray m2) := by
    rw [hv, List.chain'_map]
    exact hchain
  refine ⟨m2, adjacentAll lt (ValueArray m2), ?_, hwf2, hperm, AreValueSorted_eq m2 lt, ?_⟩
  · rw [ValueSort_eq]
    exact hs
  · rw [adjacentAll_iff, ← hpv.nodup_iff]
    exact ⟨nodup_of_chain'_strict lt hlt _, chain'_strict_of_nodup lt hlt _ hcv⟩

theorem sampleTwins_wf : WF sampleEnv sampleTwins := by
  obtain ⟨m2, hall, _, hwf⟩ := addAll_spec sampleEnv 10 sampleEnv_ok
    [(0, 5), (1, 5)] (empty : TVoxelMap Nat Nat) (WF_empty sampleEnv)
    (by decide) (by decide) (by intro k v _ v0 h; simp [entries, empty] at h)
  have heq : addAll sampleEnv 10 [(0, 5), (1, 5)]
      (empty : TVoxelMap Nat Nat) = Res.ok sampleTwins := by decide
  rw [heq] at hall
  cases hall
  exact hwf

/-- The table `Reset_KeepHashSize` leaves: every bucket `-1`, as many buckets as before or as
`GetHashSize(0)`, whichever is more. -/
theorem Reset_KeepHashSize_eq (env : Env K) (m : TVoxelMap K V) (hE : EnvOK env)
    (hp : IsPowerOfTwo m.HashTable.length = true) :
    Reset_KeepHashSize env m =
      Res.ok { HashTable := List.replicate (max m.HashTable.length (GetHashSize env 0)) (-1),
               Elements := [] } := by
  have h2 : IsPowerOfTwo (max m.HashTable.length (GetHashSize env 0)) = true := by
    rcases max_choice m.HashTable.length (GetHashSize env 0) with h | h
    · rw [h]; exact hp
    · rw [h]; exact hE.pow2 0
  simp only [Reset_KeepHashSize, Rehash, List.length_nil, h2, check_true, Res.ok_bind,
    Rehash.loop]

/-! ### Comparison regardless of order -/

/-- The loop of `OrderIndependentEqual` over a well-formed map returns whether the map holds
every entry of the list. -/
theorem OrderIndependentEqual_loop_spec [DecidableEq V] (env : Env K) (fuel : Nat)
    (m : TVoxelMap K V) (hwf : WF env m) (hfuel : m.Elements.length < fuel) :
    ∀ (l : List (FElement K V)),
      ∃ r, OrderIndependentEqual.loop env fuel m l = Res.ok r ∧
        (r = true ↔ ∀ It, It ∈ l → (It.Key, It.Value) ∈ entries m) := by
  intro l
  induction l with
  | nil => exact ⟨true, rfl, by simp⟩
  | cons It rest ih =>
    obtain ⟨r, hr, hiff⟩ := ih
    rcases present_or_absent m.Elements It.Key with ⟨j, e, hj, hk⟩ | habs
    · by_cases hv : e.Value = It.Value
      · refine ⟨r, ?_, ?_⟩
        · rw [OrderIndependentEqual.loop, Find_present env m fuel It.Key j e hwf hfuel hj hk]
          simp only [Res.ok_bind, elemAt_nat _ _ e hj, hv, ne_eq, not_true_eq_false, if_false]
          exact hr
        · rw [hiff]
          constructor
          · intro h It2 h2
            rcases List.mem_cons.mp h2 with h3 | h3
            · rw [h3]
              exact (mem_entries_iff m It.Key It.Value).mpr ⟨j, e, hj, hk, hv⟩
            · exact h It2 h3
          · intro h It2 h2
            exact h It2 (List.mem_cons_of_mem _ h2)
      · refine ⟨false, ?_, ?_⟩
        · rw [OrderIndependentEqual.loop, Find_present env m fuel It.Key j e hwf hfuel hj hk]
          simp only [Res.ok_bind, elemAt_nat _ _ e hj, ne_eq, hv, not_false_eq_true, if_true]
        · constructor
          · intro h
            cases h
          · intro h
            obtain ⟨j2, e2, hj2, hk2, hv2⟩ :=
              (mem_entries_iff m It.Key It.Value).mp (h It (List.mem_cons_self _ _))
            have hjj : j = j2 := hwf.keys j j2 e e2 hj hj2 (by rw [hk, hk2])
            subst hjj
            rw [hj] at hj2
            cases hj2
            exact absurd hv2 hv
    · refine ⟨false, ?_, ?_⟩
      · rw [OrderIndependentEqual.loop, Find_absent env m fuel It.Key hwf hfuel habs]
        rfl
      · constructor
        · intro h
          cases h
        · intro h
          obtain ⟨j2, e2, hj2, hk2, _⟩ :=
            (mem_entries_iff m It.Key It.Value).mp (h It (List.mem_cons_self _ _))
          exact absurd hk2 (habs j2 e2 hj2)

theorem entries_nodup (m : TVoxelMap K V) (hu : KeysUnique m.Elements) : (entries m).Nodup :=
  List.Nodup.of_map _ (keys_nodup m hu)

/-- For two lists without repetition: as many items, and one holds every item of the other,
exactly when they hold the same items. -/
theorem same_items_iff {α : Type} (l1 l2 : List α) (h1 : l1.Nodup) (h2 : l2.Nodup) :
    (l1.length = l2.length ∧ ∀ p, p ∈ l2 → p ∈ l1) ↔ ∀ p, p ∈ l1 ↔ p ∈ l2 := by
  constructor
  · rintro ⟨hlen, hsub⟩
    have hsp : l2.Subperm l1 := List.subperm_of_subset h2 hsub
    have hperm : l2.Perm l1 := hsp.perm_of_length_le (by omega)
    intro p
    exact hperm.mem_iff.symm
  · intro h
    have hperm : l1.Perm l2 := (List.perm_ext_iff_of_nodup h1 h2).mpr h
    exact ⟨hperm.length_eq, fun p hp => (h p).mpr hp⟩

/-- On a well-formed map `OrderIndependentEqual` returns whether the two maps have as many
elements and the first holds every entry of the second. -/
theorem OrderIndependentEqual_spec [DecidableEq V] (env : Env K) (fuel : Nat)
    (m Other : TVoxelMap K V) (hwf : WF env m) (hfuel : m.Elements.length < fuel) :
    ∃ r, OrderIndependentEqual env fuel m Other = Res.ok r ∧
      (r = true ↔ (entries m).length = (entries Other).length ∧
        ∀ p, p ∈ entries Other → p ∈ entries m) := by
  have hl : ∀ x : TVoxelMap K V, (entries x).length = Num x := by
    intro x
    simp [entries, Num]
  unfold OrderIndependentEqual
  by_cases hn : Num m = Num Other
  · rw [if_neg (by simpa using hn)]
    obtain ⟨r, hr, hiff⟩ := OrderIndependentEqual_loop_spec env fuel m hwf hfuel Other.Elements
    refine ⟨r, hr, ?_⟩
    rw [hiff, hl, hl]
    constructor
    · intro h
      refine ⟨hn, ?_⟩
      intro p hp
      simp only [entries, List.mem_map] at hp
      obtain ⟨It, hIt, rfl⟩ := hp
      exact h It hIt
    · rintro ⟨_, h⟩ It hIt
      apply h
      simp only [entries, List.mem_map]
      exact ⟨It, hIt, rfl⟩
  · rw [if_pos hn]
    refine ⟨false, rfl, ?_⟩
    rw [hl, hl]
    constructor
    · intro h
      cases h
    · rintro ⟨h, _⟩
      exact absurd h hn

/-! ### `Append` -/

/-- Overwriting the value of an element keeps the map well-formed. -/
theorem WF_setValue (env : Env K) (m : TVoxelMap K V) (j : Nat) (e : FElement K V) (v : V)
    (hwf : WF env m) (he : m.Elements[j]? = some e) :
    WF env { m with Elements := m.Elements.set j { e with Value := v } } ∧
      entries { m with Elements := m.Elements.set j { e with Value := v } } =
        (entries m).set j (e.Key, v) := by
  obtain ⟨ch, hw⟩ := hwf
  have hget : ∀ (i : Nat) (x : FElement K V), m.Elements[i]? = some x →
      ∃ x2, (m.Elements.set j { e with Value := v })[i]? = some x2 ∧ x2.Key = x.Key ∧
        x2.NextElementIndex = x.NextElementIndex := by
    intro i x hx
    by_cases hij : j = i
    · subst hij
      rw [he] at hx
      cases hx
      refine ⟨{ e with Value := v }, ?_, rfl, rfl⟩
      rw [List.getElem?_set_self (List.getElem?_eq_some_iff.mp he).1]
    · exact ⟨x, by rw [List.getElem?_set_ne hij]; exact hx, rfl, rfl⟩
  have hback : ∀ (i : Nat) (x2 : FElement K V),
      (m.Elements.set j { e with Value := v })[i]? = some x2 →
      ∃ x, m.Elements[i]? = some x ∧ x2.Key = x.Key ∧
        x2.NextElementIndex = x.NextElementIndex := by
    intro i x2 hx2
    have hlt : i < m.Elements.length := by
      have := (List.getElem?_eq_some_iff.mp hx2).1
      simpa using this
    obtain ⟨x, hx⟩ : ∃ x, m.Elements[i]? = some x := ⟨_, List.getElem?_eq_getElem hlt⟩
    obtain ⟨x3, hx3, hk, hn⟩ := hget i x hx
    rw [hx2] at hx3
    cases hx3
    exact ⟨x, hx, hk, hn⟩
  constructor
  · refine ⟨ch, ⟨hw.pow2, ?_, ?_, ?_, ⟨?_, ?_, ?_, ?_⟩⟩⟩
    · intro h
      exact hw.tablePos (by simpa using h)
    · intro h
      have := hw.sizing (by simpa using h)
      simpa using this
    · intro i1 i2 e1 e2 h1 h2 hk
      obtain ⟨x1, hx1, hk1, _⟩ := hback i1 e1 h1
      obtain ⟨x2, hx2, hk2, _⟩ := hback i2 e2 h2
      exact hw.keys i1 i2 x1 x2 hx1 hx2 (by rw [← hk1, ← hk2]; exact hk)
    · intro b hb
      obtain ⟨h, hh, hc⟩ := hw.linked.chain b hb
      refine ⟨h, hh, isChain_frame m.Elements _ _ h ?_ hc⟩
      intro i _ x hx
      obtain ⟨x2, hx2, _, hn⟩ := hget i x hx
      exact ⟨x2, hx2, hn⟩
    · exact hw.linked.nodup
    · intro b hb i hi
      obtain ⟨hS, x, hx, hbk⟩ := hw.linked.sound b hb i hi
      obtain ⟨x2, hx2, hk, _⟩ := hget i x hx
      refine ⟨by simpa using hS, x2, hx2, ?_⟩
      show bucketOf env m.HashTable.length x2.Key = b
      rw [hk]
      exact hbk
    · intro i x2 hS hx2
      obtain ⟨x, hx, hk, _⟩ := hback i x2 hx2
      have := hw.linked.complete i x (by simpa using hS) hx
      show i ∈ ch (bucketOf env m.HashTable.length x2.Key)
      rw [hk]
      exact this
  · simp only [entries]
    rw [List.map_set]

theorem find_key_of_mem (other : List (K × V)) (hnd : (other.map Prod.fst).Nodup) (k : K)
    (v : V) (hm : (k, v) ∈ other) :
    other.find? (fun q => decide (q.1 = k)) = some (k, v) := by
  induction other with
  | nil => cases hm
  | cons q rest ih =>
    rw [List.map_cons, List.nodup_cons] at hnd
    by_cases hq : q.1 = k
    · rcases List.mem_cons.mp hm with h | h
      · rw [← h]
        simp
      · exfalso
        apply hnd.1
        rw [hq]
        exact List.mem_map.mpr ⟨(k, v), h, rfl⟩
    · rw [List.find?_cons_of_neg _ (by simpa using hq)]
      rcases List.mem_cons.mp hm with h | h
      · rw [← h] at hq
        exact absurd rfl hq
      · exact ih hnd.2 h

theorem find_key_of_not_mem (other : List (K × V)) (k : K)
    (hk : k ∉ other.map Prod.fst) : other.find? (fun q => decide (q.1 = k)) = none := by
  rw [List.find?_eq_none]
  intro q hq
  simp only [decide_eq_true_eq]
  intro h
  exact hk (List.mem_map.mpr ⟨q, hq, h⟩)

theorem upsert_keys (l : List (K × V)) (q : K × V) (hq : q.1 ∈ l.map Prod.fst) :
    (upsert l q).map Prod.fst = l.map Prod.fst := by
  unfold upsert
  rw [if_pos hq, List.map_map]
  apply List.map_congr_left
  intro p _
  simp only [Function.comp]
  split <;> rfl

/-- Overwriting by key is overwriting in place, when the key is held once. -/
theorem upsert_present (l : List (K × V)) (hnd : (l.map Prod.fst).Nodup) (j : Nat) (k : K)
    (v0 v : V) (hj : l[j]? = some (k, v0)) : upsert l (k, v) = l.set j (k, v) := by
  have hmem : k ∈ l.map Prod.fst :=
    List.mem_map.mpr ⟨(k, v0), List.mem_iff_getElem?.mpr ⟨j, hj⟩, rfl⟩
  unfold upsert
  rw [if_pos hmem]
  apply List.ext_getElem?
  intro i
  rw [List.getElem?_map]
  by_cases hij : j = i
  · subst hij
    rw [hj, List.getElem?_set_self (List.getElem?_eq_some_iff.mp hj).1]
    simp
  · rw [List.getElem?_set_ne hij]
    cases hi : l[i]? with
    | none => rfl
    | some p =>
      have hne : ¬ p.1 = k := by
        intro hp
        apply hij
        have h1 : (l.map Prod.fst)[j]? = some k := by rw [List.getElem?_map, hj]; rfl
        have h2 : (l.map Prod.fst)[i]? = some k := by rw [List.getElem?_map, hi, ← hp]; rfl
        have hjl := (List.getElem?_eq_some_iff.mp h1).1
        have hil := (List.getElem?_eq_some_iff.mp h2).1
        have heq : (l.map Prod.fst)[j] = (l.map Prod.fst)[i] := by
          rw [(List.getElem?_eq_some_iff.mp h1).2, (List.getElem?_eq_some_iff.mp h2).2]
        exact hnd.getElem_inj_iff.mp heq
      simp [hne]

theorem upsert_absent (l : List (K × V)) (q : K × V) (hq : q.1 ∉ l.map Prod.fst) :
    upsert l q = l ++ [q] := by
  unfold upsert
  rw [if_neg hq]

theorem overwritten_cons_same (q : K × V) (rest : List (K × V)) (p : K × V)
    (hp : p.1 = q.1) : overwritten (q :: rest) p = (p.1, q.2) := by
  unfold overwritten
  rw [List.find?_cons_of_pos _ (by simpa using hp.symm)]

theorem overwritten_cons_other (q : K × V) (rest : List (K × V)) (p : K × V)
    (hp : ¬ p.1 = q.1) : overwritten (q :: rest) p = overwritten rest p := by
  unfold overwritten
  rw [List.find?_cons_of_neg _ (by simpa using fun h : q.1 = p.1 => hp h.symm)]

theorem overwritten_not_mem (other : List (K × V)) (p : K × V)
    (hp : p.1 ∉ other.map Prod.fst) : overwritten other p = p := by
  unfold overwritten
  rw [find_key_of_not_mem other p.1 hp]

/-- Running the steps of the loop over entries with pairwise distinct keys gives the entries
of the destination, overwritten in place, followed by the new entries. -/
theorem foldl_upsert_eq :
    ∀ (other : List (K × V)), (other.map Prod.fst).Nodup →
      ∀ (base : List (K × V)), other.foldl upsert base = appended base other := by
  intro other
  induction other with
  | nil =>
    intro _ base
    simp only [List.foldl_nil, appended, List.filter_nil, List.append_nil]
    symm
    conv_rhs => rw [← List.map_id base]
    apply List.map_congr_left
    intro p _
    exact overwritten_not_mem [] p (by simp)
  | cons q rest ih =>
    intro hnd base
    rw [List.map_cons, List.nodup_cons] at hnd
    rw [List.foldl_cons, ih hnd.2]
    by_cases hq : q.1 ∈ base.map Prod.fst
    · unfold appended
      rw [upsert_keys base q hq, List.filter_cons_of_neg (by simpa using hq)]
      congr 1
      unfold upsert
      rw [if_pos hq, List.map_map]
      apply List.map_congr_left
      intro p _
      simp only [Function.comp]
      by_cases hp : p.1 = q.1
      · rw [if_pos hp, overwritten_cons_same q rest p hp]
        exact overwritten_not_mem rest _ (by rw [hp]; exact hnd.1)
      · rw [if_neg hp, overwritten_cons_other q rest p hp]
    · rw [upsert_absent base q hq]
      unfold appended
      rw [List.map_append, List.map_cons, List.map_nil, overwritten_not_mem rest q hnd.1,
        List.filter_cons_of_pos (by simpa using hq), List.append_assoc, List.singleton_append]
      congr 1
      · apply List.map_congr_left
        intro p hp
        rw [overwritten_cons_other q rest p]
        intro h
        exact hq (List.mem_map.mpr ⟨p, hp, h⟩)
      · congr 1
        apply List.filter_congr
        intro x hx
        have hxq : ¬ x.1 = q.1 := by
          intro h
          exact hnd.1 (List.mem_map.mpr ⟨x, hx, h⟩)
        simp [hxq]

/-- The loop of `Append`, from a well-formed map whose table has room for every element of
the list: it succeeds without rehash, and the entries are those the steps give. -/
theorem Append_loop_spec (env : Env K) (fuel : Nat) (hE : EnvOK env) (hM : SizeMono env) :
    ∀ (els : List (FElement K V)) (m : TVoxelMap K V), WF env m →
      m.Elements.length + els.length < fuel →
      (els ≠ [] → GetHashSize env (m.Elements.length + els.length) ≤ m.HashTable.length) →
      ∃ m2, Append.loop env fuel els m = Res.ok m2 ∧ WF env m2 ∧
        entries m2 = (els.map fun e => (e.Key, e.Value)).foldl upsert (entries m) ∧
        m2.HashTable.length = m.HashTable.length := by
  intro els
  induction els with
  | nil =>
    intro m hwf _ _
    exact ⟨m, rfl, hwf, rfl, rfl⟩
  | cons It rest ih =>
    intro m hwf hfuel hroom
    have hroom1 := hroom (List.cons_ne_nil _ _)
    rw [List.length_cons] at hroom1 hfuel
    rcases present_or_absent m.Elements It.Key with ⟨j, e, hj, hk⟩ | habs
    · have hf : FindHashed env fuel m (HashValue env It.Key) It.Key = Res.ok (some j) :=
        Find_present env m fuel It.Key j e hwf (by omega) hj hk
      obtain ⟨hwf1, hent1⟩ := WF_setValue env m j e It.Value hwf hj
      obtain ⟨m2, hrun, hwf2, hent2, hT2⟩ :=
        ih { m with Elements := m.Elements.set j { e with Value := It.Value } } hwf1
          (by simp only [List.length_set]; omega)
          (by
            intro _
            simp only [List.length_set]
            exact le_trans (hM _ _ (by omega)) hroom1)
      refine ⟨m2, ?_, hwf2, ?_, hT2⟩
      · rw [Append.loop]
        simp only [hf, Res.ok_bind, elemAt_nat _ _ e hj]
        exact hrun
      · rw [hent2, hent1, List.map_cons, List.foldl_cons]
        have hje : (entries m)[j]? = some (It.Key, e.Value) := by
          simp only [entries, List.getElem?_map, hj, Option.map_some', hk]
        rw [upsert_present (entries m) (keys_nodup m hwf.keys) j It.Key e.Value It.Value hje, hk]
    · have hf : FindHashed env fuel m (HashValue env It.Key) It.Key = Res.ok none :=
        Find_absent env m fuel It.Key hwf (by omega) habs
      obtain ⟨m1, hadd, hent1, hwf1⟩ :=
        Add_CheckNew_spec env m fuel It.Key It.Value hE hwf (by omega) habs
      have hge : GetHashSize env (m.Elements.length + 1) ≤ m.HashTable.length :=
        le_trans (hM _ _ (by omega)) hroom1
      have hT1 := Add_CheckNew_table_length env fuel m It.Key It.Value _ hge hadd
      have hlen1 : m1.Elements.length = m.Elements.length + 1 := by
        have := congrArg List.length hent1
        simpa [entries] using this
      obtain ⟨m2, hrun, hwf2, hent2, hT2⟩ :=
        ih m1 hwf1 (by rw [hlen1]; omega)
          (by
            intro _
            rw [hlen1, hT1]
            exact le_trans (hM _ _ (by omega)) hroom1)
      refine ⟨m2, ?_, hwf2, ?_, by rw [hT2, hT1]⟩
      · rw [Append.loop]
        simp only [hf, Res.ok_bind]
        rw [AddHashed_CheckNew_eq_noRehash env fuel m _ It.Key It.Value hge]
        have hadd2 : AddHashed_CheckNew env fuel m (HashValue env It.Key) It.Key It.Value =
            Res.ok (m1, m.Elements.length) := hadd
        rw [hadd2]
        exact hrun
      · rw [hent2, hent1, List.map_cons, List.foldl_cons, upsert_absent]
        intro hmem
        obtain ⟨p, hp, hpk⟩ := List.mem_map.mp hmem
        obtain ⟨j, x, hx, hxk, _⟩ := (mem_entries_iff m p.1 p.2).mp hp
        exact habs j x hx (by rw [hxk]; exact hpk)

/-- The general path of `Append`: on well-formed maps, with a non-decreasing `GetHashSize`, it
succeeds, and the entries are those of the destination, overwritten in place where `Other`
holds the key, followed by the entries of `Other` whose key is new. -/
theorem Append_general_spec (env : Env K) (fuel : Nat) (m Other : TVoxelMap K V)
    (hE : EnvOK env) (hM : SizeMono env) (hwf : WF env m) (hwo : WF env Other)
    (hne : Num m ≠ 0) (hfuel : Num m + Num Other < fuel) :
    ∃ m2, Append env fuel m Other = Res.ok m2 ∧ WF env m2 ∧
      entries m2 = appended (entries m) (entries Other) := by
  obtain ⟨m1, hres, hent1, hwf1, _, hbig, _⟩ :=
    Reserve_spec env m ((Num m : Int) + (Num Other : Int)) hE hwf
  have hlen1 : m1.Elements.length = m.Elements.length := entries_length m m1 hent1
  obtain ⟨m2, hrun, hwf2, hent2, _⟩ := Append_loop_spec env fuel hE hM Other.Elements m1 hwf1
    (by rw [hlen1]; exact hfuel)
    (by
      intro hnil
      have hpos : 0 < Other.Elements.length := List.length_pos.mpr hnil
      have := hbig (by simp only [Num]; omega)
      rw [hlen1]
      have h2 : ((Num m : Int) + (Num Other : Int)).toNat =
          m.Elements.length + Other.Elements.length := by
        simp only [Num]
        omega
      rw [h2] at this
      exact this)
  refine ⟨m2, ?_, hwf2, ?_⟩
  · unfold Append
    rw [if_neg hne]
    show (Reserve env m ((Num m : Int) + (Num Other : Int))).bind _ = _
    rw [hres]
    exact hrun
  · rw [hent2, hent1]
    exact foldl_upsert_eq _ (keys_nodup Other hwo.keys) _

theorem overwritten_fst (other : List (K × V)) (p : K × V) : (overwritten other p).1 = p.1 := by
  unfold overwritten
  cases other.find? fun q => decide (q.1 = p.1) <;> rfl

theorem KeyArray_eq_entries (m : TVoxelMap K V) : KeyArray m = (entries m).map Prod.fst := by
  simp [KeyArray, entries]

theorem appended_keys (base other : List (K × V)) :
    (appended base other).map Prod.fst =
      base.map Prod.fst ++
        (other.filter fun q => decide (q.1 ∉ base.map Prod.fst)).map Prod.fst := by
  unfold appended
  rw [List.map_append, List.map_map]
  congr 1
  apply List.map_congr_left
  intro p _
  exact overwritten_fst other p

theorem mem_appended_of_other (base other : List (K × V))
    (hnd : (other.map Prod.fst).Nodup) (k : K) (v : V) (hm : (k, v) ∈ other) :
    (k, v) ∈ appended base other := by
  unfold appended
  rw [List.mem_append]
  by_cases hk : k ∈ base.map Prod.fst
  · left
    obtain ⟨p, hp, hpk⟩ := List.mem_map.mp hk
    refine List.mem_map.mpr ⟨p, hp, ?_⟩
    unfold overwritten
    rw [hpk, find_key_of_mem other hnd k v hm]
  · right
    rw [List.mem_filter]
    exact ⟨hm, by simpa using hk⟩

theorem mem_appended_of_not_other (base other : List (K × V)) (k : K) (v : V)
    (hk : k ∉ other.map Prod.fst) : (k, v) ∈ appended base other ↔ (k, v) ∈ base := by
  unfold appended
  rw [List.mem_append]
  constructor
  · rintro (h | h)
    · obtain ⟨p, hp, hpk⟩ := List.mem_map.mp h
      have hp1 : p.1 = k := by
        have := congrArg Prod.fst hpk
        rw [overwritten_fst] at this
        exact this
      rw [overwritten_not_mem other p (by rw [hp1]; exact hk)] at hpk
      rw [← hpk]
      exact hp
    · exact absurd (List.mem_map.mpr ⟨(k, v), (List.mem_filter.mp h).1, rfl⟩) hk
  · intro h
    left
    exact List.mem_map.mpr ⟨(k, v), h, overwritten_not_mem other (k, v) hk⟩

/-! ### Writing through the reference `FindOrAdd` returns -/

theorem entries_unique_value (m : TVoxelMap K V) (hu : KeysUnique m.Elements) (k : K)
    (v1 v2 : V) (h1 : (k, v1) ∈ entries m) (h2 : (k, v2) ∈ entries m) : v1 = v2 := by
  obtain ⟨j1, e1, hj1, hk1, hv1⟩ := (mem_entries_iff m k v1).mp h1
  obtain ⟨j2, e2, hj2, hk2, hv2⟩ := (mem_entries_iff m k v2).mp h2
  have hjj : j1 = j2 := hu j1 j2 e1 e2 hj1 hj2 (by rw [hk1, hk2])
  subst hjj
  rw [hj1] at hj2
  cases hj2
  rw [← hv1, ← hv2]

theorem FindValue_eq_some_iff (env : Env K) (m : TVoxelMap K V) (fuel : Nat) (k : K) (v : V)
    (hwf : WF env m) (hfuel : m.Elements.length < fuel) :
    FindValue env fuel m k = Res.ok (some v) ↔ (k, v) ∈ entries m := by
  constructor
  · intro h
    rcases mem_or_not_mem m k with ⟨v0, hv0⟩ | hno
    · rw [FindValue_of_mem env m fuel k v0 hwf hfuel hv0] at h
      cases h
      exact hv0
    · rw [FindValue_of_not_mem env m fuel k hwf hfuel hno] at h
      cases h
  · exact FindValue_of_mem env m fuel k v hwf hfuel

theorem FindValue_ok (env : Env K) (m : TVoxelMap K V) (fuel : Nat) (k : K)
    (hwf : WF env m) (hfuel : m.Elements.length < fuel) :
    ∃ o, FindValue env fuel m k = Res.ok o := by
  rcases mem_or_not_mem m k with ⟨v0, hv0⟩ | hno
  · exact ⟨_, FindValue_of_mem env m fuel k v0 hwf hfuel hv0⟩
  · exact ⟨_, FindValue_of_not_mem env m fuel k hwf hfuel hno⟩

/-- What `FindOrAdd` does on a well-formed map: it returns a reference to the value of the
key, in the map itself when it holds the key, and else in the map with the key added with the
default value. -/
theorem FindOrAdd_spec (env : Env K) (dflt : V) (m : TVoxelMap K V) (fuel : Nat) (k : K)
    (hE : EnvOK env) (hwf : WF env m) (hfuel : m.Elements.length < fuel) :
    ∃ m2 i e, FindOrAdd env dflt fuel m k = Res.ok (m2, i) ∧ WF env m2 ∧
      m2.Elements[i]? = some e ∧ e.Key = k ∧ Num m2 ≤ Num m + 1 ∧
      (∀ v, (k, v) ∈ entries m → m2 = m ∧ e.Value = v) ∧
      ((∀ v, (k, v) ∉ entries m) → e.Value = dflt) ∧
      (∀ k2 v, k2 ≠ k → ((k2, v) ∈ entries m2 ↔ (k2, v) ∈ entries m)) ∧
      (∀ k2 v, (k2, v) ∈ entries m2 → (k2, v) ∈ entries m ∨ (k2 = k ∧ v = dflt)) := by
  rcases present_or_absent m.Elements k with ⟨j, e, hj, hk⟩ | habs
  · have hmem : (k, e.Value) ∈ entries m := (mem_entries_iff m k e.Value).mpr ⟨j, e, hj, hk, rfl⟩
    refine ⟨m, j, e, FindOrAdd_present env dflt m fuel k j e hwf hfuel hj hk, hwf, hj, hk,
      Nat.le_succ _, ?_, ?_, fun _ _ _ => Iff.rfl, fun _ _ h => Or.inl h⟩
    · intro v hv
      exact ⟨rfl, entries_unique_value m hwf.keys k _ _ hmem hv⟩
    · intro hno
      exact absurd hmem (hno _)
  · obtain ⟨m2, hrun, hent, hwf2⟩ := FindOrAdd_absent env dflt m fuel k hE hwf hfuel habs
    have hlen : (entries m).length = m.Elements.length := by simp [entries]
    have hlast : (entries m2)[m.Elements.length]? = some (k, dflt) := by
      rw [hent, ← hlen, List.getElem?_append_right (le_refl _)]
      simp
    have hlast2 : ∃ e, m2.Elements[m.Elements.length]? = some e ∧ e.Key = k ∧
        e.Value = dflt := by
      simp only [entries, List.getElem?_map] at hlast
      cases he : m2.Elements[m.Elements.length]? with
      | none => rw [he] at hlast; cases hlast
      | some e =>
        rw [he] at hlast
        simp only [Option.map_some', Option.some.injEq, Prod.mk.injEq] at hlast
        exact ⟨e, rfl, hlast.1, hlast.2⟩
    obtain ⟨e, he, hek, hev⟩ := hlast2
    have hno : ∀ v, (k, v) ∉ entries m := by
      intro v hv
      obtain ⟨j, x, hx, hxk, _⟩ := (mem_entries_iff m k v).mp hv
      exact habs j x hx hxk
    refine ⟨m2, m.Elements.length, e, hrun, hwf2, he, hek, ?_, ?_, fun _ => hev, ?_, ?_⟩
    · have := congrArg List.length hent
      simp only [entries, List.length_map, List.length_append, List.length_singleton] at this
      exact le_of_eq this
    · intro v hv
      exact absurd hv (hno v)
    · intro k2 v hk2
      rw [hent, List.mem_append, List.mem_singleton]
      constructor
      · rintro (h | h)
        · exact h
        · exact absurd (congrArg Prod.fst h) hk2
      · exact Or.inl
    · intro k2 v h
      rw [hent, List.mem_append, List.mem_singleton] at h
      rcases h with h | h
      · exact Or.inl h
      · exact Or.inr ⟨congrArg Prod.fst h, congrArg Prod.snd h⟩

/-- What the write through a reference to the value of an element does on a well-formed
map. -/
theorem assign_spec (env : Env K) (m : TVoxelMap K V) (i : Nat) (e : FElement K V) (v : V)
    (hwf : WF env m) (he : m.Elements[i]? = some e) :
    ∃ m3, assign m i v = Res.ok m3 ∧ WF env m3 ∧ Num m3 = Num m ∧
      (e.Key, v) ∈ entries m3 ∧
      (∀ k2 v2, k2 ≠ e.Key → ((k2, v2) ∈ entries m3 ↔ (k2, v2) ∈ entries m)) ∧
      (∀ k2 v2, (k2, v2) ∈ entries m3 → (k2, v2) ∈ entries m ∨ (k2 = e.Key ∧ v2 = v)) ∧
      (v = e.Value → m3 = m) := by
  obtain ⟨hwf3, hent3⟩ := WF_setValue env m i e v hwf he
  have hi : i < (entries m).length := by
    have := (List.getElem?_eq_some_iff.mp he).1
    simpa [entries] using this
  have hei : (entries m)[i]? = some (e.Key, e.Value) := by
    simp only [entries, List.getElem?_map, he, Option.map_some']
  refine ⟨_, ?_, hwf3, ?_, ?_, ?_, ?_, ?_⟩
  · simp only [assign, elemAt_nat _ _ e he, Res.ok_bind]
  · simp [Num]
  · rw [hent3]
    exact List.mem_iff_getElem?.mpr ⟨i, List.getElem?_set_self hi⟩
  · intro k2 v2 hk2
    rw [hent3]
    constructor
    · intro h
      rcases List.mem_or_eq_of_mem_set h with h | h
      · exact h
      · exact absurd (congrArg Prod.fst h) hk2
    · intro h
      obtain ⟨i2, hi2⟩ := List.mem_iff_getElem?.mp h
      have hne : i ≠ i2 := by
        intro hii
        subst hii
        rw [hei] at hi2
        cases hi2
        exact hk2 rfl
      exact List.mem_iff_getElem?.mpr ⟨i2, by rw [List.getElem?_set_ne hne]; exact hi2⟩
  · intro k2 v2 h
    rw [hent3] at h
    rcases List.mem_or_eq_of_mem_set h with h | h
    · exact Or.inl h
    · exact Or.inr ⟨congrArg Prod.fst h, congrArg Prod.snd h⟩
  · intro hv
    subst hv
    have : m.Elements.set i { e with Value := e.Value } = m.Elements := by
      apply List.ext_getElem?
      intro n
      by_cases hn : i = n
      · subst hn
        rw [List.getElem?_set_self (List.getElem?_eq_some_iff.mp he).1, he]
      · rw [List.getElem?_set_ne hn]
    rw [this]

end Lemmas

/-! ## Claims -/

section Claims

variable {K V : Type} [DecidableEq K]

/-- C1: starting from the empty map, `Add_CheckNew` of pairs with pairwise distinct keys (any
hash function) succeeds, and afterwards `Find` of every inserted key yields its value, `Find`
of any other key is null, and `Num` is the number of pairs. -/
theorem C1_add_checknew_then_find (env : Env K) (kvs : List (K × V)) (fuel : Nat)
    (hE : EnvOK env) (hnd : (kvs.map Prod.fst).Nodup) (hfuel : kvs.length < fuel) :
    ∃ m, addAll env fuel kvs empty = Res.ok m ∧ Num m = kvs.length ∧
      (∀ k v, (k, v) ∈ kvs → FindValue env fuel m k = Res.ok (some v)) ∧
      (∀ k, k ∉ kvs.map Prod.fst → FindValue env fuel m k = Res.ok none) := by
  obtain ⟨m, hall, hent, hwf⟩ := addAll_spec env fuel hE kvs empty (WF_empty env)
    (by simpa [empty] using hfuel) hnd (by intro k v _ v0 h; simp [entries, empty] at h)
  have hent2 : entries m = kvs := by simpa [entries, empty] using hent
  have hnum : m.Elements.length = kvs.length := by
    have := congrArg List.length hent2
    simpa [entries] using this
  refine ⟨m, hall, hnum, ?_, ?_⟩
  · intro k v hmem
    exact FindValue_of_mem env m fuel k v hwf (by omega) (hent2 ▸ hmem)
  · intro k hk
    refine FindValue_of_not_mem env m fuel k hwf (by omega) ?_
    intro v hmem
    rw [hent2] at hmem
    exact hk (List.mem_map.mpr ⟨(k, v), hmem, rfl⟩)

/-- Instance of C1: the sample pairs inserted under the sample environment. -/
theorem C1_witness :
    EnvOK sampleEnv ∧ (samplePairs.map Prod.fst).Nodup ∧ samplePairs.length < 10 ∧
    ∃ m, addAll sampleEnv 10 samplePairs empty = Res.ok m ∧ Num m = samplePairs.length ∧
      (∀ k v, (k, v) ∈ samplePairs → FindValue sampleEnv 10 m k = Res.ok (some v)) ∧
      (∀ k, k ∉ samplePairs.map Prod.fst → FindValue sampleEnv 10 m k = Res.ok none) :=
  ⟨sampleEnv_ok, by decide, by decide,
    C1_add_checknew_then_find sampleEnv samplePairs 10 sampleEnv_ok (by decide) (by decide)⟩

/-- C2: on a well-formed map (sizing policy non-decreasing), `Remove` of a present key
returns `true`; afterwards `Find` of that key is null, `Num` is one less, and `Find` of every
other key yields the same value as before. -/
theorem C2_remove_present (env : Env K) (m : TVoxelMap K V) (fuel : Nat) (k : K) (v : V)
    (hM : SizeMono env) (hwf : WF env m) (hfuel : Num m < fuel) (hpres : (k, v) ∈ entries m) :
    ∃ m2, Remove env fuel m k = Res.ok (true, m2) ∧
      FindValue env fuel m2 k = Res.ok none ∧ Num m2 + 1 = Num m ∧
      ∀ k2, k2 ≠ k → FindValue env fuel m2 k2 = FindValue env fuel m k2 := by
  obtain ⟨j0, e0, he0, hk, _⟩ := (mem_entries_iff m k v).mp hpres
  obtain ⟨m2, hrem, hent, _, hwf2⟩ := Remove_present env m fuel k j0 e0 hM hwf hfuel he0 hk
  have hu : KeysUnique m.Elements := by
    obtain ⟨ch, hw⟩ := hwf
    exact hw.keys
  have hj0 : j0 < (entries m).length := by
    have := (List.getElem?_eq_some_iff.mp he0).1
    simpa [entries] using this
  have hnum : m2.Elements.length + 1 = m.Elements.length := by
    have := congrArg List.length hent
    rw [length_swapRemove _ _ hj0] at this
    simp only [entries, List.length_map] at this hj0
    omega
  have hfuel2 : m2.Elements.length < fuel := by
    unfold Num at hfuel; omega
  have hmem : ∀ k2 v2, (k2, v2) ∈ entries m2 ↔ (k2, v2) ∈ entries m ∧ k2 ≠ k := by
    intro k2 v2
    rw [hent, mem_entries_swapRemove m j0 e0 hu he0 k2 v2, hk]
  refine ⟨m2, hrem, ?_, hnum, ?_⟩
  · refine FindValue_of_not_mem env m2 fuel k hwf2 hfuel2 ?_
    intro v2 h2
    exact ((hmem k v2).mp h2).2 rfl
  · intro k2 hne
    refine FindValue_congr env m2 m fuel fuel k2 hwf2 hwf hfuel2 hfuel ?_
    intro v2
    rw [hmem k2 v2]
    exact ⟨fun h => h.1, fun h => ⟨h, hne⟩⟩

/-- Instance of C2: key `1` removed from the sample map, where key `17` shares its bucket and is the last element. -/
theorem C2_witness :
    SizeMono sampleEnv ∧ WF sampleEnv sampleMap ∧ Num sampleMap < 10 ∧
    (1, 101) ∈ entries sampleMap ∧
    ∃ m2, Remove sampleEnv 10 sampleMap 1 = Res.ok (true, m2) ∧
      FindValue sampleEnv 10 m2 1 = Res.ok none ∧ Num m2 + 1 = Num sampleMap ∧
      ∀ k2, k2 ≠ 1 → FindValue sampleEnv 10 m2 k2 = FindValue sampleEnv 10 sampleMap k2 :=
  ⟨sampleEnv_mono, sampleMap_wf, by decide, by decide,
    C2_remove_present sampleEnv sampleMap 10 1 101 sampleEnv_mono sampleMap_wf (by decide)
      (by decide)⟩

/-- C3: on a well-formed map (the empty map with an empty hash table included), `Remove` of a
key that is not present returns `false` and returns the map unchanged: same element array,
same hash table. -/
theorem C3_remove_absent (env : Env K) (m : TVoxelMap K V) (fuel : Nat) (k : K)
    (hwf : WF env m) (hfuel : Num m < fuel) (habs : ∀ v, (k, v) ∉ entries m) :
    Remove env fuel m k = Res.ok (false, m) :=
  Remove_absent env m fuel k hwf hfuel (absent_of_not_mem m k habs)

/-- Instance of C3: `Remove` on the empty map, whose hash table is empty. -/
theorem C3_witness :
    WF sampleEnv (empty : TVoxelMap Nat Nat) ∧ Num (empty : TVoxelMap Nat Nat) < 1 ∧
    (∀ v, (5, v) ∉ entries (empty : TVoxelMap Nat Nat)) ∧
    Remove sampleEnv 1 (empty : TVoxelMap Nat Nat) 5 = Res.ok (false, empty) :=
  ⟨WF_empty sampleEnv, by decide, by intro v h; simp [entries, empty] at h,
    C3_remove_absent sampleEnv empty 1 5 (WF_empty sampleEnv) (by decide)
      (by intro v h; simp [entries, empty] at h)⟩

/-- C4: after any sequence of `FindOrAdd`, `Add_CheckNew` (of absent keys) and `Remove` applied
to the empty map, the run succeeds, the keys inserted and not removed since form a
duplicate-free list whose length is `Num`, and `Find` is non-null exactly for those keys. -/
theorem C4_density (env : Env K) (dflt : V) (ops : List (Op K V)) (fuel : Nat)
    (hE : EnvOK env) (hM : SizeMono env) (hfuel : ops.length < fuel)
    (hok : opsOk [] ops = true) :
    ∃ m, runOps env dflt fuel ops empty = Res.ok m ∧
      (liveKeys [] ops).Nodup ∧ Num m = (liveKeys [] ops).length ∧
      (∀ k, k ∈ liveKeys [] ops → ∃ i, Find env fuel m k = Res.ok (some i)) ∧
      (∀ k, k ∉ liveKeys [] ops → Find env fuel m k = Res.ok none) := by
  obtain ⟨m, hrun, hwf, hnd, hmem, hlen⟩ := runOps_spec env dflt fuel hE hM ops empty []
    (WF_empty env) List.nodup_nil (by intro k; simp [entries, empty])
    (by simpa [empty] using hfuel) hok
  have hlen2 : m.Elements.length < fuel := by
    simp only [empty, List.length_nil, Nat.zero_add] at hlen
    omega
  refine ⟨m, hrun, hnd, Num_eq_length_of_mem_iff env m _ hwf hnd hmem, ?_, ?_⟩
  · intro k hk
    obtain ⟨v, hv⟩ := (hmem k).mp hk
    obtain ⟨j, e, hj, hke, _⟩ := (mem_entries_iff m k v).mp hv
    exact ⟨j, Find_present env m fuel k j e hwf hlen2 hj hke⟩
  · intro k hk
    refine Find_absent env m fuel k hwf hlen2 (absent_of_not_mem m k ?_)
    intro v hv
    exact hk ((hmem k).mpr ⟨v, hv⟩)

/-- Instance of C4: the sample sequence of insertions and removals. -/
theorem C4_witness :
    EnvOK sampleEnv ∧ SizeMono sampleEnv ∧ sampleOps.length < 10 ∧
    opsOk [] sampleOps = true ∧
    ∃ m, runOps sampleEnv 0 10 sampleOps empty = Res.ok m ∧
      (liveKeys [] sampleOps).Nodup ∧ Num m = (liveKeys [] sampleOps).length ∧
      (∀ k, k ∈ liveKeys [] sampleOps → ∃ i, Find sampleEnv 10 m k = Res.ok (some i)) ∧
      (∀ k, k ∉ liveKeys [] sampleOps → Find sampleEnv 10 m k = Res.ok none) :=
  ⟨sampleEnv_ok, sampleEnv_mono, by decide, by decide,
    C4_density sampleEnv 0 sampleOps 10 sampleEnv_ok sampleEnv_mono (by decide) (by decide)⟩

/-- C5: on a well-formed map, `FindOrAdd` of an absent key appends one element holding the key
and the default value, returns the reference to it, raises `Num` by one and leaves `Find` of
every other key unchanged; `FindOrAdd` of a present key returns the reference to the existing
value and leaves the map unchanged. -/
theorem C5_find_or_add (env : Env K) (dflt : V) (m : TVoxelMap K V) (fuel : Nat) (k : K)
    (hE : EnvOK env) (hwf : WF env m) (hfuel : Num m + 1 < fuel) :
    ((∀ v, (k, v) ∉ entries m) →
      ∃ m2, FindOrAdd env dflt fuel m k = Res.ok (m2, Num m) ∧
        entries m2 = entries m ++ [(k, dflt)] ∧ deref m2 (some (Num m)) = some dflt ∧
        Num m2 = Num m + 1 ∧
        ∀ k2, k2 ≠ k → FindValue env fuel m2 k2 = FindValue env fuel m k2) ∧
    (∀ v, (k, v) ∈ entries m →
      ∃ j, FindOrAdd env dflt fuel m k = Res.ok (m, j) ∧ deref m (some j) = some v) := by
  have hfuel1 : m.Elements.length < fuel := by unfold Num at hfuel; omega
  constructor
  · intro habs
    obtain ⟨m2, hfa, hent, hwf2⟩ := FindOrAdd_absent env dflt m fuel k hE hwf hfuel1
      (absent_of_not_mem m k habs)
    have hnum : m2.Elements.length = m.Elements.length + 1 := by
      have := congrArg List.length hent
      simpa [entries] using this
    have hlast : (entries m2)[m.Elements.length]? = some (k, dflt) := by
      rw [hent]
      have : m.Elements.length = (entries m).length := by simp [entries]
      rw [this, List.getElem?_concat_length]
    refine ⟨m2, hfa, hent, ?_, hnum, ?_⟩
    · simp only [entries, List.getElem?_map, Option.map_eq_some', Prod.mk.injEq] at hlast
      obtain ⟨e, he, _, hv⟩ := hlast
      simp [deref, Num, he, hv]
    · intro k2 hne
      refine FindValue_congr env m2 m fuel fuel k2 hwf2 hwf (by unfold Num at hfuel; omega)
        hfuel1 ?_
      intro v2
      rw [hent, List.mem_append]
      simp only [List.mem_singleton, Prod.mk.injEq]
      exact ⟨fun h => h.elim id (fun h2 => absurd h2.1 hne), Or.inl⟩
  · intro v hv
    obtain ⟨j, e, hj, hke, hve⟩ := (mem_entries_iff m k v).mp hv
    exact ⟨j, FindOrAdd_present env dflt m fuel k j e hwf hfuel1 hj hke,
      by simp [deref, hj, hve]⟩

/-- Instance of C5: `FindOrAdd` of key `5` on the sample map. -/
theorem C5_witness :
    EnvOK sampleEnv ∧ WF sampleEnv sampleMap ∧ Num sampleMap + 1 < 10 ∧
    (((∀ v, (5, v) ∉ entries sampleMap) →
      ∃ m2, FindOrAdd sampleEnv 0 10 sampleMap 5 = Res.ok (m2, Num sampleMap) ∧
        entries m2 = entries sampleMap ++ [(5, 0)] ∧
        deref m2 (some (Num sampleMap)) = some 0 ∧
        Num m2 = Num sampleMap + 1 ∧
        ∀ k2, k2 ≠ 5 → FindValue sampleEnv 10 m2 k2 = FindValue sampleEnv 10 sampleMap k2) ∧
    (∀ v, (5, v) ∈ entries sampleMap →
      ∃ j, FindOrAdd sampleEnv 0 10 sampleMap 5 = Res.ok (sampleMap, j) ∧
        deref sampleMap (some j) = some v)) :=
  ⟨sampleEnv_ok, sampleMap_wf, by decide,
    C5_find_or_add sampleEnv 0 sampleMap 10 5 sampleEnv_ok sampleMap_wf (by decide)⟩

/-- C6: on a well-formed map the hashed lookup `Find` returns what a linear search of the
element array returns; it is non-null exactly when some element holds the key, it then points
to the value of that element, and it is null when the hash table is empty. -/
theorem C6_find_refines_linear_search (env : Env K) (m : TVoxelMap K V) (fuel : Nat) (k : K)
    (hwf : WF env m) (hfuel : Num m < fuel) :
    Find env fuel m k = Res.ok (linearFind m k) ∧
    ((∃ i, Find env fuel m k = Res.ok (some i)) ↔ ∃ v, (k, v) ∈ entries m) ∧
    (∀ v, (k, v) ∈ entries m → FindValue env fuel m k = Res.ok (some v)) ∧
    (m.HashTable = [] → Find env fuel m k = Res.ok none) := by
  refine ⟨Find_eq_linearFind env m fuel k hwf hfuel, ?_, ?_, ?_⟩
  · constructor
    · rintro ⟨i, hi⟩
      rcases mem_or_not_mem m k with h | h
      · exact h
      · rw [Find_absent env m fuel k hwf hfuel (absent_of_not_mem m k h)] at hi
        cases hi
    · rintro ⟨v, hv⟩
      obtain ⟨j, e, hj, hke, _⟩ := (mem_entries_iff m k v).mp hv
      exact ⟨j, Find_present env m fuel k j e hwf hfuel hj hke⟩
  · intro v hv
    exact FindValue_of_mem env m fuel k v hwf hfuel hv
  · intro ht
    unfold Find FindHashed
    simp [hwf.checkInvariants, ht]

/-- Instance of C6: lookup of key `17` in the sample map. -/
theorem C6_witness :
    WF sampleEnv sampleMap ∧ Num sampleMap < 10 ∧
    (Find sampleEnv 10 sampleMap 17 = Res.ok (linearFind sampleMap 17) ∧
    ((∃ i, Find sampleEnv 10 sampleMap 17 = Res.ok (some i)) ↔
      ∃ v, (17, v) ∈ entries sampleMap) ∧
    (∀ v, (17, v) ∈ entries sampleMap → FindValue sampleEnv 10 sampleMap 17 = Res.ok (some v)) ∧
    (sampleMap.HashTable = [] → Find sampleEnv 10 sampleMap 17 = Res.ok none)) :=
  ⟨sampleMap_wf, by decide,
    C6_find_refines_linear_search sampleEnv sampleMap 10 17 sampleMap_wf (by decide)⟩

/-- C7: on a well-formed map, `FindChecked` of a present key returns the reference that `Find`
points to, and `FindChecked` fails fatally exactly when the key is absent. -/
theorem C7_find_checked (env : Env K) (m : TVoxelMap K V) (fuel : Nat) (k : K)
    (hwf : WF env m) (hfuel : Num m < fuel) :
    (∀ v, (k, v) ∈ entries m →
      ∃ j, FindChecked env fuel m k = Res.ok j ∧ Find env fuel m k = Res.ok (some j) ∧
        deref m (some j) = some v) ∧
    (FindChecked env fuel m k = Res.fatal ↔ ∀ v, (k, v) ∉ entries m) := by
  constructor
  · intro v hv
    obtain ⟨j, e, hj, hke, hve⟩ := (mem_entries_iff m k v).mp hv
    exact ⟨j, FindChecked_present env m fuel k j e hwf hfuel hj hke,
      Find_present env m fuel k j e hwf hfuel hj hke, by simp [deref, hj, hve]⟩
  · constructor
    · intro hf v hv
      obtain ⟨j, e, hj, hke, _⟩ := (mem_entries_iff m k v).mp hv
      rw [FindChecked_present env m fuel k j e hwf hfuel hj hke] at hf
      cases hf
    · intro habs
      exact FindChecked_absent env m fuel k hwf hfuel (absent_of_not_mem m k habs)

/-- Instance of C7: `FindChecked` of key `17` on the sample map. -/
theorem C7_witness :
    WF sampleEnv sampleMap ∧ Num sampleMap < 10 ∧
    ((∀ v, (17, v) ∈ entries sampleMap →
      ∃ j, FindChecked sampleEnv 10 sampleMap 17 = Res.ok j ∧
        Find sampleEnv 10 sampleMap 17 = Res.ok (some j) ∧
        deref sampleMap (some j) = some v) ∧
    (FindChecked sampleEnv 10 sampleMap 17 = Res.fatal ↔ ∀ v, (17, v) ∉ entries sampleMap)) :=
  ⟨sampleMap_wf, by decide, C7_find_checked sampleEnv sampleMap 10 17 sampleMap_wf (by decide)⟩

/-- C8: with checks enabled, on a well-formed map `Add_CheckNew` fails fatally exactly when the
key is already present, and then it is the check at the head of the function that fails:
`Add_CheckNew` is its checks followed by its writes, and the checks alone already fail. -/
theorem C8_add_checknew_fatal_iff_present (env : Env K) (m : TVoxelMap K V) (fuel : Nat)
    (k : K) (v : V) (hE : EnvOK env) (hwf : WF env m) (hfuel : Num m < fuel) :
    (Add_CheckNew env fuel m k v = Res.fatal ↔ ∃ v0, (k, v0) ∈ entries m) ∧
    Add_CheckNew env fuel m k v =
      (AddHashed_CheckNew.pre env fuel m (HashValue env k) k).bind
        (fun _ => AddHashed_CheckNew.body env m (HashValue env k) k v) ∧
    ((∃ v0, (k, v0) ∈ entries m) →
      AddHashed_CheckNew.pre env fuel m (HashValue env k) k = Res.fatal) := by
  refine ⟨?_, rfl, ?_⟩
  · constructor
    · intro hf
      rcases mem_or_not_mem m k with h | h
      · exact h
      · obtain ⟨m2, hadd, _, _⟩ := Add_CheckNew_spec env m fuel k v hE hwf hfuel
          (absent_of_not_mem m k h)
        rw [hadd] at hf
        cases hf
    · rintro ⟨v0, hv0⟩
      obtain ⟨j, e, hj, hke, _⟩ := (mem_entries_iff m k v0).mp hv0
      exact Add_CheckNew_present env m fuel k v j e hwf hfuel hj hke
  · rintro ⟨v0, hv0⟩
    obtain ⟨j, e, hj, hke, _⟩ := (mem_entries_iff m k v0).mp hv0
    exact AddHashed_CheckNew_pre_present env m fuel k j e hwf hfuel hj hke

/-- Instance of C8: `Add_CheckNew` of the present key `17` on the sample map. -/
theorem C8_witness :
    EnvOK sampleEnv ∧ WF sampleEnv sampleMap ∧ Num sampleMap < 10 ∧
    ((Add_CheckNew sampleEnv 10 sampleMap 17 5 = Res.fatal ↔
      ∃ v0, (17, v0) ∈ entries sampleMap) ∧
    Add_CheckNew sampleEnv 10 sampleMap 17 5 =
      (AddHashed_CheckNew.pre sampleEnv 10 sampleMap (HashValue sampleEnv 17) 17).bind
        (fun _ => AddHashed_CheckNew.body sampleEnv sampleMap (HashValue sampleEnv 17) 17 5) ∧
    ((∃ v0, (17, v0) ∈ entries sampleMap) →
      AddHashed_CheckNew.pre sampleEnv 10 sampleMap (HashValue sampleEnv 17) 17 = Res.fatal)) :=
  ⟨sampleEnv_ok, sampleMap_wf, by decide,
    C8_add_checknew_fatal_iff_present sampleEnv sampleMap 10 17 5 sampleEnv_ok sampleMap_wf
      (by decide)⟩

/-- C9: on a well-formed map, `Add_EnsureNew` of a key already held at index `j` does not
fail: it reports the `ensure`, returns the map unchanged (so `Num` and every lookup are
unchanged), `j` is the only index holding the key, and the returned reference is `j`; for an
absent key it is `Add_CheckNew` with no `ensure` reported. -/
theorem C9_add_ensurenew (env : Env K) (m : TVoxelMap K V) (fuel : Nat) (k : K) (v : V)
    (hwf : WF env m) (hfuel : Num m < fuel) :
    (∀ (j : Nat) (e : FElement K V), m.Elements[j]? = some e → e.Key = k →
      Add_EnsureNew env fuel m k v = Res.ok { map := m, ref := j, ensureFailed := true } ∧
      ∀ (j2 : Nat) (e2 : FElement K V), m.Elements[j2]? = some e2 → e2.Key = k → j2 = j) ∧
    ((∀ v0, (k, v0) ∉ entries m) →
      Add_EnsureNew env fuel m k v =
        (Add_CheckNew env fuel m k v).bind
          fun r => Res.ok { map := r.1, ref := r.2, ensureFailed := false }) := by
  constructor
  · intro j e hj hke
    have hf := Find_present env m fuel k j e hwf hfuel hj hke
    unfold Find at hf
    refine ⟨by simp only [Add_EnsureNew, AddHashed_EnsureNew, beq_self_eq_true, check_true,
      Res.ok_bind, hf], ?_⟩
    intro j2 e2 hj2 hke2
    obtain ⟨ch, hw⟩ := hwf
    exact hw.keys j2 j e2 e hj2 hj (by rw [hke2, hke])
  · intro habs
    have hf := Find_absent env m fuel k hwf hfuel (absent_of_not_mem m k habs)
    unfold Find at hf
    simp only [Add_EnsureNew, AddHashed_EnsureNew, beq_self_eq_true, check_true, Res.ok_bind,
      hf, Add_CheckNew]

/-- Instance of C9: `Add_EnsureNew` of the present key `17` on the sample map. -/
theorem C9_witness :
    WF sampleEnv sampleMap ∧ Num sampleMap < 10 ∧
    ((∀ (j : Nat) (e : FElement Nat Nat), sampleMap.Elements[j]? = some e → e.Key = 17 →
      Add_EnsureNew sampleEnv 10 sampleMap 17 5 =
        Res.ok { map := sampleMap, ref := j, ensureFailed := true } ∧
      ∀ (j2 : Nat) (e2 : FElement Nat Nat), sampleMap.Elements[j2]? = some e2 → e2.Key = 17 →
        j2 = j) ∧
    ((∀ v0, (17, v0) ∉ entries sampleMap) →
      Add_EnsureNew sampleEnv 10 sampleMap 17 5 =
        (Add_CheckNew sampleEnv 10 sampleMap 17 5).bind
          fun r => Res.ok { map := r.1, ref := r.2, ensureFailed := false })) :=
  ⟨sampleMap_wf, by decide, C9_add_ensurenew sampleEnv sampleMap 10 17 5 sampleMap_wf (by decide)⟩

/-- C10 (as stated, refuted): in the sample map key `1` holds `101`; after
`Add_EnsureNew(1, 999)` the lookup of `1` still yields `101`, not `999`. -/
theorem C10_counterexample :
    WF sampleEnv sampleMap ∧ (1, 101) ∈ entries sampleMap ∧
    Add_EnsureNew sampleEnv 10 sampleMap 1 999 =
      Res.ok { map := sampleMap, ref := 1, ensureFailed := true } ∧
    FindValue sampleEnv 10 sampleMap 1 = Res.ok (some 101) ∧
    FindValue sampleEnv 10 sampleMap 1 ≠ Res.ok (some 999) :=
  ⟨sampleMap_wf, by decide, by decide, by decide, by decide⟩

/-- C10 (amended): when `Add_EnsureNew(k, v)` finds `k` already present with value `v0`, it
reports the `ensure`, stores nothing and returns the map unchanged: the lookup of `k` still
yields `v0`, and the returned reference designates that existing value. -/
theorem C10_add_ensurenew_keeps_old_value (env : Env K) (m : TVoxelMap K V) (fuel : Nat)
    (k : K) (v v0 : V) (hwf : WF env m) (hfuel : Num m < fuel) (hpres : (k, v0) ∈ entries m) :
    ∃ r, Add_EnsureNew env fuel m k v = Res.ok r ∧ r.map = m ∧ r.ensureFailed = true ∧
      deref r.map (some r.ref) = some v0 ∧
      FindValue env fuel r.map k = Res.ok (some v0) := by
  obtain ⟨j, e, hj, hke, hve⟩ := (mem_entries_iff m k v0).mp hpres
  have hf := Find_present env m fuel k j e hwf hfuel hj hke
  unfold Find at hf
  refine ⟨{ map := m, ref := j, ensureFailed := true }, ?_, rfl, rfl, ?_, ?_⟩
  · simp only [Add_EnsureNew, AddHashed_EnsureNew, beq_self_eq_true, check_true, Res.ok_bind, hf]
  · simp [deref, hj, hve]
  · exact FindValue_of_mem env m fuel k v0 hwf hfuel hpres

/-- Instance of the amended C10: `Add_EnsureNew(1, 999)` on the sample map. -/
theorem C10_witness :
    WF sampleEnv sampleMap ∧ Num sampleMap < 10 ∧ (1, 101) ∈ entries sampleMap ∧
    ∃ r, Add_EnsureNew sampleEnv 10 sampleMap 1 999 = Res.ok r ∧ r.map = sampleMap ∧
      r.ensureFailed = true ∧ deref r.map (some r.ref) = some 101 ∧
      FindValue sampleEnv 10 r.map 1 = Res.ok (some 101) :=
  ⟨sampleMap_wf, by decide, by decide,
    C10_add_ensurenew_keeps_old_value sampleEnv sampleMap 10 1 999 101 sampleMap_wf (by decide)
      (by decide)⟩

/-- C13: removal is a swap-pop on the dense array. For a well-formed map with a present key
stored at index `i`, after `Remove` the array is one shorter; if `i` was the last index the
remaining slots keep their keys and values, otherwise slot `i` holds the key and value of the
former last element and every other remaining slot keeps its key and value. -/
theorem C13_remove_is_swap_pop (env : Env K) (m : TVoxelMap K V) (fuel : Nat) (k : K)
    (i : Nat) (e : FElement K V) (hM : SizeMono env) (hwf : WF env m) (hfuel : Num m < fuel)
    (he : m.Elements[i]? = some e) (hk : e.Key = k) :
    ∃ m2, Remove env fuel m k = Res.ok (true, m2) ∧ Num m2 = Num m - 1 ∧
      (i = Num m - 1 → ∀ j, j < Num m - 1 → (entries m2)[j]? = (entries m)[j]?) ∧
      (i ≠ Num m - 1 →
        (entries m2)[i]? = (entries m)[Num m - 1]? ∧
        ∀ j, j < Num m - 1 → j ≠ i → (entries m2)[j]? = (entries m)[j]?) := by
  obtain ⟨m2, hrem, hent, _, _⟩ := Remove_present env m fuel k i e hM hwf hfuel he hk
  have hi : i < m.Elements.length := (List.getElem?_eq_some_iff.mp he).1
  have hlenE : (entries m).length = m.Elements.length := by simp [entries]
  have hi2 : i < (entries m).length := by omega
  have hget : ∀ j, (entries m2)[j]? =
      if j + 1 < (entries m).length then
        (if j = i then (entries m)[(entries m).length - 1]? else (entries m)[j]?)
      else none := by
    intro j
    rw [hent, getElem?_swapRemove _ _ _ hi2]
  have hnum : m2.Elements.length = m.Elements.length - 1 := by
    have := congrArg List.length hent
    rw [length_swapRemove _ _ hi2] at this
    simpa [entries] using this
  refine ⟨m2, hrem, hnum, ?_, ?_⟩
  · intro hlast j hj
    unfold Num at hlast hj
    rw [hget j, if_pos (by omega), if_neg (by omega)]
  · intro hnot
    unfold Num at hnot
    refine ⟨?_, ?_⟩
    · rw [hget i, if_pos (by omega), if_pos rfl, hlenE]
      rfl
    · intro j hj hji
      unfold Num at hj
      rw [hget j, if_pos (by omega), if_neg hji]

/-- Instance of C13: key `1` at index `1` of the sample map, whose last element is key `17`. -/
theorem C13_witness :
    SizeMono sampleEnv ∧ WF sampleEnv sampleMap ∧ Num sampleMap < 10 ∧
    sampleMap.Elements[1]? = some ⟨1, 101, -1⟩ ∧ (⟨1, 101, -1⟩ : FElement Nat Nat).Key = 1 ∧
    ∃ m2, Remove sampleEnv 10 sampleMap 1 = Res.ok (true, m2) ∧ Num m2 = Num sampleMap - 1 ∧
      (1 = Num sampleMap - 1 →
        ∀ j, j < Num sampleMap - 1 → (entries m2)[j]? = (entries sampleMap)[j]?) ∧
      (1 ≠ Num sampleMap - 1 →
        (entries m2)[1]? = (entries sampleMap)[Num sampleMap - 1]? ∧
        ∀ j, j < Num sampleMap - 1 → j ≠ 1 → (entries m2)[j]? = (entries sampleMap)[j]?) :=
  ⟨sampleEnv_mono, sampleMap_wf, by decide, by decide, rfl,
    C13_remove_is_swap_pop sampleEnv sampleMap 10 1 1 ⟨1, 101, -1⟩ sampleEnv_mono sampleMap_wf
      (by decide) (by decide) rfl⟩

/-- C14: `Reserve` changes no contents. On a well-formed map `Reserve(n)` succeeds, keeps the
keys and values in the same order, keeps `Num` and the result of `Find` for every key; when
`n <= Num` the map is returned unchanged, hash table included, and when `n > Num` the hash
table afterwards has at least `GetHashSize(n)` buckets. -/
theorem C14_reserve_frame (env : Env K) (m : TVoxelMap K V) (Number : Int) (fuel : Nat)
    (hE : EnvOK env) (hwf : WF env m) (hfuel : Num m < fuel) :
    ∃ m2, Reserve env m Number = Res.ok m2 ∧ entries m2 = entries m ∧ Num m2 = Num m ∧
      (∀ k, Find env fuel m2 k = Find env fuel m k) ∧
      (∀ k, FindValue env fuel m2 k = FindValue env fuel m k) ∧
      (Number ≤ (Num m : Int) → m2 = m) ∧
      ((Num m : Int) < Number → GetHashSize env Number.toNat ≤ m2.HashTable.length) := by
  obtain ⟨m2, hres, hent, hwf2, hsame, hbig, _⟩ := Reserve_spec env m Number hE hwf
  have hnum : m2.Elements.length = m.Elements.length := entries_length m m2 hent
  have hfuel2 : m2.Elements.length < fuel := by rw [hnum]; exact hfuel
  refine ⟨m2, hres, hent, hnum, ?_, ?_, hsame, hbig⟩
  · intro k
    exact Find_congr_entries env m m2 fuel fuel k hwf hwf2 hfuel hfuel2 hent
  · intro k
    refine FindValue_congr env m2 m fuel fuel k hwf2 hwf hfuel2 hfuel ?_
    intro v
    rw [hent]

/-- Instance of C14: `Reserve(8)` on the three-element sample map, which grows the table from
one bucket to sixteen and rehashes. -/
theorem C14_witness :
    EnvOK sampleEnv ∧ WF sampleEnv sampleSmall ∧ Num sampleSmall < 10 ∧
    ∃ m2, Reserve sampleEnv sampleSmall 8 = Res.ok m2 ∧ entries m2 = entries sampleSmall ∧
      Num m2 = Num sampleSmall ∧
      (∀ k, Find sampleEnv 10 m2 k = Find sampleEnv 10 sampleSmall k) ∧
      (∀ k, FindValue sampleEnv 10 m2 k = FindValue sampleEnv 10 sampleSmall k) ∧
      ((8 : Int) ≤ (Num sampleSmall : Int) → m2 = sampleSmall) ∧
      ((Num sampleSmall : Int) < 8 →
        GetHashSize sampleEnv (8 : Int).toNat ≤ m2.HashTable.length) :=
  ⟨sampleEnv_ok, sampleSmall_wf, by decide,
    C14_reserve_frame sampleEnv sampleSmall 8 10 sampleEnv_ok sampleSmall_wf (by decide)⟩

/-- C11: key uniqueness is an invariant. Starting from the empty map, after any sequence of
`FindOrAdd`, `Add_EnsureNew`, `Add_CheckNew` (on absent keys), `Remove`, `Reserve`, `Shrink`,
`Rehash`, `Reset_KeepHashSize`, sort and load (of an archive written from a map) calls, the
run succeeds and no two elements of the dense array have equal keys. -/
theorem C11_key_uniqueness (env : Env K) (dflt : V) (sortArray : SortFn K V)
    (ops : List (MapOp K V)) (fuel : Nat) (hE : EnvOK env) (hM : SizeMono env)
    (hS : SortContract sortArray) (hok : mapOpsOk fuel [] ops = true)
    (hcmp : ∀ op, op ∈ ops → comparatorOk op) :
    ∃ m, runMapOps env dflt sortArray fuel ops empty = Res.ok m ∧ (KeyArray m).Nodup ∧
      ∀ (i j : Nat) (a b : FElement K V),
        m.Elements[i]? = some a → m.Elements[j]? = some b → a.Key = b.Key → i = j := by
  obtain ⟨m, hrun, hwf⟩ := runMapOps_spec env dflt sortArray fuel hE hM hS ops empty []
    (WF_empty env) List.nodup_nil (by intro k; simp [entries, empty]) hok hcmp
  exact ⟨m, hrun, (KeysUnique_iff_nodup m.Elements).mp hwf.keys, hwf.keys⟩

/-- Instance of C11: the sample sequence of map calls. -/
theorem C11_witness :
    EnvOK sampleEnv ∧ SizeMono sampleEnv ∧ SortContract sampleSort ∧
    mapOpsOk 10 [] sampleMapOps = true ∧ (∀ op, op ∈ sampleMapOps → comparatorOk op) ∧
    ∃ m, runMapOps sampleEnv 0 sampleSort 10 sampleMapOps empty = Res.ok m ∧
      (KeyArray m).Nodup ∧
      ∀ (i j : Nat) (a b : FElement Nat Nat),
        m.Elements[i]? = some a → m.Elements[j]? = some b → a.Key = b.Key → i = j :=
  ⟨sampleEnv_ok, sampleEnv_mono, sampleSort_contract, by decide, sampleMapOps_comparators,
    C11_key_uniqueness sampleEnv 0 sampleSort sampleMapOps 10 sampleEnv_ok sampleEnv_mono
      sampleSort_contract (by decide) sampleMapOps_comparators⟩

/-- C12: the sizing invariant of `CheckInvariants` is preserved. With a non-decreasing
`GetHashSize`, after any sequence of `Add_CheckNew`, `FindOrAdd`, `Add_EnsureNew`, `Remove`,
`Reserve`, `Shrink`, `Rehash`, `Reset_KeepHashSize`, sort and load calls from the empty map,
the run succeeds and a non-empty element array has `HashTable.Num() >= GetHashSize(Num())`;
and a further `Remove` leaves the number of buckets as it is. -/
theorem C12_sizing_invariant (env : Env K) (dflt : V) (sortArray : SortFn K V)
    (ops : List (MapOp K V)) (fuel : Nat) (hE : EnvOK env) (hM : SizeMono env)
    (hS : SortContract sortArray) (hok : mapOpsOk fuel [] ops = true)
    (hcmp : ∀ op, op ∈ ops → comparatorOk op) :
    ∃ m, runMapOps env dflt sortArray fuel ops empty = Res.ok m ∧
      (0 < Num m → GetHashSize env (Num m) ≤ m.HashTable.length) ∧
      CheckInvariants env m = Res.ok () ∧
      ∀ (k : K) (fuel2 : Nat), Num m < fuel2 →
        ∃ b m3, Remove env fuel2 m k = Res.ok (b, m3) ∧
          m3.HashTable.length = m.HashTable.length := by
  obtain ⟨m, hrun, hwf⟩ := runMapOps_spec env dflt sortArray fuel hE hM hS ops empty []
    (WF_empty env) List.nodup_nil (by intro k; simp [entries, empty]) hok hcmp
  refine ⟨m, hrun, hwf.sizing, hwf.checkInvariants, ?_⟩
  intro k fuel2 hfuel2
  rcases present_or_absent m.Elements k with ⟨j, e, he, hk⟩ | habs
  · obtain ⟨m3, hrem, _, hT, _⟩ := Remove_present env m fuel2 k j e hM hwf hfuel2 he hk
    exact ⟨true, m3, hrem, hT⟩
  · exact ⟨false, m, Remove_absent env m fuel2 k hwf hfuel2 habs, rfl⟩

/-- Instance of C12: the sample sequence of map calls. -/
theorem C12_witness :
    EnvOK sampleEnv ∧ SizeMono sampleEnv ∧ SortContract sampleSort ∧
    mapOpsOk 10 [] sampleMapOps = true ∧ (∀ op, op ∈ sampleMapOps → comparatorOk op) ∧
    ∃ m, runMapOps sampleEnv 0 sampleSort 10 sampleMapOps empty = Res.ok m ∧
      (0 < Num m → GetHashSize sampleEnv (Num m) ≤ m.HashTable.length) ∧
      CheckInvariants sampleEnv m = Res.ok () ∧
      ∀ (k : Nat) (fuel2 : Nat), Num m < fuel2 →
        ∃ b m3, Remove sampleEnv fuel2 m k = Res.ok (b, m3) ∧
          m3.HashTable.length = m.HashTable.length :=
  ⟨sampleEnv_ok, sampleEnv_mono, sampleSort_contract, by decide, sampleMapOps_comparators,
    C12_sizing_invariant sampleEnv 0 sampleSort sampleMapOps 10 sampleEnv_ok sampleEnv_mono
      sampleSort_contract (by decide) sampleMapOps_comparators⟩

/-- C15: for a comparator that is a strict weak order, `Sort`, `KeySort` and `ValueSort` on a
well-formed map succeed, keep `Num` and the value found for every key, and leave an element
array that is a permutation of the original one in which no element compares before its
predecessor. -/
theorem C15_sort (env : Env K) (sortArray : SortFn K V) (m : TVoxelMap K V) (fuel : Nat)
    (ltE : K × V → K × V → Bool) (ltK : K → K → Bool) (ltV : V → V → Bool)
    (hE : EnvOK env) (hS : SortContract sortArray) (hwf : WF env m) (hfuel : Num m < fuel)
    (hltE : StrictWeakOrder ltE) (hltK : StrictWeakOrder ltK) (hltV : StrictWeakOrder ltV) :
    (∃ m2, SortWith env sortArray m ltE = Res.ok m2 ∧ Num m2 = Num m ∧
      (∀ k, FindValue env fuel m2 k = FindValue env fuel m k) ∧
      (entries m2).Perm (entries m) ∧
      List.Chain' (fun a b => ltE b a = false) (entries m2)) ∧
    (∃ m2, KeySort env sortArray m ltK = Res.ok m2 ∧ Num m2 = Num m ∧
      (∀ k, FindValue env fuel m2 k = FindValue env fuel m k) ∧
      (entries m2).Perm (entries m) ∧
      List.Chain' (fun a b => ltK b a = false) (KeyArray m2)) ∧
    (∃ m2, ValueSort env sortArray m ltV = Res.ok m2 ∧ Num m2 = Num m ∧
      (∀ k, FindValue env fuel m2 k = FindValue env fuel m k) ∧
      (entries m2).Perm (entries m) ∧
      List.Chain' (fun a b => ltV b a = false) (ValueArray m2)) := by
  refine ⟨SortWith_find env sortArray m fuel ltE hE hS hwf hfuel hltE, ?_, ?_⟩
  · obtain ⟨m2, hs, hnum, hfind, hp, hc⟩ := SortWith_find env sortArray m fuel
      (fun a b => ltK a.1 b.1) hE hS hwf hfuel (StrictWeakOrder.comap ltK Prod.fst hltK)
    refine ⟨m2, hs, hnum, hfind, hp, ?_⟩
    have : KeyArray m2 = (entries m2).map Prod.fst := by
      simp [KeyArray, entries, List.map_map, Function.comp]
    rw [this, List.chain'_map]
    exact hc
  · obtain ⟨m2, hs, hnum, hfind, hp, hc⟩ := SortWith_find env sortArray m fuel
      (fun a b => ltV a.2 b.2) hE hS hwf hfuel (StrictWeakOrder.comap ltV Prod.snd hltV)
    refine ⟨m2, hs, hnum, hfind, hp, ?_⟩
    have : ValueArray m2 = (entries m2).map Prod.snd := by
      simp [ValueArray, entries, List.map_map, Function.comp]
    rw [this, List.chain'_map]
    exact hc

/-- Instance of C15: the sample map sorted by descending key, by key and by value. -/
theorem C15_witness :
    EnvOK sampleEnv ∧ SortContract sampleSort ∧ WF sampleEnv sampleMap ∧ Num sampleMap < 10 ∧
    StrictWeakOrder (fun a b : Nat × Nat => natLess b.1 a.1) ∧ StrictWeakOrder natLess ∧
    ((∃ m2, SortWith sampleEnv sampleSort sampleMap (fun a b => natLess b.1 a.1) = Res.ok m2 ∧
      Num m2 = Num sampleMap ∧
      (∀ k, FindValue sampleEnv 10 m2 k = FindValue sampleEnv 10 sampleMap k) ∧
      (entries m2).Perm (entries sampleMap) ∧
      List.Chain' (fun a b => (fun a b : Nat × Nat => natLess b.1 a.1) b a = false)
        (entries m2)) ∧
    (∃ m2, KeySort sampleEnv sampleSort sampleMap natLess = Res.ok m2 ∧
      Num m2 = Num sampleMap ∧
      (∀ k, FindValue sampleEnv 10 m2 k = FindValue sampleEnv 10 sampleMap k) ∧
      (entries m2).Perm (entries sampleMap) ∧
      List.Chain' (fun a b => natLess b a = false) (KeyArray m2)) ∧
    (∃ m2, ValueSort sampleEnv sampleSort sampleMap natLess = Res.ok m2 ∧
      Num m2 = Num sampleMap ∧
      (∀ k, FindValue sampleEnv 10 m2 k = FindValue sampleEnv 10 sampleMap k) ∧
      (entries m2).Perm (entries sampleMap) ∧
      List.Chain' (fun a b => natLess b a = false) (ValueArray m2))) :=
  ⟨sampleEnv_ok, sampleSort_contract, sampleMap_wf, by decide,
    StrictWeakOrder.comap (fun a b => natLess b a) Prod.fst
      ⟨fun a => natLess_strictWeak.1 a,
        fun a b c h1 h2 => natLess_strictWeak.2.1 c b a h2 h1,
        fun a b c h => (natLess_strictWeak.2.2 c b a h).symm⟩,
    natLess_strictWeak,
    C15_sort sampleEnv sampleSort sampleMap 10 (fun a b => natLess b.1 a.1) natLess natLess
      sampleEnv_ok sampleSort_contract sampleMap_wf (by decide)
      (StrictWeakOrder.comap (fun a b => natLess b a) Prod.fst
        ⟨fun a => natLess_strictWeak.1 a,
          fun a b c h1 h2 => natLess_strictWeak.2.1 c b a h2 h1,
          fun a b c h => (natLess_strictWeak.2.2 c b a h).symm⟩)
      natLess_strictWeak natLess_strictWeak⟩

/-- C16: stepping an iterator from `CreateIterator()` with `++` until it tests false ends and
visits exactly the indices `0, ..., Num() - 1` in this order, reading the elements of the dense
array there, in the order `KeyArray()` and `ValueArray()` return (nothing for an empty map);
for a map built by inserting pairs with new keys this is the order of insertion. -/
theorem C16_iteration_order (env : Env K) (m : TVoxelMap K V) (steps fuel : Nat)
    (pairs : List (K × V)) (hsteps : Num m < steps) (hE : EnvOK env)
    (hnd : (pairs.map Prod.fst).Nodup) (hfuel : pairs.length < fuel)
    (hsteps2 : pairs.length < steps) :
    (∃ trace, iterate steps m = Res.ok trace ∧
      trace.map (fun t => t.1) = List.range (Num m) ∧
      trace.map (fun t => t.2) = entries m ∧
      trace.map (fun t => t.2.1) = KeyArray m ∧
      trace.map (fun t => t.2.2) = ValueArray m ∧
      (Num m = 0 → trace = [])) ∧
    (∃ m2 trace, addAll env fuel pairs empty = Res.ok m2 ∧ iterate steps m2 = Res.ok trace ∧
      trace.map (fun t => t.2) = pairs) := by
  have hlen : (entries m).length = Num m := by simp [entries, Num]
  constructor
  · refine ⟨(entries m).enum, iterate_spec m steps hsteps, ?_, (enum_parts _).2, ?_, ?_, ?_⟩
    · rw [(enum_parts _).1, hlen]
    · rw [KeyArray_eq]
      conv_rhs => rw [← (enum_parts (entries m)).2]
      rw [List.map_map]
      rfl
    · rw [ValueArray_eq]
      conv_rhs => rw [← (enum_parts (entries m)).2]
      rw [List.map_map]
      rfl
    · intro h0
      have : entries m = [] := List.eq_nil_of_length_eq_zero (by rw [hlen, h0])
      rw [this]
      rfl
  · obtain ⟨m2, hall, hent, _⟩ := addAll_spec env fuel hE pairs (empty : TVoxelMap K V)
      (WF_empty env) (by simpa [empty] using hfuel) hnd
      (by intro k v _ v0 h; simp [entries, empty] at h)
    have hent2 : entries m2 = pairs := by simpa [entries, empty] using hent
    have hl2 : m2.Elements.length < steps := by
      have := congrArg List.length hent2
      simp only [entries, List.length_map] at this
      omega
    exact ⟨m2, (entries m2).enum, hall, iterate_spec m2 steps hl2, by
      rw [(enum_parts _).2, hent2]⟩

/-- Instance of C16: iterating the sample map, which is the map built from the sample pairs. -/
theorem C16_witness :
    Num sampleMap < 10 ∧ EnvOK sampleEnv ∧ (samplePairs.map Prod.fst).Nodup ∧
    samplePairs.length < 10 ∧
    (∃ trace, iterate 10 sampleMap = Res.ok trace ∧
      trace.map (fun t => t.1) = List.range (Num sampleMap) ∧
      trace.map (fun t => t.2) = entries sampleMap ∧
      trace.map (fun t => t.2.1) = KeyArray sampleMap ∧
      trace.map (fun t => t.2.2) = ValueArray sampleMap ∧
      (Num sampleMap = 0 → trace = [])) ∧
    (∃ m2 trace, addAll sampleEnv 10 samplePairs empty = Res.ok m2 ∧
      iterate 10 m2 = Res.ok trace ∧ trace.map (fun t => t.2) = samplePairs) :=
  ⟨by decide, sampleEnv_ok, by decide, by decide,
    C16_iteration_order sampleEnv sampleMap 10 10 samplePairs (by decide) sampleEnv_ok
      (by decide) (by decide) (by decide)⟩

/-- C17: for a well-formed map and a predicate `P` on keys, the loop
`for (It = CreateIterator(); It; ++It) { if P(It.Key()) It.RemoveCurrent(); }` terminates,
visits every element of the original map exactly once, and leaves a well-formed map that holds
exactly the original entries whose keys do not satisfy `P`. -/
theorem C17_remove_during_iteration (env : Env K) (P : K → Bool) (m : TVoxelMap K V)
    (fuel steps : Nat) (hM : SizeMono env) (hwf : WF env m) (hfuel : Num m < fuel)
    (hsteps : Num m < steps) :
    ∃ m2 visited, removeIf env P fuel steps m = Res.ok (m2, visited) ∧
      visited.Perm (KeyArray m) ∧ visited.Nodup ∧ WF env m2 ∧
      (entries m2).Perm ((entries m).filter (fun p => !P p.1)) ∧
      ∀ k v, (k, v) ∈ entries m2 ↔ ((k, v) ∈ entries m ∧ P k = false) := by
  obtain ⟨m2, σ, hrun, hperm, hwf2, _, hent⟩ :=
    forwardIteration_spec env (fun _ k => P k) fuel steps m hM hwf hfuel hsteps
  rw [kept_const] at hent
  have hp2 : (entries m2).Perm ((entries m).filter (fun p => !P p.1)) := by
    rw [hent]
    exact hperm.filter _
  refine ⟨m2, σ.map Prod.fst, hrun, ?_, visited_nodup m σ hwf.keys hperm, hwf2, hp2, ?_⟩
  · rw [KeyArray_eq]
    exact hperm.map Prod.fst
  · intro k v
    rw [hp2.mem_iff, List.mem_filter]
    simp

/-- Instance of C17: removing the odd keys of the sample map while iterating. -/
theorem C17_witness :
    SizeMono sampleEnv ∧ WF sampleEnv sampleMap ∧ Num sampleMap < 10 ∧
    ∃ m2 visited, removeIf sampleEnv (fun k => k % 2 == 1) 10 10 sampleMap =
        Res.ok (m2, visited) ∧
      visited.Perm (KeyArray sampleMap) ∧ visited.Nodup ∧ WF sampleEnv m2 ∧
      (entries m2).Perm ((entries sampleMap).filter (fun p => !(fun k => k % 2 == 1) p.1)) ∧
      ∀ k v, (k, v) ∈ entries m2 ↔
        ((k, v) ∈ entries sampleMap ∧ (fun k => k % 2 == 1) k = false) :=
  ⟨sampleEnv_mono, sampleMap_wf, by decide,
    C17_remove_during_iteration sampleEnv (fun k => k % 2 == 1) sampleMap 10 10 sampleEnv_mono
      sampleMap_wf (by decide) (by decide)⟩

/-- C18, refuted as stated: no forward iteration that calls `RemoveCurrent`, over any
well-formed map, visits an element a second time. -/
theorem C18_counterexample :
    ¬ ∃ (K2 V2 : Type) (inst : DecidableEq K2) (env : Env K2) (m : TVoxelMap K2 V2)
        (Decide : Nat → K2 → Bool) (fuel steps : Nat) (m2 : TVoxelMap K2 V2)
        (visited : List K2),
      SizeMono env ∧ WF env m ∧ Num m < fuel ∧ Num m < steps ∧
      @forwardIteration K2 V2 inst env Decide fuel steps m = Res.ok (m2, visited) ∧
      ¬ visited.Nodup := by
  rintro ⟨K2, V2, inst, env, m, Decide, fuel, steps, m2, visited, hM, hwf, hfuel, hsteps,
    hrun, hdup⟩
  obtain ⟨m3, σ, hrun3, hperm, _, _, _⟩ :=
    @forwardIteration_spec K2 V2 inst env Decide fuel steps m hM hwf hfuel hsteps
  rw [hrun3] at hrun
  cases hrun
  exact hdup (@visited_nodup K2 V2 inst m σ hwf.keys hperm)

/-- C18, amended: `RemoveCurrent` at index `i` of a well-formed map leaves the elements before
`i` in place and swaps into slot `i` the former last element, which lay after `i`; its
`Index--` followed by `++` points the iterator at slot `i` again, or ends the iteration when
the removed element was the last; and a forward iteration that calls `RemoveCurrent` visits
every element exactly once. -/
theorem C18_swapped_in_is_last (env : Env K) (m : TVoxelMap K V) (fuel i : Nat)
    (e : FElement K V) (hM : SizeMono env) (hwf : WF env m) (hfuel : Num m < fuel)
    (he : m.Elements[i]? = some e) :
    (∃ m1 It1, TIterator.RemoveCurrent env fuel m (iterAt m i) = Res.ok (m1, It1) ∧
      It1.ElementPtr = none ∧ It1.Index = (i : Int) - 1 ∧
      It1.next m1 = Res.ok (iterAt m1 i) ∧ Num m1 = Num m - 1 ∧
      (∀ j, j < i → (entries m1)[j]? = (entries m)[j]?) ∧
      (i + 1 < Num m → (entries m1)[i]? = (entries m)[Num m - 1]? ∧
        (iterAt m1 i).ElementPtr = some i) ∧
      (i + 1 = Num m → (iterAt m1 i).ElementPtr = none)) ∧
    ∀ (Decide : Nat → K → Bool) (steps : Nat), Num m < steps →
      ∃ m2 visited, forwardIteration env Decide fuel steps m = Res.ok (m2, visited) ∧
        visited.Nodup ∧ visited.Perm (KeyArray m) := by
  obtain ⟨hlt, _⟩ := List.getElem?_eq_some_iff.mp he
  have hltE : i < (entries m).length := by simpa [entries] using hlt
  constructor
  · obtain ⟨m1, hrc, hent1, _, _⟩ := RemoveCurrent_spec env m fuel i e hM hwf hfuel he
    have hlen1 : m1.Elements.length = m.Elements.length - 1 := by
      have := congrArg List.length hent1
      rw [length_swapRemove _ _ hltE] at this
      simpa [entries] using this
    refine ⟨m1, _, hrc, rfl, rfl, next_iterAt m1 i _ (by simp), hlen1, ?_, ?_, ?_⟩
    · intro j hj
      rw [hent1, getElem?_swapRemove _ _ _ hltE]
      have h1 : j + 1 < (entries m).length := by omega
      have h2 : j ≠ i := by omega
      rw [if_pos h1, if_neg h2]
    · intro hi
      have hi2 : i + 1 < m.Elements.length := hi
      constructor
      · rw [hent1, getElem?_swapRemove _ _ _ hltE]
        have h1 : i + 1 < (entries m).length := by simpa [entries] using hi2
        have h2 : (entries m).length = Num m := by simp [entries, Num]
        rw [if_pos h1, if_pos rfl, h2]
      · have : i < m1.Elements.length := by omega
        simp [iterAt, this]
    · intro hi
      have hi2 : i + 1 = m.Elements.length := hi
      have : ¬ i < m1.Elements.length := by omega
      simp [iterAt, this]
  · intro Decide steps hsteps
    obtain ⟨m2, σ, hrun, hperm, _, _, _⟩ :=
      forwardIteration_spec env Decide fuel steps m hM hwf hfuel hsteps
    refine ⟨m2, σ.map Prod.fst, hrun, visited_nodup m σ hwf.keys hperm, ?_⟩
    rw [KeyArray_eq]
    exact hperm.map Prod.fst

/-- Instance of the amended C18: `RemoveCurrent` at index `1` of the sample map. -/
theorem C18_witness :
    SizeMono sampleEnv ∧ WF sampleEnv sampleMap ∧ Num sampleMap < 10 ∧
    sampleMap.Elements[1]? = some ⟨1, 101, -1⟩ ∧
    (∃ m1 It1, TIterator.RemoveCurrent sampleEnv 10 sampleMap (iterAt sampleMap 1) =
        Res.ok (m1, It1) ∧
      It1.ElementPtr = none ∧ It1.Index = ((1 : Nat) : Int) - 1 ∧
      It1.next m1 = Res.ok (iterAt m1 1) ∧ Num m1 = Num sampleMap - 1 ∧
      (∀ j, j < 1 → (entries m1)[j]? = (entries sampleMap)[j]?) ∧
      (1 + 1 < Num sampleMap → (entries m1)[1]? = (entries sampleMap)[Num sampleMap - 1]? ∧
        (iterAt m1 1).ElementPtr = some 1) ∧
      (1 + 1 = Num sampleMap → (iterAt m1 1).ElementPtr = none)) ∧
    ∀ (Decide : Nat → Nat → Bool) (steps : Nat), Num sampleMap < steps →
      ∃ m2 visited, forwardIteration sampleEnv Decide 10 steps sampleMap =
          Res.ok (m2, visited) ∧
        visited.Nodup ∧ visited.Perm (KeyArray sampleMap) :=
  ⟨sampleEnv_mono, sampleMap_wf, by decide, by decide,
    C18_swapped_in_is_last sampleEnv sampleMap 10 1 ⟨1, 101, -1⟩ sampleEnv_mono sampleMap_wf
      (by decide) (by decide)⟩

/-- C19: saving a well-formed map `m` writes the key and value of each element in array order;
loading that into any well-formed map succeeds and yields a well-formed map with the same
elements in the same order, so that `OrderIndependentEqual` holds between the two and `Find`
answers alike on both for every key; the loaded map is the result of `Rehash` on the archived
elements. -/
theorem C19_serialization_round_trip [DecidableEq V] (env : Env K) (m m0 : TVoxelMap K V)
    (fuel : Nat) (hE : EnvOK env) (hwf : WF env m) (hwf0 : WF env m0) (hfuel : Num m < fuel) :
    ∃ data m2, Save env m = Res.ok data ∧ data = entries m ∧
      Load env m0 data = Res.ok m2 ∧ WF env m2 ∧ entries m2 = entries m ∧
      OrderIndependentEqual env fuel m m2 = Res.ok true ∧
      OrderIndependentEqual env fuel m2 m = Res.ok true ∧
      (∀ k, FindValue env fuel m2 k = FindValue env fuel m k) ∧
      (∀ k, Find env fuel m2 k = Find env fuel m k) ∧
      Rehash env { m0 with Elements := data.map fun p =>
        ({ Key := p.1, Value := p.2, NextElementIndex := -16 } : FElement K V) } =
          Res.ok m2 := by
  obtain ⟨m2, hload, hent, hwf2, _⟩ := Load_spec env m0 (entries m) hE hwf0.pow2
    (keys_nodup m hwf.keys)
  have hlen : m2.Elements.length = m.Elements.length := entries_length m m2 hent
  have hfuel1 : m.Elements.length < fuel := hfuel
  have hfuel2 : m2.Elements.length < fuel := by rw [hlen]; exact hfuel
  refine ⟨entries m, m2, Save_spec env m hwf, rfl, hload, hwf2, hent, ?_, ?_, ?_, ?_, ?_⟩
  · exact OrderIndependentEqual_true env fuel m m2 hwf hfuel1 hlen.symm
      (by intro p hp; rwa [hent] at hp)
  · exact OrderIndependentEqual_true env fuel m2 m hwf2 hfuel2 hlen
      (by intro p hp; rwa [hent])
  · intro k
    exact FindValue_congr env m2 m fuel fuel k hwf2 hwf hfuel2 hfuel1 (by intro v; rw [hent])
  · intro k
    exact Find_congr_entries env m m2 fuel fuel k hwf hwf2 hfuel1 hfuel2 hent
  · unfold Load at hload
    dsimp only at hload
    cases hre : Rehash env { m0 with Elements := (entries m).map fun p =>
        ({ Key := p.1, Value := p.2, NextElementIndex := -16 } : FElement K V) } with
    | ok m3 =>
      rw [hre] at hload
      simp only [Res.ok_bind] at hload
      cases hci : CheckInvariants env m3 with
      | ok u =>
        rw [hci] at hload
        simp only [Res.ok_bind, Res.ok.injEq] at hload
        rw [hload]
      | fatal => rw [hci] at hload; simp [Res.bind] at hload
      | timeout => rw [hci] at hload; simp [Res.bind] at hload
    | fatal => rw [hre] at hload; simp [Res.bind] at hload
    | timeout => rw [hre] at hload; simp [Res.bind] at hload

/-- Instance of C19: the sample map saved and loaded into the three-element sample map. -/
theorem C19_witness :
    EnvOK sampleEnv ∧ WF sampleEnv sampleMap ∧ WF sampleEnv sampleSmall ∧
    Num sampleMap < 10 ∧
    ∃ data m2, Save sampleEnv sampleMap = Res.ok data ∧ data = entries sampleMap ∧
      Load sampleEnv sampleSmall data = Res.ok m2 ∧ WF sampleEnv m2 ∧
      entries m2 = entries sampleMap ∧
      OrderIndependentEqual sampleEnv 10 sampleMap m2 = Res.ok true ∧
      OrderIndependentEqual sampleEnv 10 m2 sampleMap = Res.ok true ∧
      (∀ k, FindValue sampleEnv 10 m2 k = FindValue sampleEnv 10 sampleMap k) ∧
      (∀ k, Find sampleEnv 10 m2 k = Find sampleEnv 10 sampleMap k) ∧
      Rehash sampleEnv { sampleSmall with Elements := data.map fun p =>
        ({ Key := p.1, Value := p.2, NextElementIndex := -16 } : FElement Nat Nat) } =
          Res.ok m2 :=
  ⟨sampleEnv_ok, sampleMap_wf, sampleSmall_wf, by decide,
    C19_serialization_round_trip sampleEnv sampleMap sampleSmall 10 sampleEnv_ok sampleMap_wf
      sampleSmall_wf (by decide)⟩

/-- C27: for every element array and every previous table size that passes
`FMath::IsPowerOfTwo`, `Rehash` succeeds, leaves the keys, values and order of the elements
unchanged, sets the table size to the larger of the previous size and `GetHashSize(Num())`,
and rebuilds the index whatever the table held before: every bucket is `-1` or the head of a
chain, each element lies in the chain of bucket `hash(key) & (size - 1)` and in no other, and
following a chain from its head visits the elements of that bucket in strictly decreasing
array index and ends at `-1`. -/
theorem C27_rehash (env : Env K) (m : TVoxelMap K V) (hE : EnvOK env)
    (hp : IsPowerOfTwo m.HashTable.length = true) :
    ∃ (m2 : TVoxelMap K V) (ch : Nat → List Nat), Rehash env m = Res.ok m2 ∧
      entries m2 = entries m ∧
      m2.HashTable.length = max m.HashTable.length (GetHashSize env (Num m)) ∧
      m.HashTable.length ≤ m2.HashTable.length ∧
      (∀ t : List Int, t.length = m.HashTable.length →
        Rehash env { HashTable := t, Elements := m.Elements } = Res.ok m2) ∧
      (∀ b, b < m2.HashTable.length →
        ∃ head, m2.HashTable[b]? = some head ∧
          (head = -1 ∨ (0 ≤ head ∧ head < (Num m2 : Int))) ∧
          isChain m2.Elements head (ch b) = true ∧
          (ch b).Pairwise (fun a c => a > c)) ∧
      (∀ (i : Nat) (e : FElement K V), m2.Elements[i]? = some e →
        ∀ b, b < m2.HashTable.length →
          (i ∈ ch b ↔ b = bucketOf env m2.HashTable.length e.Key)) := by
  obtain ⟨m2, ch, hre, hlen, hent, hl, hsorted⟩ := Rehash_chains_spec env m hE hp
  have hpos : 0 < m2.HashTable.length := by
    rw [hlen]
    exact lt_of_lt_of_le (hE.pos m.Elements.length) (le_max_right _ _)
  refine ⟨m2, ch, hre, hent, hlen, by rw [hlen]; exact le_max_left _ _, ?_, ?_, ?_⟩
  · intro t ht
    rw [Rehash_table_irrelevant env m t ht]
    exact hre
  · intro b hb
    obtain ⟨head, hh, hc⟩ := hl.chain b hb
    exact ⟨head, hh, isChain_head _ _ _ hc, hc, hsorted b hb⟩
  · intro i e he b hb
    have hi : i < m2.Elements.length := (List.getElem?_eq_some_iff.mp he).1
    have hmem := hl.complete i e hi he
    constructor
    · intro h
      exact hl.bucket_unique b _ i hb (bucketOf_lt env _ _ hpos) h hmem
    · intro h
      rw [h]
      exact hmem

/-- Instance of C27: rehashing the sample map. -/
theorem C27_witness :
    EnvOK sampleEnv ∧ IsPowerOfTwo sampleMap.HashTable.length = true ∧
    ∃ (m2 : TVoxelMap Nat Nat) (ch : Nat → List Nat), Rehash sampleEnv sampleMap = Res.ok m2 ∧
      entries m2 = entries sampleMap ∧
      m2.HashTable.length =
        max sampleMap.HashTable.length (GetHashSize sampleEnv (Num sampleMap)) ∧
      sampleMap.HashTable.length ≤ m2.HashTable.length ∧
      (∀ t : List Int, t.length = sampleMap.HashTable.length →
        Rehash sampleEnv { HashTable := t, Elements := sampleMap.Elements } = Res.ok m2) ∧
      (∀ b, b < m2.HashTable.length →
        ∃ head, m2.HashTable[b]? = some head ∧
          (head = -1 ∨ (0 ≤ head ∧ head < (Num m2 : Int))) ∧
          isChain m2.Elements head (ch b) = true ∧
          (ch b).Pairwise (fun a c => a > c)) ∧
      (∀ (i : Nat) (e : FElement Nat Nat), m2.Elements[i]? = some e →
        ∀ b, b < m2.HashTable.length →
          (i ∈ ch b ↔ b = bucketOf sampleEnv m2.HashTable.length e.Key)) :=
  ⟨sampleEnv_ok, by decide, C27_rehash sampleEnv sampleMap sampleEnv_ok (by decide)⟩

/-- C25: chain well-formedness is an invariant. After any sequence of `Add_CheckNew` (on absent
keys), `FindOrAdd`, `Add_EnsureNew`, `Remove`, `Reserve`, `Shrink`, `Rehash`,
`Reset_KeepHashSize`, sort and load calls from the empty map, the run succeeds and there are
chains `ch b`, one per bucket, such that: every bucket holds `-1` or a valid element index;
following `NextElementIndex` from the head of bucket `b` visits exactly `ch b`, which repeats no
index and holds valid indices only, and then reaches `-1`; and every element index lies in the
chain of bucket `hash(key) & (size - 1)` and in no other. -/
theorem C25_chain_invariant (env : Env K) (dflt : V) (sortArray : SortFn K V)
    (ops : List (MapOp K V)) (fuel : Nat) (hE : EnvOK env) (hM : SizeMono env)
    (hS : SortContract sortArray) (hok : mapOpsOk fuel [] ops = true)
    (hcmp : ∀ op, op ∈ ops → comparatorOk op) :
    ∃ (m : TVoxelMap K V) (ch : Nat → List Nat),
      runMapOps env dflt sortArray fuel ops empty = Res.ok m ∧
      (∀ b, b < m.HashTable.length →
        ∃ head, m.HashTable[b]? = some head ∧
          (head = -1 ∨ (0 ≤ head ∧ head < (Num m : Int))) ∧
          isChain m.Elements head (ch b) = true ∧ (ch b).Nodup ∧
          ∀ i, i ∈ ch b → i < Num m) ∧
      (∀ (i : Nat) (e : FElement K V), m.Elements[i]? = some e →
        bucketOf env m.HashTable.length e.Key < m.HashTable.length ∧
        ∀ b, b < m.HashTable.length →
          (i ∈ ch b ↔ b = bucketOf env m.HashTable.length e.Key)) := by
  obtain ⟨m, hrun, ch, hw⟩ := runMapOps_spec env dflt sortArray fuel hE hM hS ops empty []
    (WF_empty env) List.nodup_nil (by intro k; simp [entries, empty]) hok hcmp
  exact ⟨m, ch, hrun, hw.chains.1, hw.chains.2⟩

/-- Instance of C25: the sample sequence of map calls. -/
theorem C25_witness :
    EnvOK sampleEnv ∧ SizeMono sampleEnv ∧ SortContract sampleSort ∧
    mapOpsOk 10 [] sampleMapOps = true ∧ (∀ op, op ∈ sampleMapOps → comparatorOk op) ∧
    ∃ (m : TVoxelMap Nat Nat) (ch : Nat → List Nat),
      runMapOps sampleEnv 0 sampleSort 10 sampleMapOps empty = Res.ok m ∧
      (∀ b, b < m.HashTable.length →
        ∃ head, m.HashTable[b]? = some head ∧
          (head = -1 ∨ (0 ≤ head ∧ head < (Num m : Int))) ∧
          isChain m.Elements head (ch b) = true ∧ (ch b).Nodup ∧
          ∀ i, i ∈ ch b → i < Num m) ∧
      (∀ (i : Nat) (e : FElement Nat Nat), m.Elements[i]? = some e →
        bucketOf sampleEnv m.HashTable.length e.Key < m.HashTable.length ∧
        ∀ b, b < m.HashTable.length →
          (i ∈ ch b ↔ b = bucketOf sampleEnv m.HashTable.length e.Key)) :=
  ⟨sampleEnv_ok, sampleEnv_mono, sampleSort_contract, by decide, sampleMapOps_comparators,
    C25_chain_invariant sampleEnv 0 sampleSort sampleMapOps 10 sampleEnv_ok sampleEnv_mono
      sampleSort_contract (by decide) sampleMapOps_comparators⟩

/-- C26: on a well-formed map the chain walks are total within `Num()` link steps, that is with
fuel `Num() + 1`, and never fail a range check: `Find` returns for any key; for a key that is
present `FindChecked` returns its index, the first walk of `RemoveHashedChecked` returns that
index, the call returns, and when the element is not the last one the second walk returns a
link, which holds the index of the last element. -/
theorem C26_chain_walks_total (env : Env K) (m : TVoxelMap K V) (k k2 : K) (j : Nat)
    (e : FElement K V) (hwf : WF env m) (he : m.Elements[j]? = some e) (hk : e.Key = k) :
    (∃ r, Find env (Num m + 1) m k2 = Res.ok r) ∧
    Find env (Num m + 1) m k = Res.ok (some j) ∧
    FindChecked env (Num m + 1) m k = Res.ok j ∧
    ∃ m1, RemoveHashedChecked.unlink k (Num m + 1) m
        (.bucket (bucketOf env m.HashTable.length k)) = Res.ok ((j : Int), m1) ∧
      (∃ m2, RemoveHashedChecked env (Num m + 1) m (HashValue env k) k = Res.ok m2) ∧
      (j + 1 < Num m →
        ∃ eL ptr, m1.Elements[Num m - 1]? = some eL ∧
          RemoveHashedChecked.findLast (Num m + 1) m1
            (.bucket (bucketOf env m1.HashTable.length eL.Key)) = Res.ok ptr ∧
          readPtr m1 ptr = Res.ok ((Num m : Int) - 1)) := by
  have hfuel : m.Elements.length < Num m + 1 := Nat.lt_succ_self _
  refine ⟨?_, Find_present env m _ k j e hwf hfuel he hk,
    FindChecked_present env m _ k j e hwf hfuel he hk, ?_⟩
  · rcases present_or_absent m.Elements k2 with ⟨j2, e2, he2, hk2⟩ | habs
    · exact ⟨_, Find_present env m _ k2 j2 e2 hwf hfuel he2 hk2⟩
    · exact ⟨_, Find_absent env m _ k2 hwf hfuel habs⟩
  · obtain ⟨m1, hunl, _, _, hrhc, hsecond⟩ :=
      RemoveHashedChecked_walks env m (Num m + 1) k j e hwf hfuel he hk
    exact ⟨m1, hunl, hrhc, hsecond⟩

/-- Instance of C26: the walks for key `1` (and a lookup of the absent key `5`) on the sample
map, where key `1` shares its bucket with key `17`. -/
theorem C26_witness :
    WF sampleEnv sampleMap ∧ sampleMap.Elements[1]? = some ⟨1, 101, -1⟩ ∧
    (∃ r, Find sampleEnv (Num sampleMap + 1) sampleMap 5 = Res.ok r) ∧
    Find sampleEnv (Num sampleMap + 1) sampleMap 1 = Res.ok (some 1) ∧
    FindChecked sampleEnv (Num sampleMap + 1) sampleMap 1 = Res.ok 1 ∧
    ∃ m1, RemoveHashedChecked.unlink 1 (Num sampleMap + 1) sampleMap
        (.bucket (bucketOf sampleEnv sampleMap.HashTable.length 1)) =
          Res.ok (((1 : Nat) : Int), m1) ∧
      (∃ m2, RemoveHashedChecked sampleEnv (Num sampleMap + 1) sampleMap
        (HashValue sampleEnv 1) 1 = Res.ok m2) ∧
      (1 + 1 < Num sampleMap →
        ∃ eL ptr, m1.Elements[Num sampleMap - 1]? = some eL ∧
          RemoveHashedChecked.findLast (Num sampleMap + 1) m1
            (.bucket (bucketOf sampleEnv m1.HashTable.length eL.Key)) = Res.ok ptr ∧
          readPtr m1 ptr = Res.ok ((Num sampleMap : Int) - 1)) :=
  ⟨sampleMap_wf, by decide,
    C26_chain_walks_total sampleEnv sampleMap 1 5 1 ⟨1, 101, -1⟩ sampleMap_wf (by decide) rfl⟩

/-- C28: when `GetHashTableSize` yields powers of two and `Allocator::MinHashSize` is a power of
two (or `0`, meaning no minimum), `GetHashSize` yields powers of two; after every sequence of
map calls from the empty map that returns, the size of the hash table is `0` or a power of two;
and for every non-zero such size `s` and every 32-bit hash `h`, `GetElementIndex` selects bucket
`h & (s - 1)`, which equals `h mod s` and lies in `[0, s)`. -/
theorem C28_table_size_pow2 (env : Env K) (hT : ∀ n, ∃ k, env.GetHashTableSize n = 2 ^ k)
    (hMin : env.MinHashSize = 0 ∨ ∃ k, env.MinHashSize = 2 ^ k) :
    (∀ n, ∃ k, GetHashSize env n = 2 ^ k) ∧
    (∀ (dflt : V) (sortArray : SortFn K V) (fuel : Nat) (ops : List (MapOp K V))
        (m : TVoxelMap K V),
      runMapOps env dflt sortArray fuel ops empty = Res.ok m →
      m.HashTable.length = 0 ∨ ∃ k, m.HashTable.length = 2 ^ k) ∧
    (∀ (m : TVoxelMap K V) (k Hash : Nat), m.HashTable.length = 2 ^ k → Hash < 2 ^ 32 →
      GetElementIndex m Hash = Res.ok (Hash &&& (m.HashTable.length - 1)) ∧
      Hash &&& (m.HashTable.length - 1) = Hash % m.HashTable.length ∧
      Hash &&& (m.HashTable.length - 1) < m.HashTable.length) := by
  have hE := EnvOK_of_pow2 env hT hMin
  refine ⟨?_, ?_, ?_⟩
  · intro n
    rcases (IsPowerOfTwo_iff _).mp (hE.pow2 n) with h0 | h
    · have := hE.pos n
      omega
    · exact h
  · intro dflt sortArray fuel ops m hrun
    exact (IsPowerOfTwo_iff _).mp
      (runMapOps_table env dflt sortArray fuel ops empty m (by simp [empty, IsPowerOfTwo]) hrun)
  · intro m k Hash hs _
    have hpos : 0 < m.HashTable.length := by rw [hs]; exact Nat.two_pow_pos k
    have hp : IsPowerOfTwo m.HashTable.length = true :=
      (IsPowerOfTwo_iff _).mpr (Or.inr ⟨k, hs⟩)
    have hmod : Hash &&& (m.HashTable.length - 1) = Hash % m.HashTable.length := by
      rw [hs]
      exact Nat.and_pow_two_sub_one_eq_mod Hash k
    refine ⟨GetElementIndex_ok m Hash hp hpos, hmod, ?_⟩
    rw [hmod]
    exact Nat.mod_lt _ hpos

/-- Instance of C28: the sample sizing policy, with the sample sequence of map calls, which
returns. -/
theorem C28_witness :
    (∀ n, ∃ k, sampleEnv.GetHashTableSize n = 2 ^ k) ∧
    (sampleEnv.MinHashSize = 0 ∨ ∃ k, sampleEnv.MinHashSize = 2 ^ k) ∧
    (∃ m, runMapOps sampleEnv 0 sampleSort 10 sampleMapOps empty = Res.ok m) ∧
    (∀ n, ∃ k, GetHashSize sampleEnv n = 2 ^ k) ∧
    (∀ (dflt : Nat) (sortArray : SortFn Nat Nat) (fuel : Nat) (ops : List (MapOp Nat Nat))
        (m : TVoxelMap Nat Nat),
      runMapOps sampleEnv dflt sortArray fuel ops empty = Res.ok m →
      m.HashTable.length = 0 ∨ ∃ k, m.HashTable.length = 2 ^ k) ∧
    (∀ (m : TVoxelMap Nat Nat) (k Hash : Nat), m.HashTable.length = 2 ^ k → Hash < 2 ^ 32 →
      GetElementIndex m Hash = Res.ok (Hash &&& (m.HashTable.length - 1)) ∧
      Hash &&& (m.HashTable.length - 1) = Hash % m.HashTable.length ∧
      Hash &&& (m.HashTable.length - 1) < m.HashTable.length) :=
  ⟨sampleEnv_pow2, Or.inl rfl,
    ⟨{ HashTable := [-1, -1, -1, -1, 0, -1, 1, -1, -1, -1, -1, -1, -1, -1, -1, -1],
       Elements := [⟨4, 40, -1⟩, ⟨22, 7, -1⟩] }, by decide⟩,
    @C28_table_size_pow2 Nat Nat _ sampleEnv sampleEnv_pow2 (Or.inl rfl)⟩

/-- C29: with a non-decreasing `GetHashSize`, after `Reserve(n)` with `n > Num()` on a
well-formed map the table has at least `GetHashSize(n)` buckets, and inserting up to
`n - Num()` pairs with new, distinct keys succeeds with `Add_CheckNew_CheckNoRehash`, whose
no-rehash assertion therefore holds each time; `Add_CheckNew` gives the same maps, and after
each insertion the number of buckets is the one `Reserve` left. -/
theorem C29_reserve_then_insert (env : Env K) (m : TVoxelMap K V) (n fuel : Nat)
    (kvs : List (K × V)) (hE : EnvOK env) (hM : SizeMono env) (hwf : WF env m)
    (hn : Num m < n) (hcount : Num m + kvs.length ≤ n) (hfuel : n < fuel)
    (hnd : (kvs.map Prod.fst).Nodup) (hnew : ∀ k v, (k, v) ∈ kvs → ∀ v0, (k, v0) ∉ entries m) :
    ∃ m1, Reserve env m (n : Int) = Res.ok m1 ∧ entries m1 = entries m ∧
      GetHashSize env n ≤ m1.HashTable.length ∧
      ∀ i, i ≤ kvs.length →
        ∃ m2, addAllNoRehash env fuel (kvs.take i) m1 = Res.ok m2 ∧
          addAll env fuel (kvs.take i) m1 = Res.ok m2 ∧
          entries m2 = entries m ++ kvs.take i ∧
          m2.HashTable.length = m1.HashTable.length ∧
          GetHashSize env (Num m2) ≤ m2.HashTable.length ∧ WF env m2 := by
  obtain ⟨m1, hres, hent1, hwf1, _, hbig, _⟩ := Reserve_spec env m (n : Int) hE hwf
  have hsz : GetHashSize env n ≤ m1.HashTable.length := by
    have := hbig (by exact_mod_cast hn)
    simpa using this
  have hlen1 : m1.Elements.length = m.Elements.length := entries_length m m1 hent1
  refine ⟨m1, hres, hent1, hsz, ?_⟩
  intro i hi
  have htake : (kvs.take i).length = i := by
    rw [List.length_take]
    omega
  have hn2 : m.Elements.length + kvs.length ≤ n := hcount
  obtain ⟨m2, hno, hall, hent2, hT2, hwf2⟩ := addAll_noRehash_spec env fuel hE hM (kvs.take i)
    m1 hwf1 (by rw [htake, hlen1]; omega)
    ((List.take_sublist i kvs).map Prod.fst |>.nodup hnd)
    (by
      intro k v hmem v0 hin
      rw [hent1] at hin
      exact hnew k v (List.mem_of_mem_take hmem) v0 hin)
    (by
      rw [htake, hlen1]
      exact le_trans (hM _ _ (by omega)) hsz)
  have hnum2 : Num m2 = m.Elements.length + i := by
    have := congrArg List.length hent2
    simp only [entries, List.length_map, List.length_append, htake] at this
    rw [hlen1] at this
    exact this
  refine ⟨m2, hno, hall, by rw [hent2, hent1], hT2, ?_, hwf2⟩
  rw [hT2, hnum2]
  exact le_trans (hM _ _ (by omega)) hsz

/-- Instance of C29: `Reserve(5)` on the three-element sample map, then two insertions. -/
theorem C29_witness :
    EnvOK sampleEnv ∧ SizeMono sampleEnv ∧ WF sampleEnv sampleSmall ∧ Num sampleSmall < 5 ∧
    Num sampleSmall + [(7, 70), (18, 80)].length ≤ 5 ∧ 5 < 10 ∧
    (([(7, 70), (18, 80)] : List (Nat × Nat)).map Prod.fst).Nodup ∧
    (∀ k v, (k, v) ∈ ([(7, 70), (18, 80)] : List (Nat × Nat)) →
      ∀ v0, (k, v0) ∉ entries sampleSmall) ∧
    ∃ m1, Reserve sampleEnv sampleSmall ((5 : Nat) : Int) = Res.ok m1 ∧
      entries m1 = entries sampleSmall ∧
      GetHashSize sampleEnv 5 ≤ m1.HashTable.length ∧
      ∀ i, i ≤ ([(7, 70), (18, 80)] : List (Nat × Nat)).length →
        ∃ m2, addAllNoRehash sampleEnv 10 (([(7, 70), (18, 80)] : List (Nat × Nat)).take i) m1 =
            Res.ok m2 ∧
          addAll sampleEnv 10 (([(7, 70), (18, 80)] : List (Nat × Nat)).take i) m1 =
            Res.ok m2 ∧
          entries m2 = entries sampleSmall ++ ([(7, 70), (18, 80)] : List (Nat × Nat)).take i ∧
          m2.HashTable.length = m1.HashTable.length ∧
          GetHashSize sampleEnv (Num m2) ≤ m2.HashTable.length ∧ WF sampleEnv m2 :=
  ⟨sampleEnv_ok, sampleEnv_mono, sampleSmall_wf, by decide, by decide, by decide, by decide,
    sampleSmall_fresh,
    C29_reserve_then_insert sampleEnv sampleSmall 5 10 [(7, 70), (18, 80)] sampleEnv_ok
      sampleEnv_mono sampleSmall_wf (by decide) (by decide) (by decide) (by decide)
      sampleSmall_fresh⟩

/-- C30: for a well-formed map whose keys are totally ordered by `<`, `KeySort()` with the
default comparator succeeds and afterwards `AreKeySorted()` returns `true`. -/
theorem C30_keysort_then_sorted (env : Env K) (sortArray : SortFn K V) (TLess : K → K → Bool)
    (m : TVoxelMap K V) (hE : EnvOK env) (hS : SortContract sortArray) (hwf : WF env m)
    (hlt : StrictTotalOrder TLess) :
    ∃ m2, KeySortDefault env sortArray TLess m = Res.ok m2 ∧
      AreKeySortedDefault TLess m2 = Res.ok true ∧ (entries m2).Perm (entries m) := by
  obtain ⟨m2, hs, _, hperm, hsorted⟩ :=
    KeySort_then_AreKeySorted env sortArray TLess m hE hS hwf hlt
  exact ⟨m2, hs, hsorted, hperm⟩

/-- Instance of C30: the sample map with the order `<` of the natural numbers. -/
theorem C30_witness :
    EnvOK sampleEnv ∧ SortContract sampleSort ∧ WF sampleEnv sampleMap ∧
    StrictTotalOrder natLess ∧
    ∃ m2, KeySortDefault sampleEnv sampleSort natLess sampleMap = Res.ok m2 ∧
      AreKeySortedDefault natLess m2 = Res.ok true ∧ (entries m2).Perm (entries sampleMap) :=
  ⟨sampleEnv_ok, sampleSort_contract, sampleMap_wf, natLess_total,
    C30_keysort_then_sorted sampleEnv sampleSort natLess sampleMap sampleEnv_ok
      sampleSort_contract sampleMap_wf natLess_total⟩


/-- C31 (as stated, refuted): a well-formed map whose two elements hold the same value; after
`ValueSort()` the test `AreValueSorted()` returns `false`, because the default comparator is
the strict `<` and the two equal values are adjacent. -/
theorem C31_counterexample :
    WF sampleEnv sampleTwins ∧ SortContract sampleSort ∧ StrictTotalOrder natLess ∧
    ValueSortDefault sampleEnv sampleSort natLess sampleTwins = Res.ok sampleTwins ∧
    AreValueSortedDefault natLess sampleTwins = Res.ok false ∧
    AreValueSortedDefault natLess sampleTwins ≠ Res.ok true :=
  ⟨sampleTwins_wf, sampleSort_contract, natLess_total, by decide, by decide, by decide⟩

/-- C31 (amended): for a well-formed map whose values are totally ordered by `<`,
`ValueSort()` with the default comparator succeeds and keeps the entries up to order, and
afterwards `AreValueSorted()` returns `true` exactly when no two elements of the map hold the
same value. -/
theorem C31_valuesort_then_sorted (env : Env K) (sortArray : SortFn K V) (TLess : V → V → Bool)
    (m : TVoxelMap K V) (hE : EnvOK env) (hS : SortContract sortArray) (hwf : WF env m)
    (hlt : StrictTotalOrder TLess) :
    ∃ m2 b, ValueSortDefault env sortArray TLess m = Res.ok m2 ∧
      AreValueSortedDefault TLess m2 = Res.ok b ∧ (b = true ↔ (ValueArray m).Nodup) ∧
      (entries m2).Perm (entries m) := by
  obtain ⟨m2, b, hs, _, hperm, hsorted, hb⟩ :=
    ValueSort_then_AreValueSorted env sortArray TLess m hE hS hwf hlt
  exact ⟨m2, b, hs, hsorted, hb, hperm⟩

/-- Instance of C31: the sample map, whose values are pairwise distinct. -/
theorem C31_witness :
    EnvOK sampleEnv ∧ SortContract sampleSort ∧ WF sampleEnv sampleMap ∧
    StrictTotalOrder natLess ∧
    ∃ m2 b, ValueSortDefault sampleEnv sampleSort natLess sampleMap = Res.ok m2 ∧
      AreValueSortedDefault natLess m2 = Res.ok b ∧ (b = true ↔ (ValueArray sampleMap).Nodup) ∧
      (entries m2).Perm (entries sampleMap) :=
  ⟨sampleEnv_ok, sampleSort_contract, sampleMap_wf, natLess_total,
    C31_valuesort_then_sorted sampleEnv sampleSort natLess sampleMap sampleEnv_ok
      sampleSort_contract sampleMap_wf natLess_total⟩

/-- C35: `Shrink` on a well-formed map succeeds and leaves the keys and values of the element
array in their order, so `Find` returns the same pointer and the same value for every key;
afterwards the hash table has exactly `GetHashSize(Num())` buckets when the map is not empty,
and both arrays are empty when it is. -/
theorem C35_shrink (env : Env K) (m : TVoxelMap K V) (fuel : Nat) (hE : EnvOK env)
    (hwf : WF env m) (hfuel : Num m < fuel) :
    ∃ m2, Shrink env m = Res.ok m2 ∧ entries m2 = entries m ∧
      (∀ k, Find env fuel m2 k = Find env fuel m k) ∧
      (∀ k, FindValue env fuel m2 k = FindValue env fuel m k) ∧
      (0 < Num m → m2.HashTable.length = GetHashSize env (Num m)) ∧
      (Num m = 0 → m2.Elements = [] ∧ m2.HashTable = []) := by
  obtain ⟨m2, hs, hent, hwf2, hsize, hzero⟩ := Shrink_spec env m hE hwf
  have hlen : m2.Elements.length = m.Elements.length := entries_length m m2 hent
  have hfuel2 : m2.Elements.length < fuel := by rw [hlen]; exact hfuel
  refine ⟨m2, hs, hent, ?_, ?_, hsize, ?_⟩
  · intro k
    exact Find_congr_entries env m m2 fuel fuel k hwf hwf2 hfuel hfuel2 hent
  · intro k
    refine FindValue_congr env m2 m fuel fuel k hwf2 hwf hfuel2 hfuel ?_
    intro v
    rw [hent]
  · intro h0
    rw [hzero h0]
    exact ⟨rfl, rfl⟩

/-- Instance of C35: the three-element sample map, whose table has the one bucket that
`GetHashSize(3)` asks for. -/
theorem C35_witness :
    EnvOK sampleEnv ∧ WF sampleEnv sampleSmall ∧ Num sampleSmall < 10 ∧
    ∃ m2, Shrink sampleEnv sampleSmall = Res.ok m2 ∧ entries m2 = entries sampleSmall ∧
      (∀ k, Find sampleEnv 10 m2 k = Find sampleEnv 10 sampleSmall k) ∧
      (∀ k, FindValue sampleEnv 10 m2 k = FindValue sampleEnv 10 sampleSmall k) ∧
      (0 < Num sampleSmall → m2.HashTable.length = GetHashSize sampleEnv (Num sampleSmall)) ∧
      (Num sampleSmall = 0 → m2.Elements = [] ∧ m2.HashTable = []) :=
  ⟨sampleEnv_ok, sampleSmall_wf, by decide,
    C35_shrink sampleEnv sampleSmall 10 sampleEnv_ok sampleSmall_wf (by decide)⟩

/-- C36 (as stated, refuted): the default-constructed map has no bucket; after
`Reset_KeepHashSize` it has `GetHashSize(0) = 1` bucket, not as many as before. -/
theorem C36_counterexample :
    WF sampleEnv (empty : TVoxelMap Nat Nat) ∧
    (empty : TVoxelMap Nat Nat).HashTable.length = 0 ∧ GetHashSize sampleEnv 0 = 1 ∧
    Reset_KeepHashSize sampleEnv (empty : TVoxelMap Nat Nat) =
      Res.ok { HashTable := [-1], Elements := [] } ∧
    ¬ ∃ m2, Reset_KeepHashSize sampleEnv (empty : TVoxelMap Nat Nat) = Res.ok m2 ∧
      m2.HashTable.length = (empty : TVoxelMap Nat Nat).HashTable.length := by
  refine ⟨WF_empty sampleEnv, rfl, by decide, by decide, ?_⟩
  rintro ⟨m2, hm, hlen⟩
  have h1 : Reset_KeepHashSize sampleEnv (empty : TVoxelMap Nat Nat) =
      Res.ok { HashTable := [-1], Elements := [] } := by decide
  rw [h1] at hm
  cases hm
  cases hlen

/-- C36 (amended): for a map whose bucket count is zero or a power of two (every state the
methods of the map produce), `Reset_KeepHashSize` removes every element, so `Num()` is `0` and
`Find` is null for every key, and leaves a table whose buckets are all `-1`, as many as before
or as `GetHashSize(0)`, whichever is more: the bucket count is kept when the table had at
least `GetHashSize(0)` buckets. -/
theorem C36_reset_keeps_or_creates_table (env : Env K) (m : TVoxelMap K V) (fuel : Nat)
    (hE : EnvOK env) (hp : IsPowerOfTwo m.HashTable.length = true) (hfuel : 0 < fuel) :
    ∃ m2, Reset_KeepHashSize env m = Res.ok m2 ∧ Num m2 = 0 ∧
      (∀ k, Find env fuel m2 k = Res.ok none) ∧
      m2.HashTable = List.replicate (max m.HashTable.length (GetHashSize env 0)) (-1) ∧
      (GetHashSize env 0 ≤ m.HashTable.length →
        m2.HashTable.length = m.HashTable.length) := by
  obtain ⟨m2, hr, hent, hwf2, _⟩ := Reset_KeepHashSize_spec env m hE hp
  have heq := Reset_KeepHashSize_eq env m hE hp
  rw [hr] at heq
  cases heq
  refine ⟨_, hr, rfl, ?_, rfl, ?_⟩
  · intro k
    refine Find_absent env _ fuel k hwf2 hfuel ?_
    intro j e he
    simp at he
  · intro hge
    simp only [List.length_replicate]
    exact max_eq_left hge

/-- Instance of C36: the sample map keeps its sixteen buckets. -/
theorem C36_witness :
    EnvOK sampleEnv ∧ IsPowerOfTwo sampleMap.HashTable.length = true ∧
    ∃ m2, Reset_KeepHashSize sampleEnv sampleMap = Res.ok m2 ∧ Num m2 = 0 ∧
      (∀ k, Find sampleEnv 10 m2 k = Res.ok none) ∧
      m2.HashTable =
        List.replicate (max sampleMap.HashTable.length (GetHashSize sampleEnv 0)) (-1) ∧
      (GetHashSize sampleEnv 0 ≤ sampleMap.HashTable.length →
        m2.HashTable.length = sampleMap.HashTable.length) :=
  ⟨sampleEnv_ok, by decide,
    C36_reset_keeps_or_creates_table sampleEnv sampleMap 10 sampleEnv_ok (by decide)
      (by decide)⟩

/-- C34: on well-formed maps `OrderIndependentEqual` returns a result; a map compares equal to
itself; comparing `a` with `b` gives what comparing `b` with `a` gives; and the result is
`true` exactly when the two maps hold the same keys with the same value for each key. -/
theorem C34_order_independent_equal [DecidableEq V] (env : Env K) (fuel : Nat)
    (a b : TVoxelMap K V) (hwa : WF env a) (hwb : WF env b) (hfa : Num a < fuel)
    (hfb : Num b < fuel) :
    OrderIndependentEqual env fuel a a = Res.ok true ∧
    OrderIndependentEqual env fuel a b = OrderIndependentEqual env fuel b a ∧
    ∃ r, OrderIndependentEqual env fuel a b = Res.ok r ∧
      (r = true ↔ ∀ k v, (k, v) ∈ entries a ↔ (k, v) ∈ entries b) := by
  have hna := entries_nodup a hwa.keys
  have hnb := entries_nodup b hwb.keys
  obtain ⟨r1, hr1, hiff1⟩ := OrderIndependentEqual_spec env fuel a b hwa hfa
  obtain ⟨r2, hr2, hiff2⟩ := OrderIndependentEqual_spec env fuel b a hwb hfb
  rw [same_items_iff _ _ hna hnb] at hiff1
  rw [same_items_iff _ _ hnb hna] at hiff2
  refine ⟨OrderIndependentEqual_true env fuel a a hwa hfa rfl fun _ hp => hp, ?_, r1, hr1, ?_⟩
  · rw [hr1, hr2]
    congr 1
    rw [Bool.eq_iff_iff, hiff1, hiff2]
    exact ⟨fun h p => (h p).symm, fun h p => (h p).symm⟩
  · rw [hiff1]
    exact ⟨fun h k v => h (k, v), fun h p => h p.1 p.2⟩

/-- Instance of C34: the sample map and the three-element map, which lacks key `17`. -/
theorem C34_witness :
    WF sampleEnv sampleMap ∧ WF sampleEnv sampleSmall ∧ Num sampleMap < 10 ∧
    Num sampleSmall < 10 ∧
    OrderIndependentEqual sampleEnv 10 sampleMap sampleMap = Res.ok true ∧
    OrderIndependentEqual sampleEnv 10 sampleMap sampleSmall =
      OrderIndependentEqual sampleEnv 10 sampleSmall sampleMap ∧
    ∃ r, OrderIndependentEqual sampleEnv 10 sampleMap sampleSmall = Res.ok r ∧
      (r = true ↔ ∀ k v, (k, v) ∈ entries sampleMap ↔ (k, v) ∈ entries sampleSmall) :=
  ⟨sampleMap_wf, sampleSmall_wf, by decide, by decide,
    C34_order_independent_equal sampleEnv 10 sampleMap sampleSmall sampleMap_wf sampleSmall_wf
      (by decide) (by decide)⟩

/-- C32 (failing input): `Append` of the three-element sample map, whose keys share one
bucket, into the default-constructed map, which is also what the converting constructor
does. The copy has the table and the three entries of the source, but its elements were
constructed from key and value alone and their `NextElementIndex` is not that of the source:
the lookup of key `1`, which is not at the head of its chain, is fatal in the copy, where the
source yields `101`; only the head of the chain is found; and the copy is not well-formed. -/
theorem C32_append_into_empty_drops_links :
    WF sampleEnv sampleSmall ∧
    Append sampleEnv 10 (empty : TVoxelMap Nat Nat) sampleSmall = Res.ok sampleCopy ∧
    construct sampleEnv 10 sampleSmall = Res.ok sampleCopy ∧
    Num sampleCopy = Num sampleSmall ∧ entries sampleCopy = entries sampleSmall ∧
    FindValue sampleEnv 10 sampleSmall 1 = Res.ok (some 101) ∧
    FindValue sampleEnv 10 sampleCopy 1 = Res.fatal ∧
    FindValue sampleEnv 10 sampleCopy 2 = Res.ok (some 102) ∧
    ¬ WF sampleEnv sampleCopy := by
  refine ⟨sampleSmall_wf, by decide, by decide, by decide, by decide, by decide, by decide,
    by decide, ?_⟩
  intro hwf
  have h1 := FindValue_of_mem sampleEnv sampleCopy 10 1 101 hwf (by decide) (by decide)
  have h2 : FindValue sampleEnv 10 sampleCopy 1 = Res.fatal := by decide
  rw [h2] at h1
  cases h1

/-- C33: with a non-decreasing `GetHashSize`, `Append(Other)` on a well-formed map that is not
empty, for a well-formed `Other`, succeeds and leaves a well-formed map in which `Find` yields
the value of `Other` for every key of `Other` and what it yielded before for every other key;
the keys are those of either map, each once, so `Num()` is the number of elements of the map
plus the number of keys of `Other` new to it; the keys the map held keep their positions, and
the entries of `Other` with a new key follow them in the order of `Other`. -/
theorem C33_append_general (env : Env K) (fuel : Nat) (m Other : TVoxelMap K V)
    (hE : EnvOK env) (hM : SizeMono env) (hwf : WF env m) (hwo : WF env Other)
    (hne : Num m ≠ 0) (hfuel : Num m + Num Other < fuel) :
    ∃ m2, Append env fuel m Other = Res.ok m2 ∧ WF env m2 ∧
      (∀ k v, (k, v) ∈ entries Other → FindValue env fuel m2 k = Res.ok (some v)) ∧
      (∀ k, k ∉ KeyArray Other → FindValue env fuel m2 k = FindValue env fuel m k) ∧
      (KeyArray m2).Nodup ∧ (∀ k, k ∈ KeyArray m2 ↔ k ∈ KeyArray m ∨ k ∈ KeyArray Other) ∧
      Num m2 = Num m + ((KeyArray Other).filter fun k => decide (k ∉ KeyArray m)).length ∧
      (KeyArray m2).take (Num m) = KeyArray m ∧
      (entries m2).drop (Num m) =
        (entries Other).filter fun q => decide (q.1 ∉ KeyArray m) := by
  obtain ⟨m2, hrun, hwf2, hent⟩ := Append_general_spec env fuel m Other hE hM hwf hwo hne hfuel
  have hkeys : KeyArray m2 = KeyArray m ++
      ((entries Other).filter fun q => decide (q.1 ∉ KeyArray m)).map Prod.fst := by
    rw [KeyArray_eq_entries m2, hent, appended_keys, ← KeyArray_eq_entries m]
  have hfm : ((entries Other).filter fun q => decide (q.1 ∉ KeyArray m)).map Prod.fst =
      (KeyArray Other).filter fun k => decide (k ∉ KeyArray m) := by
    rw [KeyArray_eq_entries Other, List.filter_map]
    rfl
  have hlenK : (KeyArray m).length = Num m := by simp [KeyArray, Num]
  have hnum : Num m2 = Num m + ((KeyArray Other).filter fun k => decide (k ∉ KeyArray m)).length
      := by
    have := congrArg List.length hkeys
    rw [List.length_append, hfm, hlenK] at this
    rw [← this]
    simp [KeyArray, Num]
  have hle : ((KeyArray Other).filter fun k => decide (k ∉ KeyArray m)).length ≤ Num Other := by
    have h1 := List.length_filter_le (fun k => decide (k ∉ KeyArray m)) (KeyArray Other)
    have h2 : (KeyArray Other).length = Num Other := by simp [KeyArray, Num]
    omega
  have hfuel2 : m2.Elements.length < fuel := by
    have : m2.Elements.length = Num m2 := rfl
    omega
  have hfuel1 : m.Elements.length < fuel := by
    have : m.Elements.length = Num m := rfl
    omega
  have hndO := keys_nodup Other hwo.keys
  refine ⟨m2, hrun, hwf2, ?_, ?_, ?_, ?_, hnum, ?_, ?_⟩
  · intro k v hkv
    refine FindValue_of_mem env m2 fuel k v hwf2 hfuel2 ?_
    rw [hent]
    exact mem_appended_of_other _ _ hndO k v hkv
  · intro k hk
    refine FindValue_congr env m2 m fuel fuel k hwf2 hwf hfuel2 hfuel1 ?_
    intro v
    rw [hent]
    exact mem_appended_of_not_other _ _ k v (by rw [← KeyArray_eq_entries]; exact hk)
  · rw [KeyArray_eq_entries]
    exact keys_nodup m2 hwf2.keys
  · intro k
    rw [hkeys, hfm, List.mem_append, List.mem_filter]
    constructor
    · rintro (h | h)
      · exact Or.inl h
      · exact Or.inr h.1
    · rintro (h | h)
      · exact Or.inl h
      · by_cases hk : k ∈ KeyArray m
        · exact Or.inl hk
        · exact Or.inr ⟨h, by simpa using hk⟩
  · rw [hkeys, ← hlenK, List.take_left']
    rfl
  · rw [hent]
    unfold appended
    have hl : ((entries m).map (overwritten (entries Other))).length = Num m := by
      simp [entries, Num]
    rw [← hl, List.drop_left', ← KeyArray_eq_entries]
    rfl

/-- Instance of C33: the sample map appended to the two-element map, whose values for keys `0`
and `1` are overwritten and which gains keys `2` and `17`. -/
theorem C33_witness :
    EnvOK sampleEnv ∧ SizeMono sampleEnv ∧ WF sampleEnv sampleTwins ∧
    WF sampleEnv sampleMap ∧ Num sampleTwins ≠ 0 ∧ Num sampleTwins + Num sampleMap < 10 ∧
    ∃ m2, Append sampleEnv 10 sampleTwins sampleMap = Res.ok m2 ∧ WF sampleEnv m2 ∧
      (∀ k v, (k, v) ∈ entries sampleMap → FindValue sampleEnv 10 m2 k = Res.ok (some v)) ∧
      (∀ k, k ∉ KeyArray sampleMap →
        FindValue sampleEnv 10 m2 k = FindValue sampleEnv 10 sampleTwins k) ∧
      (KeyArray m2).Nodup ∧
      (∀ k, k ∈ KeyArray m2 ↔ k ∈ KeyArray sampleTwins ∨ k ∈ KeyArray sampleMap) ∧
      Num m2 = Num sampleTwins +
        ((KeyArray sampleMap).filter fun k => decide (k ∉ KeyArray sampleTwins)).length ∧
      (KeyArray m2).take (Num sampleTwins) = KeyArray sampleTwins ∧
      (entries m2).drop (Num sampleTwins) =
        (entries sampleMap).filter fun q => decide (q.1 ∉ KeyArray sampleTwins) :=
  ⟨sampleEnv_ok, sampleEnv_mono, sampleTwins_wf, sampleMap_wf, by decide, by decide,
    C33_append_general sampleEnv 10 sampleTwins sampleMap sampleEnv_ok sampleEnv_mono
      sampleTwins_wf sampleMap_wf (by decide) (by decide)⟩

end Claims

end VoxelMap

namespace VoxelFuture

open VoxelMap (Res)

/-! ### Steps of the engine -/

theorem exec_nil (fuel : Nat) (h : Heap) : exec fuel h [] = Res.ok h := by
  cases fuel <;> rfl

theorem exec_cons (fuel : Nat) (h : Heap) (x : Work) (rest : List Work) :
    exec (fuel + 1) h (x :: rest) = (step h x).bind fun r => exec fuel r.1 (r.2 ++ rest) := by
  cases x with
  | set p =>
    simp only [exec, step]
    cases h.Promises[p]? with
    | none => rfl
    | some s =>
      by_cases hc : s.bIsComplete = true
      · simp [hc]
      · simp [hc]
  | dispatch c =>
    obtain ⟨T, L⟩ := c
    cases T with
    | Other i => simp [exec, step]
    | AnyThread =>
      cases L with
      | user tag => simp [exec, step]
      | decrementThenSet C P =>
        simp only [exec, step]
        cases Decrement_ReturnNew h C with
        | ok r =>
          by_cases hz : (r.1 == 0) = true
          · simp [hz]
          · simp [hz]
        | fatal => rfl
        | timeout => rfl

theorem count_set_cons_dispatch (c : FContinuation) (w : List Work) (q : Nat) :
    (Work.dispatch c :: w).count (Work.set q) = w.count (Work.set q) := by
  simp [List.count_cons]

theorem count_dispatch_cons_set (p : Nat) (w : List Work) (c : FContinuation) :
    (Work.set p :: w).count (Work.dispatch c) = w.count (Work.dispatch c) := by
  simp [List.count_cons]

theorem count_set_cons_set (p : Nat) (w : List Work) (q : Nat) :
    (Work.set p :: w).count (Work.set q) = w.count (Work.set q) + if p = q then 1 else 0 := by
  simp [List.count_cons]

theorem count_dispatch_cons_dispatch (c d : FContinuation) (w : List Work) :
    (Work.dispatch c :: w).count (Work.dispatch d) =
      w.count (Work.dispatch d) + if c = d then 1 else 0 := by
  simp [List.count_cons]

theorem count_dispatch_map (l : List FContinuation) (c : FContinuation) :
    (l.map Work.dispatch).count (Work.dispatch c) = l.count c := by
  induction l with
  | nil => rfl
  | cons x l ih =>
    rw [List.map_cons, count_dispatch_cons_dispatch, ih, List.count_cons]
    simp

theorem count_set_map (l : List FContinuation) (q : Nat) :
    (l.map Work.dispatch).count (Work.set q) = 0 := by
  induction l with
  | nil => rfl
  | cons x l ih => rw [List.map_cons, count_set_cons_dispatch, ih]

theorem countP_and_ne (p : Nat → Bool) (q : Nat) (hq : p q = true) :
    ∀ (l : List Nat), l.countP (fun x => p x && !(x == q)) + l.count q = l.countP p := by
  intro l
  induction l with
  | nil => rfl
  | cons x l ih =>
    by_cases hx : x = q
    · subst hx
      simp only [List.countP_cons, List.count_cons, hq, beq_self_eq_true, Bool.not_true,
        Bool.and_false, Bool.false_eq_true, if_false, if_true]
      omega
    · have hx2 : (x == q) = false := by simpa using hx
      simp only [List.countP_cons, List.count_cons, hx2, Bool.not_false, Bool.and_true,
        Bool.false_eq_true, if_false]
      omega

theorem sum_map_set {α : Type} (f : α → Nat) :
    ∀ (l : List α) (i : Nat) (x y : α), l[i]? = some x →
      ((l.set i y).map f).sum + f x = (l.map f).sum + f y := by
  intro l
  induction l with
  | nil => intro i x y h; simp at h
  | cons a l ih =>
    intro i x y h
    cases i with
    | zero =>
      simp only [List.getElem?_cons_zero, Option.some.injEq] at h
      subst h
      simp only [List.set_cons_zero, List.map_cons, List.sum_cons]
      omega
    | succ i =>
      rw [List.getElem?_cons_succ] at h
      have := ih i x y h
      simp only [List.set_cons_succ, List.map_cons, List.sum_cons]
      omega

/-! ### What a step changes -/

theorem step_set (h : Heap) (p : Nat) (s : FVoxelPromiseState) (hs : h.Promises[p]? = some s)
    (hc : s.bIsComplete = false) :
    step h (.set p) = Res.ok (markComplete h p, s.Continuations.map Work.dispatch) := by
  simp [step, hs, hc, markComplete]

theorem incomplete_iff (h : Heap) (q : Nat) :
    incomplete h q = true ↔ ∃ s, h.Promises[q]? = some s ∧ s.bIsComplete = false := by
  unfold incomplete
  cases h.Promises[q]? with
  | none => simp
  | some s => simp

theorem incomplete_lt (h : Heap) (q : Nat) (hq : incomplete h q = true) :
    q < h.Promises.length := by
  obtain ⟨s, hs, _⟩ := (incomplete_iff h q).mp hq
  exact (List.getElem?_eq_some_iff.mp hs).1

theorem queueOf_eq (h : Heap) (q : Nat) (s : FVoxelPromiseState) (hs : h.Promises[q]? = some s) :
    queueOf h q = s.Continuations := by
  simp [queueOf, hs]

theorem incomplete_markComplete (h : Heap) (p q : Nat) :
    incomplete (markComplete h p) q = (incomplete h q && !(q == p)) := by
  unfold incomplete markComplete
  simp only [List.getElem?_set]
  by_cases hqp : p = q
  · subst hqp
    by_cases hlt : p < h.Promises.length
    · simp [hlt]
    · have : h.Promises[p]? = none := List.getElem?_eq_none (by omega)
      simp [hlt, this]
  · have : (q == p) = false := by simpa using fun h => hqp h.symm
    simp [hqp, this]

theorem queueOf_markComplete (h : Heap) (p q : Nat) :
    queueOf (markComplete h p) q = if q = p then [] else queueOf h q := by
  unfold queueOf markComplete
  simp only [List.getElem?_set]
  by_cases hqp : p = q
  · subst hqp
    by_cases hlt : p < h.Promises.length
    · simp [hlt]
    · simp [hlt]
  · have : ¬ q = p := fun h => hqp h.symm
    simp [hqp, this]

theorem pendingOf_markComplete (h : Heap) (p : Nat) (a : Agg) (hp : incomplete h p = true) :
    pendingOf (markComplete h p) a + a.inputs.count p = pendingOf h a := by
  unfold pendingOf
  have : incomplete (markComplete h p) = fun x => incomplete h x && !(x == p) := by
    funext x
    exact incomplete_markComplete h p x
  rw [this]
  exact countP_and_ne (incomplete h) p hp a.inputs

theorem load_markComplete (h : Heap) (p : Nat) (s : FVoxelPromiseState)
    (hs : h.Promises[p]? = some s) (hc : s.bIsComplete = false) :
    load (markComplete h p) + (1 + 2 * s.Continuations.length) = load h := by
  unfold load markComplete
  have := sum_map_set cell h.Promises p s { bIsComplete := true, Continuations := [] } hs
  simp only [cell, hc, Bool.false_eq_true, if_false, if_true] at this
  simp only
  omega

theorem decsOf_append (C : Nat) (l : List Event) (e : Event) :
    decsOf C (l ++ [e]) = decsOf C l ++ (match decOf C e with | some v => [v] | none => []) := by
  unfold decsOf
  rw [List.filterMap_append]
  congr 1
  simp only [List.filterMap_cons, List.filterMap_nil]
  cases decOf C e <;> rfl

theorem decsOf_append_other (C : Nat) (l : List Event) (e : Event) (h : decOf C e = none) :
    decsOf C (l ++ [e]) = decsOf C l := by
  rw [decsOf_append, h]
  simp

theorem count_append_singleton {α : Type} [DecidableEq α] (l : List α) (e x : α) :
    (l ++ [e]).count x = l.count x + if e = x then 1 else 0 := by
  rw [List.count_append, List.count_cons]
  simp

/-- The number of decrements still expected is the same before and after a `Set()` step. -/
theorem remaining_set (h : Heap) (p : Nat) (s : FVoxelPromiseState) (rest : List Work) (a : Agg)
    (hs : h.Promises[p]? = some s) (hinc : incomplete h p = true)
    (hq : (queueOf h p).count a.closure = a.inputs.count p) :
    remaining (markComplete h p) (s.Continuations.map Work.dispatch ++ rest) a =
      remaining h (.set p :: rest) a := by
  unfold remaining
  rw [List.count_append, count_dispatch_map, count_dispatch_cons_set,
    ← pendingOf_markComplete h p a hinc, ← hq, queueOf_eq h p s hs]
  omega

theorem AggInv_set (h : Heap) (p : Nat) (s : FVoxelPromiseState) (rest : List Work) (a : Agg)
    (hs : h.Promises[p]? = some s) (hinc : incomplete h p = true)
    (hA : AggInv h (.set p :: rest) a) :
    AggInv (markComplete h p) (s.Continuations.map Work.dispatch ++ rest) a := by
  have hrem := remaining_set h p s rest a hs hinc (hA.queue p hinc)
  have hcnt : ∀ q, (s.Continuations.map Work.dispatch ++ rest).count (Work.set q) =
      rest.count (Work.set q) := by
    intro q
    rw [List.count_append, count_set_map]
    omega
  have hold : ∀ q, (Work.set p :: rest).count (Work.set q) =
      rest.count (Work.set q) + if p = q then 1 else 0 := count_set_cons_set p rest
  refine ⟨?_, ?_, ?_, ?_, ?_, ?_, ?_, ?_, ?_⟩
  · intro q hq
    simpa [markComplete] using hA.inputsValid q hq
  · intro q hq
    rw [incomplete_markComplete] at hq
    simp only [Bool.and_eq_true, Bool.not_eq_true', beq_eq_false_iff_ne, ne_eq] at hq
    rw [queueOf_markComplete, if_neg hq.2]
    exact hA.queue q hq.1
  · rw [hrem]
    exact hA.counter
  · simpa [markComplete] using hA.targetValid
  · intro hpos
    rw [hrem] at hpos
    obtain ⟨h1, h2⟩ := hA.phasePos hpos
    rw [hold] at h2
    have hne : ¬ p = a.P := by
      intro heq
      rw [if_pos heq] at h2
      omega
    rw [if_neg hne] at h2
    refine ⟨?_, by rw [hcnt]; omega⟩
    rw [incomplete_markComplete, h1]
    simpa using fun h => hne h.symm
  · intro hz
    rw [hrem] at hz
    rw [hcnt, incomplete_markComplete]
    by_cases heq : p = a.P
    · right
      subst heq
      rcases hA.phaseZero hz with ⟨_, h2⟩ | ⟨h1, _⟩
      · rw [hold, if_pos rfl] at h2
        exact ⟨by simp, by omega⟩
      · rw [h1] at hinc
        cases hinc
    · have hne : (a.P == p) = false := by simpa using fun h => heq h.symm
      rw [hne]
      simp only [Bool.not_false, Bool.and_true]
      rcases hA.phaseZero hz with ⟨h1, h2⟩ | ⟨h1, h2⟩
      · rw [hold, if_neg heq] at h2
        exact Or.inl ⟨h1, by omega⟩
      · rw [hold, if_neg heq] at h2
        exact Or.inr ⟨h1, by omega⟩
  · rw [hrem]
    exact hA.le
  · rw [hrem]
    have : (markComplete h p).Log = h.Log ++ [.set p] := rfl
    rw [this, decsOf_append_other a.C h.Log (.set p) rfl]
    exact hA.decs
  · have : (markComplete h p).Log = h.Log ++ [.set p] := rfl
    rw [this, count_append_singleton, hA.sets, incomplete_markComplete]
    by_cases heq : p = a.P
    · subst heq
      simp [hinc]
    · have hne : (a.P == p) = false := by simpa using fun h => heq h.symm
      have hne2 : ¬ Event.set p = Event.set a.P := by
        intro h
        cases h
        exact heq rfl
      rw [hne, if_neg hne2]
      simp

theorem Consistent_set (h : Heap) (p : Nat) (s : FVoxelPromiseState) (rest : List Work)
    (aggs : List Agg) (hs : h.Promises[p]? = some s)
    (hJ : Consistent h (.set p :: rest) aggs) :
    Consistent (markComplete h p) (s.Continuations.map Work.dispatch ++ rest) aggs := by
  have hinc : incomplete h p = true := hJ.setsOk p (List.mem_cons_self _ _)
  have hrest0 : rest.count (Work.set p) = 0 := by
    have := hJ.setsOnce p
    rw [count_set_cons_set, if_pos rfl] at this
    omega
  have hcnt : ∀ q, (s.Continuations.map Work.dispatch ++ rest).count (Work.set q) =
      rest.count (Work.set q) := by
    intro q
    rw [List.count_append, count_set_map]
    omega
  refine ⟨?_, ?_, ?_, ?_, ?_, hJ.distinctC, hJ.distinctP, ?_, ?_⟩
  · intro q hq
    rw [queueOf_markComplete]
    by_cases hqp : q = p
    · rw [if_pos hqp]
    · rw [if_neg hqp]
      apply hJ.clean
      rw [incomplete_markComplete] at hq
      have : (q == p) = false := by simpa using hqp
      simpa [this] using hq
  · intro q c hc
    rw [queueOf_markComplete] at hc
    by_cases hqp : q = p
    · rw [if_pos hqp] at hc
      cases hc
    · rw [if_neg hqp] at hc
      exact hJ.conts q c hc
  · intro c hc
    rcases List.mem_append.mp hc with hc | hc
    · obtain ⟨c2, hc2, heq⟩ := List.mem_map.mp hc
      cases heq
      exact hJ.conts p c (by rw [queueOf_eq h p s hs]; exact hc2)
    · exact hJ.stack c (List.mem_cons_of_mem _ hc)
  · intro q hq
    have hq2 : Work.set q ∈ rest := by
      rcases List.mem_append.mp hq with hq | hq
      · obtain ⟨c2, _, heq⟩ := List.mem_map.mp hq
        cases heq
      · exact hq
    have hne : q ≠ p := by
      intro heq
      subst heq
      have := List.count_pos_iff.mpr hq2
      omega
    rw [incomplete_markComplete, hJ.setsOk q (List.mem_cons_of_mem _ hq2)]
    simpa using hne
  · intro q
    rw [hcnt]
    have := hJ.setsOnce q
    rw [count_set_cons_set] at this
    omega
  · intro e he
    have hlen : (markComplete h p).Promises.length = h.Promises.length := by
      simp [markComplete]
    have hlog : (markComplete h p).Log = h.Log ++ [.set p] := rfl
    rw [hlog] at he
    rw [hlen]
    rcases List.mem_append.mp he with he | he
    · exact hJ.logOk e he
    · simp only [List.mem_singleton] at he
      subst he
      refine ⟨?_, ?_⟩
      · intro c v hcv
        cases hcv
      · intro p2 hp2
        cases hp2
        exact incomplete_lt h p hinc
  · intro a ha
    exact AggInv_set h p s rest a hs hinc (hJ.agg a ha)

/-- An aggregate is not affected by changes that leave alone what it observes: the flags of
the promise states, the number of its closures in each queue and on the stack, its counter,
its decrements and the `Set()` calls on its promise state. -/
theorem AggInv_congr (h h2 : Heap) (w w2 : List Work) (a : Agg)
    (hlen : h.Promises.length ≤ h2.Promises.length)
    (hinc : ∀ q, q < h.Promises.length → incomplete h2 q = incomplete h q)
    (hqueue : ∀ q, q < h.Promises.length →
      (queueOf h2 q).count a.closure = (queueOf h q).count a.closure)
    (hnew : ∀ q, h.Promises.length ≤ q → (queueOf h2 q).count a.closure = 0)
    (hctr : h2.Counters[a.C]? = h.Counters[a.C]?)
    (hdecs : decsOf a.C h2.Log = decsOf a.C h.Log)
    (hsets : h2.Log.count (.set a.P) = h.Log.count (.set a.P))
    (hw1 : w2.count (.dispatch a.closure) = w.count (.dispatch a.closure))
    (hw2 : w2.count (.set a.P) = w.count (.set a.P))
    (hA : AggInv h w a) : AggInv h2 w2 a := by
  have hpend : pendingOf h2 a = pendingOf h a := by
    unfold pendingOf
    apply List.countP_congr
    intro q hq
    rw [hinc q (hA.inputsValid q hq)]
  have hrem : remaining h2 w2 a = remaining h w a := by
    unfold remaining
    rw [hpend, hw1]
  have hP := hinc a.P hA.targetValid
  refine ⟨?_, ?_, ?_, ?_, ?_, ?_, ?_, ?_, ?_⟩
  · intro q hq
    exact lt_of_lt_of_le (hA.inputsValid q hq) hlen
  · intro q hq
    by_cases hlt : q < h.Promises.length
    · rw [hqueue q hlt]
      rw [hinc q hlt] at hq
      exact hA.queue q hq
    · rw [hnew q (by omega)]
      symm
      apply List.count_eq_zero_of_not_mem
      intro hmem
      exact hlt (hA.inputsValid q hmem)
  · rw [hrem, hctr]
    exact hA.counter
  · exact lt_of_lt_of_le hA.targetValid hlen
  · intro hpos
    rw [hrem] at hpos
    rw [hP, hw2]
    exact hA.phasePos hpos
  · intro hz
    rw [hrem] at hz
    rw [hP, hw2]
    exact hA.phaseZero hz
  · rw [hrem]
    exact hA.le
  · rw [hrem, hdecs]
    exact hA.decs
  · rw [hsets, hP]
    exact hA.sets

theorem fire_cases (c : FContinuation) :
    (∃ tag, fire c = .ran tag) ∨ fire c = .dispatched c := by
  obtain ⟨T, L⟩ := c
  cases T <;> cases L <;> simp [fire]

theorem decOf_fire (C : Nat) (c : FContinuation) : decOf C (fire c) = none := by
  rcases fire_cases c with ⟨t, h⟩ | h <;> rw [h] <;> rfl

theorem fire_ne_set (c : FContinuation) (p : Nat) : ¬ fire c = Event.set p := by
  rcases fire_cases c with ⟨t, h⟩ | h <;> rw [h] <;> intro h2 <;> cases h2

theorem step_user (h : Heap) (c : FContinuation) (tag : Nat)
    (hc : c.Continuation = .user tag) :
    step h (.dispatch c) = Res.ok (withEvent h (fire c), []) := by
  obtain ⟨T, L⟩ := c
  simp only at hc
  subst hc
  cases T <;> simp [step, fire, withEvent]

theorem closure_ne_user (a : Agg) (c : FContinuation) (tag : Nat)
    (hc : c.Continuation = .user tag) : ¬ c = a.closure := by
  intro h
  rw [h] at hc
  simp [Agg.closure, closureOf] at hc

theorem queueOf_ge (h : Heap) (q : Nat) (hq : h.Promises.length ≤ q) : queueOf h q = [] := by
  simp [queueOf, List.getElem?_eq_none hq]

theorem Consistent_user (h : Heap) (c : FContinuation) (tag : Nat) (rest : List Work)
    (aggs : List Agg) (hc : c.Continuation = .user tag)
    (hJ : Consistent h (.dispatch c :: rest) aggs) :
    Consistent (withEvent h (fire c)) rest aggs := by
  refine ⟨hJ.clean, hJ.conts, fun d hd => hJ.stack d (List.mem_cons_of_mem _ hd),
    fun q hq => hJ.setsOk q (List.mem_cons_of_mem _ hq), ?_, hJ.distinctC, hJ.distinctP, ?_, ?_⟩
  · intro q
    have := hJ.setsOnce q
    rw [count_set_cons_dispatch] at this
    exact this
  · intro e he
    have hlog : (withEvent h (fire c)).Log = h.Log ++ [fire c] := rfl
    rw [hlog] at he
    rcases List.mem_append.mp he with he | he
    · exact hJ.logOk e he
    · simp only [List.mem_singleton] at he
      subst he
      refine ⟨?_, ?_⟩
      · intro c2 v hcv
        rcases fire_cases c with ⟨t, h2⟩ | h2 <;> rw [h2] at hcv <;> cases hcv
      · intro p2 hp2
        exact absurd hp2 (fire_ne_set c p2)
  · intro a ha
    refine AggInv_congr h _ (.dispatch c :: rest) rest a (le_refl _) (fun _ _ => rfl)
      (fun _ _ => rfl)
      (fun q hq => by
        show (queueOf h q).count a.closure = 0
        rw [queueOf_ge _ q hq]; rfl)
      rfl ?_ ?_ ?_ ?_ (hJ.agg a ha)
    · exact decsOf_append_other a.C h.Log (fire c) (decOf_fire a.C c)
    · have hlog : (withEvent h (fire c)).Log = h.Log ++ [fire c] := rfl
      rw [hlog, count_append_singleton, if_neg (fire_ne_set c a.P)]
      rfl
    · rw [count_dispatch_cons_dispatch, if_neg (closure_ne_user a c tag hc)]
      rfl
    · rw [count_set_cons_dispatch]

theorem countdown_succ (N r : Nat) (h1 : 1 ≤ r) (h2 : r ≤ N) :
    countdown N (r - 1) = countdown N r ++ [((r - 1 : Nat) : Int)] := by
  unfold countdown
  have : N - (r - 1) = (N - r) + 1 := by omega
  rw [this, List.range_succ, List.map_append]
  congr 1
  simp only [List.map_cons, List.map_nil, List.cons.injEq, and_true]
  congr 1
  omega

theorem Decrement_ReturnNew_eq (h : Heap) (C : Nat) (Old : Int) (hC : h.Counters[C]? = some Old) :
    Decrement_ReturnNew h C = Res.ok (Old - 1, decrementTo h C (Old - 1)) := by
  simp [Decrement_ReturnNew, hC, decrementTo]

theorem step_closure (h : Heap) (a : Agg) (Old : Int) (hC : h.Counters[a.C]? = some Old) :
    step h (.dispatch a.closure) =
      Res.ok (decrementTo h a.C (Old - 1), if Old - 1 == 0 then [.set a.P] else []) := by
  simp [step, Agg.closure, closureOf, Decrement_ReturnNew_eq h a.C Old hC]

/-- The aggregate whose closure runs: the counter and the number of decrements still expected
go down by one together, and the decrement that returns zero is the one that leaves a `Set()`
on the promise state of the aggregate to be called. -/
theorem AggInv_closure (h : Heap) (rest : List Work) (a : Agg)
    (hA : AggInv h (.dispatch a.closure :: rest) a) :
    AggInv (decrementTo h a.C ((remaining h (.dispatch a.closure :: rest) a : Nat) - 1))
      ((if ((remaining h (.dispatch a.closure :: rest) a : Nat) : Int) - 1 == 0
          then [.set a.P] else []) ++ rest) a := by
  have hr1 : remaining h (.dispatch a.closure :: rest) a =
      pendingOf h a + rest.count (.dispatch a.closure) + 1 := by
    unfold remaining
    rw [count_dispatch_cons_dispatch, if_pos rfl]
    omega
  have hpos : 0 < remaining h (.dispatch a.closure :: rest) a := by omega
  obtain ⟨hPinc, hPcnt⟩ := hA.phasePos hpos
  rw [count_set_cons_dispatch] at hPcnt
  have hle := hA.le
  have hdecs := hA.decs
  have hctr := hA.counter
  generalize hr : remaining h (.dispatch a.closure :: rest) a = r at hle hdecs hctr hr1 hpos ⊢
  have hpend : pendingOf (decrementTo h a.C ((r : Int) - 1)) a = pendingOf h a := rfl
  have hpush : ∀ (l : List Work), l = [] ∨ l = [Work.set a.P] →
      (l ++ rest).count (.dispatch a.closure) = rest.count (.dispatch a.closure) := by
    intro l hl
    rcases hl with hl | hl <;> subst hl <;> simp [List.count_cons]
  have hrem : ∀ (l : List Work), l = [] ∨ l = [Work.set a.P] →
      remaining (decrementTo h a.C ((r : Int) - 1)) (l ++ rest) a = r - 1 := by
    intro l hl
    unfold remaining
    rw [hpend, hpush l hl]
    omega
  have hCl : a.C < h.Counters.length := (List.getElem?_eq_some_iff.mp hctr).1
  by_cases hone : r = 1
  · have hz : (((r : Int) - 1 == 0) = true) := by simp [hone]
    rw [hz, if_pos rfl]
    have hrem1 := hrem [Work.set a.P] (Or.inr rfl)
    refine ⟨hA.inputsValid, hA.queue, ?_, hA.targetValid, ?_, ?_, ?_, ?_, ?_⟩
    · rw [hrem1]
      simp only [decrementTo, List.getElem?_set_self hCl]
      congr 1
      omega
    · intro hp
      rw [hrem1] at hp
      omega
    · intro _
      left
      refine ⟨hPinc, ?_⟩
      simp only [List.cons_append, List.nil_append, count_set_cons_set, if_true]
      omega
    · rw [hrem1]
      omega
    · rw [hrem1]
      have hlog : (decrementTo h a.C ((r : Int) - 1)).Log =
          h.Log ++ [.decremented a.C ((r : Int) - 1)] := rfl
      rw [hlog, decsOf_append, hdecs, countdown_succ a.N r (by omega) hle]
      simp only [decOf, if_true]
      congr 2
      omega
    · have hlog : (decrementTo h a.C ((r : Int) - 1)).Log =
          h.Log ++ [.decremented a.C ((r : Int) - 1)] := rfl
      rw [hlog, count_append_singleton, if_neg (by intro h2; cases h2)]
      exact hA.sets
  · have hz : ¬ (((r : Int) - 1 == 0) = true) := by
      simp only [beq_iff_eq]
      omega
    rw [if_neg hz]
    have hrem1 := hrem [] (Or.inl rfl)
    refine ⟨hA.inputsValid, hA.queue, ?_, hA.targetValid, ?_, ?_, ?_, ?_, ?_⟩
    · rw [hrem1]
      simp only [decrementTo, List.getElem?_set_self hCl]
      congr 1
      omega
    · intro _
      exact ⟨hPinc, by simpa using hPcnt⟩
    · intro hp
      rw [hrem1] at hp
      omega
    · rw [hrem1]
      omega
    · rw [hrem1]
      have hlog : (decrementTo h a.C ((r : Int) - 1)).Log =
          h.Log ++ [.decremented a.C ((r : Int) - 1)] := rfl
      rw [hlog, decsOf_append, hdecs, countdown_succ a.N r (by omega) hle]
      simp only [decOf, if_true]
      congr 2
      omega
    · have hlog : (decrementTo h a.C ((r : Int) - 1)).Log =
          h.Log ++ [.decremented a.C ((r : Int) - 1)] := rfl
      rw [hlog, count_append_singleton, if_neg (by intro h2; cases h2)]
      exact hA.sets

theorem closure_inj (a b : Agg) (h : a.closure = b.closure) : a.C = b.C ∧ a.P = b.P := by
  simp only [Agg.closure, closureOf, FContinuation.mk.injEq, Lambda.decrementThenSet.injEq,
    true_and] at h
  exact h

theorem Consistent_closure (h : Heap) (rest : List Work) (aggs : List Agg) (a0 : Agg)
    (ha0 : a0 ∈ aggs) (hJ : Consistent h (.dispatch a0.closure :: rest) aggs) :
    Consistent (decrementTo h a0.C ((remaining h (.dispatch a0.closure :: rest) a0 : Nat) - 1))
      ((if ((remaining h (.dispatch a0.closure :: rest) a0 : Nat) : Int) - 1 == 0
          then [.set a0.P] else []) ++ rest) aggs := by
  have hA0 := hJ.agg a0 ha0
  have hr1 : 0 < remaining h (.dispatch a0.closure :: rest) a0 := by
    unfold remaining
    rw [count_dispatch_cons_dispatch, if_pos rfl]
    omega
  obtain ⟨hPinc, hPcnt⟩ := hA0.phasePos hr1
  rw [count_set_cons_dispatch] at hPcnt
  have hAnew := AggInv_closure h rest a0 hA0
  have hCl : a0.C < h.Counters.length := (List.getElem?_eq_some_iff.mp hA0.counter).1
  generalize (remaining h (.dispatch a0.closure :: rest) a0 : Nat) = r at hAnew ⊢
  generalize hpush : (if (r : Int) - 1 == 0 then [Work.set a0.P] else []) = pushed at hAnew ⊢
  have hpushed : pushed = [] ∨ pushed = [Work.set a0.P] := by
    rw [← hpush]
    split
    · exact Or.inr rfl
    · exact Or.inl rfl
  have hdisp : ∀ d, (pushed ++ rest).count (Work.dispatch d) = rest.count (Work.dispatch d) := by
    intro d
    rcases hpushed with hp | hp <;> subst hp <;> simp [List.count_cons]
  have hsetc : ∀ q, q ≠ a0.P →
      (pushed ++ rest).count (Work.set q) = rest.count (Work.set q) := by
    intro q hq
    rcases hpushed with hp | hp <;> subst hp
    · simp
    · simp only [List.cons_append, List.nil_append, count_set_cons_set]
      rw [if_neg (fun h => hq h.symm)]
      rfl
  refine ⟨hJ.clean, hJ.conts, ?_, ?_, ?_, hJ.distinctC, hJ.distinctP, ?_, ?_⟩
  · intro d hd
    have : Work.dispatch d ∈ rest := by
      have h2 := List.count_pos_iff.mpr hd
      rw [hdisp] at h2
      exact List.count_pos_iff.mp h2
    exact hJ.stack d (List.mem_cons_of_mem _ this)
  · intro q hq
    show incomplete h q = true
    rcases List.mem_append.mp hq with hq | hq
    · rcases hpushed with hp | hp <;> subst hp
      · cases hq
      · simp only [List.mem_singleton, Work.set.injEq] at hq
        rw [hq]
        exact hPinc
    · exact hJ.setsOk q (List.mem_cons_of_mem _ hq)
  · intro q
    by_cases hq : q = a0.P
    · subst hq
      rcases hpushed with hp | hp <;> subst hp
      · simp only [List.nil_append]
        omega
      · simp only [List.cons_append, List.nil_append, count_set_cons_set, if_true]
        omega
    · rw [hsetc q hq]
      have := hJ.setsOnce q
      rw [count_set_cons_dispatch] at this
      exact this
  · intro e he
    have hlog : (decrementTo h a0.C ((r : Int) - 1)).Log =
        h.Log ++ [.decremented a0.C ((r : Int) - 1)] := rfl
    have hlenC : (decrementTo h a0.C ((r : Int) - 1)).Counters.length = h.Counters.length := by
      simp [decrementTo]
    have hlenP : (decrementTo h a0.C ((r : Int) - 1)).Promises.length = h.Promises.length := rfl
    rw [hlog] at he
    rw [hlenC, hlenP]
    rcases List.mem_append.mp he with he | he
    · exact hJ.logOk e he
    · simp only [List.mem_singleton] at he
      subst he
      refine ⟨?_, ?_⟩
      · intro c v hcv
        cases hcv
        exact hCl
      · intro p2 hp2
        cases hp2
  · intro a ha
    by_cases heq : a = a0
    · subst heq
      exact hAnew
    · have hC : a.C ≠ a0.C := fun hc => heq (hJ.distinctC a a0 ha ha0 hc)
      have hP : a.P ≠ a0.P := fun hp => heq (hJ.distinctP a a0 ha ha0 hp)
      have hcl : ¬ a0.closure = a.closure := fun hc => hC (closure_inj a0 a hc).1.symm
      refine AggInv_congr h _ (.dispatch a0.closure :: rest) (pushed ++ rest) a (le_refl _)
        (fun _ _ => rfl) (fun _ _ => rfl)
        (fun q hq => by
          show (queueOf h q).count a.closure = 0
          rw [queueOf_ge _ q hq]; rfl)
        ?_ ?_ ?_ ?_ ?_ (hJ.agg a ha)
      · simp only [decrementTo]
        exact List.getElem?_set_ne (fun h => hC h.symm)
      · have hlog : (decrementTo h a0.C ((r : Int) - 1)).Log =
            h.Log ++ [.decremented a0.C ((r : Int) - 1)] := rfl
        rw [hlog]
        apply decsOf_append_other
        simp only [decOf]
        rw [if_neg (fun h => hC h.symm)]
      · have hlog : (decrementTo h a0.C ((r : Int) - 1)).Log =
            h.Log ++ [.decremented a0.C ((r : Int) - 1)] := rfl
        rw [hlog, count_append_singleton, if_neg (by intro h2; cases h2)]
        rfl
      · rw [hdisp, count_dispatch_cons_dispatch, if_neg hcl]
        rfl
      · rw [hsetc a.P hP, count_set_cons_dispatch]

/-- A step from a consistent state succeeds and leads to a consistent state. -/
theorem step_Consistent (h : Heap) (x : Work) (rest : List Work) (aggs : List Agg)
    (hJ : Consistent h (x :: rest) aggs) :
    ∃ h2 pushed, step h x = Res.ok (h2, pushed) ∧ Consistent h2 (pushed ++ rest) aggs := by
  cases x with
  | set p =>
    obtain ⟨s, hs, hc⟩ := (incomplete_iff h p).mp (hJ.setsOk p (List.mem_cons_self _ _))
    exact ⟨_, _, step_set h p s hs hc, Consistent_set h p s rest aggs hs hJ⟩
  | dispatch c =>
    rcases hJ.stack c (List.mem_cons_self _ _) with ⟨tag, hc⟩ | ⟨a0, ha0, hc⟩
    · exact ⟨_, _, step_user h c tag hc, Consistent_user h c tag rest aggs hc hJ⟩
    · subst hc
      refine ⟨_, _, step_closure h a0 _ (hJ.agg a0 ha0).counter, ?_⟩
      exact Consistent_closure h rest aggs a0 ha0 hJ

/-! ### What a run changes -/

theorem step_set_inv (h : Heap) (p : Nat) (r : Heap × List Work)
    (hs : step h (.set p) = Res.ok r) :
    ∃ s, h.Promises[p]? = some s ∧ s.bIsComplete = false ∧
      r = (markComplete h p, s.Continuations.map Work.dispatch) := by
  cases hP : h.Promises[p]? with
  | none => simp [step, hP] at hs
  | some s =>
    cases hc : s.bIsComplete with
    | true => simp [step, hP, hc] at hs
    | false =>
      simp only [step, hP, hc, Bool.false_eq_true, if_false, Res.ok.injEq] at hs
      exact ⟨s, rfl, hc, hs.symm⟩

theorem step_dispatch_inv (h : Heap) (c : FContinuation) (r : Heap × List Work)
    (hs : step h (.dispatch c) = Res.ok r) :
    r.1.Promises = h.Promises ∧ r.1.Counters.length = h.Counters.length ∧
      (r.2 = [] ∨ ∃ C P, c = { Thread := .AnyThread, Continuation := .decrementThenSet C P } ∧
        r.2 = [Work.set P]) := by
  obtain ⟨T, L⟩ := c
  cases T with
  | Other i =>
    simp only [step, Res.ok.injEq] at hs
    subst hs
    exact ⟨rfl, rfl, Or.inl rfl⟩
  | AnyThread =>
    cases L with
    | user tag =>
      simp only [step, Res.ok.injEq] at hs
      subst hs
      exact ⟨rfl, rfl, Or.inl rfl⟩
    | decrementThenSet C P =>
      simp only [step] at hs
      cases hC : h.Counters[C]? with
      | none => simp [Decrement_ReturnNew, hC] at hs
      | some Old =>
        rw [Decrement_ReturnNew_eq h C Old hC] at hs
        simp only [Res.ok.injEq] at hs
        subst hs
        refine ⟨rfl, by simp [decrementTo], ?_⟩
        by_cases hz : (Old - 1 == 0) = true
        · exact Or.inr ⟨C, P, rfl, by simp [hz]⟩
        · exact Or.inl (by simp [hz])

/-- What one step changes, whatever the state: the promise state it completes, if any, the
queue it takes, and the bound on the steps still to be made. -/
theorem step_frame (h : Heap) (x : Work) (rest : List Work) (r : Heap × List Work)
    (hs : step h x = Res.ok r) :
    r.1.Promises.length = h.Promises.length ∧ r.1.Counters.length = h.Counters.length ∧
    (∀ q, incomplete r.1 q = (incomplete h q && !(decide (x = Work.set q)))) ∧
    (∀ q, queueOf r.1 q = if x = Work.set q then [] else queueOf h q) ∧
    stepBound r.1 (r.2 ++ rest) + 1 ≤ stepBound h (x :: rest) ∧
    (∀ q, Work.set q ∈ r.2 →
      ∃ C, x = .dispatch { Thread := .AnyThread, Continuation := .decrementThenSet C q }) := by
  cases x with
  | set p =>
    obtain ⟨s, hP, hc, hr⟩ := step_set_inv h p r hs
    subst hr
    refine ⟨by simp [markComplete], rfl, ?_, ?_, ?_, ?_⟩
    · intro q
      rw [incomplete_markComplete]
      congr 2
      by_cases hqp : q = p
      · subst hqp; simp
      · have h1 : (q == p) = false := by simpa using hqp
        have h2 : ¬ Work.set p = Work.set q := by
          intro h; cases h; exact hqp rfl
        simp [h1, h2]
    · intro q
      rw [queueOf_markComplete]
      by_cases hqp : q = p
      · subst hqp; simp
      · have h2 : ¬ Work.set p = Work.set q := by
          intro h; cases h; exact hqp rfl
        rw [if_neg hqp, if_neg h2]
    · have := load_markComplete h p s hP hc
      unfold stepBound
      simp only [List.map_append, List.sum_append, List.map_map, List.map_cons, List.sum_cons,
        weight]
      have hw : (List.map (weight ∘ Work.dispatch) s.Continuations).sum =
          2 * s.Continuations.length := by
        generalize s.Continuations = l
        induction l with
        | nil => rfl
        | cons c l ih =>
          simp only [List.map_cons, List.sum_cons, Function.comp_apply, weight, ih,
            List.length_cons]
          omega
      rw [hw]
      omega
    · intro q hq
      obtain ⟨c2, _, heq⟩ := List.mem_map.mp hq
      cases heq
  | dispatch c =>
    obtain ⟨hP, hC, hpush⟩ := step_dispatch_inv h c r hs
    have hinc : ∀ q, incomplete r.1 q = incomplete h q := by
      intro q; unfold incomplete; rw [hP]
    have hqu : ∀ q, queueOf r.1 q = queueOf h q := by
      intro q; unfold queueOf; rw [hP]
    have hload : load r.1 = load h := by
      unfold load; rw [hP]
    refine ⟨by rw [hP], hC, ?_, ?_, ?_, ?_⟩
    · intro q
      rw [hinc]
      have : ¬ Work.dispatch c = Work.set q := by intro h; cases h
      simp [this]
    · intro q
      rw [hqu]
      have : ¬ Work.dispatch c = Work.set q := by intro h; cases h
      rw [if_neg this]
    · unfold stepBound
      rw [hload]
      rcases hpush with hp | ⟨C, P, _, hp⟩ <;> rw [hp] <;>
        simp only [List.nil_append, List.cons_append, List.map_cons, List.sum_cons, weight] <;>
        omega
    · intro q hq
      rcases hpush with hp | ⟨C, P, hc, hp⟩
      · rw [hp] at hq; cases hq
      · rw [hp] at hq
        simp only [List.mem_singleton, Work.set.injEq] at hq
        subst hq
        exact ⟨C, by rw [hc]⟩

theorem stepBound_pos (h : Heap) (x : Work) (rest : List Work) :
    0 < stepBound h (x :: rest) := by
  unfold stepBound
  cases x <;> simp only [List.map_cons, List.sum_cons, weight] <;> omega

/-- From a consistent state and with fuel for the steps still to be made, `exec` returns, in a
consistent state with an empty stack. On the way a promise state becomes complete exactly when
`Set()` is called on it, which happens to those on the stack and, beyond them, to promise states
of aggregates only; the queues of the promise states that stay incomplete are not touched. -/
theorem exec_Consistent (aggs : List Agg) :
    ∀ (fuel : Nat) (h : Heap) (w : List Work), Consistent h w aggs → stepBound h w ≤ fuel →
      ∃ h2, exec fuel h w = Res.ok h2 ∧ Consistent h2 [] aggs ∧
        h2.Promises.length = h.Promises.length ∧ h2.Counters.length = h.Counters.length ∧
        (∀ q, incomplete h2 q = true → incomplete h q = true) ∧
        (∀ q, Work.set q ∈ w → incomplete h2 q = false) ∧
        (∀ q, incomplete h q = true → Work.set q ∉ w → (∀ a, a ∈ aggs → a.P ≠ q) →
          incomplete h2 q = true) ∧
        (∀ q, incomplete h2 q = true → queueOf h2 q = queueOf h q) ∧
        load h2 ≤ stepBound h w := by
  intro fuel
  induction fuel with
  | zero =>
    intro h w hJ hb
    cases w with
    | nil =>
      exact ⟨h, rfl, hJ, rfl, rfl, fun _ hq => hq, (fun _ hq => by cases hq),
        fun _ hq _ _ => hq, fun _ _ => rfl, by simp [stepBound]⟩
    | cons x rest =>
      have := stepBound_pos h x rest
      omega
  | succ f ih =>
    intro h w hJ hb
    cases w with
    | nil =>
      exact ⟨h, exec_nil _ h, hJ, rfl, rfl, fun _ hq => hq, (fun _ hq => by cases hq),
        fun _ hq _ _ => hq, fun _ _ => rfl, by simp [stepBound]⟩
    | cons x rest =>
      obtain ⟨h1, pushed, hstep, hJ1⟩ := step_Consistent h x rest aggs hJ
      obtain ⟨hlenP, hlenC, hinc, hqu, hbound, hpush⟩ := step_frame h x rest (h1, pushed) hstep
      simp only at hlenP hlenC hinc hqu hbound hpush
      obtain ⟨h2, hex, hJ2, hP2, hC2, hmono, hdone, hkeep, hqueue, hload⟩ :=
        ih h1 (pushed ++ rest) hJ1 (by omega)
      refine ⟨h2, ?_, hJ2, by rw [hP2, hlenP], by rw [hC2, hlenC], ?_, ?_, ?_, ?_, by omega⟩
      · rw [exec_cons, hstep]
        exact hex
      · intro q hq
        have := hmono q hq
        rw [hinc] at this
        simp only [Bool.and_eq_true] at this
        exact this.1
      · intro q hq
        rcases List.mem_cons.mp hq with hq | hq
        · cases hi : incomplete h2 q with
          | false => rfl
          | true =>
            have := hmono q hi
            rw [hinc, ← hq] at this
            simp at this
        · exact hdone q (List.mem_append_right _ hq)
      · intro q hq hnot htarget
        apply hkeep q
        · rw [hinc, hq]
          have : ¬ x = Work.set q := fun h => hnot (h ▸ List.mem_cons_self _ _)
          simp [this]
        · intro hmem
          rcases List.mem_append.mp hmem with hmem | hmem
          · obtain ⟨C, hx⟩ := hpush q hmem
            subst hx
            rcases hJ.stack _ (List.mem_cons_self _ _) with ⟨tag, hc⟩ | ⟨a, ha, hc⟩
            · cases hc
            · have := (closure_inj ⟨C, q, 0, []⟩ a hc).2
              exact htarget a ha this.symm
          · exact hnot (List.mem_cons_of_mem _ hmem)
        · exact htarget
      · intro q hq
        rw [hqueue q hq, hqu]
        have h1q := hmono q hq
        rw [hinc] at h1q
        have : ¬ x = Work.set q := by
          intro hx
          simp [hx] at h1q
        rw [if_neg this]

/-! ### Calls of the client that do not run the engine -/

theorem ContOK.mono {aggs aggs2 : List Agg} {c : FContinuation} (h : ContOK aggs c)
    (hsub : ∀ a, a ∈ aggs → ∃ b, b ∈ aggs2 ∧ b.closure = a.closure) :
    ContOK aggs2 c := by
  rcases h with h | ⟨a, ha, hc⟩
  · exact Or.inl h
  · obtain ⟨b, hb, hbc⟩ := hsub a ha
    exact Or.inr ⟨b, hb, by rw [hc, hbc]⟩

theorem AddContinuation_incomplete (fuel : Nat) (h : Heap) (p : Nat) (c : FContinuation)
    (hp : incomplete h p = true) :
    IVoxelPromiseState.AddContinuation fuel h p c = Res.ok (enqueue h p c) := by
  obtain ⟨s, hs, hc⟩ := (incomplete_iff h p).mp hp
  simp [IVoxelPromiseState.AddContinuation, enqueue, hs, hc]

theorem AddContinuation_complete (fuel : Nat) (h : Heap) (p : Nat) (c : FContinuation)
    (hlt : p < h.Promises.length) (hp : incomplete h p = false) :
    IVoxelPromiseState.AddContinuation fuel h p c = exec fuel h [.dispatch c] := by
  obtain ⟨s, hs⟩ : ∃ s, h.Promises[p]? = some s := ⟨_, List.getElem?_eq_getElem hlt⟩
  have hc : s.bIsComplete = true := by
    simpa [incomplete, hs] using hp
  simp [IVoxelPromiseState.AddContinuation, hs, hc]

theorem enqueue_length (h : Heap) (p : Nat) (c : FContinuation) :
    (enqueue h p c).Promises.length = h.Promises.length := by
  unfold enqueue
  cases h.Promises[p]? <;> simp

theorem incomplete_enqueue (h : Heap) (p : Nat) (c : FContinuation) (q : Nat) :
    incomplete (enqueue h p c) q = incomplete h q := by
  unfold enqueue
  cases hs : h.Promises[p]? with
  | none => rfl
  | some s =>
    unfold incomplete
    simp only [List.getElem?_set]
    by_cases hpq : p = q
    · subst hpq
      have hlt : p < h.Promises.length := (List.getElem?_eq_some_iff.mp hs).1
      simp [hlt, hs]
    · simp [hpq]

theorem queueOf_enqueue (h : Heap) (p : Nat) (c : FContinuation) (q : Nat)
    (hp : p < h.Promises.length) :
    queueOf (enqueue h p c) q = if q = p then queueOf h q ++ [c] else queueOf h q := by
  obtain ⟨s, hs⟩ : ∃ s, h.Promises[p]? = some s := ⟨_, List.getElem?_eq_getElem hp⟩
  unfold enqueue queueOf
  simp only [hs, List.getElem?_set]
  by_cases hpq : p = q
  · subst hpq
    simp [hp, hs]
  · have : ¬ q = p := fun h => hpq h.symm
    simp [hpq, this]

theorem load_enqueue (h : Heap) (p : Nat) (c : FContinuation) :
    load (enqueue h p c) ≤ load h + 2 := by
  unfold enqueue
  cases hs : h.Promises[p]? with
  | none => simp
  | some s =>
    unfold load
    have := sum_map_set cell h.Promises p s
      { s with Continuations := s.Continuations ++ [c] } hs
    simp only [cell, List.length_append, List.length_singleton] at this
    simp only
    split at this <;> omega

theorem incomplete_New (h : Heap) (q : Nat) :
    incomplete (New h).1 q = (incomplete h q || decide (q = h.Promises.length)) := by
  unfold incomplete New
  simp only
  by_cases hlt : q < h.Promises.length
  · rw [List.getElem?_append_left hlt]
    have : ¬ q = h.Promises.length := by omega
    simp [this]
  · by_cases heq : q = h.Promises.length
    · subst heq
      simp
    · have h1 : h.Promises[q]? = none := List.getElem?_eq_none (by omega)
      have h2 : (h.Promises ++ [({ bIsComplete := false, Continuations := [] } :
          FVoxelPromiseState)])[q]? = none :=
        List.getElem?_eq_none (by simp; omega)
      simp [h1, h2, heq]

theorem queueOf_New (h : Heap) (q : Nat) : queueOf (New h).1 q = queueOf h q := by
  unfold queueOf New
  simp only
  by_cases hlt : q < h.Promises.length
  · rw [List.getElem?_append_left hlt]
  · by_cases heq : q = h.Promises.length
    · subst heq
      simp
    · have h1 : h.Promises[q]? = none := List.getElem?_eq_none (by omega)
      have h2 : (h.Promises ++ [({ bIsComplete := false, Continuations := [] } :
          FVoxelPromiseState)])[q]? = none :=
        List.getElem?_eq_none (by simp; omega)
      simp [h1, h2]

theorem load_New (h : Heap) : load (New h).1 = load h + 1 := by
  simp [load, New, cell]

theorem count_eq_zero_of_ge (l : List Nat) (n q : Nat) (hl : ∀ x, x ∈ l → x < n)
    (hq : n ≤ q) :
    l.count q = 0 := by
  apply List.count_eq_zero_of_not_mem
  intro h
  have := hl q h
  omega

/-- Allocating a promise state keeps the heap consistent. -/
theorem Consistent_New (h : Heap) (aggs : List Agg) (hJ : Consistent h [] aggs) :
    Consistent (New h).1 [] aggs := by
  have hlen : (New h).1.Promises.length = h.Promises.length + 1 := by simp [New]
  refine ⟨?_, ?_, (fun c hc => by cases hc), (fun q hq => by cases hq), (fun q => by simp),
    hJ.distinctC, hJ.distinctP, ?_, ?_⟩
  · intro q hq
    rw [queueOf_New]
    rw [incomplete_New] at hq
    simp only [Bool.or_eq_false_iff] at hq
    exact hJ.clean q hq.1
  · intro q c hc
    rw [queueOf_New] at hc
    exact hJ.conts q c hc
  · intro e he
    have := hJ.logOk e he
    refine ⟨this.1, fun p hp => ?_⟩
    rw [hlen]
    exact Nat.lt_succ_of_lt (this.2 p hp)
  · intro a ha
    refine AggInv_congr h _ [] [] a (by rw [hlen]; omega) ?_ ?_ ?_ rfl rfl rfl rfl rfl
      (hJ.agg a ha)
    · intro q hq
      rw [incomplete_New]
      have : ¬ q = h.Promises.length := by omega
      simp [this]
    · intro q _
      rw [queueOf_New]
    · intro q hq
      rw [queueOf_New, queueOf_ge h q hq]
      rfl

/-- Queuing a user closure on an incomplete promise state keeps the heap consistent. -/
theorem Consistent_enqueue_user (h : Heap) (p : Nat) (c : FContinuation) (tag : Nat)
    (aggs : List Agg) (hc : c.Continuation = .user tag) (hp : incomplete h p = true)
    (hJ : Consistent h [] aggs) : Consistent (enqueue h p c) [] aggs := by
  have hlt := incomplete_lt h p hp
  refine ⟨?_, ?_, (fun c hc => by cases hc), (fun q hq => by cases hq), (fun q => by simp),
    hJ.distinctC, hJ.distinctP, ?_, ?_⟩
  · intro q hq
    rw [incomplete_enqueue] at hq
    rw [queueOf_enqueue h p c q hlt]
    have : ¬ q = p := by
      intro h2
      rw [h2, hp] at hq
      cases hq
    rw [if_neg this]
    exact hJ.clean q hq
  · intro q d hd
    rw [queueOf_enqueue h p c q hlt] at hd
    split at hd
    · rcases List.mem_append.mp hd with hd | hd
      · exact hJ.conts q d hd
      · simp only [List.mem_singleton] at hd
        subst hd
        exact Or.inl ⟨tag, hc⟩
    · exact hJ.conts q d hd
  · intro e he
    have hl : (enqueue h p c).Log = h.Log := by
      unfold enqueue
      cases h.Promises[p]? <;> rfl
    have hcl : (enqueue h p c).Counters = h.Counters := by
      unfold enqueue
      cases h.Promises[p]? <;> rfl
    rw [hl] at he
    rw [hcl, enqueue_length]
    exact hJ.logOk e he
  · intro a ha
    have hl : (enqueue h p c).Log = h.Log := by
      unfold enqueue
      cases h.Promises[p]? <;> rfl
    have hcl : (enqueue h p c).Counters = h.Counters := by
      unfold enqueue
      cases h.Promises[p]? <;> rfl
    refine AggInv_congr h _ [] [] a (by rw [enqueue_length]) (fun q _ => incomplete_enqueue h p c q)
      ?_ ?_ (by rw [hcl]) (by rw [hl]) (by rw [hl]) rfl rfl (hJ.agg a ha)
    · intro q _
      rw [queueOf_enqueue h p c q hlt]
      split
      · rw [List.count_append, List.count_cons]
        have : (c == a.closure) = false := by
          simpa using closure_ne_user a c tag hc
        simp [this]
      · rfl
    · intro q hq
      rw [queueOf_enqueue h p c q hlt]
      have : ¬ q = p := by omega
      rw [if_neg this, queueOf_ge h q hq]
      rfl

theorem Consistent_push_user (h : Heap) (c : FContinuation) (tag : Nat) (aggs : List Agg)
    (hc : c.Continuation = .user tag) (hJ : Consistent h [] aggs) :
    Consistent h [.dispatch c] aggs := by
  refine ⟨hJ.clean, hJ.conts, ?_, ?_, ?_, hJ.distinctC, hJ.distinctP, hJ.logOk, ?_⟩
  · intro d hd
    simp only [List.mem_singleton, Work.dispatch.injEq] at hd
    subst hd
    exact Or.inl ⟨tag, hc⟩
  · intro q hq
    simp at hq
  · intro q
    simp [List.count_cons]
  · intro a ha
    refine AggInv_congr h h [] [.dispatch c] a (le_refl _) (fun _ _ => rfl) (fun _ _ => rfl)
      (fun q hq => by rw [queueOf_ge h q hq]; rfl) rfl rfl rfl ?_ ?_ (hJ.agg a ha)
    · rw [count_dispatch_cons_dispatch, if_neg (closure_ne_user a c tag hc)]
      rfl
    · rw [count_set_cons_dispatch]

theorem Consistent_push_set (h : Heap) (q : Nat) (aggs : List Agg)
    (hq : incomplete h q = true) (hnot : ∀ a, a ∈ aggs → a.P ≠ q)
    (hJ : Consistent h [] aggs) :
    Consistent h [.set q] aggs := by
  refine ⟨hJ.clean, hJ.conts, ?_, ?_, ?_, hJ.distinctC, hJ.distinctP, hJ.logOk, ?_⟩
  · intro d hd
    simp at hd
  · intro q2 hq2
    simp only [List.mem_singleton, Work.set.injEq] at hq2
    rw [hq2]
    exact hq
  · intro q2
    rw [count_set_cons_set]
    split <;> simp
  · intro a ha
    refine AggInv_congr h h [] [.set q] a (le_refl _) (fun _ _ => rfl) (fun _ _ => rfl)
      (fun q hq => by rw [queueOf_ge h q hq]; rfl) rfl rfl rfl ?_ ?_ (hJ.agg a ha)
    · rw [count_dispatch_cons_set]
    · rw [count_set_cons_set, if_neg (fun h2 => hnot a ha h2.symm)]
      rfl

/-! ### The aggregate constructor -/

theorem Consistent_MakeCounter (h : Heap) (v : Int) (aggs : List Agg)
    (hJ : Consistent h [] aggs) : Consistent (MakeCounter h v).1 [] aggs := by
  refine ⟨hJ.clean, hJ.conts, hJ.stack, hJ.setsOk, hJ.setsOnce, hJ.distinctC, hJ.distinctP,
    ?_, ?_⟩
  · intro e he
    have := hJ.logOk e he
    refine ⟨fun c v2 hc => ?_, this.2⟩
    have h2 := this.1 c v2 hc
    simp only [MakeCounter, List.length_append, List.length_singleton]
    omega
  · intro a ha
    refine AggInv_congr h _ [] [] a (le_refl _) (fun _ _ => rfl) (fun _ _ => rfl)
      (fun q hq => by
        show (queueOf h q).count a.closure = 0
        rw [queueOf_ge h q hq]; rfl)
      ?_ rfl rfl rfl rfl (hJ.agg a ha)
    have hlt : a.C < h.Counters.length :=
      (List.getElem?_eq_some_iff.mp (hJ.agg a ha).counter).1
    simp only [MakeCounter]
    exact List.getElem?_append_left hlt

theorem count_dispatch_replicate (n : Nat) (c d : FContinuation) :
    (List.replicate n (Work.dispatch c)).count (Work.dispatch d) = if c = d then n else 0 := by
  rw [List.count_replicate]
  by_cases h : c = d
  · subst h; simp
  · have : ¬ (Work.dispatch c = Work.dispatch d) := by
      intro h2; cases h2; exact h rfl
    simp [h, this]

theorem count_set_replicate (n : Nat) (c : FContinuation) (q : Nat) :
    (List.replicate n (Work.dispatch c)).count (Work.set q) = 0 := by
  rw [List.count_replicate]
  simp

theorem countdown_self (N : Nat) : countdown N N = [] := by
  simp [countdown]

/-- The state in which the loop of the aggregate constructor starts: the fresh counter holds
`N`, the fresh promise state is incomplete, and the `N` decrements to come stand on the stack
as `N` closures of the aggregate. -/
theorem Consistent_begin (h : Heap) (aggs : List Agg) (C P N : Nat)
    (hJ : Consistent h [] aggs) (hfresh : ∀ b, b ∈ aggs → b.C ≠ C ∧ b.P ≠ P)
    (hctr : h.Counters[C]? = some (N : Int)) (hP : incomplete h P = true)
    (hlogC : decsOf C h.Log = []) (hlogP : h.Log.count (.set P) = 0) (hN : 1 ≤ N) :
    Consistent h
      (List.replicate N (Work.dispatch (closureOf C P)))
      (aggs ++ [{ C := C, P := P, N := N, inputs := [] }]) := by
  have hcl : ∀ a, a ∈ aggs → ¬ closureOf C P = a.closure := by
    intro a ha heq
    have := closure_inj ⟨C, P, N, []⟩ a heq
    exact (hfresh a ha).1 this.1.symm
  have hnoq : ∀ q, (queueOf h q).count (closureOf C P) = 0 := by
    intro q
    apply List.count_eq_zero_of_not_mem
    intro hmem
    rcases hJ.conts q _ hmem with ⟨tag, ht⟩ | ⟨a, ha, hc⟩
    · cases ht
    · exact hcl a ha hc
  refine ⟨hJ.clean, ?_, ?_, ?_, ?_, ?_, ?_, hJ.logOk, ?_⟩
  · intro q c hc
    exact (hJ.conts q c hc).mono fun a ha => ⟨a, List.mem_append_left _ ha, rfl⟩
  · intro d hd
    rw [List.mem_replicate] at hd
    have := hd.2
    cases this
    exact Or.inr ⟨⟨C, P, N, []⟩, List.mem_append_right _ (List.mem_singleton.mpr rfl), rfl⟩
  · intro q hq
    rw [List.mem_replicate] at hq
    cases hq.2
  · intro q
    rw [count_set_replicate]
    omega
  · intro a b ha hb hab
    rcases List.mem_append.mp ha with ha | ha <;> rcases List.mem_append.mp hb with hb | hb
    · exact hJ.distinctC a b ha hb hab
    · simp only [List.mem_singleton] at hb
      subst hb
      exact absurd hab (hfresh a ha).1
    · simp only [List.mem_singleton] at ha
      subst ha
      exact absurd hab.symm (hfresh b hb).1
    · simp only [List.mem_singleton] at ha hb
      rw [ha, hb]
  · intro a b ha hb hab
    rcases List.mem_append.mp ha with ha | ha <;> rcases List.mem_append.mp hb with hb | hb
    · exact hJ.distinctP a b ha hb hab
    · simp only [List.mem_singleton] at hb
      subst hb
      exact absurd hab (hfresh a ha).2
    · simp only [List.mem_singleton] at ha
      subst ha
      exact absurd hab.symm (hfresh b hb).2
    · simp only [List.mem_singleton] at ha hb
      rw [ha, hb]
  · intro a ha
    rcases List.mem_append.mp ha with ha | ha
    · refine AggInv_congr h h [] _ a (le_refl _) (fun _ _ => rfl) (fun _ _ => rfl)
        (fun q hq => by rw [queueOf_ge h q hq]; rfl) rfl rfl rfl ?_ ?_ (hJ.agg a ha)
      · rw [count_dispatch_replicate, if_neg (hcl a ha)]
        rfl
      · rw [count_set_replicate]
        rfl
    · simp only [List.mem_singleton] at ha
      subst ha
      have hrem : remaining h (List.replicate N (Work.dispatch (closureOf C P)))
          ⟨C, P, N, []⟩ = N := by
        simp [remaining, pendingOf, Agg.closure, count_dispatch_replicate]
      refine ⟨?_, ?_, ?_, incomplete_lt h P hP, ?_, ?_, ?_, ?_, ?_⟩
      · intro q hq
        cases hq
      · intro q _
        simpa [Agg.closure] using hnoq q
      · rw [hrem]
        exact hctr
      · intro _
        exact ⟨hP, count_set_replicate _ _ _⟩
      · intro hz
        rw [hrem] at hz
        omega
      · rw [hrem]
      · rw [hrem, countdown_self]
        exact hlogC
      · simp only [hP, if_true]
        exact hlogP

theorem distinct_replace_last (aggs : List Agg) (a a2 : Agg) (f : Agg → Nat)
    (hf : f a2 = f a)
    (hd : ∀ x y, x ∈ aggs ++ [a] → y ∈ aggs ++ [a] → f x = f y → x = y)
    (hfresh : ∀ b, b ∈ aggs → f b ≠ f a) :
    ∀ x y, x ∈ aggs ++ [a2] → y ∈ aggs ++ [a2] → f x = f y → x = y := by
  intro x y hx hy hxy
  rcases List.mem_append.mp hx with hx1 | hx1 <;>
    rcases List.mem_append.mp hy with hy1 | hy1
  · exact hd x y (List.mem_append_left _ hx1) (List.mem_append_left _ hy1) hxy
  · simp only [List.mem_singleton] at hy1
    rw [hy1, hf] at hxy
    exact absurd hxy (hfresh x hx1)
  · simp only [List.mem_singleton] at hx1
    rw [hx1, hf] at hxy
    exact absurd hxy.symm (hfresh y hy1)
  · simp only [List.mem_singleton] at hx1 hy1
    rw [hx1, hy1]

theorem ContOK_replace_last (aggs : List Agg) (a a2 : Agg) (hcl : a2.closure = a.closure)
    (c : FContinuation) (h : ContOK (aggs ++ [a]) c) : ContOK (aggs ++ [a2]) c := by
  apply h.mono
  intro x hx
  rcases List.mem_append.mp hx with hx | hx
  · exact ⟨x, List.mem_append_left _ hx, rfl⟩
  · simp only [List.mem_singleton] at hx
    subst hx
    exact ⟨a2, List.mem_append_right _ (List.mem_singleton.mpr rfl), hcl⟩

/-- Recording an input that is complete changes nothing the aggregate observes. -/
theorem AggInv_input_complete (h : Heap) (w : List Work) (a : Agg) (q : Nat)
    (hq : incomplete h q = false) (hlt : q < h.Promises.length) (hA : AggInv h w a) :
    AggInv h w { a with inputs := a.inputs ++ [q] } := by
  have hpend : pendingOf h { a with inputs := a.inputs ++ [q] } = pendingOf h a := by
    simp [pendingOf, List.countP_append, List.countP_cons, hq]
  have hrem : remaining h w { a with inputs := a.inputs ++ [q] } = remaining h w a := by
    unfold remaining
    rw [hpend]
    rfl
  refine ⟨?_, ?_, ?_, hA.targetValid, ?_, ?_, ?_, ?_, hA.sets⟩
  · intro x hx
    rcases List.mem_append.mp hx with hx | hx
    · exact hA.inputsValid x hx
    · simp only [List.mem_singleton] at hx
      rw [hx]
      exact hlt
  · intro x hx
    have hne : ¬ q = x := by
      intro h2
      rw [h2, hx] at hq
      cases hq
    have hne2 : (q == x) = false := by simpa using hne
    simp only [List.count_append, List.count_cons, hne2, List.count_nil]
    exact hA.queue x hx
  · rw [hrem]
    exact hA.counter
  · rw [hrem]
    exact hA.phasePos
  · rw [hrem]
    exact hA.phaseZero
  · rw [hrem]
    exact hA.le
  · rw [hrem]
    exact hA.decs

/-- Queuing the closure of the aggregate on a pending input, instead of running it, and
recording the input, changes nothing the aggregate observes. -/
theorem AggInv_input_pending (h : Heap) (w : List Work) (a : Agg) (q : Nat)
    (hq : incomplete h q = true) (hA : AggInv h (.dispatch a.closure :: w) a) :
    AggInv (enqueue h q a.closure) w { a with inputs := a.inputs ++ [q] } := by
  have hlt := incomplete_lt h q hq
  have hinc : ∀ x, incomplete (enqueue h q a.closure) x = incomplete h x :=
    incomplete_enqueue h q a.closure
  have hpend : pendingOf (enqueue h q a.closure) { a with inputs := a.inputs ++ [q] } =
      pendingOf h a + 1 := by
    have : incomplete (enqueue h q a.closure) = incomplete h := funext hinc
    simp [pendingOf, this, List.countP_append, List.countP_cons, hq]
  have hrem : remaining (enqueue h q a.closure) w { a with inputs := a.inputs ++ [q] } =
      remaining h (.dispatch a.closure :: w) a := by
    unfold remaining
    rw [hpend, count_dispatch_cons_dispatch, if_pos rfl]
    show pendingOf h a + 1 + w.count (Work.dispatch a.closure) = _
    omega
  have hl : (enqueue h q a.closure).Log = h.Log := by
    unfold enqueue
    cases h.Promises[q]? <;> rfl
  have hcl : (enqueue h q a.closure).Counters = h.Counters := by
    unfold enqueue
    cases h.Promises[q]? <;> rfl
  have hsetc : w.count (Work.set a.P) = (Work.dispatch a.closure :: w).count (Work.set a.P) := by
    rw [count_set_cons_dispatch]
  refine ⟨?_, ?_, ?_, ?_, ?_, ?_, ?_, ?_, ?_⟩
  · intro x hx
    rw [enqueue_length]
    rcases List.mem_append.mp hx with hx | hx
    · exact hA.inputsValid x hx
    · simp only [List.mem_singleton] at hx
      rw [hx]
      exact hlt
  · intro x hx
    rw [hinc] at hx
    rw [queueOf_enqueue h q a.closure x hlt]
    show List.count a.closure _ = List.count x (a.inputs ++ [q])
    by_cases hxq : x = q
    · subst hxq
      rw [if_pos rfl, List.count_append, List.count_append, hA.queue x hx]
      simp
    · rw [if_neg hxq, List.count_append, hA.queue x hx]
      have : (q == x) = false := by simpa using fun h => hxq h.symm
      simp [List.count_cons, this]
  · rw [hrem, hcl]
    exact hA.counter
  · rw [enqueue_length]
    exact hA.targetValid
  · rw [hrem, hinc, hsetc]
    exact hA.phasePos
  · rw [hrem, hinc, hsetc]
    exact hA.phaseZero
  · rw [hrem]
    exact hA.le
  · rw [hrem, hl]
    exact hA.decs
  · rw [hl, hinc]
    exact hA.sets

theorem Consistent_input_complete (h : Heap) (w : List Work) (aggs : List Agg) (a : Agg)
    (q : Nat) (hfresh : ∀ b, b ∈ aggs → b.C ≠ a.C ∧ b.P ≠ a.P)
    (hq : incomplete h q = false) (hlt : q < h.Promises.length)
    (hJ : Consistent h w (aggs ++ [a])) :
    Consistent h w (aggs ++ [{ a with inputs := a.inputs ++ [q] }]) := by
  have hlast : a ∈ aggs ++ [a] := List.mem_append_right _ (List.mem_singleton.mpr rfl)
  refine ⟨hJ.clean, ?_, ?_, hJ.setsOk, hJ.setsOnce, ?_, ?_, hJ.logOk, ?_⟩
  · intro x c hc
    exact ContOK_replace_last aggs a { a with inputs := a.inputs ++ [q] } rfl c (hJ.conts x c hc)
  · intro c hc
    exact ContOK_replace_last aggs a { a with inputs := a.inputs ++ [q] } rfl c (hJ.stack c hc)
  · exact distinct_replace_last aggs a { a with inputs := a.inputs ++ [q] } Agg.C rfl
      hJ.distinctC (fun b hb => (hfresh b hb).1)
  · exact distinct_replace_last aggs a { a with inputs := a.inputs ++ [q] } Agg.P rfl
      hJ.distinctP (fun b hb => (hfresh b hb).2)
  · intro b hb
    rcases List.mem_append.mp hb with hb1 | hb1
    · exact hJ.agg b (List.mem_append_left _ hb1)
    · simp only [List.mem_singleton] at hb1
      rw [hb1]
      exact AggInv_input_complete h w a q hq hlt (hJ.agg a hlast)

theorem Consistent_input_pending (h : Heap) (w : List Work) (aggs : List Agg) (a : Agg)
    (q : Nat) (hfresh : ∀ b, b ∈ aggs → b.C ≠ a.C ∧ b.P ≠ a.P)
    (hq : incomplete h q = true)
    (hJ : Consistent h (.dispatch a.closure :: w) (aggs ++ [a])) :
    Consistent (enqueue h q a.closure) w (aggs ++ [{ a with inputs := a.inputs ++ [q] }]) := by
  have hlast : a ∈ aggs ++ [a] := List.mem_append_right _ (List.mem_singleton.mpr rfl)
  have hlt := incomplete_lt h q hq
  have hinc : ∀ x, incomplete (enqueue h q a.closure) x = incomplete h x :=
    incomplete_enqueue h q a.closure
  have hl : (enqueue h q a.closure).Log = h.Log := by
    unfold enqueue
    cases h.Promises[q]? <;> rfl
  have hcl : (enqueue h q a.closure).Counters = h.Counters := by
    unfold enqueue
    cases h.Promises[q]? <;> rfl
  refine ⟨?_, ?_, ?_, ?_, ?_, ?_, ?_, ?_, ?_⟩
  · intro x hx
    rw [hinc] at hx
    rw [queueOf_enqueue h q a.closure x hlt]
    have : ¬ x = q := by
      intro h2
      rw [h2, hq] at hx
      cases hx
    rw [if_neg this]
    exact hJ.clean x hx
  · intro x c hc
    rw [queueOf_enqueue h q a.closure x hlt] at hc
    split at hc
    · rcases List.mem_append.mp hc with hc | hc
      · exact ContOK_replace_last aggs a { a with inputs := a.inputs ++ [q] } rfl c
          (hJ.conts x c hc)
      · simp only [List.mem_singleton] at hc
        rw [hc]
        exact Or.inr ⟨_, List.mem_append_right _ (List.mem_singleton.mpr rfl), rfl⟩
    · exact ContOK_replace_last aggs a { a with inputs := a.inputs ++ [q] } rfl c (hJ.conts x c hc)
  · intro c hc
    exact ContOK_replace_last aggs a { a with inputs := a.inputs ++ [q] } rfl c
      (hJ.stack c (List.mem_cons_of_mem _ hc))
  · intro x hx
    rw [hinc]
    exact hJ.setsOk x (List.mem_cons_of_mem _ hx)
  · intro x
    have := hJ.setsOnce x
    rw [count_set_cons_dispatch] at this
    exact this
  · exact distinct_replace_last aggs a { a with inputs := a.inputs ++ [q] } Agg.C rfl
      hJ.distinctC (fun b hb => (hfresh b hb).1)
  · exact distinct_replace_last aggs a { a with inputs := a.inputs ++ [q] } Agg.P rfl
      hJ.distinctP (fun b hb => (hfresh b hb).2)
  · intro e he
    rw [hl] at he
    rw [hcl, enqueue_length]
    exact hJ.logOk e he
  · intro b hb
    rcases List.mem_append.mp hb with hb1 | hb1
    · have hne : ¬ a.closure = b.closure := by
        intro heq
        exact (hfresh b hb1).1 (closure_inj a b heq).1.symm
      have hne2 : (a.closure == b.closure) = false := by simpa using hne
      refine AggInv_congr h _ (.dispatch a.closure :: w) w b (by rw [enqueue_length])
        (fun x _ => hinc x) ?_ ?_ (by rw [hcl]) (by rw [hl]) (by rw [hl]) ?_ ?_
        (hJ.agg b (List.mem_append_left _ hb1))
      · intro x _
        rw [queueOf_enqueue h q a.closure x hlt]
        split
        · rw [List.count_append, List.count_cons]
          simp [hne2]
        · rfl
      · intro x hx
        rw [queueOf_enqueue h q a.closure x hlt]
        have : ¬ x = q := by omega
        rw [if_neg this, queueOf_ge h x hx]
        rfl
      · rw [count_dispatch_cons_dispatch, if_neg hne]
        rfl
      · rw [count_set_cons_dispatch]
    · simp only [List.mem_singleton] at hb1
      rw [hb1]
      exact AggInv_input_pending h w a q hq (hJ.agg a hlast)

theorem IsComplete_some (h : Heap) (q : Nat) (hlt : q < h.Promises.length) :
    IsComplete h { PromiseState := some q } = !incomplete h q := by
  obtain ⟨s, hs⟩ : ∃ s, h.Promises[q]? = some s := ⟨_, List.getElem?_eq_getElem hlt⟩
  simp [IsComplete, incomplete, hs]

theorem refsOf_cons_some (q : Nat) (rest : List FVoxelFuture) :
    refsOf ({ PromiseState := some q } :: rest) = q :: refsOf rest := by
  simp [refsOf]

theorem refsOf_cons_none (rest : List FVoxelFuture) :
    refsOf ({ PromiseState := none } :: rest) = refsOf rest := by
  simp [refsOf]

theorem load_decrementTo (h : Heap) (C : Nat) (v : Int) : load (decrementTo h C v) = load h :=
  rfl

theorem load_markComplete_le (h : Heap) (p : Nat) : load (markComplete h p) ≤ load h := by
  cases hs : h.Promises[p]? with
  | none =>
    have : (markComplete h p).Promises = h.Promises := by
      simp only [markComplete]
      exact List.set_eq_of_length_le (by
        rw [List.getElem?_eq_none_iff] at hs
        exact hs)
    unfold load
    rw [this]
  | some s =>
    have := sum_map_set cell h.Promises p s { bIsComplete := true, Continuations := [] } hs
    unfold load markComplete
    simp only [cell, if_true] at this
    simp only
    omega

/-- The branch of the loop of the aggregate constructor for an input that is complete: the
decrement, and the `Set()` that follows the decrement that returns zero. -/
theorem FromMany_complete_step (fuel : Nat) (hfuel : 1 ≤ fuel) (h : Heap) (w : List Work)
    (aggs : List Agg) (a : Agg) (hJ : Consistent h (.dispatch a.closure :: w) (aggs ++ [a]))
    (hqP : queueOf h a.P = []) :
    ∃ Old h2, h.Counters[a.C]? = some Old ∧
      (if (Old - 1 == 0) = true then IVoxelPromiseState.Set fuel (decrementTo h a.C (Old - 1)) a.P
        else Res.ok (decrementTo h a.C (Old - 1))) = Res.ok h2 ∧
      Consistent h2 w (aggs ++ [a]) ∧
      h2.Promises.length = h.Promises.length ∧ h2.Counters.length = h.Counters.length ∧
      (∀ q, q ≠ a.P → incomplete h2 q = incomplete h q) ∧
      load h2 ≤ load h ∧ queueOf h2 a.P = [] := by
  have hlast : a ∈ aggs ++ [a] := List.mem_append_right _ (List.mem_singleton.mpr rfl)
  have hJ2 := Consistent_closure h w (aggs ++ [a]) a hlast hJ
  have hctr := (hJ.agg a hlast).counter
  generalize hr : ((remaining h (.dispatch a.closure :: w) a : Nat) : Int) = Old at hJ2 hctr
  refine ⟨Old, ?_⟩
  have hlenC : (decrementTo h a.C (Old - 1)).Counters.length = h.Counters.length := by
    simp [decrementTo]
  by_cases hz : (Old - 1 == 0) = true
  · rw [if_pos hz] at hJ2
    rw [if_pos hz]
    have hPinc : incomplete (decrementTo h a.C (Old - 1)) a.P = true :=
      hJ2.setsOk a.P (List.mem_cons_self _ _)
    obtain ⟨s, hs, hc⟩ := (incomplete_iff _ _).mp hPinc
    have hsq : s.Continuations = [] := by
      have : queueOf (decrementTo h a.C (Old - 1)) a.P = s.Continuations := queueOf_eq _ _ s hs
      rw [← this]
      exact hqP
    have hJ3 := Consistent_set _ a.P s w (aggs ++ [a]) hs hJ2
    rw [hsq] at hJ3
    obtain ⟨f, rfl⟩ : ∃ f, fuel = f + 1 := ⟨fuel - 1, by omega⟩
    refine ⟨markComplete (decrementTo h a.C (Old - 1)) a.P, hctr, ?_, hJ3, ?_, ?_, ?_, ?_, ?_⟩
    · unfold IVoxelPromiseState.Set
      rw [exec_cons, step_set _ a.P s hs hc, hsq]
      exact exec_nil _ _
    · simp [markComplete, decrementTo]
    · simp [markComplete, decrementTo]
    · intro q hq
      rw [incomplete_markComplete]
      have : (q == a.P) = false := by simpa using hq
      rw [this]
      simp
      rfl
    · exact load_markComplete_le _ _
    · rw [queueOf_markComplete, if_pos rfl]
  · rw [if_neg hz] at hJ2
    rw [if_neg hz]
    exact ⟨_, hctr, rfl, hJ2, rfl, hlenC, fun _ _ => rfl, le_refl _, hqP⟩

/-- The loop of the aggregate constructor, started in a consistent state with one closure of
the aggregate on the stack for each input still to be looked at, ends in a consistent state
with an empty stack, the inputs recorded. -/
theorem FromMany_loop_spec (fuel : Nat) (hfuel : 1 ≤ fuel) (aggs : List Agg) (C P N : Nat)
    (hfresh : ∀ b, b ∈ aggs → b.C ≠ C ∧ b.P ≠ P) :
    ∀ (rest : List FVoxelFuture) (h : Heap) (inputs : List Nat),
      Consistent h (List.replicate rest.length (Work.dispatch (closureOf C P)))
        (aggs ++ [{ C := C, P := P, N := N, inputs := inputs }]) →
      queueOf h P = [] → (∀ f, f ∈ rest → refOk P f = true) → P < h.Promises.length →
      ∃ h2, FromMany.loop fuel C P h rest = Res.ok h2 ∧
        Consistent h2 [] (aggs ++ [{ C := C, P := P, N := N, inputs := inputs ++ refsOf rest }]) ∧
        h2.Promises.length = h.Promises.length ∧ h2.Counters.length = h.Counters.length ∧
        (∀ q, q ≠ P → incomplete h2 q = incomplete h q) ∧
        load h2 ≤ load h + 2 * rest.length := by
  intro rest
  induction rest with
  | nil =>
    intro h inputs hJ _ _ _
    refine ⟨h, rfl, ?_, rfl, rfl, fun _ _ => rfl, by simp⟩
    simpa [refsOf] using hJ
  | cons f rest ih =>
    intro h inputs hJ hqP href hPlt
    have hrest : ∀ f2, f2 ∈ rest → refOk P f2 = true :=
      fun f2 h2 => href f2 (List.mem_cons_of_mem _ h2)
    have hf := href f (List.mem_cons_self _ _)
    rw [List.length_cons, List.replicate_succ] at hJ
    obtain ⟨ps⟩ := f
    have hcomplete : IsComplete h { PromiseState := ps } = true →
        ∃ h2, FromMany.loop fuel C P h ({ PromiseState := ps } :: rest) = Res.ok h2 ∧
          Consistent h2 []
            (aggs ++ [{ C := C, P := P, N := N,
                        inputs := inputs ++ refsOf ({ PromiseState := ps } :: rest) }]) ∧
          h2.Promises.length = h.Promises.length ∧ h2.Counters.length = h.Counters.length ∧
          (∀ q, q ≠ P → incomplete h2 q = incomplete h q) ∧
          load h2 ≤ load h + 2 * (rest.length + 1) := by
      intro hic
      obtain ⟨Old, h1, hOld, hstep, hJ1, hlenP, hlenC, hinc1, hload1, hqP1⟩ :=
        FromMany_complete_step fuel hfuel h _ aggs ⟨C, P, N, inputs⟩ hJ hqP
      dsimp only at hinc1 hqP1 hOld hstep
      have hJ1b : Consistent h1 (List.replicate rest.length (Work.dispatch (closureOf C P)))
          (aggs ++ [{ C := C, P := P, N := N,
                      inputs := inputs ++ refsOf [{ PromiseState := ps }] }]) := by
        cases ps with
        | none => simpa [refsOf] using hJ1
        | some q =>
          have hq : q < P := by simpa [refOk] using hf
          have hq2 : incomplete h q = false := by
            rw [IsComplete_some h q (by omega)] at hic
            simpa using hic
          have := Consistent_input_complete h1 _ aggs ⟨C, P, N, inputs⟩ q hfresh
            (by rw [hinc1 q (by omega)]; exact hq2) (by rw [hlenP]; omega) hJ1
          simpa [refsOf] using this
      obtain ⟨h2, hloop, hJ2, hlenP2, hlenC2, hinc2, hload2⟩ :=
        ih h1 _ hJ1b hqP1 hrest (by rw [hlenP]; exact hPlt)
      refine ⟨h2, ?_, ?_, by rw [hlenP2, hlenP], by rw [hlenC2, hlenC], ?_, by omega⟩
      · rw [FromMany.loop, if_pos hic, Decrement_ReturnNew_eq h C Old hOld]
        simp only [Res.ok_bind]
        rw [hstep]
        exact hloop
      · have : inputs ++ refsOf ({ PromiseState := ps } :: rest) =
            inputs ++ refsOf [{ PromiseState := ps }] ++ refsOf rest := by
          cases ps <;> simp [refsOf]
        rw [this]
        exact hJ2
      · intro q hq
        rw [hinc2 q hq, hinc1 q hq]
    cases ps with
    | none => exact hcomplete rfl
    | some q =>
      have hq : q < P := by simpa [refOk] using hf
      cases hinc : incomplete h q with
      | false =>
        apply hcomplete
        rw [IsComplete_some h q (by omega), hinc]
        rfl
      | true =>
        have hic : ¬ IsComplete h { PromiseState := some q } = true := by
          rw [IsComplete_some h q (by omega), hinc]
          simp
        have hJ1 := Consistent_input_pending h _ aggs ⟨C, P, N, inputs⟩ q hfresh hinc hJ
        have hqP1 : queueOf (enqueue h q (closureOf C P)) P = [] := by
          rw [queueOf_enqueue h q _ P (by omega), if_neg (by omega)]
          exact hqP
        obtain ⟨h2, hloop, hJ2, hlenP2, hlenC2, hinc2, hload2⟩ :=
          ih (enqueue h q (closureOf C P)) _ hJ1 hqP1 hrest
            (by rw [enqueue_length]; exact hPlt)
        have hlc : (enqueue h q (closureOf C P)).Counters = h.Counters := by
          unfold enqueue
          cases h.Promises[q]? <;> rfl
        have hle := load_enqueue h q (closureOf C P)
        refine ⟨h2, ?_, ?_, by rw [hlenP2, enqueue_length], by rw [hlenC2, hlc], ?_,
          by simp only [List.length_cons]; omega⟩
        · rw [FromMany.loop, if_neg hic]
          simp only
          have hlit : ({ Thread := .AnyThread, Continuation := .decrementThenSet C P } :
              FContinuation) = closureOf C P := rfl
          rw [hlit, AddContinuation_incomplete fuel h q _ hinc]
          simp only [Res.ok_bind]
          exact hloop
        · have : inputs ++ refsOf ({ PromiseState := some q } :: rest) =
              inputs ++ [q] ++ refsOf rest := by
            simp [refsOf]
          rw [this]
          exact hJ2
        · intro x hx
          rw [hinc2 x hx, incomplete_enqueue]

/-! ### The aggregate constructor -/

theorem decsOf_eq_nil (C : Nat) :
    ∀ (l : List Event), (∀ v, Event.decremented C v ∉ l) → decsOf C l = [] := by
  intro l
  induction l with
  | nil => intro _; rfl
  | cons e l ih =>
    intro hl
    have ht := ih (fun v hv => hl v (List.mem_cons_of_mem _ hv))
    unfold decsOf at ht ⊢
    rw [List.filterMap_cons]
    cases e with
    | decremented c v =>
      by_cases hc : c = C
      · subst hc
        exact absurd (List.mem_cons_self _ _) (hl v)
      · simp [decOf, hc, ht]
    | set p => simpa [decOf] using ht
    | ran tag => simpa [decOf] using ht
    | dispatched c => simpa [decOf] using ht

theorem Consistent.fresh {h : Heap} {aggs : List Agg} (hJ : Consistent h [] aggs) :
    ∀ b, b ∈ aggs → b.C ≠ h.Counters.length ∧ b.P ≠ h.Promises.length := by
  intro b hb
  have hA := hJ.agg b hb
  have h1 := hA.targetValid
  have h2 : b.C < h.Counters.length := by
    have := hA.counter
    by_contra hge
    rw [List.getElem?_eq_none (by omega)] at this
    cases this
  exact ⟨by omega, by omega⟩

/-- The aggregate constructor on a non-empty sequence, from a consistent heap: it returns, the
future it returns holds the promise state it allocated, and the heap is consistent with the
aggregate recorded. -/
theorem FromMany_spec (fuel : Nat) (hfuel : 1 ≤ fuel) (h : Heap) (aggs : List Agg)
    (Futures : List FVoxelFuture) (hne : Futures ≠ []) (hJ : Consistent h [] aggs)
    (href : ∀ f, f ∈ Futures → refOk h.Promises.length f = true) :
    ∃ h2, FromMany fuel h Futures = Res.ok (h2, { PromiseState := some h.Promises.length }) ∧
      Consistent h2 []
        (aggs ++ [{ C := h.Counters.length, P := h.Promises.length, N := Futures.length,
                    inputs := refsOf Futures }]) ∧
      h2.Promises.length = h.Promises.length + 1 ∧
      h2.Counters.length = h.Counters.length + 1 ∧
      (∀ q, q ≠ h.Promises.length → incomplete h2 q = incomplete h q) ∧
      load h2 ≤ load h + 1 + 2 * Futures.length := by
  have hlen : Futures.length ≠ 0 := fun h0 => hne (List.length_eq_zero.mp h0)
  have hJ1 := Consistent_MakeCounter _ (Futures.length : Int) aggs (Consistent_New h aggs hJ)
  have hPinc : incomplete (MakeCounter (New h).1 (Futures.length : Int)).1 h.Promises.length
      = true := by
    show incomplete (New h).1 h.Promises.length = true
    rw [incomplete_New]
    simp
  have hctr : (MakeCounter (New h).1 (Futures.length : Int)).1.Counters[h.Counters.length]?
      = some (Futures.length : Int) := by
    simp [MakeCounter, New]
  have hlogC : decsOf h.Counters.length
      (MakeCounter (New h).1 (Futures.length : Int)).1.Log = [] := by
    apply decsOf_eq_nil
    intro v hv
    have := (hJ.logOk _ hv).1 _ _ rfl
    omega
  have hlogP : (MakeCounter (New h).1 (Futures.length : Int)).1.Log.count
      (.set h.Promises.length) = 0 := by
    apply List.count_eq_zero_of_not_mem
    intro hv
    have := (hJ.logOk _ hv).2 _ rfl
    omega
  have hJ2 := Consistent_begin _ aggs h.Counters.length h.Promises.length Futures.length hJ1
    hJ.fresh hctr hPinc hlogC hlogP (by omega)
  have hqP : queueOf (MakeCounter (New h).1 (Futures.length : Int)).1 h.Promises.length
      = [] := by
    show queueOf (New h).1 h.Promises.length = []
    simp [queueOf, New]
  have hPlt : h.Promises.length <
      (MakeCounter (New h).1 (Futures.length : Int)).1.Promises.length := by
    simp [MakeCounter, New]
  obtain ⟨h2, hloop, hJ3, hlenP, hlenC, hinc, hload⟩ :=
    FromMany_loop_spec fuel hfuel aggs h.Counters.length h.Promises.length Futures.length
      hJ.fresh Futures _ [] hJ2 hqP href hPlt
  refine ⟨h2, ?_, ?_, ?_, ?_, ?_, ?_⟩
  · unfold FromMany
    rw [if_neg hlen]
    show (FromMany.loop fuel h.Counters.length h.Promises.length
      (MakeCounter (New h).1 (Futures.length : Int)).1 Futures).bind _ = _
    rw [hloop]
    rfl
  · simpa using hJ3
  · rw [hlenP]
    simp [MakeCounter, New]
  · rw [hlenC]
    simp [MakeCounter, New]
  · intro q hq
    rw [hinc q hq]
    show incomplete (New h).1 q = incomplete h q
    rw [incomplete_New]
    simp [hq]
  · have : load (MakeCounter (New h).1 (Futures.length : Int)).1 = load h + 1 := load_New h
    omega

/-- In a consistent heap at rest, the promise state of an aggregate is complete exactly when
none of its inputs is pending. -/
theorem Consistent.complete_iff {h : Heap} {aggs : List Agg} (hJ : Consistent h [] aggs)
    (a : Agg) (ha : a ∈ aggs) :
    incomplete h a.P = false ↔ ∀ q, q ∈ a.inputs → incomplete h q = false := by
  have hA := hJ.agg a ha
  have hrem : remaining h [] a = pendingOf h a := by simp [remaining]
  have hp : pendingOf h a = 0 ↔ ∀ q, q ∈ a.inputs → incomplete h q = false := by
    unfold pendingOf
    rw [List.countP_eq_zero]
    constructor
    · intro hq q hmem
      have := hq q hmem
      simpa using this
    · intro hq q hmem
      rw [hq q hmem]
      simp
  rw [← hp]
  constructor
  · intro hc
    by_contra hpos
    have := (hA.phasePos (by rw [hrem]; omega)).1
    rw [hc] at this
    cases this
  · intro hz
    rcases hA.phaseZero (by rw [hrem]; exact hz) with h1 | h1
    · have := h1.2
      simp at this
    · exact h1.1

theorem IsComplete_of_ref (h : Heap) (n : Nat) (f : FVoxelFuture) (hf : refOk n f = true)
    (hn : n ≤ h.Promises.length) :
    IsComplete h f = true ↔ ∀ q, f.PromiseState = some q → incomplete h q = false := by
  obtain ⟨ps⟩ := f
  cases ps with
  | none => simp [IsComplete]
  | some q =>
    have hq : q < n := by simpa [refOk] using hf
    rw [IsComplete_some h q (by omega)]
    simp

theorem all_complete_iff (h : Heap) (n : Nat) (hn : n ≤ h.Promises.length) :
    ∀ (Futures : List FVoxelFuture), (∀ f, f ∈ Futures → refOk n f = true) →
      ((∀ f, f ∈ Futures → IsComplete h f = true) ↔
        ∀ q, q ∈ refsOf Futures → incomplete h q = false) := by
  intro Futures href
  constructor
  · intro hall q hq
    unfold refsOf at hq
    rw [List.mem_filterMap] at hq
    obtain ⟨f, hf, hfq⟩ := hq
    exact (IsComplete_of_ref h n f (href f hf) hn).mp (hall f hf) q hfq
  · intro hall f hf
    rw [IsComplete_of_ref h n f (href f hf) hn]
    intro q hfq
    apply hall
    unfold refsOf
    rw [List.mem_filterMap]
    exact ⟨f, hf, hfq⟩

theorem countP_pending (h : Heap) (n : Nat) (hn : n ≤ h.Promises.length) :
    ∀ (Futures : List FVoxelFuture), (∀ f, f ∈ Futures → refOk n f = true) →
      Futures.countP (fun f => !IsComplete h f) = (refsOf Futures).countP (incomplete h) := by
  intro Futures
  induction Futures with
  | nil => intro _; rfl
  | cons f rest ih =>
    intro href
    have ht := ih (fun f2 h2 => href f2 (List.mem_cons_of_mem _ h2))
    have hf := href f (List.mem_cons_self _ _)
    obtain ⟨ps⟩ := f
    cases ps with
    | none =>
      rw [refsOf_cons_none, List.countP_cons, ht]
      simp [IsComplete]
    | some q =>
      have hq : q < n := by simpa [refOk] using hf
      rw [refsOf_cons_some, List.countP_cons, List.countP_cons, ht,
        IsComplete_some h q (by omega)]
      simp

/-! ### The calls of the client -/

theorem Consistent_empty : Consistent emptyHeap [] [] := by
  refine ⟨?_, ?_, ?_, ?_, ?_, ?_, ?_, ?_, ?_⟩
  · intro q _; rfl
  · intro q c hc; simp [queueOf, emptyHeap] at hc
  · intro c hc; cases hc
  · intro q hq; cases hq
  · intro q; simp
  · intro a b ha; cases ha
  · intro a b ha; cases ha
  · intro e he; simp [emptyHeap] at he
  · intro a ha; cases ha

theorem Tracked_empty : Tracked { promises := 0, completed := [], aggregates := [] }
    emptyHeap [] := by
  refine ⟨rfl, ?_, ?_, ?_⟩
  · intro q hq; cases hq
  · intro q hq; cases hq
  · intro q; simp

/-- One call of the client that meets its precondition, from a consistent heap and with
enough fuel: the call returns, and the heap stays consistent. -/
theorem applyAction_spec (fuel : Nat) (h : Heap) (t : Track) (aggs : List Agg) (a : Action)
    (hJ : Consistent h [] aggs) (hT : Tracked t h aggs) (hok : actionOk t a = true)
    (hfuel : load h + cost a + 2 ≤ fuel) :
    ∃ h2 aggs2, applyAction fuel h a = Res.ok h2 ∧ Consistent h2 [] aggs2 ∧
      Tracked (trackStep t a) h2 aggs2 ∧ (∀ b, b ∈ aggs → b ∈ aggs2) ∧
      load h2 ≤ load h + cost a ∧ h.Promises.length ≤ h2.Promises.length ∧
      (∀ Futures, a = Action.fromMany Futures → Futures ≠ [] →
        aggs2 = aggs ++ [{ C := h.Counters.length, P := h.Promises.length,
                           N := Futures.length, inputs := refsOf Futures }]) := by
  cases a with
  | newPromise =>
    refine ⟨(New h).1, aggs, rfl, Consistent_New h aggs hJ, ⟨?_, ?_, ?_, ?_⟩, fun _ hb => hb,
      ?_, ?_, fun _ hF => by cases hF⟩
    · show (h.Promises ++ [_]).length = t.promises + 1
      rw [List.length_append, hT.promises]
      rfl
    · intro q hq hagg
      show incomplete (New h).1 q = false ↔ q ∈ t.completed
      rw [incomplete_New]
      by_cases hql : q = h.Promises.length
      · have hnot : q ∉ t.completed := fun hm => by
          have := hT.bound q hm
          rw [← hT.promises] at this
          omega
        simp [hql]
        rw [← hql]
        exact hnot
      · have hlt : q < t.promises := by
          have := hT.promises
          change q < t.promises + 1 at hq
          omega
        have := hT.completed q hlt hagg
        simpa [hql] using this
    · intro q hq
      have := hT.bound q hq
      show q < t.promises + 1
      omega
    · exact hT.aggregates
    · rw [load_New]
      rfl
    · show h.Promises.length ≤ (h.Promises ++ [_]).length
      simp
  | complete p =>
    have hok2 : p < t.promises ∧ p ∉ t.completed ∧ p ∉ t.aggregates := by
      simpa [actionOk, and_assoc] using hok
    obtain ⟨hp1, hp2, hp3⟩ := hok2
    have hpinc : incomplete h p = true := by
      cases hc : incomplete h p with
      | true => rfl
      | false => exact absurd ((hT.completed p hp1 hp3).mp hc) hp2
    have hnot : ∀ b, b ∈ aggs → b.P ≠ p := fun b hb hbp =>
      hp3 ((hT.aggregates p).mpr ⟨b, hb, hbp⟩)
    have hJ1 := Consistent_push_set h p aggs hpinc hnot hJ
    have hsb : stepBound h [.set p] = 1 + load h := by simp [stepBound, weight]
    obtain ⟨h2, hex, hJ2, hlenP, _, hmono, hset, hkeep, _, hload⟩ :=
      exec_Consistent aggs fuel h [.set p] hJ1 (by rw [hsb]; omega)
    refine ⟨h2, aggs, hex, hJ2, ⟨?_, ?_, ?_, ?_⟩, fun _ hb => hb, ?_, by omega,
      fun _ hF => by cases hF⟩
    · rw [hlenP]
      exact hT.promises
    · intro q hq hagg
      show incomplete h2 q = false ↔ q ∈ p :: t.completed
      rw [List.mem_cons]
      by_cases hqp : q = p
      · subst hqp
        simp [hset q (List.mem_singleton.mpr rfl)]
      · have hiff := hT.completed q hq hagg
        constructor
        · intro hc
          right
          apply hiff.mp
          cases hq0 : incomplete h q with
          | false => rfl
          | true =>
            have := hkeep q hq0 (by simpa using hqp)
              (fun b hb hbq => hagg ((hT.aggregates q).mpr ⟨b, hb, hbq⟩))
            rw [hc] at this
            cases this
        · intro hm
          rcases hm with hm | hm
          · exact absurd hm hqp
          · have hq0 := hiff.mpr hm
            cases hc : incomplete h2 q with
            | false => rfl
            | true =>
              have := hmono q hc
              rw [hq0] at this
              cases this
    · intro q hq
      change q ∈ p :: t.completed at hq
      rcases List.mem_cons.mp hq with hq | hq
      · rw [hq]
        exact hp1
      · exact hT.bound q hq
    · exact hT.aggregates
    · rw [hsb] at hload
      show load h2 ≤ load h + 1
      omega
  | attach p Thread tag =>
    have hp1 : p < t.promises := by simpa [actionOk] using hok
    have hplt : p < h.Promises.length := by rw [hT.promises]; exact hp1
    cases hc : incomplete h p with
    | true =>
      refine ⟨enqueue h p { Thread := Thread, Continuation := .user tag }, aggs,
        AddContinuation_incomplete fuel h p _ hc,
        Consistent_enqueue_user h p _ tag aggs rfl hc hJ, ⟨?_, ?_, ?_, ?_⟩, fun _ hb => hb,
        load_enqueue h p _, by rw [enqueue_length], fun _ hF => by cases hF⟩
      · rw [enqueue_length]
        exact hT.promises
      · intro q hq hagg
        rw [incomplete_enqueue]
        exact hT.completed q hq hagg
      · exact hT.bound
      · exact hT.aggregates
    | false =>
      have hJ1 := Consistent_push_user h { Thread := Thread, Continuation := .user tag } tag
        aggs rfl hJ
      have hsb : stepBound h [.dispatch { Thread := Thread, Continuation := .user tag }]
          = 2 + load h := by simp [stepBound, weight]
      obtain ⟨h2, hex, hJ2, hlenP, _, hmono, _, hkeep, _, hload⟩ :=
        exec_Consistent aggs fuel h _ hJ1 (by rw [hsb]; exact hfuel.trans' (by simp [cost]; omega))
      refine ⟨h2, aggs, ?_, hJ2, ⟨?_, ?_, ?_, ?_⟩, fun _ hb => hb, ?_, by omega,
        fun _ hF => by cases hF⟩
      · show IVoxelPromiseState.AddContinuation fuel h p _ = _
        rw [AddContinuation_complete fuel h p _ hplt hc]
        exact hex
      · rw [hlenP]
        exact hT.promises
      · intro q hq hagg
        show incomplete h2 q = false ↔ q ∈ t.completed
        rw [← hT.completed q hq hagg]
        constructor
        · intro hc2
          cases hq0 : incomplete h q with
          | false => rfl
          | true =>
            have := hkeep q hq0 (by simp)
              (fun b hb hbq => hagg ((hT.aggregates q).mpr ⟨b, hb, hbq⟩))
            rw [hc2] at this
            cases this
        · intro hq0
          cases hc2 : incomplete h2 q with
          | false => rfl
          | true =>
            have := hmono q hc2
            rw [hq0] at this
            cases this
      · exact hT.bound
      · exact hT.aggregates
      · rw [hsb] at hload
        show load h2 ≤ load h + 2
        omega
  | fromMany Futures =>
    by_cases hne : Futures = []
    · subst hne
      exact ⟨h, aggs, rfl, hJ, hT, fun _ hb => hb, by omega, le_refl _,
        fun _ hF hne2 => by cases hF; exact absurd rfl hne2⟩
    · have hlen : Futures.length ≠ 0 := fun h0 => hne (List.length_eq_zero.mp h0)
      have href : ∀ f, f ∈ Futures → refOk h.Promises.length f = true := by
        intro f hf
        rw [hT.promises]
        have : Futures.all (refOk t.promises) = true := hok
        exact List.all_eq_true.mp this f hf
      obtain ⟨h2, hrun, hJ2, hlenP, _, hinc, hload⟩ :=
        FromMany_spec fuel (by omega) h aggs Futures hne hJ href
      refine ⟨h2, _, ?_, hJ2, ⟨?_, ?_, ?_, ?_⟩,
        fun _ hb => List.mem_append_left _ hb, ?_, by omega,
        fun _ hF _ => by cases hF; rfl⟩
      · show (FromMany fuel h Futures).bind _ = _
        rw [hrun]
        rfl
      · show h2.Promises.length = (if Futures.length = 0 then t else _).promises
        rw [if_neg hlen, hlenP, hT.promises]
      · show ∀ q, q < (if Futures.length = 0 then t else _).promises →
          q ∉ (if Futures.length = 0 then t else _).aggregates →
          (incomplete h2 q = false ↔ q ∈ (if Futures.length = 0 then t else _).completed)
        rw [if_neg hlen]
        intro q hq hagg
        have hqne : q ≠ t.promises := fun he => hagg (by rw [he]; exact List.mem_cons_self _ _)
        have hq2 : q < t.promises := by
          change q < t.promises + 1 at hq
          omega
        rw [hinc q (by rw [hT.promises]; exact hqne)]
        exact hT.completed q hq2 (fun hm => hagg (List.mem_cons_of_mem _ hm))
      · show ∀ q, q ∈ (if Futures.length = 0 then t else _).completed →
          q < (if Futures.length = 0 then t else _).promises
        rw [if_neg hlen]
        intro q hq
        have := hT.bound q hq
        show q < t.promises + 1
        omega
      · show ∀ q, q ∈ (if Futures.length = 0 then t else _).aggregates ↔ _
        rw [if_neg hlen]
        intro q
        show q ∈ t.promises :: t.aggregates ↔ _
        rw [List.mem_cons]
        constructor
        · intro hq
          rcases hq with hq | hq
          · exact ⟨_, List.mem_append_right _ (List.mem_singleton.mpr rfl),
              by rw [hq]; exact hT.promises⟩
          · obtain ⟨b, hb, hbq⟩ := (hT.aggregates q).mp hq
            exact ⟨b, List.mem_append_left _ hb, hbq⟩
        · rintro ⟨b, hb, hbq⟩
          rcases List.mem_append.mp hb with hb | hb
          · right
            exact (hT.aggregates q).mpr ⟨b, hb, hbq⟩
          · left
            rw [List.mem_singleton.mp hb] at hbq
            rw [← hbq]
            exact hT.promises
      · show load h2 ≤ load h + (1 + 2 * Futures.length)
        omega

theorem runActions_append (fuel : Nat) (xs ys : List Action) :
    ∀ (h : Heap), runActions fuel (xs ++ ys) h =
      (runActions fuel xs h).bind fun h1 => runActions fuel ys h1 := by
  induction xs with
  | nil => intro h; rfl
  | cons a xs ih =>
    intro h
    show (applyAction fuel h a).bind _ = ((applyAction fuel h a).bind _).bind _
    cases applyAction fuel h a with
    | ok h1 => exact ih h1
    | fatal => rfl
    | timeout => rfl

theorem actionsOk_append (xs ys : List Action) :
    ∀ (t : Track), actionsOk t (xs ++ ys) = (actionsOk t xs && actionsOk (trackAll t xs) ys) := by
  induction xs with
  | nil => intro t; rfl
  | cons a xs ih =>
    intro t
    show (actionOk t a && actionsOk (trackStep t a) (xs ++ ys)) = _
    rw [ih, ← Bool.and_assoc]
    rfl

/-- Any sequence of calls of the client that meet their preconditions, from a consistent heap
and with enough fuel: every call returns, and the heap stays consistent. -/
theorem runActions_spec (fuel : Nat) :
    ∀ (acts : List Action) (h : Heap) (t : Track) (aggs : List Agg),
      Consistent h [] aggs → Tracked t h aggs → actionsOk t acts = true →
      load h + (acts.map cost).sum + 2 ≤ fuel →
      ∃ h2 aggs2, runActions fuel acts h = Res.ok h2 ∧ Consistent h2 [] aggs2 ∧
        Tracked (trackAll t acts) h2 aggs2 ∧ (∀ b, b ∈ aggs → b ∈ aggs2) ∧
        load h2 ≤ load h + (acts.map cost).sum ∧ h.Promises.length ≤ h2.Promises.length := by
  intro acts
  induction acts with
  | nil =>
    intro h t aggs hJ hT _ _
    exact ⟨h, aggs, rfl, hJ, hT, fun _ hb => hb, by simp, le_refl _⟩
  | cons a acts ih =>
    intro h t aggs hJ hT hok hfuel
    have hok2 : actionOk t a = true ∧ actionsOk (trackStep t a) acts = true := by
      have : (actionOk t a && actionsOk (trackStep t a) acts) = true := hok
      simpa using this
    rw [List.map_cons, List.sum_cons] at hfuel
    obtain ⟨h1, aggs1, hrun1, hJ1, hT1, hsub1, hload1, hlen1, _⟩ :=
      applyAction_spec fuel h t aggs a hJ hT hok2.1 (by omega)
    obtain ⟨h2, aggs2, hrun2, hJ2, hT2, hsub2, hload2, hlen2⟩ :=
      ih h1 (trackStep t a) aggs1 hJ1 hT1 hok2.2 (by omega)
    refine ⟨h2, aggs2, ?_, hJ2, hT2, fun b hb => hsub2 b (hsub1 b hb), ?_, by omega⟩
    · show (applyAction fuel h a).bind _ = _
      rw [hrun1]
      exact hrun2
    · rw [List.map_cons, List.sum_cons]
      omega

/-- The client makes calls, constructs an aggregate of a non-empty sequence of futures, and
makes more calls: everything returns, and the heaps after the construction and at the end are
consistent, with the aggregate recorded. -/
theorem aggregate_scenario (fuel : Nat) (acts1 : List Action) (Futures : List FVoxelFuture)
    (acts2 : List Action) (hne : Futures ≠ [])
    (hok : actionsOk { promises := 0, completed := [], aggregates := [] }
      (acts1 ++ Action.fromMany Futures :: acts2) = true)
    (hfuel : budget (acts1 ++ Action.fromMany Futures :: acts2) ≤ fuel) :
    ∃ h0 h1 h2 aggs1 aggs2,
      runActions fuel acts1 emptyHeap = Res.ok h0 ∧
      FromMany fuel h0 Futures = Res.ok (h1, { PromiseState := some h0.Promises.length }) ∧
      runActions fuel acts2 h1 = Res.ok h2 ∧
      Consistent h0 [] aggs1 ∧ Consistent h1 [] aggs2 ∧
      (∃ aggs3, Consistent h2 [] aggs3 ∧ ∀ b, b ∈ aggs2 → b ∈ aggs3) ∧
      aggs2 = aggs1 ++ [{ C := h0.Counters.length, P := h0.Promises.length,
                          N := Futures.length, inputs := refsOf Futures }] ∧
      (∀ f, f ∈ Futures → refOk h0.Promises.length f = true) ∧
      (∀ q, q ≠ h0.Promises.length → incomplete h1 q = incomplete h0 q) ∧
      h1.Promises.length = h0.Promises.length + 1 ∧
      h1.Promises.length ≤ h2.Promises.length := by
  rw [actionsOk_append] at hok
  have hok1 : actionsOk { promises := 0, completed := [], aggregates := [] } acts1 = true ∧
      (actionOk (trackAll { promises := 0, completed := [], aggregates := [] } acts1)
        (Action.fromMany Futures) = true ∧
      actionsOk (trackStep (trackAll { promises := 0, completed := [], aggregates := [] } acts1)
        (Action.fromMany Futures)) acts2 = true) := by
    have : (actionsOk { promises := 0, completed := [], aggregates := [] } acts1 &&
      (actionOk (trackAll { promises := 0, completed := [], aggregates := [] } acts1)
        (Action.fromMany Futures) &&
      actionsOk (trackStep (trackAll { promises := 0, completed := [], aggregates := [] } acts1)
        (Action.fromMany Futures)) acts2)) = true := hok
    simpa using this
  obtain ⟨hokA, hokF, hokB⟩ := hok1
  have hb : (acts1.map cost).sum + (1 + 2 * Futures.length) + (acts2.map cost).sum + 2
      ≤ fuel := by
    have : budget (acts1 ++ Action.fromMany Futures :: acts2) =
        (acts1.map cost).sum + (1 + 2 * Futures.length) + (acts2.map cost).sum + 2 := by
      simp [budget, cost]
      omega
    omega
  have hl0 : load emptyHeap = 0 := rfl
  obtain ⟨h0, aggs1, hrun0, hJ0, hT0, _, hload0, _⟩ :=
    runActions_spec fuel acts1 emptyHeap _ [] Consistent_empty Tracked_empty hokA (by omega)
  have href : ∀ f, f ∈ Futures → refOk h0.Promises.length f = true := by
    intro f hf
    rw [hT0.promises]
    have : Futures.all (refOk (trackAll { promises := 0, completed := [], aggregates := [] }
      acts1).promises) = true := hokF
    exact List.all_eq_true.mp this f hf
  obtain ⟨h1, hrun1, hJ1, hlenP, _, hinc, hload1⟩ :=
    FromMany_spec fuel (by omega) h0 aggs1 Futures hne hJ0 href
  obtain ⟨h1b, aggsb, hrunb, hJb, hTb, _, _, _, hagg⟩ :=
    applyAction_spec fuel h0 _ aggs1 (Action.fromMany Futures) hJ0 hT0 hokF
      (by simp only [cost]; omega)
  have hh : h1b = h1 := by
    have : (FromMany fuel h0 Futures).bind (fun r => Res.ok r.1) = Res.ok h1b := hrunb
    rw [hrun1] at this
    cases this
    rfl
  subst hh
  obtain ⟨h2, aggs3, hrun2, hJ2, _, hsub, _, hlen2⟩ :=
    runActions_spec fuel acts2 h1b _ aggsb hJb hTb hokB (by omega)
  exact ⟨h0, h1b, h2, aggs1, aggsb, hrun0, hrun1, hrun2, hJ0, hJb, ⟨aggs3, hJ2, hsub⟩,
    hagg Futures rfl hne, href, hinc, hlenP, hlen2⟩

/-! ### The values the decrements return -/

theorem countdown_length (N r : Nat) : (countdown N r).length = N - r := by
  simp [countdown]

theorem countdown_count_pos (N : Nat) :
    ∀ (k r : Nat), N - r = k → 0 < r → (countdown N r).count 0 = 0 := by
  intro k
  induction k with
  | zero =>
    intro r hk _
    simp [countdown, hk]
  | succ k ih =>
    intro r hk hr
    have h1 := countdown_succ N (r + 1) (by omega) (by omega)
    rw [Nat.add_sub_cancel] at h1
    rw [h1, List.count_append, ih (r + 1) (by omega) (by omega)]
    have : ¬ ((r : Nat) : Int) = 0 := by omega
    rw [List.count_singleton]
    simp
    omega

/-- Of the values the decrements have returned so far, one is zero when nothing remains, and
none otherwise. -/
theorem countdown_count_zero (N r : Nat) (hN : 1 ≤ N) :
    (countdown N r).count 0 = if r = 0 then 1 else 0 := by
  by_cases hr : r = 0
  · subst hr
    have h1 := countdown_succ N 1 (le_refl _) hN
    rw [if_pos rfl, h1, List.count_append, countdown_count_pos N (N - 1) 1 rfl (by omega)]
    simp
  · rw [if_neg hr]
    exact countdown_count_pos N (N - r) r rfl (by omega)

/-! ### The life of one promise state -/

theorem isUser_iff (c : FContinuation) :
    isUser c = true ↔ ∃ tag, c.Continuation = .user tag := by
  obtain ⟨T, L⟩ := c
  cases L <;> simp [isUser]

theorem fire_inj (c d : FContinuation) (hc : isUser c = true) (hd : isUser d = true)
    (h : fire c = fire d) : c = d := by
  obtain ⟨T, L⟩ := c
  obtain ⟨T2, L2⟩ := d
  cases L with
  | decrementThenSet C P => simp [isUser] at hc
  | user tag =>
    cases L2 with
    | decrementThenSet C P => simp [isUser] at hd
    | user tag2 =>
      cases T <;> cases T2 <;> simp [fire] at h ⊢ <;> exact h

theorem count_fire (c : FContinuation) (hc : isUser c = true) :
    ∀ (l : List FContinuation), (∀ d, d ∈ l → isUser d = true) →
      (l.map fire).count (fire c) = l.count c := by
  intro l
  induction l with
  | nil => intro _; rfl
  | cons d l ih =>
    intro hl
    have hd := hl d (List.mem_cons_self _ _)
    rw [List.map_cons, List.count_cons, List.count_cons,
      ih (fun x hx => hl x (List.mem_cons_of_mem _ hx))]
    by_cases hdc : d = c
    · subst hdc
      simp
    · have : ¬ fire d = fire c := fun he => hdc (fire_inj d c hd hc he)
      simp [hdc, this]

/-- Dispatching continuations that hold closures of the client: each fires, in order. -/
theorem exec_users :
    ∀ (Q : List FContinuation) (fuel : Nat) (h : Heap), (∀ c, c ∈ Q → isUser c = true) →
      Q.length ≤ fuel →
      exec fuel h (Q.map Work.dispatch) = Res.ok { h with Log := h.Log ++ Q.map fire } := by
  intro Q
  induction Q with
  | nil =>
    intro fuel h _ _
    rw [List.map_nil, exec_nil]
    simp
  | cons c Q ih =>
    intro fuel h hQ hfuel
    obtain ⟨f, rfl⟩ : ∃ f, fuel = f + 1 := ⟨fuel - 1, by simp at hfuel; omega⟩
    obtain ⟨tag, htag⟩ := (isUser_iff c).mp (hQ c (List.mem_cons_self _ _))
    rw [List.map_cons, exec_cons, step_user h c tag htag]
    simp only [Res.ok_bind, List.nil_append]
    rw [ih f _ (fun x hx => hQ x (List.mem_cons_of_mem _ hx)) (by simp at hfuel; omega)]
    simp [withEvent]

theorem attachAll_incomplete (fuel : Nat) (p : Nat) :
    ∀ (cs : List FContinuation) (h : Heap), incomplete h p = true →
      ∃ h1, attachAll fuel p h cs = Res.ok h1 ∧ h1.Log = h.Log ∧
        queueOf h1 p = queueOf h p ++ cs ∧ incomplete h1 p = true ∧
        h1.Promises.length = h.Promises.length := by
  intro cs
  induction cs with
  | nil =>
    intro h hp
    exact ⟨h, rfl, rfl, by simp, hp, rfl⟩
  | cons c cs ih =>
    intro h hp
    have hlt := incomplete_lt h p hp
    obtain ⟨h1, hrun, hlog, hq, hinc, hlen⟩ := ih (enqueue h p c)
      (by rw [incomplete_enqueue]; exact hp)
    refine ⟨h1, ?_, ?_, ?_, hinc, by rw [hlen, enqueue_length]⟩
    · show (IVoxelPromiseState.AddContinuation fuel h p c).bind _ = _
      rw [AddContinuation_incomplete fuel h p c hp]
      exact hrun
    · rw [hlog]
      unfold enqueue
      cases h.Promises[p]? <;> rfl
    · rw [hq, queueOf_enqueue h p c p hlt, if_pos rfl]
      simp

theorem attachAll_complete (fuel : Nat) (hfuel : 1 ≤ fuel) (p : Nat) :
    ∀ (cs : List FContinuation) (h : Heap), p < h.Promises.length → incomplete h p = false →
      (∀ c, c ∈ cs → isUser c = true) →
      attachAll fuel p h cs = Res.ok { h with Log := h.Log ++ cs.map fire } := by
  intro cs
  induction cs with
  | nil =>
    intro h _ _ _
    simp [attachAll]
  | cons c cs ih =>
    intro h hlt hp hcs
    show (IVoxelPromiseState.AddContinuation fuel h p c).bind _ = _
    rw [AddContinuation_complete fuel h p c hlt hp]
    have := exec_users [c] fuel h (fun x hx => hcs x (by
      rw [List.mem_singleton.mp hx]; exact List.mem_cons_self _ _)) hfuel
    have h3 : exec fuel h [Work.dispatch c] =
        Res.ok { h with Log := h.Log ++ List.map fire [c] } := this
    rw [h3]
    simp only [Res.ok_bind]
    have h2 := ih { h with Log := h.Log ++ List.map fire [c] } hlt hp
      (fun x hx => hcs x (List.mem_cons_of_mem _ hx))
    rw [h2]
    simp

/-- The call of `Set()` on an incomplete promise state whose queue holds closures of the
client: the state becomes complete, the queue is cleared, each continuation fires, in order. -/
theorem Set_users (fuel : Nat) (h : Heap) (p : Nat) (hp : incomplete h p = true)
    (hQ : ∀ c, c ∈ queueOf h p → isUser c = true)
    (hfuel : (queueOf h p).length + 1 ≤ fuel) :
    IVoxelPromiseState.Set fuel h p =
      Res.ok { markComplete h p with
        Log := h.Log ++ Event.set p :: (queueOf h p).map fire } := by
  obtain ⟨s, hs, hc⟩ := (incomplete_iff h p).mp hp
  have hq := queueOf_eq h p s hs
  rw [hq] at hQ hfuel
  obtain ⟨f, rfl⟩ : ∃ f, fuel = f + 1 := ⟨fuel - 1, by omega⟩
  unfold IVoxelPromiseState.Set
  rw [exec_cons, step_set h p s hs hc]
  simp only [Res.ok_bind, List.append_nil]
  rw [exec_users _ f _ hQ (by omega), hq]
  simp [markComplete]

theorem Set_complete (fuel : Nat) (h : Heap) (p : Nat) (hlt : p < h.Promises.length)
    (hp : incomplete h p = false) : IVoxelPromiseState.Set (fuel + 1) h p = Res.fatal := by
  obtain ⟨s, hs⟩ : ∃ s, h.Promises[p]? = some s := ⟨_, List.getElem?_eq_getElem hlt⟩
  have hc : s.bIsComplete = true := by
    simpa [incomplete, hs] using hp
  simp [IVoxelPromiseState.Set, exec, hs, hc]

/-! ### Threads under a scheduler -/

theorem pendingCalls_set (l : List Work) :
    ∀ (ts : List (List Work)) (t : Nat), t < ts.length →
      (pendingCalls (ts.set t l)).Perm (l ++ pendingCalls (ts.set t [])) := by
  intro ts
  induction ts with
  | nil => intro t ht; cases ht
  | cons a ts ih =>
    intro t ht
    cases t with
    | zero => exact List.Perm.refl _
    | succ t =>
      have h1 := ih t (by simpa using ht)
      show (a ++ pendingCalls (ts.set t l)).Perm (l ++ (a ++ pendingCalls (ts.set t [])))
      refine (List.Perm.append_left a h1).trans ?_
      rw [← List.append_assoc, ← List.append_assoc]
      exact List.Perm.append_right _ List.perm_append_comm

theorem pendingCalls_get (ts : List (List Work)) (t : Nat) (l : List Work)
    (h : ts[t]? = some l) : (pendingCalls ts).Perm (l ++ pendingCalls (ts.set t [])) := by
  have hlt := (List.getElem?_eq_some_iff.mp h).1
  have hset : ts.set t l = ts := by
    apply List.ext_getElem?
    intro n
    by_cases hn : t = n
    · subst hn
      rw [List.getElem?_set_self hlt, h]
    · rw [List.getElem?_set_ne hn]
  have := pendingCalls_set l ts t hlt
  rw [hset] at this
  exact this

theorem pendingCalls_nil (ts : List (List Work)) (h : ∀ t, t ∈ ts → t = []) :
    pendingCalls ts = [] := by
  induction ts with
  | nil => rfl
  | cons a ts ih =>
    show a ++ pendingCalls ts = []
    rw [h a (List.mem_cons_self _ _), ih fun t ht => h t (List.mem_cons_of_mem _ ht)]
    rfl

/-- The invariant of the engine looks at the pending calls as a collection: their order does
not matter. -/
theorem Consistent_perm (h : Heap) (w w2 : List Work) (aggs : List Agg) (hp : w.Perm w2)
    (hJ : Consistent h w aggs) : Consistent h w2 aggs := by
  refine ⟨hJ.clean, hJ.conts, ?_, ?_, ?_, hJ.distinctC, hJ.distinctP, hJ.logOk, ?_⟩
  · intro c hc
    exact hJ.stack c (hp.mem_iff.mpr hc)
  · intro q hq
    exact hJ.setsOk q (hp.mem_iff.mpr hq)
  · intro q
    rw [← hp.count_eq]
    exact hJ.setsOnce q
  · intro a ha
    refine AggInv_congr h h w w2 a (le_refl _) (fun _ _ => rfl) (fun _ _ => rfl)
      (fun q hq => by rw [queueOf_ge h q hq]; rfl) rfl rfl rfl ?_ ?_ (hJ.agg a ha)
    · exact (hp.count_eq _).symm
    · exact (hp.count_eq _).symm

theorem stepBound_perm (h : Heap) (w w2 : List Work) (hp : w.Perm w2) :
    stepBound h w2 = stepBound h w := by
  unfold stepBound
  rw [(hp.map weight).sum_eq]

theorem accounted_perm (h : Heap) (w w2 : List Work) (c : FContinuation) (hp : w.Perm w2) :
    accounted h w2 c = accounted h w c := by
  unfold accounted
  rw [hp.count_eq]

theorem fire_ne_decremented (c : FContinuation) (C : Nat) (v : Int) :
    ¬ fire c = Event.decremented C v := by
  rcases fire_cases c with ⟨t, h⟩ | h <;> rw [h] <;> intro h2 <;> cases h2

/-- A step of the engine keeps the account of a continuation that holds a closure of the
client: what leaves a queue is about to be dispatched, and what is dispatched has fired. -/
theorem step_accounted (h : Heap) (x : Work) (rest : List Work) (r : Heap × List Work)
    (c : FContinuation) (hc : isUser c = true) (hs : step h x = Res.ok r) :
    accounted r.1 (r.2 ++ rest) c = accounted h (x :: rest) c := by
  cases x with
  | set p =>
    obtain ⟨s, hp, _, hr⟩ := step_set_inv h p r hs
    subst hr
    have hq : queued (markComplete h p) c + s.Continuations.count c = queued h c := by
      have := sum_map_set (fun s : FVoxelPromiseState => s.Continuations.count c) h.Promises p s
        { bIsComplete := true, Continuations := [] } hp
      simpa [queued, markComplete] using this
    have hl : (markComplete h p).Log.count (fire c) = h.Log.count (fire c) := by
      show (h.Log ++ [Event.set p]).count (fire c) = _
      rw [List.count_append, List.count_singleton]
      have : ¬ Event.set p = fire c := fun he => fire_ne_set c p he.symm
      simp [this]
    simp only [accounted, List.count_append, count_dispatch_map, count_dispatch_cons_set, hl]
    omega
  | dispatch d =>
    obtain ⟨T, L⟩ := d
    cases L with
    | user tag =>
      rw [step_user h _ tag rfl] at hs
      cases hs
      have hl : (withEvent h (fire ⟨T, .user tag⟩)).Log.count (fire c) =
          h.Log.count (fire c) + if (⟨T, .user tag⟩ : FContinuation) = c then 1 else 0 := by
        show (h.Log ++ [fire ⟨T, .user tag⟩]).count (fire c) = _
        rw [List.count_append, List.count_singleton]
        by_cases hdc : (⟨T, .user tag⟩ : FContinuation) = c
        · rw [hdc]
          simp
        · have : ¬ fire ⟨T, .user tag⟩ = fire c := fun he =>
            hdc (fire_inj _ c rfl hc he)
          simp [hdc, this]
      have hq : queued (withEvent h (fire ⟨T, .user tag⟩)) c = queued h c := rfl
      simp only [accounted, List.nil_append, count_dispatch_cons_dispatch, hl, hq]
      omega
    | decrementThenSet C P =>
      have hdc : ¬ (⟨T, .decrementThenSet C P⟩ : FContinuation) = c := by
        intro he
        rw [← he] at hc
        simp [isUser] at hc
      cases T with
      | Other i =>
        simp only [step] at hs
        cases hs
        have hl : (h.Log ++ [Event.dispatched ⟨.Other i, .decrementThenSet C P⟩]).count (fire c)
            = h.Log.count (fire c) := by
          rw [List.count_append, List.count_singleton]
          have : ¬ Event.dispatched ⟨.Other i, .decrementThenSet C P⟩ = fire c := by
            intro he
            rcases fire_cases c with ⟨t, h2⟩ | h2
            · rw [h2] at he
              cases he
            · rw [h2] at he
              cases he
              exact hdc rfl
          simp [this]
        simp only [accounted, queued, List.nil_append, count_dispatch_cons_dispatch, hl,
          if_neg hdc]
        omega
      | AnyThread =>
        simp only [step] at hs
        cases hd : Decrement_ReturnNew h C with
        | fatal => rw [hd] at hs; cases hs
        | timeout => rw [hd] at hs; cases hs
        | ok r1 =>
          rw [hd] at hs
          simp only at hs
          cases hs
          unfold Decrement_ReturnNew at hd
          cases hC : h.Counters[C]? with
          | none => rw [hC] at hd; cases hd
          | some Old =>
            rw [hC] at hd
            cases hd
            have hl : (h.Log ++ [Event.decremented C (Old - 1)]).count (fire c) =
                h.Log.count (fire c) := by
              rw [List.count_append, List.count_singleton]
              have : ¬ Event.decremented C (Old - 1) = fire c :=
                fun he => fire_ne_decremented c C (Old - 1) he.symm
              simp [this]
            have hpush : ((if (Old - 1 == 0) = true then [Work.set P] else []) ++ rest).count
                (Work.dispatch c) = rest.count (Work.dispatch c) := by
              split
              · rw [List.singleton_append, count_dispatch_cons_set]
              · rfl
            simp only [accounted, queued, count_dispatch_cons_dispatch, hl, if_neg hdc, hpush]
            omega

/-- Any thread can make its next step, and the step keeps what holds while the threads
run. -/
theorem stepThread_Running (K : Nat) (c : FContinuation) (aggs : List Agg) (h : Heap)
    (ts : List (List Work)) (t : Nat) (hc : isUser c = true) (hR : Running K c aggs h ts) :
    ∃ h2 ts2, stepThread h ts t = Res.ok (h2, ts2) ∧ Running K c aggs h2 ts2 ∧
      stepBound h2 (pendingCalls ts2) ≤ stepBound h (pendingCalls ts) ∧
      (∀ x rest, ts[t]? = some (x :: rest) →
        stepBound h2 (pendingCalls ts2) + 1 ≤ stepBound h (pendingCalls ts)) := by
  cases ht : ts[t]? with
  | none =>
    refine ⟨h, ts, by simp [stepThread, ht], hR, le_refl _, ?_⟩
    intro x rest hx
    cases hx
  | some l =>
    cases l with
    | nil =>
      refine ⟨h, ts, by simp [stepThread, ht], hR, le_refl _, ?_⟩
      intro x rest hx
      cases hx
    | cons x rest =>
      have hlt := (List.getElem?_eq_some_iff.mp ht).1
      have hp1 : (pendingCalls ts).Perm (x :: (rest ++ pendingCalls (ts.set t []))) :=
        pendingCalls_get ts t (x :: rest) ht
      have hJ1 := Consistent_perm h _ _ aggs hp1 hR.consistent
      obtain ⟨h2, pushed, hstep, hJ2⟩ := step_Consistent h x _ aggs hJ1
      obtain ⟨hlenP, _, hinc, _, hbound, _⟩ :=
        step_frame h x (rest ++ pendingCalls (ts.set t [])) (h2, pushed) hstep
      simp only at hlenP hinc hbound
      have hp2 : (pendingCalls (ts.set t (pushed ++ rest))).Perm
          (pushed ++ (rest ++ pendingCalls (ts.set t []))) := by
        have := pendingCalls_set (pushed ++ rest) ts t hlt
        rw [List.append_assoc] at this
        exact this
      have hb : stepBound h2 (pendingCalls (ts.set t (pushed ++ rest))) + 1 ≤
          stepBound h (pendingCalls ts) := by
        rw [stepBound_perm h2 _ _ hp2.symm, stepBound_perm h _ _ hp1.symm]
        exact hbound
      refine ⟨h2, ts.set t (pushed ++ rest), ?_, ⟨?_, ?_, ?_, ?_⟩, by omega, ?_⟩
      · simp [stepThread, ht, hstep]
      · exact Consistent_perm h2 _ _ aggs hp2.symm hJ2
      · rw [accounted_perm h2 _ _ c hp2.symm]
        have := step_accounted h x (rest ++ pendingCalls (ts.set t [])) (h2, pushed) c hc hstep
        simp only at this
        rw [this, accounted_perm h _ _ c hp1]
        exact hR.account
      · intro i hi hinc2
        rw [hinc i] at hinc2
        simp only [Bool.and_eq_true, Bool.not_eq_true', decide_eq_false_iff_not] at hinc2
        have hmem := hp1.mem_iff.mp (hR.inputs i hi hinc2.1)
        rcases List.mem_cons.mp hmem with hm | hm
        · exact absurd hm.symm hinc2.2
        · exact hp2.mem_iff.mpr (List.mem_append_right _ hm)
      · rw [hlenP]
        exact hR.promises
      · intro _ _ _
        exact hb

/-- Under every schedule the threads make their steps without a fatal check, and what holds
while they run keeps holding. -/
theorem runSchedule_Running (K : Nat) (c : FContinuation) (aggs : List Agg)
    (hc : isUser c = true) :
    ∀ (sched : List Nat) (h : Heap) (ts : List (List Work)), Running K c aggs h ts →
      ∃ h2 ts2, runSchedule sched h ts = Res.ok (h2, ts2) ∧ Running K c aggs h2 ts2 := by
  intro sched
  induction sched with
  | nil =>
    intro h ts hR
    exact ⟨h, ts, rfl, hR⟩
  | cons t sched ih =>
    intro h ts hR
    obtain ⟨h1, ts1, hstep, hR1, _, _⟩ := stepThread_Running K c aggs h ts t hc hR
    obtain ⟨h2, ts2, hrun, hR2⟩ := ih h1 ts1 hR1
    refine ⟨h2, ts2, ?_, hR2⟩
    show (stepThread h ts t).bind _ = _
    rw [hstep]
    exact hrun

theorem runSchedule_append (xs ys : List Nat) :
    ∀ (h : Heap) (ts : List (List Work)), runSchedule (xs ++ ys) h ts =
      (runSchedule xs h ts).bind fun r => runSchedule ys r.1 r.2 := by
  induction xs with
  | nil => intro h ts; rfl
  | cons t xs ih =>
    intro h ts
    show (stepThread h ts t).bind _ = ((stepThread h ts t).bind _).bind _
    cases stepThread h ts t with
    | ok r => exact ih r.1 r.2
    | fatal => rfl
    | timeout => rfl

/-- From any point of a run the threads can be scheduled to the end: every thread finishes
after finitely many steps. -/
theorem runSchedule_finish (K : Nat) (c : FContinuation) (aggs : List Agg)
    (hc : isUser c = true) :
    ∀ (n : Nat) (h : Heap) (ts : List (List Work)), Running K c aggs h ts →
      stepBound h (pendingCalls ts) ≤ n →
      ∃ ext h2 ts2, runSchedule ext h ts = Res.ok (h2, ts2) ∧ ∀ t, t ∈ ts2 → t = [] := by
  intro n
  induction n with
  | zero =>
    intro h ts hR hb
    by_cases hall : ∀ t, t ∈ ts → t = []
    · exact ⟨[], h, ts, rfl, hall⟩
    · exfalso
      simp only [not_forall] at hall
      obtain ⟨l, hl, hne⟩ := hall
      obtain ⟨t, ht⟩ := List.mem_iff_getElem?.mp hl
      cases l with
      | nil => exact hne rfl
      | cons x rest =>
        obtain ⟨_, _, _, _, _, hdec⟩ := stepThread_Running K c aggs h ts t hc hR
        have := hdec x rest ht
        omega
  | succ n ih =>
    intro h ts hR hb
    by_cases hall : ∀ t, t ∈ ts → t = []
    · exact ⟨[], h, ts, rfl, hall⟩
    · simp only [not_forall] at hall
      obtain ⟨l, hl, hne⟩ := hall
      obtain ⟨t, ht⟩ := List.mem_iff_getElem?.mp hl
      cases l with
      | nil => exact absurd rfl hne
      | cons x rest =>
        obtain ⟨h1, ts1, hstep, hR1, _, hdec⟩ := stepThread_Running K c aggs h ts t hc hR
        have hd := hdec x rest ht
        obtain ⟨ext, h2, ts2, hrun, hfin⟩ := ih h1 ts1 hR1 (by omega)
        refine ⟨t :: ext, h2, ts2, ?_, hfin⟩
        show (stepThread h ts t).bind _ = _
        rw [hstep]
        exact hrun

/-! ### The scenario before the threads start -/

theorem Consistent_cons_set (h : Heap) (q : Nat) (w : List Work) (aggs : List Agg)
    (hq : incomplete h q = true) (hnot : ∀ a, a ∈ aggs → a.P ≠ q) (hnew : Work.set q ∉ w)
    (hJ : Consistent h w aggs) : Consistent h (.set q :: w) aggs := by
  refine ⟨hJ.clean, hJ.conts, ?_, ?_, ?_, hJ.distinctC, hJ.distinctP, hJ.logOk, ?_⟩
  · intro d hd
    rcases List.mem_cons.mp hd with hd | hd
    · cases hd
    · exact hJ.stack d hd
  · intro q2 hq2
    rcases List.mem_cons.mp hq2 with hq2 | hq2
    · cases hq2
      exact hq
    · exact hJ.setsOk q2 hq2
  · intro q2
    rw [count_set_cons_set]
    by_cases hqq : q = q2
    · subst hqq
      rw [List.count_eq_zero_of_not_mem hnew]
      simp
    · rw [if_neg hqq]
      exact hJ.setsOnce q2
  · intro a ha
    refine AggInv_congr h h w (.set q :: w) a (le_refl _) (fun _ _ => rfl) (fun _ _ => rfl)
      (fun q hq => by rw [queueOf_ge h q hq]; rfl) rfl rfl rfl ?_ ?_ (hJ.agg a ha)
    · rw [count_dispatch_cons_set]
    · rw [count_set_cons_set, if_neg (fun h2 => hnot a ha h2.symm)]
      rfl

theorem Consistent_push_sets (h : Heap) (aggs : List Agg) (hJ : Consistent h [] aggs) :
    ∀ (qs : List Nat), qs.Nodup →
      (∀ q, q ∈ qs → incomplete h q = true ∧ ∀ a, a ∈ aggs → a.P ≠ q) →
      Consistent h (qs.map Work.set) aggs := by
  intro qs
  induction qs with
  | nil => intro _ _; exact hJ
  | cons q qs ih =>
    intro hnd hqs
    rw [List.nodup_cons] at hnd
    have hq := hqs q (List.mem_cons_self _ _)
    refine Consistent_cons_set h q _ aggs hq.1 hq.2 ?_
      (ih hnd.2 fun q2 h2 => hqs q2 (List.mem_cons_of_mem _ h2))
    intro hmem
    obtain ⟨q2, hq2, heq⟩ := List.mem_map.mp hmem
    cases heq
    exact hnd.1 hq2

theorem pendingCalls_completers (K : Nat) :
    pendingCalls (completers K) = (List.range K).map Work.set := by
  unfold completers
  generalize List.range K = l
  induction l with
  | nil => rfl
  | cons i l ih =>
    show [Work.set i] ++ pendingCalls (l.map fun i => [Work.set i]) = _
    rw [ih]
    rfl

theorem enqueue_Log (h : Heap) (p : Nat) (d : FContinuation) : (enqueue h p d).Log = h.Log := by
  unfold enqueue
  cases h.Promises[p]? <;> rfl

theorem queued_enqueue (h : Heap) (p : Nat) (d c : FContinuation)
    (hp : p < h.Promises.length) :
    queued (enqueue h p d) c = queued h c + if d = c then 1 else 0 := by
  obtain ⟨s, hs⟩ : ∃ s, h.Promises[p]? = some s := ⟨_, List.getElem?_eq_getElem hp⟩
  have := sum_map_set (fun s : FVoxelPromiseState => s.Continuations.count c) h.Promises p s
    { s with Continuations := s.Continuations ++ [d] } hs
  simp only [List.count_append, List.count_singleton] at this
  unfold enqueue queued
  rw [hs]
  simp only [beq_iff_eq] at this ⊢
  omega

theorem queued_New (h : Heap) (c : FContinuation) : queued (New h).1 c = queued h c := by
  simp [queued, New]

/-- The loop of the aggregate constructor over inputs that are all pending: it attaches the
closure to each and runs nothing. -/
theorem FromMany_loop_pending (fuel C P : Nat) :
    ∀ (rest : List FVoxelFuture) (h : Heap),
      (∀ f, f ∈ rest → ∃ q, f = { PromiseState := some q } ∧ incomplete h q = true) →
      ∃ h2, FromMany.loop fuel C P h rest = Res.ok h2 ∧ h2.Log = h.Log ∧
        (∀ c, isUser c = true → queued h2 c = queued h c) ∧
        (∀ q, incomplete h2 q = incomplete h q) := by
  intro rest
  induction rest with
  | nil =>
    intro h _
    exact ⟨h, rfl, rfl, fun _ _ => rfl, fun _ => rfl⟩
  | cons f rest ih =>
    intro h hall
    obtain ⟨q, hf, hq⟩ := hall f (List.mem_cons_self _ _)
    subst hf
    have hlt := incomplete_lt h q hq
    have hic : ¬ IsComplete h { PromiseState := some q } = true := by
      rw [IsComplete_some h q hlt, hq]
      simp
    obtain ⟨h2, hrun, hlog, hqu, hinc⟩ := ih (enqueue h q (closureOf C P))
      (by
        intro f2 hf2
        obtain ⟨q2, hf2q, hq2⟩ := hall f2 (List.mem_cons_of_mem _ hf2)
        exact ⟨q2, hf2q, by rw [incomplete_enqueue]; exact hq2⟩)
    refine ⟨h2, ?_, by rw [hlog, enqueue_Log], ?_, ?_⟩
    · rw [FromMany.loop, if_neg hic]
      simp only
      have hlit : ({ Thread := .AnyThread, Continuation := .decrementThenSet C P } :
          FContinuation) = closureOf C P := rfl
      rw [hlit, AddContinuation_incomplete fuel h q _ hq]
      simp only [Res.ok_bind]
      exact hrun
    · intro c hc
      rw [hqu c hc, queued_enqueue h q _ c hlt, if_neg]
      · rfl
      · intro he
        rw [← he] at hc
        simp [isUser, closureOf] at hc
    · intro q2
      rw [hinc, incomplete_enqueue]

/-- Creating promise states: each is new, incomplete and without continuation. -/
theorem runActions_newPromises (fuel : Nat) (aggs : List Agg) :
    ∀ (K : Nat) (h : Heap), Consistent h [] aggs →
      ∃ h2, runActions fuel (List.replicate K Action.newPromise) h = Res.ok h2 ∧
        Consistent h2 [] aggs ∧
        h2.Promises = h.Promises ++
          List.replicate K { bIsComplete := false, Continuations := [] } ∧
        h2.Log = h.Log ∧ h2.Counters = h.Counters := by
  intro K
  induction K with
  | zero =>
    intro h hJ
    exact ⟨h, rfl, hJ, by simp, rfl, rfl⟩
  | succ K ih =>
    intro h hJ
    obtain ⟨h2, hrun, hJ2, hP, hL, hC⟩ := ih (New h).1 (Consistent_New h aggs hJ)
    refine ⟨h2, ?_, hJ2, ?_, hL, hC⟩
    · rw [List.replicate_succ]
      exact hrun
    · rw [hP, List.replicate_succ]
      simp [New]

theorem refsOf_range (K : Nat) :
    refsOf ((List.range K).map fun i => ({ PromiseState := some i } : FVoxelFuture)) =
      List.range K := by
  unfold refsOf
  rw [List.filterMap_map]
  have : ((fun f : FVoxelFuture => f.PromiseState) ∘
      fun i => ({ PromiseState := some i } : FVoxelFuture)) = some := rfl
  rw [this, List.filterMap_some]

/-- The scenario before the threads start: the calls return, every promise state is
incomplete, nothing has been logged, and what holds while the threads run holds. -/
theorem scenario_spec (K fuel : Nat) (Thread : EVoxelFutureThread) (tag : Nat) (hK : 1 ≤ K)
    (hfuel : 1 ≤ fuel) :
    ∃ h0, runActions fuel (scenario K Thread tag) emptyHeap = Res.ok h0 ∧
      Running K { Thread := Thread, Continuation := .user tag }
        [⟨0, K, K, List.range K⟩] h0 (completers K) ∧
      h0.Log = [] ∧ (∀ i, i ≤ K → incomplete h0 i = true) := by
  obtain ⟨hA, hrunA, hJA, hPA, hLA, hCA⟩ :=
    runActions_newPromises fuel [] K emptyHeap Consistent_empty
  have hPA2 : hA.Promises = List.replicate K { bIsComplete := false, Continuations := [] } := by
    rw [hPA]
    rfl
  have hlenA : hA.Promises.length = K := by rw [hPA2, List.length_replicate]
  have hlenC : hA.Counters.length = 0 := by rw [hCA]; rfl
  have hincA : ∀ q, q < K → incomplete hA q = true := by
    intro q hq
    unfold incomplete
    rw [hPA2, List.getElem?_replicate, if_pos hq]
    rfl
  have hne : ((List.range K).map fun i => ({ PromiseState := some i } : FVoxelFuture)) ≠ [] := by
    intro h0
    have := congrArg List.length h0
    simp at this
    omega
  have hflen : ((List.range K).map fun i =>
      ({ PromiseState := some i } : FVoxelFuture)).length = K := by simp
  have href : ∀ f, f ∈ ((List.range K).map fun i => ({ PromiseState := some i } : FVoxelFuture))
      → refOk hA.Promises.length f = true := by
    intro f hf
    obtain ⟨i, hi, rfl⟩ := List.mem_map.mp hf
    rw [hlenA]
    simpa [refOk] using hi
  obtain ⟨h1, hrun1, hJ1, hlen1P, _, _, _⟩ := FromMany_spec fuel hfuel hA [] _ hne hJA href
  rw [hlenA, hlenC, hflen, refsOf_range, List.nil_append] at hJ1
  rw [hlenA] at hrun1 hlen1P
  obtain ⟨hl, hloop, hlog, hqu, hincl⟩ := FromMany_loop_pending fuel
    (MakeCounter (New hA).1 (K : Int)).2 (New hA).2
    ((List.range K).map fun i => ({ PromiseState := some i } : FVoxelFuture))
    (MakeCounter (New hA).1 (K : Int)).1
    (by
      intro f hf
      obtain ⟨i, hi, rfl⟩ := List.mem_map.mp hf
      refine ⟨i, rfl, ?_⟩
      show incomplete (New hA).1 i = true
      rw [incomplete_New, hincA i (List.mem_range.mp hi)]
      rfl)
  have hh : hl = h1 := by
    have h2 : FromMany fuel hA ((List.range K).map fun i =>
        ({ PromiseState := some i } : FVoxelFuture)) =
        Res.ok (hl, { PromiseState := some (New hA).2 }) := by
      unfold FromMany
      rw [if_neg (by rw [hflen]; omega), hflen]
      show (FromMany.loop fuel _ _ _ _).bind _ = _
      rw [hloop]
      rfl
    rw [hrun1] at h2
    cases h2
    rfl
  subst hh
  have hlog1 : hl.Log = [] := by
    rw [hlog]
    show hA.Log = []
    rw [hLA]
    rfl
  have hquA : ∀ c, queued hA c = 0 := by
    intro c
    unfold queued
    rw [hPA2]
    simp
  have hqu1 : ∀ c, isUser c = true → queued hl c = 0 := by
    intro c hc
    rw [hqu c hc]
    show queued (New hA).1 c = 0
    rw [queued_New, hquA]
  have hinc1 : ∀ i, i ≤ K → incomplete hl i = true := by
    intro i hi
    rw [hincl]
    show incomplete (New hA).1 i = true
    rw [incomplete_New, hlenA]
    by_cases hik : i = K
    · simp [hik]
    · rw [hincA i (by omega)]
      rfl
  have hJ0 := Consistent_enqueue_user hl K { Thread := Thread, Continuation := .user tag } tag
    [⟨0, K, K, List.range K⟩] rfl (hinc1 K (le_refl _)) hJ1
  have hinc0 : ∀ i, i ≤ K →
      incomplete (enqueue hl K { Thread := Thread, Continuation := .user tag }) i = true := by
    intro i hi
    rw [incomplete_enqueue]
    exact hinc1 i hi
  refine ⟨enqueue hl K { Thread := Thread, Continuation := .user tag }, ?_, ⟨?_, ?_, ?_, ?_⟩,
    by rw [enqueue_Log, hlog1], hinc0⟩
  · rw [scenario, runActions_append, hrunA]
    simp only [Res.ok_bind, runActions, applyAction, hrun1,
      AddContinuation_incomplete fuel hl K _ (hinc1 K (le_refl _))]
  · rw [pendingCalls_completers]
    refine Consistent_push_sets _ _ hJ0 (List.range K) (List.nodup_range K) ?_
    intro q hq
    have hqK := List.mem_range.mp hq
    refine ⟨hinc0 q (by omega), ?_⟩
    intro a ha
    rw [List.mem_singleton.mp ha]
    show K ≠ q
    omega
  · rw [pendingCalls_completers]
    unfold accounted
    rw [queued_enqueue hl K _ _ (by rw [hlen1P]; omega), if_pos rfl,
      hqu1 { Thread := Thread, Continuation := .user tag } rfl, enqueue_Log, hlog1]
    have : ((List.range K).map Work.set).count
        (Work.dispatch { Thread := Thread, Continuation := .user tag }) = 0 := by
      apply List.count_eq_zero_of_not_mem
      intro hmem
      obtain ⟨q, _, hq⟩ := List.mem_map.mp hmem
      cases hq
    rw [this]
    rfl
  · intro i hi _
    rw [pendingCalls_completers]
    exact List.mem_map.mpr ⟨i, List.mem_range.mpr hi, rfl⟩
  · rw [enqueue_length, hlen1P]

/-! ### What holds at every point of a run -/

/-- At every point of a run: `Set()` has been called on the aggregate at most once, and
exactly when the aggregate is complete; the aggregate is not complete while an input is
pending; the continuation attached to it has fired at most once; and once every thread has
finished, the aggregate is complete and the continuation has fired. -/
theorem Running.facts {K C : Nat} {c : FContinuation} {h : Heap} {ts : List (List Work)}
    (hR : Running K c [⟨C, K, K, List.range K⟩] h ts) :
    h.Log.count (Event.set K) ≤ 1 ∧ h.Log.count (fire c) ≤ 1 ∧
      (IsComplete h { PromiseState := some K } = true ↔ h.Log.count (Event.set K) = 1) ∧
      (IsComplete h { PromiseState := some K } = true →
        ∀ i, i < K → IsComplete h { PromiseState := some i } = true) ∧
      ((∀ t, t ∈ ts → t = []) →
        IsComplete h { PromiseState := some K } = true ∧ h.Log.count (Event.set K) = 1 ∧
          h.Log.count (fire c) = 1) := by
  have hmem : (⟨C, K, K, List.range K⟩ : Agg) ∈ [(⟨C, K, K, List.range K⟩ : Agg)] :=
    List.mem_singleton.mpr rfl
  have hA := hR.consistent.agg _ hmem
  have hsets : h.Log.count (Event.set K) = if incomplete h K = true then 0 else 1 := hA.sets
  have hpos : 0 < remaining h (pendingCalls ts) ⟨C, K, K, List.range K⟩ →
      incomplete h K = true := fun hp => (hA.phasePos hp).1
  have hacc := hR.account
  have hKc : IsComplete h { PromiseState := some K } = !incomplete h K :=
    IsComplete_some h K (by rw [hR.promises]; omega)
  have hset1 : IsComplete h { PromiseState := some K } = true ↔
      h.Log.count (Event.set K) = 1 := by
    rw [hKc, hsets]
    cases incomplete h K <;> simp
  refine ⟨?_, ?_, hset1, ?_, ?_⟩
  · rw [hsets]
    split <;> omega
  · unfold accounted at hacc
    omega
  · intro hc i hi
    rw [IsComplete_some h i (by rw [hR.promises]; omega)]
    cases hinc : incomplete h i with
    | false => rfl
    | true =>
      exfalso
      have hp : 0 < remaining h (pendingCalls ts) ⟨C, K, K, List.range K⟩ := by
        have : 0 < (List.range K).countP (incomplete h) :=
          List.countP_pos_iff.mpr ⟨i, List.mem_range.mpr hi, hinc⟩
        unfold remaining pendingOf
        dsimp only
        omega
      rw [hKc, hpos hp] at hc
      cases hc
  · intro hall
    have hnil := pendingCalls_nil ts hall
    have hJ := hR.consistent
    rw [hnil] at hJ hacc
    have hin : ∀ i, i < K → incomplete h i = false := by
      intro i hi
      cases hinc : incomplete h i with
      | false => rfl
      | true =>
        have := hR.inputs i hi hinc
        rw [hnil] at this
        cases this
    have hKf : incomplete h K = false :=
      (hJ.complete_iff _ hmem).mpr fun q hq => hin q (List.mem_range.mp hq)
    have hq0 : queued h c = 0 := by
      unfold queued
      apply List.sum_eq_zero
      intro x hx
      obtain ⟨s, hs, rfl⟩ := List.mem_map.mp hx
      obtain ⟨q, hq⟩ := List.mem_iff_getElem?.mp hs
      have hlt := (List.getElem?_eq_some_iff.mp hq).1
      rw [hR.promises] at hlt
      have hcq : incomplete h q = false := by
        by_cases hqK : q = K
        · rw [hqK]; exact hKf
        · exact hin q (by omega)
      have := hJ.clean q hcq
      rw [queueOf_eq h q s hq] at this
      rw [this]
      rfl
    refine ⟨by rw [hKc, hKf]; rfl, by rw [hsets, hKf]; rfl, ?_⟩
    unfold accounted at hacc
    rw [hq0] at hacc
    simpa using hacc

/-! ## Claims about futures -/

/-- C20: the aggregate constructor on an empty sequence of futures returns a future with no
promise state and leaves the heap as it was (no promise state and no counter allocated, no
continuation attached, nothing run), and that future is complete. -/
theorem C20_from_many_empty (fuel : Nat) (h : Heap) :
    ∃ r, FromMany fuel h [] = Res.ok r ∧ r.2.PromiseState = none ∧ r.1 = h ∧
      r.1.Promises.length = h.Promises.length ∧ r.1.Counters.length = h.Counters.length ∧
      (∀ p : Nat, r.1.Promises[p]? = h.Promises[p]?) ∧ r.1.Log = h.Log ∧
      IsComplete r.1 r.2 = true :=
  ⟨(h, { PromiseState := none }), rfl, rfl, rfl, rfl, rfl, fun _ => rfl, rfl, rfl⟩

/-- C21: in the sequential model, the client makes any calls, constructs the aggregate of a
non-empty sequence of futures, and makes any further calls (completing pending inputs in any
order among them). Every call returns. On return from the constructor the aggregate is
complete if and only if every input was complete before the call, the inputs being left as
they were; and at every later point the aggregate is complete if and only if every input is
complete, so it stays incomplete while an input is pending and is complete as soon as the
last pending input has been completed. -/
theorem C21_from_many_completion (fuel : Nat) (acts1 : List Action)
    (Futures : List FVoxelFuture) (acts2 : List Action) (hne : Futures ≠ [])
    (hok : actionsOk { promises := 0, completed := [], aggregates := [] }
      (acts1 ++ Action.fromMany Futures :: acts2) = true)
    (hfuel : budget (acts1 ++ Action.fromMany Futures :: acts2) ≤ fuel) :
    ∃ h0 h1 F h2,
      runActions fuel acts1 emptyHeap = Res.ok h0 ∧
      FromMany fuel h0 Futures = Res.ok (h1, F) ∧
      runActions fuel acts2 h1 = Res.ok h2 ∧
      (IsComplete h1 F = true ↔ ∀ f, f ∈ Futures → IsComplete h0 f = true) ∧
      (∀ f, f ∈ Futures → IsComplete h1 f = IsComplete h0 f) ∧
      (IsComplete h2 F = true ↔ ∀ f, f ∈ Futures → IsComplete h2 f = true) := by
  obtain ⟨h0, h1, h2, aggs1, aggs2, hrun0, hrun1, hrun2, _, hJ1, ⟨aggs3, hJ2, hsub⟩, hagg,
    href, hinc, hlen1, hlen2⟩ := aggregate_scenario fuel acts1 Futures acts2 hne hok hfuel
  have hmem : (⟨h0.Counters.length, h0.Promises.length, Futures.length, refsOf Futures⟩ :
      Agg) ∈ aggs2 := by
    rw [hagg]
    exact List.mem_append_right _ (List.mem_singleton.mpr rfl)
  have hsame : ∀ f, f ∈ Futures → IsComplete h1 f = IsComplete h0 f := by
    intro f hf
    have hr := href f hf
    obtain ⟨ps⟩ := f
    cases ps with
    | none => rfl
    | some q =>
      have hq : q < h0.Promises.length := by simpa [refOk] using hr
      rw [IsComplete_some h1 q (by omega), IsComplete_some h0 q hq, hinc q (by omega)]
  have hF : ∀ (h : Heap) (aggs : List Agg), Consistent h [] aggs →
      (⟨h0.Counters.length, h0.Promises.length, Futures.length, refsOf Futures⟩ :
        Agg) ∈ aggs →
      h0.Promises.length < h.Promises.length →
      (IsComplete h { PromiseState := some h0.Promises.length } = true ↔
        ∀ f, f ∈ Futures → IsComplete h f = true) := by
    intro h aggs hJ ha hlt
    rw [IsComplete_some h _ hlt, all_complete_iff h h0.Promises.length (by omega) Futures href,
      ← hJ.complete_iff _ ha]
    simp
  refine ⟨h0, h1, _, h2, hrun0, hrun1, hrun2, ?_, hsame, ?_⟩
  · rw [hF h1 aggs2 hJ1 hmem (by omega)]
    constructor
    · intro hall f hf
      rw [← hsame f hf]
      exact hall f hf
    · intro hall f hf
      rw [hsame f hf]
      exact hall f hf
  · exact hF h2 aggs3 hJ2 (hsub _ hmem) (by omega)

/-- Witness for C21: the first input is complete and the second is pending when the aggregate
is constructed, and the second is completed afterwards. -/
theorem C21_witness :
    ([{ PromiseState := some 0 }, { PromiseState := some 1 }] : List FVoxelFuture) ≠ [] ∧
    actionsOk { promises := 0, completed := [], aggregates := [] }
      ([Action.newPromise, Action.newPromise, Action.complete 0] ++
        Action.fromMany [{ PromiseState := some 0 }, { PromiseState := some 1 }] ::
          [Action.complete 1]) = true ∧
    ∃ h0 h1 F h2,
      runActions 20 [Action.newPromise, Action.newPromise, Action.complete 0] emptyHeap
        = Res.ok h0 ∧
      FromMany 20 h0 [{ PromiseState := some 0 }, { PromiseState := some 1 }]
        = Res.ok (h1, F) ∧
      runActions 20 [Action.complete 1] h1 = Res.ok h2 ∧
      (IsComplete h1 F = true ↔ ∀ f, f ∈ ([{ PromiseState := some 0 },
        { PromiseState := some 1 }] : List FVoxelFuture) → IsComplete h0 f = true) ∧
      (∀ f, f ∈ ([{ PromiseState := some 0 }, { PromiseState := some 1 }] :
        List FVoxelFuture) → IsComplete h1 f = IsComplete h0 f) ∧
      (IsComplete h2 F = true ↔ ∀ f, f ∈ ([{ PromiseState := some 0 },
        { PromiseState := some 1 }] : List FVoxelFuture) → IsComplete h2 f = true) :=
  ⟨by decide, by decide,
    C21_from_many_completion 20 [Action.newPromise, Action.newPromise, Action.complete 0]
      [{ PromiseState := some 0 }, { PromiseState := some 1 }] [Action.complete 1]
      (by decide) (by decide) (by decide)⟩

/-- C22: in the sequential model, for the aggregate of a non-empty sequence of `N` futures (a
future may be listed more than once) and any calls of the client afterwards, which complete
pending inputs in any order: the counter is allocated with the value `N` and has not been
decremented before; at every later point the decrements made so far returned `N - 1`,
`N - 2`, ... down to the number of entries of the sequence that are still pending, so that
once every input is complete there have been exactly `N` decrements; a decrement has returned
zero exactly when no entry is pending, and then only one has; and `Set()` has been called on
the promise state of the aggregate once in that case and not at all otherwise. -/
theorem C22_counter_and_single_set (fuel : Nat) (acts1 : List Action)
    (Futures : List FVoxelFuture) (acts2 : List Action) (hne : Futures ≠ [])
    (hok : actionsOk { promises := 0, completed := [], aggregates := [] }
      (acts1 ++ Action.fromMany Futures :: acts2) = true)
    (hfuel : budget (acts1 ++ Action.fromMany Futures :: acts2) ≤ fuel) :
    ∃ h0 h1 F h2,
      runActions fuel acts1 emptyHeap = Res.ok h0 ∧
      FromMany fuel h0 Futures = Res.ok (h1, F) ∧
      runActions fuel acts2 h1 = Res.ok h2 ∧
      F.PromiseState = some h0.Promises.length ∧
      (MakeCounter (New h0).1 (Futures.length : Int)).2 = h0.Counters.length ∧
      (MakeCounter (New h0).1 (Futures.length : Int)).1.Counters[h0.Counters.length]?
        = some (Futures.length : Int) ∧
      decsOf h0.Counters.length h0.Log = [] ∧
      h0.Log.count (Event.set h0.Promises.length) = 0 ∧
      decsOf h0.Counters.length h2.Log =
        countdown Futures.length (Futures.countP fun f => !IsComplete h2 f) ∧
      (decsOf h0.Counters.length h2.Log).count 0 =
        (if Futures.countP (fun f => !IsComplete h2 f) = 0 then 1 else 0) ∧
      h2.Log.count (Event.set h0.Promises.length) =
        (if Futures.countP (fun f => !IsComplete h2 f) = 0 then 1 else 0) ∧
      ((∀ f, f ∈ Futures → IsComplete h2 f = true) →
        (decsOf h0.Counters.length h2.Log).length = Futures.length) := by
  obtain ⟨h0, h1, h2, aggs1, aggs2, hrun0, hrun1, hrun2, hJ0, hJ1, ⟨aggs3, hJ2, hsub⟩, hagg,
    href, hinc, hlen1, hlen2⟩ := aggregate_scenario fuel acts1 Futures acts2 hne hok hfuel
  have hlen : 1 ≤ Futures.length := by
    cases Futures with
    | nil => exact absurd rfl hne
    | cons f rest => simp
  have hmem : (⟨h0.Counters.length, h0.Promises.length, Futures.length, refsOf Futures⟩ :
      Agg) ∈ aggs3 := by
    apply hsub
    rw [hagg]
    exact List.mem_append_right _ (List.mem_singleton.mpr rfl)
  have hA := hJ2.agg _ hmem
  have hrem : remaining h2 []
      ⟨h0.Counters.length, h0.Promises.length, Futures.length, refsOf Futures⟩ =
      Futures.countP fun f => !IsComplete h2 f := by
    rw [countP_pending h2 h0.Promises.length (by omega) Futures href]
    simp [remaining, pendingOf]
  have hdecs := hA.decs
  have hsets := hA.sets
  have hpos := hA.phasePos
  have hzero := hA.phaseZero
  rw [hrem] at hdecs hpos hzero
  dsimp only at hdecs hsets hpos hzero
  refine ⟨h0, h1, _, h2, hrun0, hrun1, hrun2, rfl, ?_, ?_, ?_, ?_, hdecs, ?_, ?_, ?_⟩
  · simp [MakeCounter, New]
  · simp [MakeCounter, New]
  · apply decsOf_eq_nil
    intro v hv
    have := (hJ0.logOk _ hv).1 _ _ rfl
    omega
  · apply List.count_eq_zero_of_not_mem
    intro hv
    have := (hJ0.logOk _ hv).2 _ rfl
    omega
  · rw [hdecs]
    exact countdown_count_zero _ _ hlen
  · rw [hsets]
    by_cases hr : (Futures.countP fun f => !IsComplete h2 f) = 0
    · rw [if_pos hr]
      rcases hzero hr with h3 | h3
      · have := h3.2
        simp at this
      · rw [h3.1]
        rfl
    · rw [if_neg hr, (hpos (by omega)).1]
      rfl
  · intro hall
    have hr : (Futures.countP fun f => !IsComplete h2 f) = 0 := by
      rw [List.countP_eq_zero]
      intro f hf
      rw [hall f hf]
      simp
    rw [hdecs, countdown_length, hr]
    rfl

/-- Witness for C22: the pending future is listed twice. -/
theorem C22_witness :
    ([{ PromiseState := some 0 }, { PromiseState := some 1 }, { PromiseState := some 1 }] :
      List FVoxelFuture) ≠ [] ∧
    actionsOk { promises := 0, completed := [], aggregates := [] }
      ([Action.newPromise, Action.newPromise, Action.complete 0] ++
        Action.fromMany [{ PromiseState := some 0 }, { PromiseState := some 1 },
          { PromiseState := some 1 }] :: [Action.complete 1]) = true ∧
    ∃ h0 h1 F h2,
      runActions 20 [Action.newPromise, Action.newPromise, Action.complete 0] emptyHeap
        = Res.ok h0 ∧
      FromMany 20 h0 [{ PromiseState := some 0 }, { PromiseState := some 1 },
        { PromiseState := some 1 }] = Res.ok (h1, F) ∧
      runActions 20 [Action.complete 1] h1 = Res.ok h2 ∧
      F.PromiseState = some h0.Promises.length ∧
      (MakeCounter (New h0).1 3).2 = h0.Counters.length ∧
      (MakeCounter (New h0).1 3).1.Counters[h0.Counters.length]? = some 3 ∧
      decsOf h0.Counters.length h0.Log = [] ∧
      h0.Log.count (Event.set h0.Promises.length) = 0 ∧
      decsOf h0.Counters.length h2.Log =
        countdown 3 (([{ PromiseState := some 0 }, { PromiseState := some 1 },
          { PromiseState := some 1 }] : List FVoxelFuture).countP
            fun f => !IsComplete h2 f) ∧
      (decsOf h0.Counters.length h2.Log).count 0 =
        (if ([{ PromiseState := some 0 }, { PromiseState := some 1 },
          { PromiseState := some 1 }] : List FVoxelFuture).countP
            (fun f => !IsComplete h2 f) = 0 then 1 else 0) ∧
      h2.Log.count (Event.set h0.Promises.length) =
        (if ([{ PromiseState := some 0 }, { PromiseState := some 1 },
          { PromiseState := some 1 }] : List FVoxelFuture).countP
            (fun f => !IsComplete h2 f) = 0 then 1 else 0) ∧
      ((∀ f, f ∈ ([{ PromiseState := some 0 }, { PromiseState := some 1 },
          { PromiseState := some 1 }] : List FVoxelFuture) → IsComplete h2 f = true) →
        (decsOf h0.Counters.length h2.Log).length = 3) :=
  ⟨by decide, by decide,
    C22_counter_and_single_set 20 [Action.newPromise, Action.newPromise, Action.complete 0]
      [{ PromiseState := some 0 }, { PromiseState := some 1 }, { PromiseState := some 1 }]
      [Action.complete 1] (by decide) (by decide) (by decide)⟩

/-- C23: `K` futures feed one aggregate, to which a continuation is attached, and `K` threads
each call `Set()` on the promise state of one of the futures, their steps interleaved by an
arbitrary schedule. Under every schedule no step is fatal, so no `Set()` is called twice; at
every point of the run `Set()` has been called on the aggregate at most once, and exactly
when the aggregate is complete, which it is not while an input is pending, and the
continuation has fired at most once; once every thread has finished the aggregate is
complete, `Set()` was called on it once and the continuation fired once; and from every
point the threads can be scheduled on to such an end. -/
theorem C23_interleavings (K fuel : Nat) (Thread : EVoxelFutureThread) (tag : Nat)
    (sched : List Nat) (hK : 1 ≤ K) (hfuel : 1 ≤ fuel) :
    ∃ h0, runActions fuel (scenario K Thread tag) emptyHeap = Res.ok h0 ∧
      IsComplete h0 { PromiseState := some K } = false ∧ h0.Log = [] ∧
      ∃ h ts, runSchedule sched h0 (completers K) = Res.ok (h, ts) ∧
        h.Log.count (Event.set K) ≤ 1 ∧
        h.Log.count (fire { Thread := Thread, Continuation := .user tag }) ≤ 1 ∧
        (IsComplete h { PromiseState := some K } = true ↔ h.Log.count (Event.set K) = 1) ∧
        (IsComplete h { PromiseState := some K } = true →
          ∀ i, i < K → IsComplete h { PromiseState := some i } = true) ∧
        ((∀ t, t ∈ ts → t = []) →
          IsComplete h { PromiseState := some K } = true ∧ h.Log.count (Event.set K) = 1 ∧
            h.Log.count (fire { Thread := Thread, Continuation := .user tag }) = 1) ∧
        ∃ ext h2 ts2, runSchedule (sched ++ ext) h0 (completers K) = Res.ok (h2, ts2) ∧
          (∀ t, t ∈ ts2 → t = []) ∧ IsComplete h2 { PromiseState := some K } = true ∧
          h2.Log.count (Event.set K) = 1 ∧
          h2.Log.count (fire { Thread := Thread, Continuation := .user tag }) = 1 := by
  obtain ⟨h0, hrun0, hR0, hlog0, hinc0⟩ := scenario_spec K fuel Thread tag hK hfuel
  have hc : isUser { Thread := Thread, Continuation := .user tag } = true := rfl
  obtain ⟨h, ts, hrun, hR⟩ := runSchedule_Running K _ _ hc sched h0 (completers K) hR0
  obtain ⟨f1, f2, f3, f4, f5⟩ := hR.facts
  obtain ⟨ext, h2, ts2, hrun2, hfin⟩ :=
    runSchedule_finish K _ _ hc (stepBound h (pendingCalls ts)) h ts hR (le_refl _)
  obtain ⟨h3, ts3, hrun3, hR3⟩ := runSchedule_Running K _ _ hc ext h ts hR
  rw [hrun2] at hrun3
  cases hrun3
  obtain ⟨g1, g2, g3⟩ := hR3.facts.2.2.2.2 hfin
  refine ⟨h0, hrun0, ?_, hlog0, h, ts, hrun, f1, f2, f3, f4, f5, ext, h2, ts2, ?_, hfin,
    g1, g2, g3⟩
  · rw [IsComplete_some h0 K (by rw [hR0.promises]; omega), hinc0 K (le_refl _)]
    rfl
  · rw [runSchedule_append, hrun]
    exact hrun2

/-- Instance of C23: two threads, the second of which runs first. -/
theorem C23_witness :
    1 ≤ 2 ∧ 1 ≤ 1 ∧
    ∃ h0, runActions 1 (scenario 2 .AnyThread 7) emptyHeap = Res.ok h0 ∧
      IsComplete h0 { PromiseState := some 2 } = false ∧ h0.Log = [] ∧
      ∃ h ts, runSchedule [1, 0, 1, 0, 0] h0 (completers 2) = Res.ok (h, ts) ∧
        h.Log.count (Event.set 2) ≤ 1 ∧
        h.Log.count (fire { Thread := .AnyThread, Continuation := .user 7 }) ≤ 1 ∧
        (IsComplete h { PromiseState := some 2 } = true ↔ h.Log.count (Event.set 2) = 1) ∧
        (IsComplete h { PromiseState := some 2 } = true →
          ∀ i, i < 2 → IsComplete h { PromiseState := some i } = true) ∧
        ((∀ t, t ∈ ts → t = []) →
          IsComplete h { PromiseState := some 2 } = true ∧ h.Log.count (Event.set 2) = 1 ∧
            h.Log.count (fire { Thread := .AnyThread, Continuation := .user 7 }) = 1) ∧
        ∃ ext h2 ts2, runSchedule ([1, 0, 1, 0, 0] ++ ext) h0 (completers 2) =
            Res.ok (h2, ts2) ∧
          (∀ t, t ∈ ts2 → t = []) ∧ IsComplete h2 { PromiseState := some 2 } = true ∧
          h2.Log.count (Event.set 2) = 1 ∧
          h2.Log.count (fire { Thread := .AnyThread, Continuation := .user 7 }) = 1 :=
  ⟨by decide, by decide,
    C23_interleavings 2 1 .AnyThread 7 [1, 0, 1, 0, 0] (by decide) (by decide)⟩

/-- C24: in the sequential model of a promise state, continuations that hold closures of the
client are attached while the state is incomplete, `Set()` is called, and more are attached
afterwards. Attaching to the incomplete state queues the continuation and fires nothing;
`Set()` dispatches each queued continuation once, in order, and leaves the pending list
empty; attaching to the complete state dispatches the continuation at once and leaves the
promise states as they are, so nothing is queued; a second `Set()` is fatal; and over the
whole run every continuation has fired exactly as many times as it was attached. -/
theorem C24_continuations_fire_once (fuel : Nat) (h : Heap) (p : Nat)
    (before after : List FContinuation) (hp : incomplete h p = true)
    (hQ : ∀ c, c ∈ queueOf h p → isUser c = true)
    (hb : ∀ c, c ∈ before → isUser c = true) (ha : ∀ c, c ∈ after → isUser c = true)
    (hfuel : (queueOf h p).length + before.length + 1 ≤ fuel) :
    ∃ h1 h2 h3,
      attachAll fuel p h before = Res.ok h1 ∧
      IVoxelPromiseState.Set fuel h1 p = Res.ok h2 ∧
      attachAll fuel p h2 after = Res.ok h3 ∧
      (h1.Log = h.Log ∧ queueOf h1 p = queueOf h p ++ before ∧ incomplete h1 p = true) ∧
      (h2.Log = h1.Log ++ Event.set p :: (queueOf h1 p).map fire ∧ queueOf h2 p = [] ∧
        incomplete h2 p = false) ∧
      (h3.Log = h2.Log ++ after.map fire ∧ h3.Promises = h2.Promises) ∧
      IVoxelPromiseState.Set fuel h3 p = Res.fatal ∧
      (∀ c, isUser c = true →
        (h3.Log.drop h.Log.length).count (fire c) =
          (queueOf h p ++ before ++ after).count c) := by
  obtain ⟨h1, hrun1, hlog1, hq1, hinc1, hlen1⟩ := attachAll_incomplete fuel p before h hp
  have hQ1 : ∀ c, c ∈ queueOf h1 p → isUser c = true := by
    intro c hc
    rw [hq1] at hc
    rcases List.mem_append.mp hc with hc | hc
    · exact hQ c hc
    · exact hb c hc
  have hset := Set_users fuel h1 p hinc1 hQ1 (by rw [hq1, List.length_append]; exact hfuel)
  have hlt : p < h1.Promises.length := incomplete_lt h1 p hinc1
  have hinc2 : incomplete { markComplete h1 p with
      Log := h1.Log ++ Event.set p :: (queueOf h1 p).map fire } p = false := by
    show incomplete (markComplete h1 p) p = false
    rw [incomplete_markComplete]
    simp
  have hlt2 : p < ({ markComplete h1 p with
      Log := h1.Log ++ Event.set p :: (queueOf h1 p).map fire } : Heap).Promises.length := by
    simp [markComplete, hlt]
  have hrun3 := attachAll_complete fuel (by omega) p after _ hlt2 hinc2 ha
  obtain ⟨f, hf⟩ : ∃ f, fuel = f + 1 := ⟨fuel - 1, by omega⟩
  refine ⟨h1, _, _, hrun1, hset, hrun3, ⟨hlog1, hq1, hinc1⟩, ⟨rfl, ?_, hinc2⟩,
    ⟨rfl, rfl⟩, ?_, ?_⟩
  · show queueOf (markComplete h1 p) p = []
    rw [queueOf_markComplete, if_pos rfl]
  · rw [hf]
    exact Set_complete f _ p hlt2 hinc2
  · intro c hc
    show ((h1.Log ++ Event.set p :: (queueOf h1 p).map fire ++ after.map fire).drop
      h.Log.length).count (fire c) = _
    rw [hlog1, List.append_assoc, List.drop_left, List.cons_append, List.count_cons,
      if_neg (by simpa using fun he => fire_ne_set c p he.symm), Nat.add_zero, ← List.map_append,
      hq1]
    apply count_fire c hc
    intro d hd
    rcases List.mem_append.mp hd with hd | hd
    · rcases List.mem_append.mp hd with hd | hd
      · exact hQ d hd
      · exact hb d hd
    · exact ha d hd

/-- Witness for C24: two continuations attached before `Set()` and one after it. -/
theorem C24_witness :
    incomplete (New emptyHeap).1 0 = true ∧
    (∀ c, c ∈ queueOf (New emptyHeap).1 0 → isUser c = true) ∧
    (∀ c, c ∈ ([{ Thread := .AnyThread, Continuation := .user 1 },
      { Thread := .Other 2, Continuation := .user 2 }] : List FContinuation) →
        isUser c = true) ∧
    (∀ c, c ∈ ([{ Thread := .AnyThread, Continuation := .user 3 }] : List FContinuation) →
      isUser c = true) ∧
    ∃ h1 h2 h3,
      attachAll 5 0 (New emptyHeap).1 [{ Thread := .AnyThread, Continuation := .user 1 },
        { Thread := .Other 2, Continuation := .user 2 }] = Res.ok h1 ∧
      IVoxelPromiseState.Set 5 h1 0 = Res.ok h2 ∧
      attachAll 5 0 h2 [{ Thread := .AnyThread, Continuation := .user 3 }] = Res.ok h3 ∧
      (h1.Log = (New emptyHeap).1.Log ∧
        queueOf h1 0 = queueOf (New emptyHeap).1 0 ++
          ([{ Thread := .AnyThread, Continuation := .user 1 },
            { Thread := .Other 2, Continuation := .user 2 }] : List FContinuation) ∧
        incomplete h1 0 = true) ∧
      (h2.Log = h1.Log ++ Event.set 0 :: (queueOf h1 0).map fire ∧ queueOf h2 0 = [] ∧
        incomplete h2 0 = false) ∧
      (h3.Log = h2.Log ++
          ([{ Thread := .AnyThread, Continuation := .user 3 }] : List FContinuation).map fire ∧
        h3.Promises = h2.Promises) ∧
      IVoxelPromiseState.Set 5 h3 0 = Res.fatal ∧
      (∀ c, isUser c = true →
        (h3.Log.drop (New emptyHeap).1.Log.length).count (fire c) =
          (queueOf (New emptyHeap).1 0 ++
            ([{ Thread := .AnyThread, Continuation := .user 1 },
              { Thread := .Other 2, Continuation := .user 2 }] : List FContinuation) ++
            ([{ Thread := .AnyThread, Continuation := .user 3 }] :
              List FContinuation)).count c) :=
  ⟨by decide, by decide, by decide, by decide,
    C24_continuations_fire_once 5 (New emptyHeap).1 0
      [{ Thread := .AnyThread, Continuation := .user 1 },
        { Thread := .Other 2, Continuation := .user 2 }]
      [{ Thread := .AnyThread, Continuation := .user 3 }]
      (by decide) (by decide) (by decide) (by decide) (by decide)⟩

end VoxelFuture

namespace VoxelWorldSubsystem

open VoxelMap

set_option linter.unusedSectionVars false

section RegistryLemmas

variable {W N O : Type} [DecidableEq W] [DecidableEq N]

theorem RegOK.widen {envW : Env W} {envN : Env N} {B B2 : Nat}
    {M : FVoxelWorldSubsystemManager W N O} (h : RegOK envW envN B M) (hle : B ≤ B2) :
    RegOK envW envN B2 M :=
  ⟨h.outer, h.inner, le_trans h.outerSize hle, fun w m hm => le_trans (h.innerSize w m hm) hle⟩

/-- The registry holds `x` for a world and a name exactly when the map of the world is in
the outer map and holds `x` under the name. -/
theorem entryOf_eq_some_iff (envW : Env W) (envN : Env N) (fuel B : Nat)
    (M : FVoxelWorldSubsystemManager W N O) (w : W) (n : N)
    (x : Option (IVoxelWorldSubsystem W O)) (hR : RegOK envW envN B M) (hB : B < fuel) :
    entryOf envW envN fuel M w n = Res.ok (some x) ↔
      ∃ m, (w, m) ∈ entries M.WorldToNameToSubsystem_RequiresLock ∧ (n, x) ∈ entries m := by
  have hfuel : M.WorldToNameToSubsystem_RequiresLock.Elements.length < fuel :=
    lt_of_le_of_lt hR.outerSize hB
  unfold entryOf
  rcases mem_or_not_mem M.WorldToNameToSubsystem_RequiresLock w with ⟨m0, hm0⟩ | hno
  · rw [FindValue_of_mem envW _ fuel w m0 hR.outer hfuel hm0]
    simp only [Res.ok_bind]
    rw [FindValue_eq_some_iff envN m0 fuel n x (hR.inner w m0 hm0)
      (lt_of_le_of_lt (hR.innerSize w m0 hm0) hB)]
    constructor
    · intro h
      exact ⟨m0, hm0, h⟩
    · rintro ⟨m, hm, hx⟩
      rw [entries_unique_value _ hR.outer.keys w m0 m hm0 hm]
      exact hx
  · rw [FindValue_of_not_mem envW _ fuel w hR.outer hfuel hno]
    simp only [Res.ok_bind]
    constructor
    · intro h
      cases h
    · rintro ⟨m, hm, _⟩
      exact absurd hm (hno m)

theorem entryOf_ok (envW : Env W) (envN : Env N) (fuel B : Nat)
    (M : FVoxelWorldSubsystemManager W N O) (w : W) (n : N) (hR : RegOK envW envN B M)
    (hB : B < fuel) : ∃ o, entryOf envW envN fuel M w n = Res.ok o := by
  have hfuel : M.WorldToNameToSubsystem_RequiresLock.Elements.length < fuel :=
    lt_of_le_of_lt hR.outerSize hB
  unfold entryOf
  rcases mem_or_not_mem M.WorldToNameToSubsystem_RequiresLock w with ⟨m0, hm0⟩ | hno
  · rw [FindValue_of_mem envW _ fuel w m0 hR.outer hfuel hm0]
    exact FindValue_ok envN m0 fuel n (hR.inner w m0 hm0)
      (lt_of_le_of_lt (hR.innerSize w m0 hm0) hB)
  · rw [FindValue_of_not_mem envW _ fuel w hR.outer hfuel hno]
    exact ⟨none, rfl⟩

/-- Two well-formed registries that hold the same under a world and a name have the same
entry for them. -/
theorem entryOf_congr (envW : Env W) (envN : Env N) (fuel B1 B2 : Nat)
    (M1 M2 : FVoxelWorldSubsystemManager W N O) (w : W) (n : N)
    (hR1 : RegOK envW envN B1 M1) (hR2 : RegOK envW envN B2 M2) (hB1 : B1 < fuel)
    (hB2 : B2 < fuel)
    (h : ∀ x, (∃ m, (w, m) ∈ entries M1.WorldToNameToSubsystem_RequiresLock ∧
        (n, x) ∈ entries m) ↔
      ∃ m, (w, m) ∈ entries M2.WorldToNameToSubsystem_RequiresLock ∧ (n, x) ∈ entries m) :
    entryOf envW envN fuel M1 w n = entryOf envW envN fuel M2 w n := by
  obtain ⟨o1, h1⟩ := entryOf_ok envW envN fuel B1 M1 w n hR1 hB1
  obtain ⟨o2, h2⟩ := entryOf_ok envW envN fuel B2 M2 w n hR2 hB2
  have e1 := fun x => entryOf_eq_some_iff envW envN fuel B1 M1 w n x hR1 hB1
  have e2 := fun x => entryOf_eq_some_iff envW envN fuel B2 M2 w n x hR2 hB2
  rw [h1, h2]
  congr 1
  apply Option.ext
  intro x
  have := (e1 x).trans ((h x).trans (e2 x).symm)
  rw [h1, h2] at this
  simp only [Res.ok.injEq] at this
  simpa [eq_comm] using this

/-- What `GetInternal` does on a well-formed registry. -/
theorem GetInternal_spec (envW : Env W) (envN : Env N) (fuel B : Nat)
    (M : FVoxelWorldSubsystemManager W N O) (World : W) (Name : N)
    (Constructor : Unit → IVoxelWorldSubsystem W O) (hEW : EnvOK envW) (hEN : EnvOK envN)
    (hR : RegOK envW envN B M) (hB : B + 1 < fuel) :
    ∃ r, IVoxelWorldSubsystem.GetInternal envW envN fuel M World Name Constructor = Res.ok r ∧
      RegOK envW envN (B + 1) r.Manager ∧
      entryOf envW envN fuel r.Manager World Name = Res.ok (some (some r.Subsystem)) ∧
      (∀ w n, w ≠ World ∨ n ≠ Name →
        entryOf envW envN fuel r.Manager w n = entryOf envW envN fuel M w n) ∧
      (∀ s, entryOf envW envN fuel M World Name = Res.ok (some (some s)) →
        r.Subsystem = s ∧ r.constructed = false ∧ r.Manager = M) ∧
      ((¬ ∃ s, entryOf envW envN fuel M World Name = Res.ok (some (some s))) →
        r.constructed = true ∧
          r.Subsystem = { Constructor () with PrivateWorld := World }) := by
  obtain ⟨reg⟩ := M
  have hB0 : B < fuel := by omega
  have hfuelW : reg.Elements.length < fuel := lt_of_le_of_lt hR.outerSize hB0
  obtain ⟨reg1, i, eW, hrun1, hwf1, heW, hkW, hnum1, hpres1, habs1, hoth1, hsub1⟩ :=
    FindOrAdd_spec envW (empty : TVoxelMap N (Option (IVoxelWorldSubsystem W O))) reg fuel
      World hEW hR.outer hfuelW
  have hmemW : (World, eW.Value) ∈ entries reg1 :=
    (mem_entries_iff reg1 World eW.Value).mpr ⟨i, eW, heW, hkW, rfl⟩
  have hinner0 : (World, eW.Value) ∈ entries reg ∨ eW.Value = empty := by
    rcases hsub1 World eW.Value hmemW with h | h
    · exact Or.inl h
    · exact Or.inr h.2
  have hwfI : WF envN eW.Value := by
    rcases hinner0 with h | h
    · exact hR.inner World _ h
    · rw [h]
      exact WF_empty envN
  have hsizeI : Num eW.Value ≤ B := by
    rcases hinner0 with h | h
    · exact hR.innerSize World _ h
    · rw [h]
      exact Nat.zero_le _
  obtain ⟨inner2, j, eN, hrun2, hwf2, heN, hkN, hnum2, hpres2, habs2, hoth2, hsub2⟩ :=
    FindOrAdd_spec envN (none : Option (IVoxelWorldSubsystem W O)) eW.Value fuel Name hEN hwfI
      (by have : eW.Value.Elements.length = Num eW.Value := rfl
          omega)
  -- the registry after the outer `FindOrAdd` holds what the registry held
  have hE1 : ∀ w n x, (∃ m, (w, m) ∈ entries reg1 ∧ (n, x) ∈ entries m) ↔
      ∃ m, (w, m) ∈ entries reg ∧ (n, x) ∈ entries m := by
    intro w n x
    constructor
    · rintro ⟨m, hm, hx⟩
      rcases hsub1 w m hm with h | h
      · exact ⟨m, h, hx⟩
      · rw [h.2] at hx
        simp [entries, empty] at hx
    · rintro ⟨m, hm, hx⟩
      by_cases hw : w = World
      · subst hw
        rw [(hpres1 m hm).1]
        exact ⟨m, hm, hx⟩
      · exact ⟨m, (hoth1 w m hw).mpr hm, hx⟩
  have hRold : RegOK envW envN B
      ({ WorldToNameToSubsystem_RequiresLock := reg } : FVoxelWorldSubsystemManager W N O) := hR
  have hentry : ∀ s, entryOf envW envN fuel { WorldToNameToSubsystem_RequiresLock := reg }
      World Name = Res.ok (some (some s)) → (Name, some s) ∈ entries eW.Value := by
    intro s hs
    obtain ⟨m, hm, hx⟩ := (entryOf_eq_some_iff envW envN fuel B _ World Name (some s)
      hRold hB0).mp hs
    rw [← (hpres1 m hm).2] at hx
    exact hx
  cases hv : eN.Value with
  | some s =>
    have hpresN : (Name, some s) ∈ entries eW.Value := by
      rcases mem_or_not_mem eW.Value Name with ⟨v, hv2⟩ | hno
      · have := (hpres2 v hv2).2
        rw [hv] at this
        rw [this]
        exact hv2
      · have := habs2 hno
        rw [hv] at this
        cases this
    have hin2 : inner2 = eW.Value := (hpres2 _ hpresN).1
    have hpresW : (World, eW.Value) ∈ entries reg := by
      rcases hinner0 with h | h
      · exact h
      · rw [h] at hpresN
        simp [entries, empty] at hpresN
    have hreg1 : reg1 = reg := (hpres1 _ hpresW).1
    obtain ⟨Map, hassign, _, _, _, _, _, hsame⟩ := assign_spec envW reg1 i eW inner2 hwf1 heW
    have hMap : Map = reg := by rw [hsame hin2, hreg1]
    subst hMap
    have hentryNew : entryOf envW envN fuel { WorldToNameToSubsystem_RequiresLock := Map }
        World Name = Res.ok (some (some s)) :=
      (entryOf_eq_some_iff envW envN fuel B _ World Name (some s) hRold hB0).mpr
        ⟨eW.Value, hpresW, hpresN⟩
    refine ⟨⟨⟨Map⟩, s, false⟩, ?_, hRold.widen (Nat.le_succ _), hentryNew, fun _ _ _ => rfl,
      ?_, ?_⟩
    · simp only [IVoxelWorldSubsystem.GetInternal, hrun1, Res.ok_bind, elemAt_nat _ _ eW heW,
        hrun2, elemAt_nat _ _ eN heN, hv, hassign]
    · intro s2 hs2
      rw [hentryNew] at hs2
      cases hs2
      exact ⟨rfl, rfl, rfl⟩
    · intro hno
      exact absurd ⟨s, hentryNew⟩ hno
  | none =>
    obtain ⟨inner3, hassign3, hwf3, hnum3, hmem3, hoth3, hsub3, _⟩ :=
      assign_spec envN inner2 j eN
        (some { Constructor () with PrivateWorld := World }) hwf2 heN
    obtain ⟨Map, hassignM, hwfM, hnumM, hmemM, hothM, hsubM, _⟩ :=
      assign_spec envW reg1 i eW inner3 hwf1 heW
    rw [hkN] at hmem3 hoth3 hsub3
    rw [hkW] at hmemM hothM hsubM
    have hRnew : RegOK envW envN (B + 1)
        ({ WorldToNameToSubsystem_RequiresLock := Map } : FVoxelWorldSubsystemManager W N O) := by
      refine ⟨hwfM, ?_, ?_, ?_⟩
      · intro w m hm
        rcases hsubM w m hm with h | h
        · rcases hsub1 w m h with h2 | h2
          · exact hR.inner w m h2
          · rw [h2.2]
            exact WF_empty envN
        · rw [h.2]
          exact hwf3
      · show Num Map ≤ B + 1
        have := hR.outerSize
        have h0 : Num reg ≤ B := this
        omega
      · intro w m hm
        rcases hsubM w m hm with h | h
        · rcases hsub1 w m h with h2 | h2
          · exact le_trans (hR.innerSize w m h2) (Nat.le_succ _)
          · rw [h2.2]
            exact Nat.zero_le _
        · rw [h.2]
          omega
    have hnoentry : ¬ ∃ s, entryOf envW envN fuel
        { WorldToNameToSubsystem_RequiresLock := reg } World Name = Res.ok (some (some s)) := by
      rintro ⟨s, hs⟩
      have := (hpres2 _ (hentry s hs)).2
      rw [hv] at this
      cases this
    refine ⟨⟨⟨Map⟩, { Constructor () with PrivateWorld := World }, true⟩,
      ?_, hRnew, ?_, ?_, ?_, fun _ => ⟨rfl, rfl⟩⟩
    · simp only [IVoxelWorldSubsystem.GetInternal, hrun1, Res.ok_bind, elemAt_nat _ _ eW heW,
        hrun2, elemAt_nat _ _ eN heN, hv, hassign3, hassignM]
    · exact (entryOf_eq_some_iff envW envN fuel (B + 1) _ World Name _ hRnew hB).mpr
        ⟨inner3, hmemM, hmem3⟩
    · intro w n hwn
      refine entryOf_congr envW envN fuel (B + 1) B _ _ w n hRnew hRold hB hB0 ?_
      intro x
      rw [← hE1 w n x]
      by_cases hw : w = World
      · subst hw
        have hn : n ≠ Name := by
          rcases hwn with h | h
          · exact absurd rfl h
          · exact h
        constructor
        · rintro ⟨m, hm, hx⟩
          have hm3 : m = inner3 := entries_unique_value Map hwfM.keys w m inner3 hm hmemM
          rw [hm3] at hx
          exact ⟨eW.Value, hmemW, (hoth2 n x hn).mp ((hoth3 n x hn).mp hx)⟩
        · rintro ⟨m, hm, hx⟩
          have hm0 : m = eW.Value := entries_unique_value reg1 hwf1.keys w m _ hm hmemW
          rw [hm0] at hx
          exact ⟨inner3, hmemM, (hoth3 n x hn).mpr ((hoth2 n x hn).mpr hx)⟩
      · constructor
        · rintro ⟨m, hm, hx⟩
          exact ⟨m, (hothM w m hw).mp hm, hx⟩
        · rintro ⟨m, hm, hx⟩
          exact ⟨m, (hothM w m hw).mpr hm, hx⟩
    · intro s hs
      exact absurd ⟨s, hs⟩ hnoentry

end RegistryLemmas

theorem sampleNames_wf : WF sampleEnv sampleNames := by
  obtain ⟨m2, hall, _, hwf⟩ := addAll_spec sampleEnv 10 sampleEnv_ok
    [(0, some (⟨1, 7⟩ : IVoxelWorldSubsystem Nat Nat)), (1, none)]
    (empty : TVoxelMap Nat (Option (IVoxelWorldSubsystem Nat Nat))) (WF_empty sampleEnv)
    (by decide) (by decide) (by intro k v _ v0 h; simp [entries, empty] at h)
  have heq : addAll sampleEnv 10 [(0, some (⟨1, 7⟩ : IVoxelWorldSubsystem Nat Nat)), (1, none)]
      (empty : TVoxelMap Nat (Option (IVoxelWorldSubsystem Nat Nat))) = Res.ok sampleNames := by
    decide
  rw [heq] at hall
  cases hall
  exact hwf

theorem sampleManager_ok : RegOK sampleEnv sampleEnv 2 sampleManager := by
  have hent : entries sampleManager.WorldToNameToSubsystem_RequiresLock = [(1, sampleNames)] :=
    rfl
  refine ⟨?_, ?_, by decide, ?_⟩
  · obtain ⟨m2, hall, _, hwf⟩ := addAll_spec sampleEnv 10 sampleEnv_ok
      [(1, sampleNames)]
      (empty : TVoxelMap Nat (TVoxelMap Nat (Option (IVoxelWorldSubsystem Nat Nat))))
      (WF_empty sampleEnv) (by decide) (by decide)
      (by intro k v _ v0 h; simp [entries, empty] at h)
    have heq : addAll sampleEnv 10 [(1, sampleNames)]
        (empty : TVoxelMap Nat (TVoxelMap Nat (Option (IVoxelWorldSubsystem Nat Nat)))) =
        Res.ok sampleManager.WorldToNameToSubsystem_RequiresLock := by
      decide
    rw [heq] at hall
    cases hall
    exact hwf
  · intro w m hm
    rw [hent] at hm
    simp only [List.mem_singleton, Prod.mk.injEq] at hm
    rw [hm.2]
    exact sampleNames_wf
  · intro w m hm
    rw [hent] at hm
    simp only [List.mem_singleton, Prod.mk.injEq] at hm
    rw [hm.2]
    decide

/-! ## Claims about the registry -/

section RegistryClaims

variable {W N O : Type} [DecidableEq W] [DecidableEq N]

/-- C37: on a well-formed registry `GetInternal(World, Name, Constructor)` returns; the
constructor is called exactly when the registry holds no subsystem for the pair, and
otherwise the subsystem held is returned and the registry is left as it was; what the
constructor returned, with `PrivateWorld` set to the world, is stored under the pair, so the
entry of the pair is the subsystem returned; the entries of all other pairs are what they
were; and a second call for the same world and name, with any constructor, returns the same
subsystem, calls no constructor and leaves the registry as the first call left it. -/
theorem C37_get_internal_constructs_once (envW : Env W) (envN : Env N) (fuel B : Nat)
    (M : FVoxelWorldSubsystemManager W N O) (World : W) (Name : N)
    (Constructor Constructor2 : Unit → IVoxelWorldSubsystem W O) (hEW : EnvOK envW)
    (hEN : EnvOK envN) (hR : RegOK envW envN B M) (hB : B + 2 < fuel) :
    ∃ r, IVoxelWorldSubsystem.GetInternal envW envN fuel M World Name Constructor = Res.ok r ∧
      (r.constructed = true ↔
        ¬ ∃ s, entryOf envW envN fuel M World Name = Res.ok (some (some s))) ∧
      (∀ s, entryOf envW envN fuel M World Name = Res.ok (some (some s)) →
        r.Subsystem = s ∧ r.Manager = M) ∧
      (r.constructed = true → r.Subsystem = { Constructor () with PrivateWorld := World }) ∧
      entryOf envW envN fuel r.Manager World Name = Res.ok (some (some r.Subsystem)) ∧
      (∀ w n, w ≠ World ∨ n ≠ Name →
        entryOf envW envN fuel r.Manager w n = entryOf envW envN fuel M w n) ∧
      IVoxelWorldSubsystem.GetInternal envW envN fuel r.Manager World Name Constructor2 =
        Res.ok { Manager := r.Manager, Subsystem := r.Subsystem, constructed := false } ∧
      RegOK envW envN (B + 1) r.Manager := by
  obtain ⟨r, hrun, hR1, hstored, hother, hfound, hnew⟩ :=
    GetInternal_spec envW envN fuel B M World Name Constructor hEW hEN hR (by omega)
  obtain ⟨r2, hrun2, _, _, _, hfound2, _⟩ :=
    GetInternal_spec envW envN fuel (B + 1) r.Manager World Name Constructor2 hEW hEN hR1 hB
  obtain ⟨h21, h22, h23⟩ := hfound2 r.Subsystem hstored
  refine ⟨r, hrun, ?_, ?_, ?_, hstored, hother, ?_, hR1⟩
  · constructor
    · rintro hc ⟨s, hs⟩
      rw [(hfound s hs).2.1] at hc
      cases hc
    · intro hno
      exact (hnew hno).1
  · intro s hs
    exact ⟨(hfound s hs).1, (hfound s hs).2.2⟩
  · intro hc
    by_cases hex : ∃ s, entryOf envW envN fuel M World Name = Res.ok (some (some s))
    · obtain ⟨s, hs⟩ := hex
      rw [(hfound s hs).2.1] at hc
      cases hc
    · exact (hnew hex).2
  · rw [hrun2]
    obtain ⟨M2, S2, c2⟩ := r2
    simp only at h21 h22 h23
    rw [h21, h22, h23]

end RegistryClaims

/-- Instance of C37: the sample registry holds a null pointer for world `1` and name `1`. -/
theorem C37_witness :
    EnvOK sampleEnv ∧ RegOK sampleEnv sampleEnv 2 sampleManager ∧
    ∃ r, IVoxelWorldSubsystem.GetInternal sampleEnv sampleEnv 10 sampleManager 1 1
        (fun _ => ⟨0, 9⟩) = Res.ok r ∧
      (r.constructed = true ↔
        ¬ ∃ s, entryOf sampleEnv sampleEnv 10 sampleManager 1 1 = Res.ok (some (some s))) ∧
      (∀ s, entryOf sampleEnv sampleEnv 10 sampleManager 1 1 = Res.ok (some (some s)) →
        r.Subsystem = s ∧ r.Manager = sampleManager) ∧
      (r.constructed = true →
        r.Subsystem = { (fun _ => (⟨0, 9⟩ : IVoxelWorldSubsystem Nat Nat)) () with
          PrivateWorld := 1 }) ∧
      entryOf sampleEnv sampleEnv 10 r.Manager 1 1 = Res.ok (some (some r.Subsystem)) ∧
      (∀ w n, w ≠ 1 ∨ n ≠ 1 →
        entryOf sampleEnv sampleEnv 10 r.Manager w n =
          entryOf sampleEnv sampleEnv 10 sampleManager w n) ∧
      IVoxelWorldSubsystem.GetInternal sampleEnv sampleEnv 10 r.Manager 1 1
          (fun _ => ⟨0, 5⟩) =
        Res.ok { Manager := r.Manager, Subsystem := r.Subsystem, constructed := false } ∧
      RegOK sampleEnv sampleEnv (2 + 1) r.Manager :=
  ⟨sampleEnv_ok, sampleManager_ok,
    C37_get_internal_constructs_once sampleEnv sampleEnv 10 2 sampleManager 1 1
      (fun _ => ⟨0, 9⟩) (fun _ => ⟨0, 5⟩) sampleEnv_ok sampleEnv_ok sampleManager_ok
      (by decide)⟩

end VoxelWorldSubsystem
